import Mathlib

/-!
AutoDiff: computation graph, topological view and differentiation driver.

A shallow embedding of the core of `krippner/auto-diff`:

* `internal/Path.hpp`      : `Path` (depth-first stack with on-path set)
* `internal/TopoView.hpp`  : `TopoView`, `TopoView::Iterator`
* `internal/range_algorithm.hpp` : `for_each_in_range`
* `internal/Computation.hpp`, `Core/Variable.hpp`, `Basic/ops/Sum.hpp`,
  `Basic/ops/Product.hpp` : integer computations (`tests/helper/int.hpp`)
* `Core/Function.hpp`      : `Function`
* `internal/Node.hpp`      : `Node` (ownership, iterative teardown, `releaseChildren`)
* `Core/Variable.hpp`      : `Variable`, `Variable::Reference`
* `tests/internal/helper/MockJacobian.hpp` : the mock types `Point`, `Jacobian`

Nodes are identified by natural numbers (the address of the node).  A
`std::unordered_set` is a list without a prescribed order: the order of the
list is the order in which the set happens to be iterated.
-/

namespace AutoDiff

/-! ## Graph: `Node::children()` -/

/-- The child sets of all nodes: entry `n` lists `Node::children()` of node `n`
in iteration order; a node beyond the end of the list has no children. -/
abbrev Graph := List (List Nat)

/-- `Node::children()`. -/
def Graph.children (g : Graph) (n : Nat) : List Nat := g.getD n []

/-- An owning edge of the graph: `c` is a child of `n`. -/
def Graph.edge (g : Graph) (n c : Nat) : Prop := c ∈ g.children n

/-- No node reaches itself along one or more edges. -/
def Graph.Acyclic (g : Graph) : Prop := ∀ n, ¬ Relation.TransGen g.edge n n

/-- Number of edges of the graph. -/
def Graph.edgeCount (g : Graph) : Nat := (g.map List.length).sum

/-! ## `Path` (internal/Path.hpp) -/

/-- `Path::Element`: a node and the iterator into its child set, kept as the
children that `next()` has not returned yet. -/
structure Element where
  node : Nat
  childIter : List Nat
deriving DecidableEq, Repr

/-- `Path`: `mStack` (top of the stack first) and `mSet` (nodes on the path). -/
structure Path where
  mStack : List Element
  mSet : List Nat
deriving DecidableEq, Repr

/-- The empty path (`Path mPath{}`). -/
def Path.empty : Path := ⟨[], []⟩

/-- `Path::tryAdd`: `none` stands for the thrown `CyclicGraphError`. -/
def Path.tryAdd (g : Graph) (p : Path) (node : Nat) : Option Path :=
  if node ∈ p.mSet then none
  else some ⟨⟨node, g.children node⟩ :: p.mStack, node :: p.mSet⟩

/-- `Path::isEmpty`. -/
def Path.isEmpty (p : Path) : Bool := p.mStack.isEmpty

/-- `Path::size`. -/
def Path.size (p : Path) : Nat := p.mStack.length

/-- `Path::head` (undefined behaviour on an empty path: node 0 here). -/
def Path.head (p : Path) : Nat :=
  match p.mStack with
  | [] => 0
  | e :: _ => e.node

/-- `Path::removeHead`. -/
def Path.removeHead (p : Path) : Path :=
  ⟨p.mStack.tail, p.mSet.erase p.head⟩

/-- `Path::next`: the next child of the head and the path with the head's
child iterator advanced, or `none` when the iterator is at the end. -/
def Path.next (p : Path) : Option Nat × Path :=
  match p.mStack with
  | [] => (none, p)
  | e :: rest =>
    match e.childIter with
    | [] => (none, p)
    | c :: cs => (some c, ⟨⟨e.node, cs⟩ :: rest, p.mSet⟩)

/-! ## `TopoView` (internal/TopoView.hpp) -/

/-- `TopoView::NodeInfo`. -/
structure NodeInfo where
  node : Nat
  isLeaf : Bool
  isRoot : Bool
deriving DecidableEq, Repr

/-- `TopoView`: the root set and the set of specified leaves. -/
structure TopoView where
  mRoots : List Nat
  mSpecifiedLeaves : List Nat
deriving DecidableEq, Repr

/-- `TopoView::Iterator`.  `mRootsIterator` holds the roots not yet taken;
`mCurrentValue = none` is the default `NodeInfo{}` with a null node. -/
structure Iterator where
  mRootsIterator : List Nat
  mPath : Path
  mVisited : List Nat
  mCurrentValue : Option NodeInfo
deriving DecidableEq, Repr

/-- Result of a piece of code that may throw `CyclicGraphError`.  `timeout`
has no counterpart in the code: it is returned when the step budget of the
embedding is used up. -/
inductive Outcome (α : Type) where
  | done (a : α)
  | thrown
  | timeout
deriving DecidableEq, Repr

/-- `Iterator::notYetVisited`. -/
def Iterator.notYetVisited (it : Iterator) (node : Nat) : Bool :=
  !(it.mVisited.contains node)

/-- `Iterator::isSpecifiedLeaf`. -/
def TopoView.isSpecifiedLeaf (v : TopoView) (node : Nat) : Bool :=
  v.mSpecifiedLeaves.contains node

/-- First loop of `findNextValue`: while the path is empty take the next
root.  The flag tells that the function returned from inside the loop (the
root is a specified leaf and is the current value). -/
def Iterator.addRoot (g : Graph) (v : TopoView) :
    List Nat → Iterator → Outcome (Iterator × Bool)
  | [], it => .done ({ it with mRootsIterator := [] }, false)
  | root :: rest, it =>
    if it.mPath.isEmpty then
      if it.notYetVisited root then
        match it.mPath.tryAdd g root with
        | none => .thrown
        | some p =>
          if v.isSpecifiedLeaf root then
            .done ({ it with mRootsIterator := rest, mPath := p,
                             mCurrentValue := some ⟨root, true, true⟩ }, true)
          else Iterator.addRoot g v rest { it with mPath := p }
      else Iterator.addRoot g v rest it
    else .done ({ it with mRootsIterator := root :: rest }, false)

/-- Second loop of `findNextValue` (`while (true)`): extend the path until a
node can be yielded. -/
def Iterator.extend (g : Graph) (v : TopoView) : Nat → Iterator → Outcome Iterator
  | 0, _ => .timeout
  | fuel + 1, it =>
    match it.mPath.next with
    | (some candidate, p) =>
      if it.notYetVisited candidate then
        match p.tryAdd g candidate with
        | none => .thrown
        | some p' =>
          if v.isSpecifiedLeaf candidate then
            .done { it with mPath := p',
                            mCurrentValue := some ⟨candidate, true, p'.size == 1⟩ }
          else Iterator.extend g v fuel { it with mPath := p' }
      else Iterator.extend g v fuel { it with mPath := p }
    | (none, _) =>
      let isLeaf := (g.children it.mPath.head).isEmpty
      let isRoot := it.mPath.size == 1
      .done { it with mCurrentValue := some ⟨it.mPath.head, isLeaf, isRoot⟩ }

/-- `Iterator::findNextValue`. -/
def Iterator.findNextValue (g : Graph) (v : TopoView) (fuel : Nat) (it : Iterator) :
    Outcome Iterator :=
  match Iterator.addRoot g v it.mRootsIterator it with
  | .thrown => .thrown
  | .timeout => .timeout
  | .done (it1, true) => .done it1
  | .done (it1, false) =>
    if it1.mPath.isEmpty then .done { it1 with mCurrentValue := none }
    else Iterator.extend g v fuel it1

/-- `Iterator::Iterator(TopoView const*)`, i.e. `TopoView::begin()`. -/
def TopoView.begin (g : Graph) (v : TopoView) (fuel : Nat) : Outcome Iterator :=
  Iterator.findNextValue g v fuel ⟨v.mRoots, Path.empty, [], none⟩

/-- `Iterator::operator++`. -/
def Iterator.increment (g : Graph) (v : TopoView) (fuel : Nat) (it : Iterator) :
    Outcome Iterator :=
  Iterator.findNextValue g v fuel
    { it with mVisited := it.mVisited.insert it.mPath.head, mPath := it.mPath.removeHead }

/-- Final state of a loop over a view: what the callback has built and how the
loop ended. -/
structure Run (σ : Type) where
  state : σ
  status : Outcome Unit

/-- The loop of `std::for_each(first, end, f)`: `it != end` compares the sizes
of the paths, and the end iterator has an empty path. -/
def forEachLoop {σ : Type} (g : Graph) (v : TopoView) (f : σ → NodeInfo → σ)
    (fuel : Nat) : Nat → Iterator → σ → Run σ
  | 0, _, acc => ⟨acc, .timeout⟩
  | k + 1, it, acc =>
    if it.mPath.size != 0 then
      match it.mCurrentValue with
      | none => ⟨acc, .done ()⟩
      | some cur =>
        let acc1 := f acc cur
        match it.increment g v fuel with
        | .done it1 => forEachLoop g v f fuel k it1 acc1
        | .thrown => ⟨acc1, .thrown⟩
        | .timeout => ⟨acc1, .timeout⟩
    else ⟨acc, .done ()⟩

/-- `for_each_in_range(TopoView(roots, leaves), f)`. -/
def TopoView.forEach {σ : Type} (g : Graph) (v : TopoView) (fuel : Nat)
    (f : σ → NodeInfo → σ) (init : σ) : Run σ :=
  match v.begin g fuel with
  | .done it => forEachLoop g v f fuel fuel it init
  | .thrown => ⟨init, .thrown⟩
  | .timeout => ⟨init, .timeout⟩

/-- The records yielded by iterating the view, in order, with the way the
iteration ended. -/
def TopoView.yields (g : Graph) (v : TopoView) (fuel : Nat) : Run (List NodeInfo) :=
  v.forEach g fuel (fun acc x => acc ++ [x]) []

/-- Step budget that suffices for every iteration over `g` from `roots`. -/
def Graph.budget (g : Graph) (roots : List Nat) : Nat :=
  2 * roots.length + g.length + 2 * g.edgeCount + 1


/-! ## `Shape`, `MapDescription` (internal/Shape.hpp) -/

/-- `StaticVector<std::size_t, 8>`: the storage of eight entries and the size. -/
structure Shape where
  mStorage : List Nat
  mSize : Nat
deriving DecidableEq, Repr

/-- `StaticVector(std::initializer_list<T>)`: copy the list into zeroed storage. -/
def Shape.ofList (l : List Nat) : Shape :=
  ⟨(l ++ List.replicate 8 0).take 8, l.length⟩

instance : Inhabited Shape := ⟨Shape.ofList []⟩

/-- `MapDescription::State`. -/
inductive MapState where
  | evaluated
  | zero
  | identity
deriving DecidableEq, Repr

/-- `MapDescription`. -/
structure MapDescription where
  state : MapState
  domainShape : Shape
  codomainShape : Shape
deriving DecidableEq, Repr

instance : Inhabited MapDescription := ⟨⟨.evaluated, default, default⟩⟩

/-! ## `TypeImpl<int>` (tests/helper/int.hpp)

Values and derivatives are integers.  Signed overflow of `int` is undefined
behaviour in the code; the embedding computes in `Int`. -/

/-- `TypeImpl<int>::getShape`. -/
def getShape (_value : Int) : Shape := Shape.ofList [1]

/-- `TypeImpl<int>::codomainShape`. -/
def codomainShape (_derivative : Int) : Shape := Shape.ofList [1]

/-- `TypeImpl<int>::generate`. -/
def generate (derivative : Int) (descr : MapDescription) : Int :=
  match descr.state with
  | .zero => 0
  | .identity => 1
  | .evaluated => derivative

/-! ## Expressions (Core/Expression.hpp, Core/BinaryOperation.hpp, Basic/ops) -/

/-- Expression templates over integer variables built from `Basic::Sum` and
`Basic::Product`; an operand is an expression or a literal. -/
inductive Expr where
  | var (n : Nat)
  | sum (x y : Expr)
  | sumLitX (x : Int) (y : Expr)
  | sumLitY (x : Expr) (y : Int)
  | product (x y : Expr)
  | productLitX (x : Int) (y : Expr)
  | productLitY (x : Expr) (y : Int)
deriving DecidableEq, Repr

/-- The variables bound in an expression, in the order in which
`_transferChildrenTo` meets them. -/
def Expr.operands : Expr → List Nat
  | .var n => [n]
  | .sum x y => x.operands ++ y.operands
  | .sumLitX _ y => y.operands
  | .sumLitY x _ => x.operands
  | .product x y => x.operands ++ y.operands
  | .productLitX _ y => y.operands
  | .productLitY x _ => x.operands

/-! ## `Computation<int, int>` (internal/Computation.hpp) -/

/-- The data members of `Computation<int, int>`; the child set of the `Node`
base class is kept in the `Graph`. -/
structure Computation where
  mValue : Int
  mDerivative : Int
  mDerivativeDescr : MapDescription
  mEvaluator : Option Expr
deriving DecidableEq, Repr

instance : Inhabited Computation := ⟨⟨0, 0, default, none⟩⟩

/-- The computations of all nodes. -/
abbrev Store := Nat → Computation

/-- `Computation::value`. -/
def Computation.value (c : Computation) : Int := c.mValue

/-- `Computation::derivative`: the derivative, and the computation after the
lazy generation. -/
def Computation.derivative (c : Computation) : Int × Computation :=
  if c.mDerivativeDescr.state ≠ .evaluated then
    let d := generate c.mDerivative c.mDerivativeDescr
    (d, { c with mDerivative := d,
                 mDerivativeDescr := { c.mDerivativeDescr with state := .evaluated } })
  else (c.mDerivative, c)

/-- `Computation::setDerivative`. -/
def Computation.setDerivative (c : Computation) (derivative : Int) : Computation :=
  { c with mDerivative := derivative,
           mDerivativeDescr := { c.mDerivativeDescr with state := .evaluated } }

/-- `Computation::addGradient`. -/
def Computation.addGradient (c : Computation) (gradient : Int) : Computation :=
  if c.mDerivativeDescr.state = .zero then
    { c with mDerivative := gradient,
             mDerivativeDescr := { c.mDerivativeDescr with state := .evaluated } }
  else { c with mDerivative := c.mDerivative + gradient }

/-- `Computation::setTangentZero`. -/
def Computation.setTangentZero (c : Computation) (domainShape : Shape) : Computation :=
  { c with mDerivativeDescr := ⟨.zero, domainShape, getShape c.mValue⟩ }

/-- `Computation::setGradientZero`. -/
def Computation.setGradientZero (c : Computation) (codomainShape : Shape) : Computation :=
  { c with mDerivativeDescr := ⟨.zero, getShape c.mValue, codomainShape⟩ }

/-- `Computation::setDerivativeIdentity`. -/
def Computation.setDerivativeIdentity (c : Computation) : Computation :=
  { c with mDerivativeDescr := ⟨.identity, getShape c.mValue, getShape c.mValue⟩ }

/-- `Computation::valueShape`. -/
def Computation.valueShape (c : Computation) : Shape := getShape c.mValue

/-- `Computation::derivativeCodomainShape`. -/
def Computation.derivativeCodomainShape (c : Computation) : Shape :=
  codomainShape c.mDerivative

/-- `Expression::_value` : `Variable::_valueImpl`, `Sum::_valueImpl`,
`Product::_valueImpl`. -/
def Expr.value (σ : Store) : Expr → Int
  | .var n => (σ n).value
  | .sum x y => x.value σ + y.value σ
  | .sumLitX x y => x + y.value σ
  | .sumLitY x y => x.value σ + y
  | .product x y => x.value σ * y.value σ
  | .productLitX x y => x * y.value σ
  | .productLitY x y => x.value σ * y

/-- `Expression::_pushForward`: reading the derivative of a variable may
generate it, so the store is returned with the result. -/
def Expr.pushForward : Expr → Store → Int × Store
  | .var n, σ => ((σ n).derivative.1, Function.update σ n (σ n).derivative.2)
  | .sum x y, σ =>
    let rx := x.pushForward σ
    let ry := y.pushForward rx.2
    (rx.1 + ry.1, ry.2)
  | .sumLitX _ y, σ => y.pushForward σ
  | .sumLitY x _, σ => x.pushForward σ
  | .product x y, σ =>
    let rx := x.pushForward σ
    let ry := y.pushForward rx.2
    (y.value σ * rx.1 + x.value σ * ry.1, ry.2)
  | .productLitX x y, σ =>
    let ry := y.pushForward σ
    (x * ry.1, ry.2)
  | .productLitY x y, σ =>
    let rx := x.pushForward σ
    (y * rx.1, rx.2)

/-- `Expression::_pullBack`: `Variable::_pullBackImpl` adds the gradient to the
computation of the variable. -/
def Expr.pullBack : Expr → Int → Store → Store
  | .var n, gradient, σ => Function.update σ n ((σ n).addGradient gradient)
  | .sum x y, derivative, σ => y.pullBack derivative (x.pullBack derivative σ)
  | .sumLitX _ y, derivative, σ => y.pullBack derivative σ
  | .sumLitY x _, derivative, σ => x.pullBack derivative σ
  | .product x y, derivative, σ =>
    let σ1 := x.pullBack (derivative * y.value σ) σ
    y.pullBack (derivative * x.value σ1) σ1
  | .productLitX x y, derivative, σ => y.pullBack (derivative * x) σ
  | .productLitY x y, derivative, σ => x.pullBack (derivative * y) σ

/-- `Computation::evaluate` on node `n`.  On a literal the assertion
`LITERALS CANNOT BE EVALUATED` fails; the store is then left as it is. -/
def Computation.evaluate (σ : Store) (n : Nat) : Store :=
  match (σ n).mEvaluator with
  | none => σ
  | some e => Function.update σ n { σ n with mValue := e.value σ }

/-- `Computation::pushTangent` on node `n` (no effect when the assertion fails). -/
def Computation.pushTangent (σ : Store) (n : Nat) : Store :=
  match (σ n).mEvaluator with
  | none => σ
  | some e =>
    let r := e.pushForward σ
    Function.update r.2 n
      { r.2 n with mDerivative := r.1,
                   mDerivativeDescr := { (r.2 n).mDerivativeDescr with state := .evaluated } }

/-- `Computation::pullGradient` on node `n` (no effect when the assertion fails). -/
def Computation.pullGradient (σ : Store) (n : Nat) : Store :=
  match (σ n).mEvaluator with
  | none => σ
  | some e =>
    let d := (σ n).derivative
    e.pullBack d.1 (Function.update σ n d.2)

/-- The free function `d(variable)`: read the derivative of node `n`. -/
def d (σ : Store) (n : Nat) : Int := (σ n).derivative.1

/-! ## `Function` (Core/Function.hpp) -/

/-- The exceptions of `Function`. -/
inductive FunctionError where
  | EmptyFunctionError
  | CyclicDependencyError
  | SeedError
deriving DecidableEq, Repr

/-- How a member function of `Function` ended; `timeout` is the exhausted step
budget of the embedding. -/
inductive Status where
  | ok
  | raised (e : FunctionError)
  | timeout
deriving DecidableEq, Repr

/-- The data members of `Function`. -/
structure Function where
  mSpecifiedSources : List Nat
  mSpecifiedTargets : List Nat
  mReferenceTarget : Nat
  mSources : List Nat
  mTargets : List Nat
  mPureSources : List Nat
  mPureTargets : List Nat
  mSequence : List Nat
deriving DecidableEq, Repr

/-- `std::unordered_set::insert`. -/
def setInsert (s : List Nat) (x : Nat) : List Nat :=
  if x ∈ s then s else s ++ [x]

/-- `Function::setReferenceTarget`, at the end of every constructor. -/
def Function.setReferenceTarget (sources targets : List Nat) :
    Except FunctionError Function :=
  match targets with
  | [] => .error .EmptyFunctionError
  | t :: _ => .ok ⟨sources, targets, t, [], [], [], [], []⟩

/-- `Function::Function(AbstractVariable const& target)`. -/
def Function.ofTarget (target : Nat) : Except FunctionError Function :=
  Function.setReferenceTarget [] (setInsert [] target)

/-- `Function::Function(Targets targets)`. -/
def Function.ofTargets (targets : List Nat) : Except FunctionError Function :=
  Function.setReferenceTarget [] targets

/-- `Function::Function(Sources sources, Targets targets)`. -/
def Function.ofSourcesTargets (sources targets : List Nat) : Except FunctionError Function :=
  Function.setReferenceTarget sources targets

/-- The five `clear()` calls of `Function::compile`. -/
def Function.clear (f : Function) : Function :=
  { f with mTargets := [], mSources := [], mPureTargets := [], mPureSources := [],
           mSequence := [] }

/-- The callback of `Function::compile`. -/
def Function.classify (f : Function) (current : NodeInfo) : Function :=
  if current.isLeaf then
    if current.isRoot then
      { f with mSources := setInsert f.mSources current.node,
               mTargets := setInsert f.mTargets current.node }
    else
      { f with mSources := setInsert f.mSources current.node,
               mPureSources := setInsert f.mPureSources current.node }
  else if current.isRoot then
    { f with mTargets := setInsert f.mTargets current.node,
             mPureTargets := setInsert f.mPureTargets current.node }
  else
    { f with mSequence := f.mSequence ++ [current.node] }

/-- The view `TopoView(mSpecifiedTargets, mSpecifiedSources)` of a function. -/
def Function.view (f : Function) : TopoView := ⟨f.mSpecifiedTargets, f.mSpecifiedSources⟩

/-- `Function::compile`. -/
def Function.compile (g : Graph) (fuel : Nat) (f : Function) : Status × Function :=
  let run := f.view.forEach g fuel Function.classify f.clear
  match run.status with
  | .done _ => (.ok, run.state)
  | .thrown => (.raised .CyclicDependencyError, run.state.clear)
  | .timeout => (.timeout, run.state)

/-- `Function::compiled`. -/
def Function.compiled (f : Function) : Bool := !f.mSources.isEmpty

/-- `Function::compileIfNecessary`. -/
def Function.compileIfNecessary (g : Graph) (fuel : Nat) (f : Function) : Status × Function :=
  if !f.compiled then f.compile g fuel else (.ok, f)

/-- What a member function of `Function` leaves behind. -/
structure Result where
  status : Status
  fn : Function
  store : Store

/-- `Function::evaluate`. -/
def Function.evaluate (g : Graph) (fuel : Nat) (f : Function) (σ : Store) : Result :=
  match f.compileIfNecessary g fuel with
  | (.ok, f1) =>
    ⟨.ok, f1, f1.mPureTargets.foldl Computation.evaluate
      (f1.mSequence.foldl Computation.evaluate σ)⟩
  | (st, f1) => ⟨st, f1, σ⟩

/-- `Function::pushTangent`. -/
def Function.pushTangent (g : Graph) (fuel : Nat) (f : Function) (σ : Store) : Result :=
  match f.compileIfNecessary g fuel with
  | (.ok, f1) =>
    ⟨.ok, f1, f1.mPureTargets.foldl Computation.pushTangent
      (f1.mSequence.foldl Computation.pushTangent σ)⟩
  | (st, f1) => ⟨st, f1, σ⟩

/-- `Function::pushTangentAt`. -/
def Function.pushTangentAt (g : Graph) (fuel : Nat) (f : Function) (seed : Nat) (σ : Store) :
    Result :=
  match f.compileIfNecessary g fuel with
  | (.ok, f1) =>
    if seed ∉ f1.mSources then ⟨.raised .SeedError, f1, σ⟩
    else
      let seedShape := (σ seed).valueShape
      let σ1 := f1.mSources.foldl
        (fun s n => Function.update s n ((s n).setTangentZero seedShape)) σ
      let σ2 := Function.update σ1 seed (σ1 seed).setDerivativeIdentity
      f1.pushTangent g fuel σ2
  | (st, f1) => ⟨st, f1, σ⟩

/-- `Function::pullGradient`. -/
def Function.pullGradient (g : Graph) (fuel : Nat) (f : Function) (σ : Store) : Result :=
  match f.compileIfNecessary g fuel with
  | (.ok, f1) =>
    let seedShape := (σ f1.mReferenceTarget).derivativeCodomainShape
    let σ1 := f1.mSequence.foldl
      (fun s n => Function.update s n ((s n).setGradientZero seedShape)) σ
    let σ2 := f1.mPureSources.foldl
      (fun s n => Function.update s n ((s n).setGradientZero seedShape)) σ1
    let σ3 := f1.mPureTargets.foldl Computation.pullGradient σ2
    ⟨.ok, f1, f1.mSequence.reverse.foldl Computation.pullGradient σ3⟩
  | (st, f1) => ⟨st, f1, σ⟩

/-- `Function::pullGradientAt`. -/
def Function.pullGradientAt (g : Graph) (fuel : Nat) (f : Function) (seed : Nat) (σ : Store) :
    Result :=
  match f.compileIfNecessary g fuel with
  | (.ok, f1) =>
    if seed ∉ f1.mTargets then ⟨.raised .SeedError, f1, σ⟩
    else
      let seedShape := (σ seed).valueShape
      let σ1 := f1.mTargets.foldl
        (fun s n => Function.update s n ((s n).setGradientZero seedShape)) σ
      let σ2 := Function.update σ1 seed (σ1 seed).setDerivativeIdentity
      f1.pullGradient g fuel σ2
  | (st, f1) => ⟨st, f1, σ⟩

/-- The nodes on which `Function::evaluate` calls `evaluate`, in the order of
the calls (the function is compiled). -/
def Function.evaluateCalls (f : Function) : List Nat := f.mSequence ++ f.mPureTargets

/-- The nodes on which `Function::pullGradient` calls `pullGradient`, in the
order of the calls (the function is compiled). -/
def Function.pullGradientCalls (f : Function) : List Nat :=
  f.mPureTargets ++ f.mSequence.reverse

/-! ## The chain rule, and example programs -/

/-- The differential of an expression at the cached values, applied to the
tangents `t` of its variables. -/
def Expr.tangent (t : Nat → Int) (σ : Store) : Expr → Int
  | .var n => t n
  | .sum x y => x.tangent t σ + y.tangent t σ
  | .sumLitX _ y => y.tangent t σ
  | .sumLitY x _ => x.tangent t σ
  | .product x y => y.value σ * x.tangent t σ + x.value σ * y.tangent t σ
  | .productLitX x y => x * y.tangent t σ
  | .productLitY x y => y * x.tangent t σ

/-- The partial derivative of node `n` with respect to the source `s` given by
the chain rule: `1` at `s`, `0` at the other sources and at literals, and the
differential of the expression applied to the derivatives of its variables
elsewhere (`depth` bounds the depth of the graph). -/
def chainRule (σ : Store) (sources : List Nat) (s : Nat) : Nat → Nat → Int
  | 0, _ => 0
  | depth + 1, n =>
    if n = s then 1
    else if n ∈ sources then 0
    else
      match (σ n).mEvaluator with
      | none => 0
      | some e => e.tangent (chainRule σ sources s depth) σ

/-- The program `t = x * x; p = t + t; r = p * p` with nodes `x = 0`, `t = 1`,
`p = 2`, `r = 3`: the child sets. -/
def nestedTargetsGraph : Graph := [[], [0], [1], [2]]

/-- The computations of that program after it was built at `x = 2` (eager
evaluation) and `x = 3` was assigned. -/
def nestedTargetsStore : Store := fun n =>
  match n with
  | 0 => ⟨3, 0, default, none⟩
  | 1 => ⟨4, 0, default, some (.product (.var 0) (.var 0))⟩
  | 2 => ⟨8, 0, default, some (.sum (.var 1) (.var 1))⟩
  | 3 => ⟨64, 0, default, some (.product (.var 2) (.var 2))⟩
  | _ => default

/-- The computations of that program built at `x = 3`. -/
def nestedTargetsStoreAt3 : Store := fun n =>
  match n with
  | 0 => ⟨3, 0, default, none⟩
  | 1 => ⟨9, 0, default, some (.product (.var 0) (.var 0))⟩
  | 2 => ⟨18, 0, default, some (.sum (.var 1) (.var 1))⟩
  | 3 => ⟨324, 0, default, some (.product (.var 2) (.var 2))⟩
  | _ => default

/-- `Function f(to(t, r))`, the target set being iterated in the order `t`, `r`. -/
def nestedTargetsFunction : Function := ⟨[], [1, 3], 1, [], [], [], [], []⟩

/-- The program `x = u + v; p = x + x; y = p * v; z = x * y` with nodes `u = 0`,
`v = 1`, `x = 2`, `p = 3`, `y = 4`, `z = 5`: the child sets. -/
def nestedCompositionGraph : Graph := [[], [], [0, 1], [2], [3, 1], [2, 4]]

/-- The computations of that program built at `(u, v) = (2, 3)`. -/
def nestedCompositionStore : Store := fun n =>
  match n with
  | 0 => ⟨2, 0, default, none⟩
  | 1 => ⟨3, 0, default, none⟩
  | 2 => ⟨5, 0, default, some (.sum (.var 0) (.var 1))⟩
  | 3 => ⟨10, 0, default, some (.sum (.var 2) (.var 2))⟩
  | 4 => ⟨30, 0, default, some (.product (.var 3) (.var 1))⟩
  | 5 => ⟨150, 0, default, some (.product (.var 2) (.var 4))⟩
  | _ => default

/-- `Function f(from(u, v), to(x, y))`, the target set being iterated in the
order `x`, `y`. -/
def nestedCompositionF : Function := ⟨[0, 1], [2, 4], 2, [], [], [], [], []⟩

/-- `Function g(from(x, y), to(z))`. -/
def nestedCompositionG : Function := ⟨[2, 4], [5], 5, [], [], [], [], []⟩

/-- The store after `f.evaluate(); g.evaluate(); g.pullGradientAt(z);
f.pullGradient()`. -/
def compositionGradient (g : Graph) (fuel : Nat) (f gfn : Function) (z : Nat) (σ : Store) :
    Store :=
  let r1 := f.evaluate g fuel σ
  let r2 := gfn.evaluate g fuel r1.store
  let r3 := r2.fn.pullGradientAt g fuel z r2.store
  (r1.fn.pullGradient g fuel r3.store).store

/-- The program `x = u + v; y = u * v; z = x * y` with nodes `u = 0`, `v = 1`,
`x = 2`, `y = 3`, `z = 4`: the child sets. -/
def compositionGraph : Graph := [[], [], [0, 1], [0, 1], [2, 3]]

/-- The computations of that program at `(u, v) = (2, 3)` before any evaluation. -/
def compositionStore : Store := fun n =>
  match n with
  | 0 => ⟨2, -13, default, none⟩
  | 1 => ⟨3, -13, default, none⟩
  | 2 => ⟨0, -13, default, some (.sum (.var 0) (.var 1))⟩
  | 3 => ⟨0, -13, default, some (.product (.var 0) (.var 1))⟩
  | 4 => ⟨0, -13, default, some (.product (.var 2) (.var 3))⟩
  | _ => default

/-- `Function f(from(u, v), to(x, y))` of that program. -/
def compositionF : Function := ⟨[0, 1], [2, 3], 2, [], [], [], [], []⟩

/-- `Function g(from(x, y), to(z))` of that program. -/
def compositionG : Function := ⟨[2, 3], [4], 4, [], [], [], [], []⟩

/-- The program `u = x + y; v = x * y` with nodes `x = 0`, `y = 1`, `u = 2`,
`v = 3`: the child sets. -/
def multiTargetGraph : Graph := [[], [], [0, 1], [0, 1]]

/-- The computations of that program evaluated at `(x, y) = (2, 3)`, with the
derivatives randomised to `-13` as in the tests. -/
def multiTargetStore : Store := fun n =>
  match n with
  | 0 => ⟨2, -13, default, none⟩
  | 1 => ⟨3, -13, default, none⟩
  | 2 => ⟨5, -13, default, some (.sum (.var 0) (.var 1))⟩
  | 3 => ⟨6, -13, default, some (.product (.var 0) (.var 1))⟩
  | _ => default

/-- The same computations with other cached derivatives and derivative states. -/
def multiTargetStoreStale : Store := fun n =>
  { multiTargetStore n with
    mDerivative := 7 + n, mDerivativeDescr := ⟨.identity, Shape.ofList [n], default⟩ }

/-- `Function f(from(x, y), to(u, v))` of that program. -/
def multiTargetFunction : Function := ⟨[0, 1], [2, 3], 2, [], [], [], [], []⟩

/-- The program `z = x * y` with nodes `x = 0`, `y = 1`, `z = 2`: the child sets. -/
def productGraph : Graph := [[], [], [0, 1]]

/-- The computations of that program after `x = 2, y = 3`, before `evaluate()`,
with the derivatives randomised to `-13` as in the tests. -/
def productStore : Store := fun n =>
  match n with
  | 0 => ⟨2, -13, default, none⟩
  | 1 => ⟨3, -13, default, none⟩
  | 2 => ⟨0, -13, default, some (.product (.var 0) (.var 1))⟩
  | _ => default

/-- `Function f(from(x, y), to(z))` of that program. -/
def productFunction : Function := ⟨[0, 1], [2], 2, [], [], [], [], []⟩

/-! ## Invariants of the traversal -/

/-- Edge of the subgraph spanned by the view: an edge of the graph whose parent
is not a specified leaf. -/
def TopoView.edge (g : Graph) (v : TopoView) (n c : Nat) : Prop :=
  n ∉ v.mSpecifiedLeaves ∧ c ∈ g.children n

/-- A directed cycle is reachable from a root along paths that never continue
through a specified leaf. -/
def TopoView.ReachableCycle (g : Graph) (v : TopoView) : Prop :=
  ∃ r ∈ v.mRoots, ∃ n, Relation.ReflTransGen (v.edge g) r n ∧
    Relation.TransGen (v.edge g) n n

/-- The nodes of a sequence of records. -/
def nodes (Y : List NodeInfo) : List Nat := Y.map NodeInfo.node

/-- The records yielded so far, one after the other: each node is new, its flag
`isLeaf` tells whether it is a specified leaf or childless, and unless it is a
specified leaf all its children were yielded before. -/
inductive Topo (g : Graph) (v : TopoView) : List NodeInfo → Prop where
  | nil : Topo g v []
  | snoc {Y : List NodeInfo} {y : NodeInfo} : Topo g v Y → y.node ∉ nodes Y →
      (y.node ∉ v.mSpecifiedLeaves → ∀ c ∈ g.children y.node, c ∈ nodes Y) →
      y.isLeaf = (v.isSpecifiedLeaf y.node || (g.children y.node).isEmpty) →
      Topo g v (Y ++ [y])

/-- What holds of every sequence of records yielded so far. -/
structure YieldsOk (g : Graph) (v : TopoView) (Y : List NodeInfo) : Prop where
  topo : Topo g v Y
  nodup : (nodes Y).Nodup
  sorted : ∀ y ∈ Y, y.node ∉ v.mSpecifiedLeaves → ∀ c ∈ g.children y.node,
    (nodes Y).indexOf c < (nodes Y).indexOf y.node
  leafFlag : ∀ y ∈ Y, y.isLeaf = (v.isSpecifiedLeaf y.node || (g.children y.node).isEmpty)
  rootFlag : ∀ y ∈ Y, y.isRoot = true → y.node ∈ v.mRoots
  childFlag : ∀ y ∈ Y, y.isRoot = false →
    ∃ p, v.edge g p y.node ∧ ∃ r ∈ v.mRoots, Relation.ReflTransGen (v.edge g) r p
  reach : ∀ y ∈ Y, ∃ r ∈ v.mRoots, Relation.ReflTransGen (v.edge g) r y.node

/-- The frames below a frame whose node is `above`: each is the parent of the
frame above it, is not a specified leaf, and the children it has handed out
before `above` are visited; the lowest frame is a root. -/
def Below (g : Graph) (v : TopoView) (vis : List Nat) : Nat → List Element → Prop
  | above, [] => above ∈ v.mRoots
  | above, e :: rest =>
    e.node ∉ v.mSpecifiedLeaves ∧
    (∃ pre, g.children e.node = pre ++ above :: e.childIter ∧ ∀ c ∈ pre, c ∈ vis) ∧
    Below g v vis e.node rest

/-- The stack of the path: the children handed out by the top frame are
visited, and the frames below it form a chain of parents down to a root. -/
def StackOk (g : Graph) (v : TopoView) (vis : List Nat) : List Element → Prop
  | [] => True
  | e :: rest =>
    (∃ pre, g.children e.node = pre ++ e.childIter ∧ ∀ c ∈ pre, c ∈ vis) ∧
    Below g v vis e.node rest

/-- Invariant of the iterator state (remaining roots, path, visited set), with
the records `Y` yielded before. -/
structure Inv (g : Graph) (v : TopoView) (ri : List Nat) (p : Path) (vis : List Nat)
    (Y : List NodeInfo) : Prop where
  set_eq : p.mSet = p.mStack.map Element.node
  nodupStack : (p.mStack.map Element.node).Nodup
  visited : ∀ n, n ∈ vis ↔ n ∈ nodes Y
  fresh : ∀ n ∈ p.mStack.map Element.node, n ∉ vis
  roots : ∃ taken, v.mRoots = taken ++ ri ∧ ∀ r ∈ taken, r ∈ vis ∨ r ∈ p.mSet
  stack : StackOk g v vis p.mStack
  yields : YieldsOk g v Y

/-- The head of the path is being explored: it is not a specified leaf. -/
def Exploring (v : TopoView) (p : Path) : Prop :=
  ∃ e rest, p.mStack = e :: rest ∧ e.node ∉ v.mSpecifiedLeaves

/-- The head of the path is the current value of the iterator. -/
def AtYield (g : Graph) (v : TopoView) (it : Iterator) : Prop :=
  ∃ e rest, it.mPath.mStack = e :: rest ∧
    (e.node ∈ v.mSpecifiedLeaves ∨ e.childIter = []) ∧
    it.mCurrentValue = some ⟨e.node,
      v.isSpecifiedLeaf e.node || (g.children e.node).isEmpty, rest.isEmpty⟩

/-- Case analysis on an outcome. -/
def Outcome.Spec {α : Type} (o : Outcome α) (D : α → Prop) (T O : Prop) : Prop :=
  match o with
  | .done a => D a
  | .thrown => T
  | .timeout => O

/-- Potential of a node that has not been pushed yet. -/
def Graph.weight (g : Graph) (n : Nat) : Nat := 1 + 2 * (g.children n).length

/-- Potential of the nodes that are neither visited nor on the path. -/
def freeWeight (g : Graph) (busy : List Nat) : Nat :=
  ∑ n in Finset.range g.length, if n ∈ busy then 0 else g.weight n

/-- Potential of the frames on the stack. -/
def stackWeight (st : List Element) : Nat :=
  (st.map (fun e => 1 + 2 * e.childIter.length)).sum

/-- Potential of an iterator state: it bounds the number of steps still to be made. -/
def potential (g : Graph) (ri : List Nat) (p : Path) (vis : List Nat) : Nat :=
  2 * ri.length + stackWeight p.mStack + freeWeight g (vis ++ p.mSet)

/-! ## Observational equality of stores -/

/-- Two computations with the same value and the same expression. -/
def Computation.SameValue (a b : Computation) : Prop :=
  a.mValue = b.mValue ∧ a.mEvaluator = b.mEvaluator

/-- Two computations that agree in all that can be read from them: value,
expression, description of the derivative, and the stored derivative when the
state is `evaluated`. -/
def Computation.ObsEq (a b : Computation) : Prop :=
  a.mValue = b.mValue ∧ a.mEvaluator = b.mEvaluator ∧
    a.mDerivativeDescr = b.mDerivativeDescr ∧
    (a.mDerivativeDescr.state = .evaluated → a.mDerivative = b.mDerivative)

/-- Two stores with the same values and expressions everywhere, which agree
observationally on the nodes in `Z`. -/
def Agree (Z : Nat → Prop) (σ1 σ2 : Store) : Prop :=
  (∀ n, (σ1 n).SameValue (σ2 n)) ∧ ∀ n, Z n → (σ1 n).ObsEq (σ2 n)

/-- What `compile` keeps true of the derived sets: a pure target is a target,
and a source is a pure source or a target. -/
def Function.Consistent (f : Function) : Prop :=
  (∀ n ∈ f.mPureTargets, n ∈ f.mTargets) ∧
    ∀ n ∈ f.mSources, n ∈ f.mPureSources ∨ n ∈ f.mTargets

/-! ## The derived sets of a compiled function, read off the yielded records -/

/-- The nodes of the records with `isLeaf`. -/
def sourcesOf (Y : List NodeInfo) : List Nat := (Y.filter (fun y => y.isLeaf)).map NodeInfo.node

/-- The nodes of the records with `isRoot`. -/
def targetsOf (Y : List NodeInfo) : List Nat := (Y.filter (fun y => y.isRoot)).map NodeInfo.node

/-- The nodes of the records with `isLeaf` and without `isRoot`. -/
def pureSourcesOf (Y : List NodeInfo) : List Nat :=
  (Y.filter (fun y => y.isLeaf && !y.isRoot)).map NodeInfo.node

/-- The nodes of the records with `isRoot` and without `isLeaf`. -/
def pureTargetsOf (Y : List NodeInfo) : List Nat :=
  (Y.filter (fun y => !y.isLeaf && y.isRoot)).map NodeInfo.node

/-- The nodes of the records with neither flag. -/
def sequenceOf (Y : List NodeInfo) : List Nat :=
  (Y.filter (fun y => !y.isLeaf && !y.isRoot)).map NodeInfo.node

/-- The nodes of the records without `isLeaf`, in the order of the records. -/
def compOf (Y : List NodeInfo) : List Nat :=
  (Y.filter (fun y => !y.isLeaf)).map NodeInfo.node

/-! ## Forward and reverse sweeps over the yielded records -/

/-- The child set of every node is the set of variables of its expression, as
`setExpression` (through `_transferChildrenTo`) and `setValue` (through
`releaseChildren`) leave it; a literal has no children. -/
def WellFormed (g : Graph) (σ : Store) : Prop :=
  ∀ n c, c ∈ g.children n ↔ ∃ e, (σ n).mEvaluator = some e ∧ c ∈ e.operands

/-- A schedule: records with distinct nodes in which every record without
`isLeaf` has an expression whose variables are nodes of earlier records. -/
inductive Sched (σ : Store) : List NodeInfo → Prop where
  | nil : Sched σ []
  | leaf {Y : List NodeInfo} {y : NodeInfo} : Sched σ Y → y.isLeaf = true →
      y.node ∉ nodes Y → Sched σ (Y ++ [y])
  | comp {Y : List NodeInfo} {y : NodeInfo} {e : Expr} : Sched σ Y → y.isLeaf = false →
      y.node ∉ nodes Y → (σ y.node).mEvaluator = some e → (∀ c ∈ e.operands, c ∈ nodes Y) →
      Sched σ (Y ++ [y])

/-- The pairing of weights `t` with the derivatives read from the nodes `L`. -/
def fullSum (t : Nat → Int) (σ : Store) (L : List Nat) : Int :=
  (L.map (fun m => t m * d σ m)).sum

/-- The pairing of weights `t` with the derivatives read from the leaves among
the records `Y`. -/
def leafSum (t : Nat → Int) (σ : Store) (Y : List NodeInfo) : Int :=
  (Y.map (fun y => if y.isLeaf then t y.node * d σ y.node else 0)).sum

/-- Two stores with the same values and expressions. -/
def SameVE (σ1 σ2 : Store) : Prop :=
  ∀ n, (σ1 n).mValue = (σ2 n).mValue ∧ (σ1 n).mEvaluator = (σ2 n).mEvaluator


/-! ## Further example programs -/

/-- The scenario "Recompiling after variable assignment" of the tests after
`z = u * v`, with nodes `x = 0`, `y = 1`, `z = 2`, `u = 3`, `v = 4`: the child
set of `z` has been replaced. -/
def reassignedGraph : Graph := [[], [], [3, 4], [], []]

/-- The state of `productFunction` after `compile()` on `productGraph`. -/
def productFunctionCompiled : Function := ⟨[0, 1], [2], 2, [0, 1], [2], [0, 1], [2], []⟩

/-- A node is reached from a root of the view along a path on which no node
other than the last is a specified leaf. -/
def TopoView.Reaches (g : Graph) (v : TopoView) (n : Nat) : Prop :=
  ∃ r ∈ v.mRoots, Relation.ReflTransGen (v.edge g) r n

/-- The diamond `root → {x, y}`, `x → z`, `y → z` of the tests with nodes
`root = 0`, `x = 1`, `y = 2`, `z = 3`. -/
def diamondGraph : Graph := [[1, 2], [3], [3], []]

/-- Two roots of which one is the child of the other: `r = 1` has the child
`t = 0`. -/
def nestedRootsGraph : Graph := [[], [0]]

/-! ## Views that agree on the nodes met by the iteration -/

/-- The nodes reached from one of `roots` along edges of the graph. -/
def Graph.ReachableFrom (g : Graph) (roots : List Nat) (n : Nat) : Prop :=
  ∃ r ∈ roots, Relation.ReflTransGen g.edge r n

/-- Every child that a frame of the path has still to hand out satisfies `R`. -/
def Path.Within (R : Nat → Prop) (p : Path) : Prop :=
  ∀ e ∈ p.mStack, ∀ c ∈ e.childIter, R c

/-- The roots still to be taken and the children still to be handed out all
satisfy `R`. -/
def Iterator.Within (R : Nat → Prop) (it : Iterator) : Prop :=
  (∀ r ∈ it.mRootsIterator, R r) ∧ it.mPath.Within R

/-! ## `Node` (internal/Node.hpp) -/

/-- A `NodeOwner` token: the `mOwner` of a node, or an owner created outside
the nodes (by the reference of a `Variable`, by a test). -/
inductive Owner where
  | ofNode (n : Nat)
  | outside (k : Nat)
deriving DecidableEq, Repr

/-- All `Node` objects.  `mChildren` holds the child set of every node and
`mParentOwners` its set of parent-owner tokens; `held n` counts the
`shared_ptr`s to node `n` that are not elements of a child set; `mDtorSeq` is
the sequence of destructor calls as the test nodes record it
(`NodeImpl::~NodeImpl`), and `teardowns` lists the nodes on which
`deleteIteratively` was called. -/
structure Nodes where
  mChildren : Graph
  mParentOwners : Nat → List Owner
  held : Nat → Nat
  mDtorSeq : List Nat
  teardowns : List Nat

/-- Replace the child set of node `n`. -/
def Graph.setChildren (g : Graph) (n : Nat) (cs : List Nat) : Graph :=
  (g ++ List.replicate (n + 1 - g.length) []).set n cs

/-- `Node::children`. -/
def Nodes.children (h : Nodes) (n : Nat) : List Nat := h.mChildren.children n

/-- `Node::addParentOwner` on node `n`. -/
def Nodes.addParentOwner (h : Nodes) (n : Nat) (owner : Owner) : Nodes :=
  let owners :=
    if owner ∈ h.mParentOwners n then h.mParentOwners n else h.mParentOwners n ++ [owner]
  { h with mParentOwners := Function.update h.mParentOwners n owners }

/-- `Node::removeParentOwner` on node `n`. -/
def Nodes.removeParentOwner (h : Nodes) (n : Nat) (owner : Owner) : Nodes :=
  let owners := (h.mParentOwners n).filter (fun t => t != owner)
  { h with mParentOwners := Function.update h.mParentOwners n owners }

/-- `Node::addChild` on node `p`: `emplace` into the child set and, when the
child was inserted, `addParentOwner(mOwner)` on it. -/
def Nodes.addChild (h : Nodes) (p child : Nat) : Nodes :=
  if child ∈ h.children p then h
  else
    Nodes.addParentOwner
      { h with mChildren := h.mChildren.setChildren p (h.children p ++ [child]) }
      child (.ofNode p)

/-- `Node::removeOwnership` on node `n`. -/
def Nodes.removeOwnership (h : Nodes) (n : Nat) : Nodes :=
  (h.children n).foldl (fun s child => s.removeParentOwner child (.ofNode n)) h

/-- `Node::canBeDeleted`. -/
def Nodes.canBeDeleted (h : Nodes) (n : Nat) : Bool := (h.mParentOwners n).isEmpty

/-- The breadth-first search of `Node::deleteIteratively`: the queue and
`mNodesToDelete`.  `none` when the step budget of the embedding is used up. -/
def Nodes.scan : Nat → Nodes → List Nat → List Nat → Option (Nodes × List Nat)
  | _, h, [], nodesToDelete => some (h, nodesToDelete)
  | 0, _, _ :: _, _ => none
  | fuel + 1, h, node :: queue, nodesToDelete =>
    let h1 := h.removeOwnership node
    Nodes.scan fuel h1 (queue ++ (h1.children node).filter (fun child => h1.canBeDeleted child))
      (nodesToDelete ++ [node])

/-- `shared_ptr::use_count` of node `n`: the pointers held outside the child
sets and one for every child set that has `n` as an element. -/
def Nodes.useCount (h : Nodes) (n : Nat) : Nat :=
  h.held n + h.mChildren.countP (fun cs => cs.contains n)

/-- `Node::removeChildren` on node `n` (`mChildren.clear()`): the elements are
destroyed one after the other, and a node whose last pointer this was is
destructed by `dtor`. -/
def Nodes.removeChildrenWith (dtor : Nodes → Nat → Option Nodes) (n : Nat) :
    List Nat → Nodes → Option Nodes
  | [], h => some h
  | child :: rest, h =>
    let h1 := { h with mChildren := h.mChildren.setChildren n rest }
    (if h1.useCount child = 0 then dtor h1 child else some h1).bind
      (Nodes.removeChildrenWith dtor n rest)

/-- `Node::deleteIteratively`, with the destructor `dtor` for the nodes that
lose their last pointer. -/
def Nodes.deleteIterativelyWith (dtor : Nodes → Nat → Option Nodes) (fuel : Nat) (h : Nodes)
    (root : Nat) : Option Nodes :=
  match Nodes.scan fuel { h with teardowns := h.teardowns ++ [root] } [root] [] with
  | none => none
  | some (h1, nodesToDelete) =>
    nodesToDelete.reverse.foldlM
      (fun s node => Nodes.removeChildrenWith dtor node (s.children node) s) h1

/-- The destructor of node `n`: `NodeImpl::~NodeImpl` records the call, then
`Node::~Node` runs.  `none` when the step budget of the embedding is used up. -/
def Nodes.destroy : Nat → Nodes → Nat → Option Nodes
  | 0, _, _ => none
  | fuel + 1, h, n =>
    let h1 := { h with mDtorSeq := h.mDtorSeq ++ [n] }
    if (h1.children n).isEmpty then some h1
    else Nodes.deleteIterativelyWith (Nodes.destroy fuel) fuel h1 n

/-- `Node::deleteIteratively`. -/
def Nodes.deleteIteratively (fuel : Nat) (h : Nodes) (root : Nat) : Option Nodes :=
  Nodes.deleteIterativelyWith (Nodes.destroy fuel) fuel h root

/-- `shared_ptr::reset` on a pointer to node `n` held outside the child sets. -/
def Nodes.reset (fuel : Nat) (h : Nodes) (n : Nat) : Option Nodes :=
  let h1 := { h with held := Function.update h.held n (h.held n - 1) }
  if h1.useCount n = 0 then h1.destroy fuel n else some h1

/-- The nodes of the test helper `Graph` (tests/internal/helper/Graph.hpp):
no links, one pointer to each node held by the helper. -/
def Nodes.testGraph : Nodes := ⟨[], fun _ => [], fun _ => 1, [], []⟩

/-- Step budget that suffices for the destruction of a node. -/
def Nodes.budget (h : Nodes) : Nat := h.mChildren.edgeCount + 3

/-! ## Invariants of the teardown -/

/-- Well-formed nodes: a child set has no element twice, and the owner token of
a node is registered on its children (`addChild`) and nowhere else (`mOwner` is
private). -/
structure Nodes.WellFormed (h : Nodes) : Prop where
  nodup : ∀ n, (h.children n).Nodup
  token : ∀ p c, c ∈ h.children p ↔ Owner.ofNode p ∈ h.mParentOwners c

/-- What the teardown that starts at `root` needs of the nodes: a child set has
no element twice, a token of a node is registered on its children only, and
the token of every node reached from `root` is registered on each of its
children. -/
structure Nodes.WellFormedFrom (h : Nodes) (root : Nat) : Prop where
  nodup : ∀ n, (h.children n).Nodup
  registered : ∀ p c, Owner.ofNode p ∈ h.mParentOwners c → c ∈ h.children p
  token : ∀ p c, Relation.ReflTransGen h.mChildren.edge root p → c ∈ h.children p →
    Owner.ofNode p ∈ h.mParentOwners c

/-- An owner registered from outside comes with a pointer to the node
(`addParentOwner` "must be called when creating a shared_ptr to this node",
`removeParentOwner` "when resetting/deleting" it). -/
def Nodes.OwnersHold (h : Nodes) : Prop :=
  ∀ c k, Owner.outside k ∈ h.mParentOwners c → 0 < h.held c

/-- A set of nodes that contains `root` and contains a child `c` of one of its
members whenever every parent owner of `c` is the token of one of its members. -/
def Nodes.Closed (h : Nodes) (root : Nat) (S : Nat → Prop) : Prop :=
  S root ∧ ∀ p c, S p → c ∈ h.children p →
    (∀ t ∈ h.mParentOwners c, ∃ m, S m ∧ t = Owner.ofNode m) → S c

/-- The invariant of the breadth-first search of `deleteIteratively(root)` that
started on the nodes `h0`: `h` are the nodes now, `nodesToDelete` the nodes
processed and `queue` the nodes waiting. -/
structure Nodes.ScanInv (h0 : Nodes) (root : Nat) (h : Nodes) (queue nodesToDelete : List Nat) :
    Prop where
  children : h.mChildren = h0.mChildren
  held : h.held = h0.held
  owners : ∀ c t, t ∈ h.mParentOwners c ↔
    t ∈ h0.mParentOwners c ∧ ¬ ∃ p ∈ nodesToDelete, c ∈ h0.children p ∧ t = Owner.ofNode p
  nodup : (nodesToDelete ++ queue).Nodup
  root_mem : root ∈ nodesToDelete ++ queue
  desc : ∀ c ∈ nodesToDelete ++ queue, Relation.ReflTransGen h0.mChildren.edge root c
  parents : ∀ c ∈ nodesToDelete ++ queue, c ≠ root → ∀ p,
    Owner.ofNode p ∈ h0.mParentOwners c → p ∈ nodesToDelete ∧
      (nodesToDelete ++ queue).indexOf p < (nodesToDelete ++ queue).indexOf c
  tokens : ∀ c ∈ nodesToDelete ++ queue, c ≠ root →
    (∃ p ∈ nodesToDelete, c ∈ h0.children p) ∧
      ∀ t ∈ h0.mParentOwners c, ∃ p ∈ nodesToDelete, c ∈ h0.children p ∧ t = Owner.ofNode p
  complete : ∀ p ∈ nodesToDelete, ∀ c ∈ h0.children p, h.mParentOwners c = [] →
    c ∈ nodesToDelete ++ queue
  least : ∀ S : Nat → Prop, h0.Closed root S → ∀ c ∈ nodesToDelete ++ queue, S c

/-- The list `mNodesToDelete` that `deleteIteratively(root)` collects when the
destructor of `root` runs on the nodes `h`. -/
def Nodes.nodesToDelete (fuel : Nat) (h : Nodes) (root : Nat) : Option (List Nat) :=
  (Nodes.scan fuel
    { h with mDtorSeq := h.mDtorSeq ++ [root], teardowns := h.teardowns ++ [root] }
    [root] []).map Prod.snd

/-- The scenario "Linear graph" of the tests, `root → x → y → z` with
`root = 0`, `x = 2`, `y = 3`, `z = 4`, when all pointers have been reset and the
one to `root` is the last to go. -/
def linearNodes : Nodes where
  mChildren := [[2], [], [3], [4]]
  mParentOwners := fun n =>
    match n with
    | 2 => [.ofNode 0]
    | 3 => [.ofNode 2]
    | 4 => [.ofNode 3]
    | _ => []
  held := fun _ => 0
  mDtorSeq := []
  teardowns := []

/-- The scenario "Ownership prevents destruction" of the tests, `root → {x, y}`,
`x → u`, `y → v` with `root = 0`, `x = 2`, `y = 3`, `u = 5`, `v = 6`: an owner is
registered on `y` from outside, a pointer to `y` is held, and all other
pointers have been reset. -/
def ownershipNodes : Nodes where
  mChildren := [[2, 3], [], [5], [6]]
  mParentOwners := fun n =>
    match n with
    | 2 => [.ofNode 0]
    | 3 => [.ofNode 0, .outside 0]
    | 5 => [.ofNode 2]
    | 6 => [.ofNode 3]
    | _ => []
  held := fun n => if n = 3 then 1 else 0
  mDtorSeq := []
  teardowns := []

/-- The nodes of `ownershipNodes` after the pointer to `y` has been reset while
the owner is still registered on `y`. -/
def danglingOwnerNodes : Nodes := { ownershipNodes with held := fun _ => 0 }

/-! ## `Computation<test::Point, test::Jacobian>` (tests/internal/helper/MockJacobian.hpp) -/

/-- `StaticVector::operator[]` (`std::array::at`): `none` stands for the thrown
`std::out_of_range`. -/
def Shape.get (s : Shape) (index : Nat) : Option Nat := s.mStorage[index]?

/-- `test::Point`: a mock point on a manifold of dimension `dim`. -/
structure Point where
  dim : Nat
deriving DecidableEq, Repr

/-- `test::Jacobian`: a mock Jacobian matrix. -/
structure Jacobian where
  rows : Nat
  cols : Nat
  value : Int
deriving DecidableEq, Repr

/-- `TypeImpl<test::Point>::getShape`. -/
def Point.getShape (value : Point) : Shape := Shape.ofList [value.dim]

/-- `TypeImpl<test::Jacobian>::generate`; index `0` of a shape is always in
range. -/
def Jacobian.generate (derivative : Jacobian) (descr : MapDescription) : Jacobian :=
  match descr.state with
  | .zero => ⟨(descr.codomainShape.get 0).getD 0, (descr.domainShape.get 0).getD 0, 0⟩
  | .identity => ⟨(descr.domainShape.get 0).getD 0, (descr.domainShape.get 0).getD 0, 1⟩
  | .evaluated => derivative

/-- The data members of `Computation<test::Point, test::Jacobian>` that hold the
value and the derivative. -/
structure PointComputation where
  mValue : Point
  mDerivative : Jacobian
  mDerivativeDescr : MapDescription
deriving DecidableEq, Repr

/-- `Computation::derivative` at `test::Point`, `test::Jacobian`. -/
def PointComputation.derivative (c : PointComputation) : Jacobian × PointComputation :=
  if c.mDerivativeDescr.state ≠ .evaluated then
    let d := c.mDerivative.generate c.mDerivativeDescr
    (d, { c with mDerivative := d,
                 mDerivativeDescr := { c.mDerivativeDescr with state := .evaluated } })
  else (c.mDerivative, c)

/-- `Computation::setTangentZero` at `test::Point`, `test::Jacobian`. -/
def PointComputation.setTangentZero (c : PointComputation) (domainShape : Shape) :
    PointComputation :=
  { c with mDerivativeDescr := ⟨.zero, domainShape, c.mValue.getShape⟩ }

/-- `Computation::setGradientZero` at `test::Point`, `test::Jacobian`. -/
def PointComputation.setGradientZero (c : PointComputation) (codomainShape : Shape) :
    PointComputation :=
  { c with mDerivativeDescr := ⟨.zero, c.mValue.getShape, codomainShape⟩ }

/-- `Computation::setDerivativeIdentity` at `test::Point`, `test::Jacobian`. -/
def PointComputation.setDerivativeIdentity (c : PointComputation) : PointComputation :=
  { c with mDerivativeDescr := ⟨.identity, c.mValue.getShape, c.mValue.getShape⟩ }

/-! ## Releasing the children of a node -/

/-- `Node::releaseChildren` on node `n`.  `none` when the step budget of the
embedding is used up in the destruction of a child. -/
def Nodes.releaseChildren (fuel : Nat) (h : Nodes) (n : Nat) : Option Nodes :=
  if (h.children n).isEmpty then some h
  else
    let h1 := h.removeOwnership n
    Nodes.removeChildrenWith (Nodes.destroy fuel) n (h1.children n) h1

/-- The invariant of the loop of `removeChildren` that `releaseChildren` runs on
node `p` of the well-formed nodes `h0`: `s` are the nodes now and `rest` the
children of `p` still to be released. -/
structure Nodes.ReleaseInv (h0 : Nodes) (p : Nat) (s : Nodes) (rest : List Nat) : Prop where
  sublist : ∀ n, (s.children n).Sublist (h0.children n)
  registered : ∀ q c, Owner.ofNode q ∈ s.mParentOwners c → c ∈ s.children q
  token : ∀ q c, q ≠ p → c ∈ s.children q → Owner.ofNode q ∈ s.mParentOwners c
  hold : s.OwnersHold
  rest : s.children p = rest
  owners : ∀ c t, t ∈ s.mParentOwners c → t ∈ h0.mParentOwners c ∧ t ≠ Owner.ofNode p
  held : s.held = h0.held
  cleared : ∀ n, n ≠ p → s.children n = h0.children n ∨ s.children n = []
  ownersSub : ∀ c, (s.mParentOwners c).Sublist (h0.mParentOwners c)

/-- The program `e = 1; c = e * e; p = c + c` after the handle `c` has gone out of
scope, with nodes `p = 0`, `c = 1`, `e = 2`: `p` holds the only pointer to `c`,
and the handle `e` holds a pointer to `e` and has its owner registered. -/
def releaseNodes : Nodes where
  mChildren := [[1], [2]]
  mParentOwners := fun n =>
    match n with
    | 1 => [.ofNode 0]
    | 2 => [.ofNode 1, .outside 0]
    | _ => []
  held := fun n => if n = 1 then 0 else 1
  mDtorSeq := []
  teardowns := []

/-! ## `Variable` (Core/Variable.hpp) -/

/-- All `Computation<int, int>` objects: the `Node` base objects, the data
members, and the counters from which the address of the next computation made
by `std::make_shared` and the next `NodeOwner` made by `std::make_unique` are
taken. -/
structure Objects where
  nodes : Nodes
  store : Store
  nextNode : Nat
  nextOwner : Nat

/-- `Variable::Reference`: the owner token, the shared pointer (`none` when it
has been reset) and the raw pointer to the computation. -/
structure Reference where
  mOwner : Nat
  mComputation : Option Nat
  mComputationPtr : Nat
deriving DecidableEq, Repr

/-- `Variable<int, int>`. -/
structure Variable where
  mRef : Reference
deriving DecidableEq, Repr

/-- No computation and no variable has been made yet. -/
def Objects.empty : Objects := ⟨⟨[], fun _ => [], fun _ => 0, [], []⟩, fun _ => default, 0, 0⟩

/-- `Computation::setValue` on node `n`: `releaseChildren()`, then the evaluator
is given up (`mEvaluator.release()`) and the value is stored. -/
def Objects.setValue (fuel : Nat) (w : Objects) (n : Nat) (value : Int) : Option Objects :=
  (w.nodes.releaseChildren fuel n).map fun nodes =>
    let c := { w.store n with mEvaluator := none, mValue := value }
    { w with nodes := nodes, store := Function.update w.store n c }

/-- `Reference::Reference(Reference const&)` from a reference that holds a
pointer to node `n` and the raw pointer `ptr`: a new owner is made, the
pointers are copied and the owner is registered. -/
def Reference.copyOf (w : Objects) (n ptr : Nat) : Objects × Reference :=
  let held := Function.update w.nodes.held n (w.nodes.held n + 1)
  let nodes := Nodes.addParentOwner { w.nodes with held := held } n (.outside w.nextOwner)
  ({ w with nodes := nodes, nextOwner := w.nextOwner + 1 }, ⟨w.nextOwner, some n, ptr⟩)

/-- `Reference::Reference(Reference const&)`; `none` when the shared pointer of
`other` is null, which the constructor dereferences. -/
def Reference.copy (w : Objects) (other : Reference) : Option (Objects × Reference) :=
  other.mComputation.map fun n => Reference.copyOf w n other.mComputationPtr

/-- `Reference::Reference()`: a new owner and a new default-constructed
computation are made, and the owner is registered. -/
def Reference.new (w : Objects) : Objects × Reference :=
  let n := w.nextNode
  let held := Function.update w.nodes.held n 1
  let owners := Function.update w.nodes.mParentOwners n [.outside w.nextOwner]
  let nodes : Nodes :=
    { w.nodes with mChildren := w.nodes.mChildren.setChildren n [], mParentOwners := owners,
                   held := held }
  (⟨nodes, Function.update w.store n default, n + 1, w.nextOwner + 1⟩,
    ⟨w.nextOwner, some n, n⟩)

/-- `Reference::~Reference`: the owner is unregistered unless the pointer has
been transferred, then the shared pointer is destroyed. -/
def Reference.destroy (r : Reference) (fuel : Nat) (w : Objects) : Option Objects :=
  match r.mComputation with
  | none => some w
  | some n =>
    (Nodes.reset fuel (w.nodes.removeParentOwner n (.outside r.mOwner)) n).map
      fun nodes => { w with nodes := nodes }

/-- `Reference::operator=(Reference other)` called with an lvalue: the
parameter is copy-constructed from `other`, swapped with this reference and
destroyed.  The result is this reference after the call. -/
def Reference.assign (self : Reference) (fuel : Nat) (w : Objects) (other : Reference) :
    Option (Objects × Reference) :=
  match Reference.copy w other with
  | none => none
  | some (w1, param) => (self.destroy fuel w1).map fun w2 => (w2, param)

/-- `Reference::transferOperationTo(node)`; `none` when the shared pointer is
null.  The pointer passed to `addChild` ends as an element of the child set or
is destroyed, and the pointer of the reference is reset. -/
def Reference.transferOperationTo (r : Reference) (w : Objects) (node : Nat) :
    Option (Objects × Reference) :=
  match r.mComputation with
  | none => none
  | some c =>
    let nodes1 := (w.nodes.removeParentOwner c (.outside r.mOwner)).addChild node c
    let held := Function.update nodes1.held c (nodes1.held c - 1)
    some ({ w with nodes := { nodes1 with held := held } }, { r with mComputation := none })

/-- The copy of an expression (`Evaluator::Evaluator`, `mExpression{...}`): every
variable bound in it is copy-constructed, in the order of the operands. -/
def Objects.copyOperands (w : Objects) : List Nat → Objects × List Reference
  | [] => (w, [])
  | c :: rest =>
    let r := Reference.copyOf w c c
    let rs := Objects.copyOperands r.1 rest
    (rs.1, r.2 :: rs.2)

/-- `Evaluator::transferChildrenTo(node)`: `transferOperationTo` on the
reference of every variable bound in the expression. -/
def Objects.transferChildrenTo (node : Nat) : List Reference → Objects → Option Objects
  | [], w => some w
  | r :: rest, w =>
    (r.transferOperationTo w node).bind fun p => Objects.transferChildrenTo node rest p.1

/-- `Computation::setExpression` on node `n`: `releaseChildren()`, a new
evaluator with a copy of the expression replaces the old one, and the children
are transferred. -/
def Objects.setExpression (fuel : Nat) (w : Objects) (n : Nat) (expression : Expr) :
    Option Objects :=
  (w.nodes.releaseChildren fuel n).bind fun nodes =>
    let w1 := Objects.copyOperands { w with nodes := nodes } expression.operands
    let c := { w1.1.store n with mEvaluator := some expression }
    Objects.transferChildrenTo n w1.2 { w1.1 with store := Function.update w1.1.store n c }

/-- `Variable::Variable()`. -/
def Variable.new (w : Objects) : Objects × Variable :=
  ((Reference.new w).1, ⟨(Reference.new w).2⟩)

/-- `Variable::operator()`. -/
def Variable.call (v : Variable) (w : Objects) : Int := (w.store v.mRef.mComputationPtr).value

/-- `Variable::operator=(Value)`. -/
def Variable.assignValue (v : Variable) (fuel : Nat) (w : Objects) (value : Int) :
    Option Objects :=
  w.setValue fuel v.mRef.mComputationPtr value

/-- `Variable::setExpression`, with eager evaluation. -/
def Variable.setExpression (v : Variable) (fuel : Nat) (w : Objects) (expression : Expr) :
    Option Objects :=
  (w.setExpression fuel v.mRef.mComputationPtr expression).map fun w1 =>
    { w1 with store := Computation.evaluate w1.store v.mRef.mComputationPtr }

/-- `Variable::operator=(Expression<Expr> const&)`. -/
def Variable.assignExpression (v : Variable) (fuel : Nat) (w : Objects) (expression : Expr) :
    Option Objects :=
  v.setExpression fuel w expression

/-- `Variable::Variable(Value)`, the factory `var(value)`. -/
def Variable.ofValue (fuel : Nat) (w : Objects) (value : Int) : Option (Objects × Variable) :=
  ((Variable.new w).2.assignValue fuel (Variable.new w).1 value).map
    fun w1 => (w1, (Variable.new w).2)

/-- `Variable::Variable(Expression<Expr> const&)`, the factory `var(expression)`. -/
def Variable.ofExpression (fuel : Nat) (w : Objects) (expression : Expr) :
    Option (Objects × Variable) :=
  ((Variable.new w).2.setExpression fuel (Variable.new w).1 expression).map
    fun w1 => (w1, (Variable.new w).2)

/-- `Variable::Variable(Variable const&)`. -/
def Variable.copy (w : Objects) (other : Variable) : Option (Objects × Variable) :=
  (Reference.copy w other.mRef).map fun p => (p.1, ⟨p.2⟩)

/-- `Variable::operator=(Variable const&)`: the variable after the call. -/
def Variable.assign (self : Variable) (fuel : Nat) (w : Objects) (other : Variable) :
    Option (Objects × Variable) :=
  (self.mRef.assign fuel w other.mRef).map fun p => (p.1, ⟨p.2⟩)

/-- `operator==(Variable const&, Variable const&)`. -/
def Variable.eq (left right : Variable) : Bool :=
  left.mRef.mComputationPtr == right.mRef.mComputationPtr

/-- `Variable::setDerivative`. -/
def Variable.setDerivative (v : Variable) (w : Objects) (derivative : Int) : Objects :=
  let c := (w.store v.mRef.mComputationPtr).setDerivative derivative
  { w with store := Function.update w.store v.mRef.mComputationPtr c }

/-- `Variable::~Variable`. -/
def Variable.destroy (v : Variable) (fuel : Nat) (w : Objects) : Option Objects :=
  v.mRef.destroy fuel w

/-- The computations of the program `e = 1; c = e * e; p = c + c` on the nodes
`releaseNodes`. -/
def releaseObjects : Objects where
  nodes := releaseNodes
  store := fun n =>
    match n with
    | 0 => ⟨2, 0, default, some (.sum (.var 1) (.var 1))⟩
    | 1 => ⟨1, 0, default, some (.product (.var 2) (.var 2))⟩
    | 2 => ⟨1, 0, default, none⟩
    | _ => default
  nextNode := 3
  nextOwner := 1

/-- The program `x = var(2); y = var(3); z = var(x * y)` of the scenario
"Differentiation after eager evaluation" of the tests, run from the start: the
computations `x = 0`, `y = 1`, `z = 2` it leaves. -/
def eagerObjects : Option Objects :=
  (Variable.ofValue 0 Objects.empty 2).bind fun (x : Objects × Variable) =>
    (Variable.ofValue 0 x.1 3).bind fun (y : Objects × Variable) =>
      (Variable.ofExpression 0 y.1
        (.product (.var x.2.mRef.mComputationPtr) (.var y.2.mRef.mComputationPtr))).map
        fun (z : Objects × Variable) => z.1

/-- The data of the computations of that program, with the derivatives
randomised to `-13` as in the tests. -/
def eagerStore : Store := fun n =>
  ((eagerObjects.map fun (w : Objects) => w.store n).getD default).setDerivative (-13)

/-! ## Invariants of the variables -/

/-- An owner that was not made by a node. -/
def Owner.isOutside : Owner → Bool
  | .ofNode _ => false
  | .outside _ => true

/-- Valid nodes: well formed over an acyclic graph, no owner is registered twice
on a node, and every owner registered from outside comes with a pointer of its
own to the node (`Reference` makes and destroys the two together). -/
structure Nodes.Valid (h : Nodes) : Prop where
  wf : h.WellFormed
  acyclic : h.mChildren.Acyclic
  ownersNodup : ∀ c, (h.mParentOwners c).Nodup
  counted : ∀ c, ((h.mParentOwners c).filter Owner.isOutside).length ≤ h.held c

/-- A variable that is not bound in an expression: its reference holds the
pointer to its computation, and its owner, one of the owners made so far, is
registered there. -/
def Variable.Live (v : Variable) (w : Objects) : Prop :=
  v.mRef.mComputation = some v.mRef.mComputationPtr ∧
    Owner.outside v.mRef.mOwner ∈ w.nodes.mParentOwners v.mRef.mComputationPtr ∧
    v.mRef.mOwner < w.nextOwner

/-- The scenario "Copy-constructing and -assigning a variable" of the tests
after `f = var(7)` and `Variable g;`, with the computations `f = 0` and `g = 1`. -/
def copyObjects : Objects where
  nodes :=
    { mChildren := [[], []]
      mParentOwners := fun n => if n = 0 then [.outside 0] else if n = 1 then [.outside 1] else []
      held := fun n => if n < 2 then 1 else 0
      mDtorSeq := []
      teardowns := [] }
  store := fun n => if n = 0 then ⟨7, 0, default, none⟩ else default
  nextNode := 2
  nextOwner := 2

/-! ## `Path::tryAdd` with the path it leaves behind, `Shape` access and comparison -/

/-- `Path::tryAdd` with the path that it leaves behind also when it throws: the
insertion into `mSet`, then the throw (the flag is `true`) or the push. -/
def Path.tryAddState (g : Graph) (p : Path) (node : Nat) : Path × Bool :=
  let inserted := !(p.mSet.contains node)
  let mSet := if inserted then node :: p.mSet else p.mSet
  if !inserted then (⟨p.mStack, mSet⟩, true)
  else (⟨⟨node, g.children node⟩ :: p.mStack, mSet⟩, false)

/-- `StaticVector::size`. -/
def Shape.size (s : Shape) : Nat := s.mSize

/-- `operator==(StaticVector const&, StaticVector const&)`. -/
def Shape.eq (left right : Shape) : Bool := left.mStorage == right.mStorage

/-- `operator!=(StaticVector const&, StaticVector const&)`. -/
def Shape.ne (left right : Shape) : Bool := left.mStorage != right.mStorage

/-- The scenario "Diamond graph" of the tests, `root → {x, y}`, `x → z`, `y → z`
with `root = 0`, `x = 2`, `y = 3`, `z = 4`, when all pointers have been reset and
the one to `root` is the last to go. -/
def diamondNodes : Nodes where
  mChildren := [[2, 3], [], [4], [4]]
  mParentOwners := fun n =>
    match n with
    | 2 => [.ofNode 0]
    | 3 => [.ofNode 0]
    | 4 => [.ofNode 2, .ofNode 3]
    | _ => []
  held := fun _ => 0
  mDtorSeq := []
  teardowns := []

/-! ## `derivativeCodomainShape` at `test::Point`, `test::Jacobian` -/

/-- `TypeImpl<test::Jacobian>::codomainShape`. -/
def Jacobian.codomainShape (derivative : Jacobian) : Shape := Shape.ofList [derivative.rows]

/-- `Computation::derivativeCodomainShape` at `test::Point`, `test::Jacobian`. -/
def PointComputation.derivativeCodomainShape (c : PointComputation) : Shape :=
  c.mDerivative.codomainShape

/-- `Computation::setDerivative` at `test::Point`, `test::Jacobian`. -/
def PointComputation.setDerivative (c : PointComputation) (derivative : Jacobian) :
    PointComputation :=
  { c with mDerivative := derivative,
           mDerivativeDescr := { c.mDerivativeDescr with state := .evaluated } }

/-- The computation `b` of the scenario "Adding gradient" of the tests after
`b.setValue(test::Point{4})`: the derivative is the default `Jacobian{0, 0, 0}`. -/
def gradientPoint : PointComputation := ⟨⟨4⟩, ⟨0, 0, 0⟩, default⟩

/-! ## The assertions of `Computation` in the passes of `Function` -/

/-- `Computation::evaluate` on node `n` with its assertion: `none` when
`assert(mEvaluator && "LITERALS CANNOT BE EVALUATED")` fails. -/
def Computation.evaluateAsserted (σ : Store) (n : Nat) : Option Store :=
  if (σ n).mEvaluator.isSome then some (Computation.evaluate σ n) else none

/-- `Computation::pushTangent` on node `n` with its assertion: `none` when
`assert(mEvaluator && "LITERALS CANNOT BE DIFFERENTIATED")` fails. -/
def Computation.pushTangentAsserted (σ : Store) (n : Nat) : Option Store :=
  if (σ n).mEvaluator.isSome then some (Computation.pushTangent σ n) else none

/-- `Computation::pullGradient` on node `n` with its assertion: `none` when
`assert(mEvaluator && "LITERALS CANNOT BE DIFFERENTIATED")` fails. -/
def Computation.pullGradientAsserted (σ : Store) (n : Nat) : Option Store :=
  if (σ n).mEvaluator.isSome then some (Computation.pullGradient σ n) else none

/-- `Function::evaluate` with the assertions of the computations: `none` when
one of them fails; when `compileIfNecessary` throws, no computation is called. -/
def Function.evaluateAsserted (g : Graph) (fuel : Nat) (f : Function) (σ : Store) :
    Option Store :=
  match f.compileIfNecessary g fuel with
  | (.ok, f1) =>
    (f1.mSequence.foldlM Computation.evaluateAsserted σ).bind
      fun s => f1.mPureTargets.foldlM Computation.evaluateAsserted s
  | _ => some σ

/-- `Function::pushTangent` with the assertions of the computations. -/
def Function.pushTangentAsserted (g : Graph) (fuel : Nat) (f : Function) (σ : Store) :
    Option Store :=
  match f.compileIfNecessary g fuel with
  | (.ok, f1) =>
    (f1.mSequence.foldlM Computation.pushTangentAsserted σ).bind
      fun s => f1.mPureTargets.foldlM Computation.pushTangentAsserted s
  | _ => some σ

/-- `Function::pullGradient` with the assertions of the computations. -/
def Function.pullGradientAsserted (g : Graph) (fuel : Nat) (f : Function) (σ : Store) :
    Option Store :=
  match f.compileIfNecessary g fuel with
  | (.ok, f1) =>
    let seedShape := (σ f1.mReferenceTarget).derivativeCodomainShape
    let σ1 := f1.mSequence.foldl
      (fun s n => Function.update s n ((s n).setGradientZero seedShape)) σ
    let σ2 := f1.mPureSources.foldl
      (fun s n => Function.update s n ((s n).setGradientZero seedShape)) σ1
    (f1.mPureTargets.foldlM Computation.pullGradientAsserted σ2).bind
      fun s => f1.mSequence.reverse.foldlM Computation.pullGradientAsserted s
  | _ => some σ

/-- Every node with a child has an evaluator. -/
def Evaluable (g : Graph) (σ : Store) : Prop :=
  ∀ n, g.children n ≠ [] → (σ n).mEvaluator ≠ none

/-- Every computation with a child has an evaluator. -/
def Objects.Evaluable (w : Objects) : Prop := AutoDiff.Evaluable w.nodes.mChildren w.store

/-- The program `x = var(2); y = var(3); z = var(x * y); Function f(from(x, y),
to(z)); f.compile(); z = 5;` with the computations `x = 0`, `y = 1`, `z = 2`: the
computations it leaves.  The function `f` is then `productFunctionCompiled`. -/
def staleObjects : Option Objects :=
  (Variable.ofValue 0 Objects.empty 2).bind fun (x : Objects × Variable) =>
    (Variable.ofValue 0 x.1 3).bind fun (y : Objects × Variable) =>
      (Variable.ofExpression 0 y.1
        (.product (.var x.2.mRef.mComputationPtr) (.var y.2.mRef.mComputationPtr))).bind
        fun (z : Objects × Variable) => z.2.assignValue 4 z.1 5

/-! ## The steps of the iteration over a view -/

/-- The number of iterations of the second loop of `findNextValue`
(`while (true)`), one for each call of `Path::next`, that `Iterator.extend`
makes. -/
def Iterator.extendSteps (g : Graph) (v : TopoView) : Nat → Iterator → Nat
  | 0, _ => 0
  | fuel + 1, it =>
    match it.mPath.next with
    | (some candidate, p) =>
      if it.notYetVisited candidate then
        match p.tryAdd g candidate with
        | none => 1
        | some p' =>
          if v.isSpecifiedLeaf candidate then 1
          else 1 + Iterator.extendSteps g v fuel { it with mPath := p' }
      else 1 + Iterator.extendSteps g v fuel { it with mPath := p }
    | (none, _) => 1

/-- The number of iterations of the second loop in a call of `findNextValue`. -/
def Iterator.findNextValueSteps (g : Graph) (v : TopoView) (fuel : Nat) (it : Iterator) : Nat :=
  match Iterator.addRoot g v it.mRootsIterator it with
  | .done (it1, false) => if it1.mPath.isEmpty then 0 else Iterator.extendSteps g v fuel it1
  | _ => 0

/-- The number of iterations of the second loop of `findNextValue` in a call of
`operator++`. -/
def Iterator.incrementSteps (g : Graph) (v : TopoView) (fuel : Nat) (it : Iterator) : Nat :=
  Iterator.findNextValueSteps g v fuel
    { it with mVisited := it.mVisited.insert it.mPath.head, mPath := it.mPath.removeHead }

/-- The number of iterations of the second loop of `findNextValue` in all calls
of `operator++` of the loop of `std::for_each`. -/
def forEachLoopSteps (g : Graph) (v : TopoView) (fuel : Nat) : Nat → Iterator → Nat
  | 0, _ => 0
  | k + 1, it =>
    if it.mPath.size != 0 then
      match it.mCurrentValue with
      | none => 0
      | some _ =>
        it.incrementSteps g v fuel +
          match it.increment g v fuel with
          | .done it1 => forEachLoopSteps g v fuel k it1
          | _ => 0
    else 0

/-- The number of iterations of the second loop of `findNextValue`, that is of
calls of `Path::next`, in an iteration over the view: those of `begin()` and
those of every `operator++`. -/
def TopoView.steps (g : Graph) (v : TopoView) (fuel : Nat) : Nat :=
  Iterator.findNextValueSteps g v fuel ⟨v.mRoots, Path.empty, [], none⟩ +
    match v.begin g fuel with
    | .done it => forEachLoopSteps g v fuel fuel it
    | _ => 0

/-- Unit potential of the nodes that are neither visited nor on the path: one
for the node and one for each of its edges. -/
def unitFreeWeight (g : Graph) (busy : List Nat) : Nat :=
  ∑ n in Finset.range g.length, if n ∈ busy then 0 else 1 + (g.children n).length

/-- Unit potential of the frames on the stack: one for the frame and one for
each child it has not handed out. -/
def unitStackWeight (st : List Element) : Nat :=
  (st.map (fun e => 1 + e.childIter.length)).sum

/-- Unit potential of an iterator state. -/
def unitPotential (g : Graph) (p : Path) (vis : List Nat) : Nat :=
  unitStackWeight p.mStack + unitFreeWeight g (vis ++ p.mSet)

/-- A cycle `0 → 1 → 2 → 0`. -/
def cycleGraph : Graph := [[1], [2], [0]]

/-! ## The statement `z = expression` with its temporaries -/

/-- The variables copied while the expression is built: every operation stores
copies of its operands (`UnaryOperation`, `BinaryOperation`: `mOperand{operand.derived()}`),
so each variable bound in an operand is copy-constructed again; the copies are
listed in the order of construction. -/
def Expr.copies : Expr → List Nat
  | .var _ => []
  | .sum x y => x.copies ++ y.copies ++ (x.operands ++ y.operands)
  | .sumLitX _ y => y.copies ++ y.operands
  | .sumLitY x _ => x.copies ++ x.operands
  | .product x y => x.copies ++ y.copies ++ (x.operands ++ y.operands)
  | .productLitX _ y => y.copies ++ y.operands
  | .productLitY x _ => x.copies ++ x.operands

/-- The destructors of the references in the list, one after the other. -/
def Objects.destroyAll (fuel : Nat) : List Reference → Objects → Option Objects
  | [], w => some w
  | r :: rest, w => (r.destroy fuel w).bind (Objects.destroyAll fuel rest)

/-- The statement `z = expression;`: the temporaries of the expression are
built, `Variable::operator=(Expression<Expr> const&)` runs, and the temporaries
are destroyed in the reverse order of their construction. -/
def Variable.assignStatement (z : Variable) (fuel : Nat) (w : Objects) (expression : Expr) :
    Option Objects :=
  let temporaries := Objects.copyOperands w expression.copies
  (z.assignExpression fuel temporaries.1 expression).bind
    (Objects.destroyAll fuel temporaries.2.reverse)

/-- The same owners from outside the nodes are registered on every node. -/
def Nodes.SameOutside (h h1 : Nodes) : Prop :=
  ∀ c k, Owner.outside k ∈ h1.mParentOwners c ↔ Owner.outside k ∈ h.mParentOwners c
theorem isSpecifiedLeaf_iff (v : TopoView) (n : Nat) :
    v.isSpecifiedLeaf n = true ↔ n ∈ v.mSpecifiedLeaves := by
  simp [TopoView.isSpecifiedLeaf]

theorem notYetVisited_iff (it : Iterator) (n : Nat) :
    it.notYetVisited n = true ↔ n ∉ it.mVisited := by
  simp [Iterator.notYetVisited]

theorem Below.mono {g : Graph} {v : TopoView} {vis vis' : List Nat}
    (h : ∀ n, n ∈ vis → n ∈ vis') :
    ∀ {above : Nat} {st : List Element}, Below g v vis above st → Below g v vis' above st
  | _, [], hb => hb
  | _, _ :: _, ⟨h1, ⟨pre, hp, hv⟩, h3⟩ =>
    ⟨h1, ⟨pre, hp, fun c hc => h c (hv c hc)⟩, Below.mono h h3⟩

theorem Below.edge_top {g : Graph} {v : TopoView} {vis : List Nat} {above : Nat}
    {e : Element} {rest : List Element} (h : Below g v vis above (e :: rest)) :
    v.edge g e.node above := by
  obtain ⟨h1, ⟨pre, hp, _⟩, _⟩ := h
  exact ⟨h1, by simp [hp]⟩

theorem Below.reach {g : Graph} {v : TopoView} {vis : List Nat} :
    ∀ {above : Nat} {st : List Element}, Below g v vis above st →
      ∃ r ∈ v.mRoots, Relation.ReflTransGen (v.edge g) r above
  | above, [], hb => ⟨above, hb, Relation.ReflTransGen.refl⟩
  | _, e :: rest, hb => by
    obtain ⟨r, hr, hreach⟩ := Below.reach hb.2.2
    exact ⟨r, hr, hreach.tail (Below.edge_top hb)⟩

theorem Below.trans_of_mem {g : Graph} {v : TopoView} {vis : List Nat} {c : Nat} :
    ∀ {above : Nat} {st : List Element}, Below g v vis above st →
      c ∈ st.map Element.node → Relation.TransGen (v.edge g) c above
  | _, [], _, hc => by simp at hc
  | above, e :: rest, hb, hc => by
    have hedge := Below.edge_top hb
    rcases List.mem_cons.1 hc with h | h
    · subst h; exact Relation.TransGen.single hedge
    · exact (Below.trans_of_mem hb.2.2 h).tail hedge


theorem Graph.children_of_length_le (g : Graph) {n : Nat} (h : g.length ≤ n) :
    g.children n = [] := by
  simp [Graph.children, List.getD, List.getElem?_eq_none h]

theorem freeWeight_congr (g : Graph) {b b' : List Nat} (h : ∀ n, n ∈ b ↔ n ∈ b') :
    freeWeight g b = freeWeight g b' := by
  unfold freeWeight
  refine Finset.sum_congr rfl fun n _ => ?_
  simp [h n]

theorem freeWeight_cons (g : Graph) {b : List Nat} {c : Nat} (hc : c ∉ b) :
    freeWeight g (c :: b) + g.weight c ≤ freeWeight g b + 1 := by
  unfold freeWeight
  by_cases hlt : c < g.length
  · have hmem : c ∈ Finset.range g.length := Finset.mem_range.2 hlt
    rw [← Finset.add_sum_erase _ _ hmem, ← Finset.add_sum_erase _ (fun n => if n ∈ b then 0 else g.weight n) hmem]
    have : ∑ x ∈ (Finset.range g.length).erase c, (if x ∈ c :: b then 0 else g.weight x)
        = ∑ x ∈ (Finset.range g.length).erase c, (if x ∈ b then 0 else g.weight x) := by
      refine Finset.sum_congr rfl fun n hn => ?_
      have : n ≠ c := (Finset.mem_erase.1 hn).1
      simp [this]
    rw [this]
    simp [hc]
    omega
  · have hw : g.weight c = 1 := by
      simp [Graph.weight, g.children_of_length_le (not_lt.1 hlt)]
    have : ∑ x ∈ Finset.range g.length, (if x ∈ c :: b then 0 else g.weight x)
        = ∑ x ∈ Finset.range g.length, (if x ∈ b then 0 else g.weight x) := by
      refine Finset.sum_congr rfl fun n hn => ?_
      have : n ≠ c := by
        intro h; subst h; exact hlt (Finset.mem_range.1 hn)
      simp [this]
    rw [this, hw]


theorem Inv.skip {g : Graph} {v : TopoView} {ri : List Nat} {p : Path} {vis : List Nat}
    {Y : List NodeInfo} {e : Element} {rest : List Element} {c : Nat} {cs : List Nat}
    (h : Inv g v ri p vis Y) (hst : p.mStack = e :: rest) (hit : e.childIter = c :: cs)
    (hv : c ∈ vis) :
    Inv g v ri ⟨⟨e.node, cs⟩ :: rest, p.mSet⟩ vis Y ∧
      potential g ri ⟨⟨e.node, cs⟩ :: rest, p.mSet⟩ vis + 2 = potential g ri p vis := by
  refine ⟨⟨?_, ?_, h.visited, ?_, h.roots, ?_, h.yields⟩, ?_⟩
  · simpa [hst] using h.set_eq
  · simpa [hst] using h.nodupStack
  · simpa [hst] using h.fresh
  · have hs := h.stack
    rw [hst] at hs
    obtain ⟨⟨pre, hp, hpre⟩, hb⟩ := hs
    refine ⟨⟨pre ++ [c], ?_, ?_⟩, hb⟩
    · simp [hp, hit]
    · intro x hx
      rcases List.mem_append.1 hx with hx | hx
      · exact hpre x hx
      · simp at hx; subst hx; exact hv
  · simp [potential, stackWeight, hst, hit]
    omega

theorem Inv.push {g : Graph} {v : TopoView} {ri : List Nat} {p : Path} {vis : List Nat}
    {Y : List NodeInfo} {e : Element} {rest : List Element} {c : Nat} {cs : List Nat}
    (h : Inv g v ri p vis Y) (hst : p.mStack = e :: rest)
    (hleaf : e.node ∉ v.mSpecifiedLeaves) (hit : e.childIter = c :: cs)
    (hv : c ∉ vis) (hs : c ∉ p.mSet) :
    Inv g v ri ⟨⟨c, g.children c⟩ :: ⟨e.node, cs⟩ :: rest, c :: p.mSet⟩ vis Y ∧
      potential g ri ⟨⟨c, g.children c⟩ :: ⟨e.node, cs⟩ :: rest, c :: p.mSet⟩ vis + 1
        ≤ potential g ri p vis := by
  have hset := h.set_eq
  rw [hst] at hset
  refine ⟨⟨?_, ?_, h.visited, ?_, ?_, ?_, h.yields⟩, ?_⟩
  · simp [hset]
  · have hn := h.nodupStack
    rw [hst] at hn
    simp only [List.map_cons] at hn ⊢
    refine List.nodup_cons.2 ⟨?_, hn⟩
    rw [hset] at hs
    simpa using hs
  · intro n hn
    simp only [List.map_cons, List.mem_cons] at hn
    rcases hn with hn | hn
    · subst hn; exact hv
    · exact h.fresh n (by rw [hst]; simpa using hn)
  · obtain ⟨taken, ht, hr⟩ := h.roots
    refine ⟨taken, ht, fun r hr' => ?_⟩
    rcases hr r hr' with h1 | h1
    · exact Or.inl h1
    · exact Or.inr (List.mem_cons_of_mem _ h1)
  · have hs' := h.stack
    rw [hst] at hs'
    obtain ⟨⟨pre, hp, hpre⟩, hb⟩ := hs'
    refine ⟨⟨[], by simp, by simp⟩, hleaf, ⟨pre, ?_, hpre⟩, hb⟩
    simp [hp, hit]
  · have hfw : freeWeight g (vis ++ c :: p.mSet) = freeWeight g (c :: (vis ++ p.mSet)) :=
      freeWeight_congr g (by intro n; simp; tauto)
    have hc : c ∉ vis ++ p.mSet := by simp [hv, hs]
    have := freeWeight_cons g hc
    simp only [potential, stackWeight, hst, hit, hfw, List.map_cons, List.sum_cons,
      List.length_cons, Graph.weight] at this ⊢
    omega

theorem extend_spec (g : Graph) (v : TopoView) :
    ∀ (fuel : Nat) (it : Iterator) (Y : List NodeInfo),
      Inv g v it.mRootsIterator it.mPath it.mVisited Y → Exploring v it.mPath →
      (Iterator.extend g v fuel it).Spec
        (fun it1 => Inv g v it1.mRootsIterator it1.mPath it1.mVisited Y ∧ AtYield g v it1 ∧
          potential g it1.mRootsIterator it1.mPath it1.mVisited
            ≤ potential g it.mRootsIterator it.mPath it.mVisited)
        (v.ReachableCycle g)
        (fuel ≤ potential g it.mRootsIterator it.mPath it.mVisited)
  | 0, it, Y, _, _ => by simp [Iterator.extend, Outcome.Spec]
  | fuel + 1, it, Y, hinv, hexp => by
    obtain ⟨e, rest, hst, hleaf⟩ := hexp
    unfold Iterator.extend
    cases hit : e.childIter with
    | nil =>
      have hnext : it.mPath.next = (none, it.mPath) := by
        simp [Path.next, hst, hit]
      rw [hnext]
      simp only [Outcome.Spec]
      refine ⟨hinv, ⟨e, rest, hst, Or.inr hit, ?_⟩, le_refl _⟩
      have hl : v.isSpecifiedLeaf e.node = false := by
        simpa [TopoView.isSpecifiedLeaf] using hleaf
      cases rest <;> simp [Path.head, Path.size, hst, hl]
    | cons c cs =>
      have hnext : it.mPath.next = (some c, ⟨⟨e.node, cs⟩ :: rest, it.mPath.mSet⟩) := by
        simp [Path.next, hst, hit]
      rw [hnext]
      simp only
      by_cases hv : c ∈ it.mVisited
      · have hnv : it.notYetVisited c = false := by
          simpa [Iterator.notYetVisited] using hv
        rw [hnv]
        simp only [Bool.false_eq_true, if_false]
        obtain ⟨hinv1, hpot⟩ := hinv.skip hst hit hv
        have ih := extend_spec g v fuel { it with mPath := ⟨⟨e.node, cs⟩ :: rest, it.mPath.mSet⟩ } Y
          hinv1 ⟨_, _, rfl, hleaf⟩
        revert ih
        cases Iterator.extend g v fuel { it with mPath := ⟨⟨e.node, cs⟩ :: rest, it.mPath.mSet⟩ } with
        | done it1 =>
          simp only [Outcome.Spec]
          rintro ⟨h1, h2, h3⟩
          exact ⟨h1, h2, by omega⟩
        | thrown => simp only [Outcome.Spec]; exact id
        | timeout => simp only [Outcome.Spec]; intro h; omega
      · have hnv : it.notYetVisited c = true := by
          simpa [Iterator.notYetVisited] using hv
        rw [hnv]
        simp only [if_true]
        by_cases hs : c ∈ it.mPath.mSet
        · have : Path.tryAdd g ⟨⟨e.node, cs⟩ :: rest, it.mPath.mSet⟩ c = none := by
            simp [Path.tryAdd, hs]
          rw [this]
          simp only [Outcome.Spec]
          have hstk := hinv.stack
          rw [hst] at hstk
          obtain ⟨⟨pre, hp, _⟩, hb⟩ := hstk
          have hedge : v.edge g e.node c := ⟨hleaf, by simp [hp, hit]⟩
          obtain ⟨r, hr, hreach⟩ := Below.reach hb
          refine ⟨r, hr, e.node, hreach, ?_⟩
          rw [hinv.set_eq, hst] at hs
          rcases List.mem_cons.1 hs with h | h
          · rw [h] at hedge
            exact Relation.TransGen.single hedge
          · exact Relation.TransGen.head hedge (Below.trans_of_mem hb h)
        · have : Path.tryAdd g ⟨⟨e.node, cs⟩ :: rest, it.mPath.mSet⟩ c
              = some ⟨⟨c, g.children c⟩ :: ⟨e.node, cs⟩ :: rest, c :: it.mPath.mSet⟩ := by
            simp [Path.tryAdd, hs]
          rw [this]
          simp only
          obtain ⟨hinv1, hpot⟩ := hinv.push hst hleaf hit hv hs
          by_cases hcl : c ∈ v.mSpecifiedLeaves
          · have hl : v.isSpecifiedLeaf c = true := by
              simpa [TopoView.isSpecifiedLeaf] using hcl
            rw [hl]
            simp only [if_true, Outcome.Spec]
            refine ⟨hinv1, ⟨_, _, rfl, Or.inl hcl, ?_⟩, by omega⟩
            simp [hl, Path.size]
          · have hl : v.isSpecifiedLeaf c = false := by
              simpa [TopoView.isSpecifiedLeaf] using hcl
            rw [hl]
            simp only [Bool.false_eq_true, if_false]
            have ih := extend_spec g v fuel
              { it with mPath := ⟨⟨c, g.children c⟩ :: ⟨e.node, cs⟩ :: rest, c :: it.mPath.mSet⟩ } Y
              hinv1 ⟨_, _, rfl, hcl⟩
            revert ih
            cases Iterator.extend g v fuel
              { it with mPath := ⟨⟨c, g.children c⟩ :: ⟨e.node, cs⟩ :: rest, c :: it.mPath.mSet⟩ } with
            | done it1 =>
              simp only [Outcome.Spec]
              rintro ⟨h1, h2, h3⟩
              exact ⟨h1, h2, by omega⟩
            | thrown => simp only [Outcome.Spec]; exact id
            | timeout => simp only [Outcome.Spec]; intro h; omega


theorem Inv.skipRoot {g : Graph} {v : TopoView} {root : Nat} {rest : List Nat} {p : Path}
    {vis : List Nat} {Y : List NodeInfo} (h : Inv g v (root :: rest) p vis Y)
    (hv : root ∈ vis) :
    Inv g v rest p vis Y ∧ potential g rest p vis + 2 = potential g (root :: rest) p vis := by
  refine ⟨⟨h.set_eq, h.nodupStack, h.visited, h.fresh, ?_, h.stack, h.yields⟩, ?_⟩
  · obtain ⟨taken, ht, hr⟩ := h.roots
    refine ⟨taken ++ [root], by simp [ht], fun r hr' => ?_⟩
    rcases List.mem_append.1 hr' with h1 | h1
    · exact hr r h1
    · simp at h1; subst h1; exact Or.inl hv
  · simp [potential]; omega

theorem Inv.pushRoot {g : Graph} {v : TopoView} {root : Nat} {rest : List Nat} {p : Path}
    {vis : List Nat} {Y : List NodeInfo} (h : Inv g v (root :: rest) p vis Y)
    (hst : p.mStack = []) (hv : root ∉ vis) :
    Inv g v rest ⟨⟨root, g.children root⟩ :: p.mStack, root :: p.mSet⟩ vis Y ∧
      potential g rest ⟨⟨root, g.children root⟩ :: p.mStack, root :: p.mSet⟩ vis + 1
        ≤ potential g (root :: rest) p vis := by
  have hset := h.set_eq
  rw [hst] at hset
  simp only [List.map_nil] at hset
  obtain ⟨taken, ht, hr⟩ := h.roots
  refine ⟨⟨?_, ?_, h.visited, ?_, ?_, ?_, h.yields⟩, ?_⟩
  · simp [hset, hst]
  · simp [hst]
  · intro n hn
    simp [hst] at hn
    subst hn; exact hv
  · refine ⟨taken ++ [root], by simp [ht], fun r hr' => ?_⟩
    rcases List.mem_append.1 hr' with h1 | h1
    · rcases hr r h1 with h2 | h2
      · exact Or.inl h2
      · exact Or.inr (List.mem_cons_of_mem _ h2)
    · simp at h1; subst h1; exact Or.inr (List.mem_cons_self _ _)
  · rw [hst]
    refine ⟨⟨[], by simp, by simp⟩, ?_⟩
    simp only [Below, ht]
    simp
  · have hfw : freeWeight g (vis ++ root :: p.mSet) = freeWeight g (root :: (vis ++ p.mSet)) :=
      freeWeight_congr g (by intro n; simp; tauto)
    have hc : root ∉ vis ++ p.mSet := by simp [hv, hset]
    have := freeWeight_cons g hc
    simp only [potential, stackWeight, hst, hfw, List.map_cons, List.sum_cons, List.map_nil,
      List.sum_nil, List.length_cons, Graph.weight] at this ⊢
    omega

theorem addRoot_spec (g : Graph) (v : TopoView) :
    ∀ (roots : List Nat) (it : Iterator) (Y : List NodeInfo),
      Inv g v roots it.mPath it.mVisited Y → (it.mPath.mStack = [] ∨ Exploring v it.mPath) →
      (Iterator.addRoot g v roots it).Spec
        (fun r => Inv g v r.1.mRootsIterator r.1.mPath r.1.mVisited Y ∧
          potential g r.1.mRootsIterator r.1.mPath r.1.mVisited
            ≤ potential g roots it.mPath it.mVisited ∧
          (if r.2 then AtYield g v r.1
           else (r.1.mPath.mStack = [] ∧ r.1.mRootsIterator = []) ∨ Exploring v r.1.mPath))
        False False
  | [], it, Y, hinv, hex => by
    simp only [Iterator.addRoot, Outcome.Spec]
    refine ⟨hinv, le_refl _, ?_⟩
    rcases hex with h | h
    · exact Or.inl ⟨h, trivial⟩
    · exact Or.inr h
  | root :: rest, it, Y, hinv, hex => by
    unfold Iterator.addRoot
    by_cases hemp : it.mPath.mStack = []
    · have he : it.mPath.isEmpty = true := by simp [Path.isEmpty, hemp]
      rw [he]
      simp only [if_true]
      by_cases hv : root ∈ it.mVisited
      · have hnv : it.notYetVisited root = false := by
          simpa [Iterator.notYetVisited] using hv
        rw [hnv]
        simp only [Bool.false_eq_true, if_false]
        obtain ⟨hinv1, hpot⟩ := hinv.skipRoot hv
        have ih := addRoot_spec g v rest it Y hinv1 (Or.inl hemp)
        revert ih
        cases Iterator.addRoot g v rest it with
        | done r =>
          simp only [Outcome.Spec]
          rintro ⟨h1, h2, h3⟩
          exact ⟨h1, by omega, h3⟩
        | thrown => simp only [Outcome.Spec]; exact id
        | timeout => simp only [Outcome.Spec]; exact id
      · have hnv : it.notYetVisited root = true := by
          simpa [Iterator.notYetVisited] using hv
        rw [hnv]
        simp only [if_true]
        have hset : it.mPath.mSet = [] := by
          have := hinv.set_eq
          rw [hemp] at this
          simpa using this
        have hadd : it.mPath.tryAdd g root
            = some ⟨⟨root, g.children root⟩ :: it.mPath.mStack, root :: it.mPath.mSet⟩ := by
          simp [Path.tryAdd, hset]
        rw [hadd]
        simp only
        obtain ⟨hinv1, hpot⟩ := hinv.pushRoot hemp hv
        by_cases hcl : root ∈ v.mSpecifiedLeaves
        · have hl : v.isSpecifiedLeaf root = true := by
            simpa [TopoView.isSpecifiedLeaf] using hcl
          rw [hl]
          simp only [if_true, Outcome.Spec]
          refine ⟨hinv1, by omega, ⟨_, _, rfl, Or.inl hcl, ?_⟩⟩
          simp [hl, hemp]
        · have hl : v.isSpecifiedLeaf root = false := by
            simpa [TopoView.isSpecifiedLeaf] using hcl
          rw [hl]
          simp only [Bool.false_eq_true, if_false]
          have ih := addRoot_spec g v rest
            { it with mPath := ⟨⟨root, g.children root⟩ :: it.mPath.mStack, root :: it.mPath.mSet⟩ }
            Y hinv1 (Or.inr ⟨_, _, rfl, hcl⟩)
          revert ih
          cases Iterator.addRoot g v rest
            { it with mPath := ⟨⟨root, g.children root⟩ :: it.mPath.mStack, root :: it.mPath.mSet⟩ } with
          | done r =>
            simp only [Outcome.Spec]
            rintro ⟨h1, h2, h3⟩
            exact ⟨h1, by omega, h3⟩
          | thrown => simp only [Outcome.Spec]; exact id
          | timeout => simp only [Outcome.Spec]; exact id
    · have he : it.mPath.isEmpty = false := by
        cases hs : it.mPath.mStack with
        | nil => exact absurd hs hemp
        | cons a b => simp [Path.isEmpty, hs]
      rw [he]
      simp only [Bool.false_eq_true, if_false, Outcome.Spec]
      refine ⟨hinv, le_refl _, ?_⟩
      rcases hex with h | h
      · exact absurd h hemp
      · exact Or.inr h

theorem findNextValue_spec (g : Graph) (v : TopoView) (fuel : Nat) (it : Iterator)
    (Y : List NodeInfo) (hinv : Inv g v it.mRootsIterator it.mPath it.mVisited Y)
    (hex : it.mPath.mStack = [] ∨ Exploring v it.mPath) :
    (Iterator.findNextValue g v fuel it).Spec
      (fun it1 => Inv g v it1.mRootsIterator it1.mPath it1.mVisited Y ∧
        potential g it1.mRootsIterator it1.mPath it1.mVisited
          ≤ potential g it.mRootsIterator it.mPath it.mVisited ∧
        (AtYield g v it1 ∨ (it1.mPath.mStack = [] ∧ it1.mRootsIterator = [])))
      (v.ReachableCycle g)
      (fuel ≤ potential g it.mRootsIterator it.mPath it.mVisited) := by
  unfold Iterator.findNextValue
  have h1 := addRoot_spec g v it.mRootsIterator it Y hinv hex
  revert h1
  cases Iterator.addRoot g v it.mRootsIterator it with
  | thrown => simp [Outcome.Spec]
  | timeout => simp [Outcome.Spec]
  | done r =>
    obtain ⟨it1, b⟩ := r
    cases b with
    | true =>
      simp only [Outcome.Spec, if_true]
      rintro ⟨h1, h2, h3⟩
      exact ⟨h1, h2, Or.inl h3⟩
    | false =>
      simp only [Outcome.Spec, Bool.false_eq_true, if_false]
      rintro ⟨h1, h2, h3⟩
      by_cases hemp : it1.mPath.mStack = []
      · have he : it1.mPath.isEmpty = true := by simp [Path.isEmpty, hemp]
        rw [he]
        simp only [if_true]
        rcases h3 with h3 | h3
        · exact ⟨h1, h2, Or.inr h3⟩
        · obtain ⟨e, rest, hst, _⟩ := h3
          rw [hst] at hemp
          exact absurd hemp (by simp)
      · have he : it1.mPath.isEmpty = false := by
          cases hs : it1.mPath.mStack with
          | nil => exact absurd hs hemp
          | cons a b => simp [Path.isEmpty, hs]
        rw [he]
        simp only [Bool.false_eq_true, if_false]
        rcases h3 with h3 | h3
        · exact absurd h3.1 hemp
        · have h4 := extend_spec g v fuel it1 Y h1 h3
          revert h4
          cases Iterator.extend g v fuel it1 with
          | done it2 =>
            simp only [Outcome.Spec]
            rintro ⟨k1, k2, k3⟩
            exact ⟨k1, by omega, Or.inl k2⟩
          | thrown => simp only [Outcome.Spec]; exact id
          | timeout => simp only [Outcome.Spec]; intro h; omega


theorem nodes_append (Y : List NodeInfo) (x : NodeInfo) : nodes (Y ++ [x]) = nodes Y ++ [x.node] := by
  simp [nodes]

theorem mem_nodes_of_mem {Y : List NodeInfo} {y : NodeInfo} (h : y ∈ Y) : y.node ∈ nodes Y :=
  List.mem_map_of_mem _ h

theorem YieldsOk.snoc {g : Graph} {v : TopoView} {Y : List NodeInfo} {x : NodeInfo}
    (h : YieldsOk g v Y) (hnew : x.node ∉ nodes Y)
    (hsorted : x.node ∉ v.mSpecifiedLeaves → ∀ c ∈ g.children x.node, c ∈ nodes Y)
    (hleaf : x.isLeaf = (v.isSpecifiedLeaf x.node || (g.children x.node).isEmpty))
    (hroot : x.isRoot = true → x.node ∈ v.mRoots)
    (hchild : x.isRoot = false →
      ∃ p, v.edge g p x.node ∧ ∃ r ∈ v.mRoots, Relation.ReflTransGen (v.edge g) r p)
    (hreach : ∃ r ∈ v.mRoots, Relation.ReflTransGen (v.edge g) r x.node) :
    YieldsOk g v (Y ++ [x]) := by
  refine ⟨Topo.snoc h.topo hnew hsorted hleaf, ?_, ?_, ?_, ?_, ?_, ?_⟩
  · rw [nodes_append]
    exact List.Nodup.append h.nodup (by simp) (by simpa using hnew)
  · intro y hy hl c hc
    rw [nodes_append]
    rcases List.mem_append.1 hy with hy | hy
    · have h1 := h.sorted y hy hl c hc
      have hyn : y.node ∈ nodes Y := mem_nodes_of_mem hy
      have hcn : c ∈ nodes Y :=
        List.indexOf_lt_length.1 (lt_of_lt_of_le h1 List.indexOf_le_length)
      rw [List.indexOf_append_of_mem hcn, List.indexOf_append_of_mem hyn]
      exact h1
    · simp only [List.mem_singleton] at hy
      subst hy
      have hcn : c ∈ nodes Y := hsorted hl c hc
      rw [List.indexOf_append_of_mem hcn, List.indexOf_append_of_not_mem hnew]
      have := List.indexOf_lt_length.2 hcn
      omega
  · intro y hy
    rcases List.mem_append.1 hy with hy | hy
    · exact h.leafFlag y hy
    · simp only [List.mem_singleton] at hy; subst hy; exact hleaf
  · intro y hy
    rcases List.mem_append.1 hy with hy | hy
    · exact h.rootFlag y hy
    · simp only [List.mem_singleton] at hy; subst hy; exact hroot
  · intro y hy
    rcases List.mem_append.1 hy with hy | hy
    · exact h.childFlag y hy
    · simp only [List.mem_singleton] at hy; subst hy; exact hchild
  · intro y hy
    rcases List.mem_append.1 hy with hy | hy
    · exact h.reach y hy
    · simp only [List.mem_singleton] at hy; subst hy; exact hreach

theorem Inv.pop {g : Graph} {v : TopoView} {it : Iterator} {Y : List NodeInfo}
    (h : Inv g v it.mRootsIterator it.mPath it.mVisited Y) (hy : AtYield g v it) :
    ∃ cur, it.mCurrentValue = some cur ∧ it.mPath.mStack ≠ [] ∧
      Inv g v it.mRootsIterator it.mPath.removeHead (it.mVisited.insert it.mPath.head)
        (Y ++ [cur]) ∧
      (it.mPath.removeHead.mStack = [] ∨ Exploring v it.mPath.removeHead) ∧
      potential g it.mRootsIterator it.mPath.removeHead (it.mVisited.insert it.mPath.head) + 1
        ≤ potential g it.mRootsIterator it.mPath it.mVisited := by
  obtain ⟨e, rest, hst, hdone, hcur⟩ := hy
  have hhead : it.mPath.head = e.node := by simp [Path.head, hst]
  have hset := h.set_eq
  rw [hst] at hset
  simp only [List.map_cons] at hset
  have hrem : it.mPath.removeHead = ⟨rest, rest.map Element.node⟩ := by
    simp [Path.removeHead, hst, hhead, hset]
  have hnd := h.nodupStack
  rw [hst] at hnd
  simp only [List.map_cons, List.nodup_cons] at hnd
  have hfresh : e.node ∉ it.mVisited := h.fresh e.node (by simp [hst])
  have hstk := h.stack
  rw [hst] at hstk
  obtain ⟨⟨pre, hp, hpre⟩, hb⟩ := hstk
  have hmono : ∀ n, n ∈ it.mVisited → n ∈ it.mVisited.insert e.node :=
    fun n hn => List.mem_insert_iff.2 (Or.inr hn)
  refine ⟨_, hcur, by simp [hst], ?_, ?_, ?_⟩
  · rw [hrem, hhead]
    refine ⟨rfl, hnd.2, ?_, ?_, ?_, ?_, ?_⟩
    · intro n
      rw [nodes_append, List.mem_insert_iff, List.mem_append, h.visited n]
      simp [or_comm]
    · intro n hn hn'
      rcases List.mem_insert_iff.1 hn' with h1 | h1
      · subst h1; exact hnd.1 hn
      · exact h.fresh n (by rw [hst]; simp [hn]) h1
    · obtain ⟨taken, ht, hr⟩ := h.roots
      refine ⟨taken, ht, fun r hr' => ?_⟩
      rcases hr r hr' with h1 | h1
      · exact Or.inl (hmono r h1)
      · rw [hset] at h1
        rcases List.mem_cons.1 h1 with h2 | h2
        · subst h2; exact Or.inl (List.mem_insert_iff.2 (Or.inl rfl))
        · exact Or.inr h2
    · cases rest with
      | nil => trivial
      | cons e2 rest2 =>
        obtain ⟨_, ⟨pre2, hp2, hpre2⟩, hb2⟩ := hb
        refine ⟨⟨pre2 ++ [e.node], by simp [hp2], ?_⟩, Below.mono hmono hb2⟩
        intro c hc
        rcases List.mem_append.1 hc with h1 | h1
        · exact hmono c (hpre2 c h1)
        · simp only [List.mem_singleton] at h1
          subst h1; exact List.mem_insert_iff.2 (Or.inl rfl)
    · refine h.yields.snoc ?_ ?_ rfl ?_ ?_ (Below.reach hb)
      · exact fun hn => hfresh ((h.visited _).2 hn)
      · intro hl c hc
        rcases hdone with h1 | h1
        · exact absurd h1 hl
        · rw [hp, h1, List.append_nil] at hc
          exact (h.visited c).1 (hpre c hc)
      · intro hr
        cases rest with
        | nil => exact hb
        | cons e2 rest2 => simp at hr
      · intro hr
        cases rest with
        | nil => simp at hr
        | cons e2 rest2 =>
          exact ⟨e2.node, Below.edge_top hb, Below.reach hb.2.2⟩
  · rw [hrem]
    cases rest with
    | nil => exact Or.inl rfl
    | cons e2 rest2 => exact Or.inr ⟨e2, rest2, rfl, hb.1⟩
  · rw [hrem, hhead]
    have hfw : freeWeight g (it.mVisited.insert e.node ++ rest.map Element.node)
        = freeWeight g (it.mVisited ++ it.mPath.mSet) :=
      freeWeight_congr g (by
        intro n
        rw [hset]
        simp only [List.mem_append, List.mem_insert_iff, List.mem_cons]
        tauto)
    simp only [potential, stackWeight, hst, hfw, List.map_cons, List.sum_cons]
    omega

theorem forEachLoop_spec (g : Graph) (v : TopoView) (fuel : Nat) :
    ∀ (k : Nat) (it : Iterator) (Y : List NodeInfo),
      Inv g v it.mRootsIterator it.mPath it.mVisited Y →
      (AtYield g v it ∨ (it.mPath.mStack = [] ∧ it.mRootsIterator = [])) →
      YieldsOk g v (forEachLoop g v (fun acc x => acc ++ [x]) fuel k it Y).state ∧
      ((forEachLoop g v (fun acc x => acc ++ [x]) fuel k it Y).status = .thrown →
        v.ReachableCycle g) ∧
      ((forEachLoop g v (fun acc x => acc ++ [x]) fuel k it Y).status = .done () →
        ∀ r ∈ v.mRoots, r ∈ nodes (forEachLoop g v (fun acc x => acc ++ [x]) fuel k it Y).state) ∧
      ((forEachLoop g v (fun acc x => acc ++ [x]) fuel k it Y).status = .timeout →
        k ≤ potential g it.mRootsIterator it.mPath it.mVisited ∨
        fuel ≤ potential g it.mRootsIterator it.mPath it.mVisited)
  | 0, it, Y, hinv, _ => by
    simp [forEachLoop, hinv.yields]
  | k + 1, it, Y, hinv, hy => by
    unfold forEachLoop
    rcases hy with hy | ⟨hemp, hri⟩
    · obtain ⟨cur, hcur, hne, hinv1, hex, hpot⟩ := hinv.pop hy
      have hsz : (it.mPath.size != 0) = true := by
        cases hs : it.mPath.mStack with
        | nil => exact absurd hs hne
        | cons a b => simp [Path.size, hs]
      rw [hsz, hcur]
      simp only [if_true]
      have hf := findNextValue_spec g v fuel
        { it with mVisited := it.mVisited.insert it.mPath.head, mPath := it.mPath.removeHead }
        (Y ++ [cur]) hinv1 hex
      unfold Iterator.increment
      revert hf
      cases Iterator.findNextValue g v fuel
        { it with mVisited := it.mVisited.insert it.mPath.head, mPath := it.mPath.removeHead } with
      | done it1 =>
        simp only [Outcome.Spec]
        rintro ⟨h1, h2, h3⟩
        obtain ⟨k1, k2, k3, k4⟩ := forEachLoop_spec g v fuel k it1 (Y ++ [cur]) h1 h3
        refine ⟨k1, k2, k3, fun ht => ?_⟩
        rcases k4 ht with h5 | h5
        · left; omega
        · right; omega
      | thrown =>
        simp only [Outcome.Spec]
        intro hc
        exact ⟨hinv1.yields, fun _ => hc, by simp, by simp⟩
      | timeout =>
        simp only [Outcome.Spec]
        intro hc
        exact ⟨hinv1.yields, by simp, by simp, fun _ => Or.inr (by omega)⟩
    · have hsz : (it.mPath.size != 0) = false := by simp [Path.size, hemp]
      rw [hsz]
      simp only [Bool.false_eq_true, if_false]
      refine ⟨hinv.yields, by simp, fun _ r hr => ?_, by simp⟩
      obtain ⟨taken, ht, htk⟩ := hinv.roots
      rw [hri, List.append_nil] at ht
      rw [ht] at hr
      rcases htk r hr with h1 | h1
      · exact (hinv.visited r).1 h1
      · rw [hinv.set_eq, hemp] at h1
        simp at h1


theorem freeWeight_nil : ∀ (g : Graph), freeWeight g [] = g.length + 2 * g.edgeCount
  | [] => by simp [freeWeight, Graph.edgeCount]
  | a :: g => by
    have ih := freeWeight_nil g
    simp only [freeWeight, List.not_mem_nil, if_false, Graph.weight, Graph.edgeCount,
      List.length_cons, List.map_cons, List.sum_cons] at ih ⊢
    rw [Finset.sum_range_succ']
    have : ∀ n, Graph.children (a :: g) (n + 1) = Graph.children g n := by
      intro n; simp [Graph.children]
    simp only [this]
    have h0 : Graph.children (a :: g) 0 = a := by simp [Graph.children]
    rw [h0, ih]
    omega

theorem Inv.init (g : Graph) (v : TopoView) : Inv g v v.mRoots Path.empty [] [] :=
  ⟨rfl, by simp [Path.empty], by simp [nodes], by simp [Path.empty],
    ⟨[], by simp, by simp⟩, by simp [Path.empty, StackOk],
    ⟨Topo.nil, by simp [nodes], by simp, by simp, by simp, by simp, by simp⟩⟩

theorem potential_init (g : Graph) (v : TopoView) :
    potential g v.mRoots Path.empty [] + 1 = g.budget v.mRoots := by
  simp only [potential, Path.empty, stackWeight, freeWeight_nil, Graph.budget, List.map_nil,
    List.sum_nil, List.append_nil]
  omega

/-- Partial correctness of the iteration, for every step budget, and the bound
on the budget. -/
theorem yields_spec (g : Graph) (v : TopoView) (fuel : Nat) :
    YieldsOk g v (v.yields g fuel).state ∧
    ((v.yields g fuel).status = .thrown → v.ReachableCycle g) ∧
    ((v.yields g fuel).status = .done () → ∀ r ∈ v.mRoots, r ∈ nodes (v.yields g fuel).state) ∧
    ((v.yields g fuel).status = .timeout → fuel < g.budget v.mRoots) := by
  unfold TopoView.yields TopoView.forEach TopoView.begin
  have hf := findNextValue_spec g v fuel ⟨v.mRoots, Path.empty, [], none⟩ []
    (Inv.init g v) (Or.inl rfl)
  have hp := potential_init g v
  revert hf
  cases Iterator.findNextValue g v fuel ⟨v.mRoots, Path.empty, [], none⟩ with
  | done it =>
    simp only [Outcome.Spec]
    rintro ⟨h1, h2, h3⟩
    obtain ⟨k1, k2, k3, k4⟩ := forEachLoop_spec g v fuel fuel it [] h1 h3
    refine ⟨k1, k2, k3, fun ht => ?_⟩
    rcases k4 ht with h5 | h5 <;> omega
  | thrown =>
    simp only [Outcome.Spec]
    intro hc
    exact ⟨(Inv.init g v).yields, fun _ => hc, by simp, by simp⟩
  | timeout =>
    simp only [Outcome.Spec]
    intro hc
    exact ⟨(Inv.init g v).yields, by simp, by simp, fun _ => by omega⟩

theorem YieldsOk.mem_of_reach {g : Graph} {v : TopoView} {Y : List NodeInfo}
    (h : YieldsOk g v Y) {a b : Nat} (hab : Relation.ReflTransGen (v.edge g) a b)
    (ha : a ∈ nodes Y) : b ∈ nodes Y := by
  induction hab with
  | refl => exact ha
  | tail _ hbc ih =>
    obtain ⟨y, hy, rfl⟩ := List.mem_map.1 ih
    have := h.sorted y hy hbc.1 _ hbc.2
    exact List.indexOf_lt_length.1 (lt_of_lt_of_le this List.indexOf_le_length)

theorem YieldsOk.index_lt_of_trans {g : Graph} {v : TopoView} {Y : List NodeInfo}
    (h : YieldsOk g v Y) {a b : Nat} (hab : Relation.TransGen (v.edge g) a b)
    (ha : a ∈ nodes Y) : (nodes Y).indexOf b < (nodes Y).indexOf a := by
  induction hab with
  | single hbc =>
    obtain ⟨y, hy, rfl⟩ := List.mem_map.1 ha
    exact h.sorted y hy hbc.1 _ hbc.2
  | tail _ hbc ih =>
    have hb := List.indexOf_lt_length.1 (lt_of_lt_of_le ih List.indexOf_le_length)
    obtain ⟨y, hy, rfl⟩ := List.mem_map.1 hb
    exact lt_trans (h.sorted y hy hbc.1 _ hbc.2) ih

theorem YieldsOk.no_cycle {g : Graph} {v : TopoView} {Y : List NodeInfo}
    (h : YieldsOk g v Y) (hroots : ∀ r ∈ v.mRoots, r ∈ nodes Y) : ¬ v.ReachableCycle g := by
  rintro ⟨r, hr, n, hreach, hcyc⟩
  have hn := h.mem_of_reach hreach (hroots r hr)
  exact lt_irrefl _ (h.index_lt_of_trans hcyc hn)

/-- A loop over the view with any callback is the fold of the callback over the
yielded records. -/
theorem forEachLoop_fold {σ : Type} (g : Graph) (v : TopoView) (f : σ → NodeInfo → σ)
    (fuel : Nat) :
    ∀ (k : Nat) (it : Iterator) (acc : σ) (Y : List NodeInfo),
      ∃ Z, (forEachLoop g v (fun a x => a ++ [x]) fuel k it Y).state = Y ++ Z ∧
        (forEachLoop g v f fuel k it acc).state = Z.foldl f acc ∧
        (forEachLoop g v f fuel k it acc).status
          = (forEachLoop g v (fun a x => a ++ [x]) fuel k it Y).status
  | 0, it, acc, Y => ⟨[], by simp [forEachLoop]⟩
  | k + 1, it, acc, Y => by
    unfold forEachLoop
    cases hsz : (it.mPath.size != 0) with
    | false => exact ⟨[], by simp⟩
    | true =>
      simp only [if_true]
      cases hcur : it.mCurrentValue with
      | none => exact ⟨[], by simp⟩
      | some cur =>
        simp only
        cases hinc : it.increment g v fuel with
        | done it1 =>
          simp only
          obtain ⟨Z, h1, h2, h3⟩ := forEachLoop_fold g v f fuel k it1 (f acc cur) (Y ++ [cur])
          exact ⟨cur :: Z, by simp [h1], by simp [h2], h3⟩
        | thrown => exact ⟨[cur], by simp⟩
        | timeout => exact ⟨[cur], by simp⟩

theorem forEach_fold {σ : Type} (g : Graph) (v : TopoView) (fuel : Nat)
    (f : σ → NodeInfo → σ) (init : σ) :
    (v.forEach g fuel f init).state = (v.yields g fuel).state.foldl f init ∧
    (v.forEach g fuel f init).status = (v.yields g fuel).status := by
  unfold TopoView.yields TopoView.forEach
  cases v.begin g fuel with
  | done it =>
    simp only
    obtain ⟨Z, h1, h2, h3⟩ := forEachLoop_fold g v f fuel fuel it init []
    rw [h1, h2, h3]
    simp
  | thrown => simp
  | timeout => simp


theorem Graph.acyclic_of_increasing (g : Graph)
    (h : ∀ i < g.length, ∀ c ∈ g.children i, i < c) : g.Acyclic := by
  have hedge : ∀ a b, g.edge a b → a < b := by
    intro a b hab
    by_cases ha : a < g.length
    · exact h a ha b hab
    · have := g.children_of_length_le (not_lt.1 ha)
      simp [Graph.edge, this] at hab
  have htrans : ∀ a b, Relation.TransGen g.edge a b → a < b := by
    intro a b hab
    induction hab with
    | single h1 => exact hedge _ _ h1
    | tail _ h1 ih => exact lt_trans ih (hedge _ _ h1)
  exact fun n hn => lt_irrefl _ (htrans n n hn)

theorem TopoView.not_reachableCycle_of_acyclic {g : Graph} (v : TopoView)
    (hacyc : g.Acyclic) : ¬ v.ReachableCycle g := by
  rintro ⟨_, _, n, _, hcyc⟩
  exact hacyc n (hcyc.mono fun _ _ h => h.2)

theorem yields_status_of_budget (g : Graph) (v : TopoView) (fuel : Nat)
    (hfuel : g.budget v.mRoots ≤ fuel) :
    ((v.yields g fuel).status = .thrown ∧ v.ReachableCycle g) ∨
    ((v.yields g fuel).status = .done () ∧ ¬ v.ReachableCycle g) := by
  obtain ⟨h1, h2, h3, h4⟩ := yields_spec g v fuel
  cases hs : (v.yields g fuel).status with
  | done u => exact Or.inr ⟨rfl, h1.no_cycle (h3 hs)⟩
  | thrown => exact Or.inl ⟨rfl, h2 hs⟩
  | timeout => exact absurd (h4 hs) (by omega)

theorem YieldsOk.index_lt {g : Graph} {v : TopoView} {Y : List NodeInfo} (h : YieldsOk g v Y)
    {i j : Nat} {a b : NodeInfo} (hi : Y[i]? = some a) (hj : Y[j]? = some b)
    (hchild : a.node ∈ g.children b.node) (hleaf : b.node ∉ v.mSpecifiedLeaves) : i < j := by
  obtain ⟨hil, hia⟩ := List.getElem?_eq_some.1 hi
  obtain ⟨hjl, hjb⟩ := List.getElem?_eq_some.1 hj
  have hb : b ∈ Y := hjb ▸ List.getElem_mem hjl
  have hlt := h.sorted b hb hleaf _ hchild
  have hil' : i < (nodes Y).length := by simpa [nodes] using hil
  have hjl' : j < (nodes Y).length := by simpa [nodes] using hjl
  have e1 : (nodes Y)[i] = a.node := by simp [nodes, hia]
  have e2 : (nodes Y)[j] = b.node := by simp [nodes, hjb]
  have k1 := List.indexOf_getElem h.nodup i hil'
  have k2 := List.indexOf_getElem h.nodup j hjl'
  rw [e1] at k1
  rw [e2] at k2
  omega

/-! ## Claims about `TopoView` -/

/-- C1 (as amended): on a finite acyclic graph the iteration of a `TopoView`
runs to the end, and whenever two yielded nodes `n1`, `n2` are such that `n1`
is a child of `n2` and `n2` is not a specified leaf, `n1` is yielded strictly
before `n2`. -/
theorem C1_children_before_parents (g : Graph) (v : TopoView) (fuel : Nat)
    (hacyc : g.Acyclic) (hfuel : g.budget v.mRoots ≤ fuel) :
    (v.yields g fuel).status = .done () ∧
    ∀ (i j : Nat) (n1 n2 : NodeInfo),
      (v.yields g fuel).state[i]? = some n1 → (v.yields g fuel).state[j]? = some n2 →
      n1.node ∈ g.children n2.node → n2.node ∉ v.mSpecifiedLeaves → i < j := by
  refine ⟨?_, fun i j n1 n2 hi hj hc hl => (yields_spec g v fuel).1.index_lt hi hj hc hl⟩
  rcases yields_status_of_budget g v fuel hfuel with h | h
  · exact absurd h.2 (v.not_reachableCycle_of_acyclic hacyc)
  · exact h.1

/-- C1 (as stated) fails: in the acyclic graph `0 → {1, 2}`, `1 → {2}` with root
`0` and specified leaf `1`, the nodes are yielded in the order `1, 2, 0`, so
the child `2` of node `1` is yielded after node `1`. -/
theorem C1_counterexample :
    Graph.Acyclic [[1, 2], [2], []] ∧
    (TopoView.yields [[1, 2], [2], []] ⟨[0], [1]⟩ 12).status = .done () ∧
    nodes (TopoView.yields [[1, 2], [2], []] ⟨[0], [1]⟩ 12).state = [1, 2, 0] ∧
    2 ∈ Graph.children [[1, 2], [2], []] 1 ∧
    ¬ ((nodes (TopoView.yields [[1, 2], [2], []] ⟨[0], [1]⟩ 12).state).indexOf 2
        < (nodes (TopoView.yields [[1, 2], [2], []] ⟨[0], [1]⟩ 12).state).indexOf 1) :=
  ⟨Graph.acyclic_of_increasing _ (by decide), by decide, by decide, by decide, by decide⟩

/-- Witness for C1 (as amended): the diamond `0 → {1, 2}`, `1 → {3}`, `2 → {3}`. -/
theorem C1_children_before_parents_witness :
    (TopoView.yields [[1, 2], [3], [3], []] ⟨[0], []⟩ 16).status = .done () ∧
    ∀ (i j : Nat) (n1 n2 : NodeInfo),
      (TopoView.yields [[1, 2], [3], [3], []] ⟨[0], []⟩ 16).state[i]? = some n1 →
      (TopoView.yields [[1, 2], [3], [3], []] ⟨[0], []⟩ 16).state[j]? = some n2 →
      n1.node ∈ Graph.children [[1, 2], [3], [3], []] n2.node →
      n2.node ∉ (⟨[0], []⟩ : TopoView).mSpecifiedLeaves → i < j :=
  C1_children_before_parents [[1, 2], [3], [3], []] ⟨[0], []⟩ 16
    (Graph.acyclic_of_increasing _ (by decide)) (by decide)

/-- C2: with a sufficient step budget, iterating a `TopoView` to the end throws
`CyclicGraphError` if and only if a directed cycle is reachable from a root
along paths that never continue through a specified leaf; without such a cycle
the iteration completes without throwing. -/
theorem C2_throws_iff_reachable_cycle (g : Graph) (v : TopoView) (fuel : Nat)
    (hfuel : g.budget v.mRoots ≤ fuel) :
    ((v.yields g fuel).status = .thrown ↔ v.ReachableCycle g) ∧
    (¬ v.ReachableCycle g → (v.yields g fuel).status = .done ()) := by
  rcases yields_status_of_budget g v fuel hfuel with h | h
  · exact ⟨⟨fun _ => h.2, fun _ => h.1⟩, fun hn => absurd h.2 hn⟩
  · refine ⟨⟨fun ht => ?_, fun hc => absurd hc h.2⟩, fun _ => h.1⟩
    rw [h.1] at ht
    cases ht

/-- Witness for C2: the cycle `0 → 1 → 2 → 0` below the root `0`. -/
theorem C2_throws_iff_reachable_cycle_witness :
    ((TopoView.yields [[1], [2], [0]] ⟨[0], []⟩ 12).status = .thrown ↔
      TopoView.ReachableCycle [[1], [2], [0]] ⟨[0], []⟩) ∧
    (¬ TopoView.ReachableCycle [[1], [2], [0]] ⟨[0], []⟩ →
      (TopoView.yields [[1], [2], [0]] ⟨[0], []⟩ 12).status = .done ()) :=
  C2_throws_iff_reachable_cycle [[1], [2], [0]] ⟨[0], []⟩ 12 (by decide)

/-! ## Claims about `Function`: errors -/

theorem Function.compile_of_thrown (g : Graph) (fuel : Nat) (f : Function)
    (h : (f.view.yields g fuel).status = .thrown) :
    (f.compile g fuel).1 = .raised .CyclicDependencyError ∧
    (f.compile g fuel).2 = (f.view.forEach g fuel Function.classify f.clear).state.clear := by
  have hs := (forEach_fold g f.view fuel Function.classify f.clear).2
  rw [h] at hs
  simp [Function.compile, hs]

theorem Function.compile_of_done (g : Graph) (fuel : Nat) (f : Function)
    (h : (f.view.yields g fuel).status = .done ()) :
    f.compile g fuel
      = (.ok, (f.view.yields g fuel).state.foldl Function.classify f.clear) := by
  have hf := forEach_fold g f.view fuel Function.classify f.clear
  rw [h] at hf
  simp [Function.compile, hf.1, hf.2]

/-- C3: when `compile()` meets a cycle (a cycle is reachable from a target
without passing through a specified source) it raises `CyclicDependencyError`
and leaves the source, target, pure-source and pure-target sets and the
sequence empty, so `compiled()` is false, whatever the state of the function
was before; the same holds for the implicit compile inside `evaluate()`, which
also leaves the store untouched. -/
theorem C3_compile_cycle_rolls_back (g : Graph) (fuel : Nat) (f : Function) (σ : Store)
    (hfuel : g.budget f.mSpecifiedTargets ≤ fuel) (hcyc : f.view.ReachableCycle g) :
    ((f.compile g fuel).1 = .raised .CyclicDependencyError ∧
      (f.compile g fuel).2.mSources = [] ∧ (f.compile g fuel).2.mTargets = [] ∧
      (f.compile g fuel).2.mPureSources = [] ∧ (f.compile g fuel).2.mPureTargets = [] ∧
      (f.compile g fuel).2.mSequence = [] ∧ (f.compile g fuel).2.compiled = false) ∧
    (f.compiled = false →
      (f.evaluate g fuel σ).status = .raised .CyclicDependencyError ∧
      (f.evaluate g fuel σ).fn.mSources = [] ∧ (f.evaluate g fuel σ).fn.mTargets = [] ∧
      (f.evaluate g fuel σ).fn.mPureSources = [] ∧
      (f.evaluate g fuel σ).fn.mPureTargets = [] ∧
      (f.evaluate g fuel σ).fn.mSequence = [] ∧
      (f.evaluate g fuel σ).fn.compiled = false ∧ (f.evaluate g fuel σ).store = σ) := by
  have hthrown : (f.view.yields g fuel).status = .thrown := by
    rcases yields_status_of_budget g f.view fuel hfuel with h | h
    · exact h.1
    · exact absurd hcyc h.2
  obtain ⟨h1, h2⟩ := Function.compile_of_thrown g fuel f hthrown
  have hc : (f.compile g fuel).1 = .raised .CyclicDependencyError ∧
      (f.compile g fuel).2.mSources = [] ∧ (f.compile g fuel).2.mTargets = [] ∧
      (f.compile g fuel).2.mPureSources = [] ∧ (f.compile g fuel).2.mPureTargets = [] ∧
      (f.compile g fuel).2.mSequence = [] ∧ (f.compile g fuel).2.compiled = false := by
    refine ⟨h1, ?_, ?_, ?_, ?_, ?_, ?_⟩ <;> rw [h2] <;> simp [Function.clear, Function.compiled]
  refine ⟨hc, fun hnc => ?_⟩
  have he : f.evaluate g fuel σ
      = ⟨.raised .CyclicDependencyError, (f.compile g fuel).2, σ⟩ := by
    have hci : f.compileIfNecessary g fuel = f.compile g fuel := by
      simp [Function.compileIfNecessary, hnc]
    unfold Function.evaluate
    rw [hci]
    rcases hcp : f.compile g fuel with ⟨st, f1⟩
    rw [hcp] at h1
    simp only at h1
    subst h1
    rfl
  rw [he]
  exact ⟨rfl, hc.2.1, hc.2.2.1, hc.2.2.2.1, hc.2.2.2.2.1, hc.2.2.2.2.2.1, hc.2.2.2.2.2.2, rfl⟩

/-- Witness for C3: `x = x * y` with `Function f(to(x))` (node 0 is `x`, node 1
is `y`), starting from a function whose derived sets are not empty. -/
theorem C3_compile_cycle_rolls_back_witness :
    ((Function.compile [[0, 1], []] 9 ⟨[], [0], 0, [], [0], [], [0], [1]⟩).1
        = .raised .CyclicDependencyError ∧
      (Function.compile [[0, 1], []] 9 ⟨[], [0], 0, [], [0], [], [0], [1]⟩).2.mSources = [] ∧
      (Function.compile [[0, 1], []] 9 ⟨[], [0], 0, [], [0], [], [0], [1]⟩).2.mTargets = [] ∧
      (Function.compile [[0, 1], []] 9 ⟨[], [0], 0, [], [0], [], [0], [1]⟩).2.mPureSources = [] ∧
      (Function.compile [[0, 1], []] 9 ⟨[], [0], 0, [], [0], [], [0], [1]⟩).2.mPureTargets = [] ∧
      (Function.compile [[0, 1], []] 9 ⟨[], [0], 0, [], [0], [], [0], [1]⟩).2.mSequence = [] ∧
      (Function.compile [[0, 1], []] 9 ⟨[], [0], 0, [], [0], [], [0], [1]⟩).2.compiled = false) ∧
    (Function.compiled ⟨[], [0], 0, [], [0], [], [0], [1]⟩ = false →
      (Function.evaluate [[0, 1], []] 9 ⟨[], [0], 0, [], [0], [], [0], [1]⟩
          (fun _ => default)).status = .raised .CyclicDependencyError ∧
      (Function.evaluate [[0, 1], []] 9 ⟨[], [0], 0, [], [0], [], [0], [1]⟩
          (fun _ => default)).fn.mSources = [] ∧
      (Function.evaluate [[0, 1], []] 9 ⟨[], [0], 0, [], [0], [], [0], [1]⟩
          (fun _ => default)).fn.mTargets = [] ∧
      (Function.evaluate [[0, 1], []] 9 ⟨[], [0], 0, [], [0], [], [0], [1]⟩
          (fun _ => default)).fn.mPureSources = [] ∧
      (Function.evaluate [[0, 1], []] 9 ⟨[], [0], 0, [], [0], [], [0], [1]⟩
          (fun _ => default)).fn.mPureTargets = [] ∧
      (Function.evaluate [[0, 1], []] 9 ⟨[], [0], 0, [], [0], [], [0], [1]⟩
          (fun _ => default)).fn.mSequence = [] ∧
      (Function.evaluate [[0, 1], []] 9 ⟨[], [0], 0, [], [0], [], [0], [1]⟩
          (fun _ => default)).fn.compiled = false ∧
      (Function.evaluate [[0, 1], []] 9 ⟨[], [0], 0, [], [0], [], [0], [1]⟩
          (fun _ => default)).store = fun _ => default) :=
  C3_compile_cycle_rolls_back [[0, 1], []] 9 ⟨[], [0], 0, [], [0], [], [0], [1]⟩
    (fun _ => default) (by decide)
    ⟨0, by simp [Function.view], 0, Relation.ReflTransGen.refl,
      Relation.TransGen.single ⟨by simp [Function.view], by simp [Graph.children]⟩⟩

/-- C9: on a compiled function `pushTangentAt(seed)` raises `SeedError` exactly
when the seed is not in the compiled source set, `pullGradientAt(seed)` exactly
when it is not in the compiled target set, and when `SeedError` is raised the
function and the store (values, derivatives, derivative states) are unchanged. -/
theorem C9_seedError (g : Graph) (fuel : Nat) (f : Function) (seed : Nat) (σ : Store)
    (hc : f.compiled = true) :
    ((f.pushTangentAt g fuel seed σ).status = .raised .SeedError ↔ seed ∉ f.mSources) ∧
    ((f.pullGradientAt g fuel seed σ).status = .raised .SeedError ↔ seed ∉ f.mTargets) ∧
    ((f.pushTangentAt g fuel seed σ).status = .raised .SeedError →
      (f.pushTangentAt g fuel seed σ).fn = f ∧ (f.pushTangentAt g fuel seed σ).store = σ) ∧
    ((f.pullGradientAt g fuel seed σ).status = .raised .SeedError →
      (f.pullGradientAt g fuel seed σ).fn = f ∧ (f.pullGradientAt g fuel seed σ).store = σ) := by
  have hci : f.compileIfNecessary g fuel = (.ok, f) := by
    simp [Function.compileIfNecessary, hc]
  have hpush : ∀ s, (f.pushTangent g fuel s).status = .ok := by
    intro s; simp [Function.pushTangent, hci]
  have hpull : ∀ s, (f.pullGradient g fuel s).status = .ok := by
    intro s; simp [Function.pullGradient, hci]
  by_cases hs : seed ∈ f.mSources <;> by_cases ht : seed ∈ f.mTargets <;>
    simp [Function.pushTangentAt, Function.pullGradientAt, hci, hs, ht, hpush, hpull]

/-- Witness for C9: the compiled product function `z = x * y` (nodes 0, 1, 2)
seeded at `z` for the forward pass and at `z` for the reverse pass. -/
theorem C9_seedError_witness :
    ((Function.pushTangentAt [[], [], [0, 1]] 8 ⟨[0, 1], [2], 2, [0, 1], [2], [0, 1], [2], []⟩ 2
        (fun _ => default)).status = .raised .SeedError ↔
      2 ∉ (⟨[0, 1], [2], 2, [0, 1], [2], [0, 1], [2], []⟩ : Function).mSources) ∧
    ((Function.pullGradientAt [[], [], [0, 1]] 8 ⟨[0, 1], [2], 2, [0, 1], [2], [0, 1], [2], []⟩ 2
        (fun _ => default)).status = .raised .SeedError ↔
      2 ∉ (⟨[0, 1], [2], 2, [0, 1], [2], [0, 1], [2], []⟩ : Function).mTargets) ∧
    ((Function.pushTangentAt [[], [], [0, 1]] 8 ⟨[0, 1], [2], 2, [0, 1], [2], [0, 1], [2], []⟩ 2
        (fun _ => default)).status = .raised .SeedError →
      (Function.pushTangentAt [[], [], [0, 1]] 8 ⟨[0, 1], [2], 2, [0, 1], [2], [0, 1], [2], []⟩ 2
        (fun _ => default)).fn = ⟨[0, 1], [2], 2, [0, 1], [2], [0, 1], [2], []⟩ ∧
      (Function.pushTangentAt [[], [], [0, 1]] 8 ⟨[0, 1], [2], 2, [0, 1], [2], [0, 1], [2], []⟩ 2
        (fun _ => default)).store = fun _ => default) ∧
    ((Function.pullGradientAt [[], [], [0, 1]] 8 ⟨[0, 1], [2], 2, [0, 1], [2], [0, 1], [2], []⟩ 2
        (fun _ => default)).status = .raised .SeedError →
      (Function.pullGradientAt [[], [], [0, 1]] 8 ⟨[0, 1], [2], 2, [0, 1], [2], [0, 1], [2], []⟩ 2
        (fun _ => default)).fn = ⟨[0, 1], [2], 2, [0, 1], [2], [0, 1], [2], []⟩ ∧
      (Function.pullGradientAt [[], [], [0, 1]] 8 ⟨[0, 1], [2], 2, [0, 1], [2], [0, 1], [2], []⟩ 2
        (fun _ => default)).store = fun _ => default) :=
  C9_seedError [[], [], [0, 1]] 8 ⟨[0, 1], [2], 2, [0, 1], [2], [0, 1], [2], []⟩ 2
    (fun _ => default) (by decide)

/-- C10: constructing a `Function` raises `EmptyFunctionError` exactly when the
given target set is empty; otherwise the construction succeeds, keeps the
specified sets, and `compiled()` is false on the new function. -/
theorem C10_emptyFunctionError (sources targets : List Nat) (target : Nat) :
    (Function.ofSourcesTargets sources targets = .error .EmptyFunctionError ↔ targets = []) ∧
    (Function.ofTargets targets = .error .EmptyFunctionError ↔ targets = []) ∧
    (targets ≠ [] → ∃ f, Function.ofSourcesTargets sources targets = .ok f ∧
      f.mSpecifiedSources = sources ∧ f.mSpecifiedTargets = targets ∧ f.compiled = false) ∧
    (targets ≠ [] → ∃ f, Function.ofTargets targets = .ok f ∧
      f.mSpecifiedSources = [] ∧ f.mSpecifiedTargets = targets ∧ f.compiled = false) ∧
    (∃ f, Function.ofTarget target = .ok f ∧
      f.mSpecifiedSources = [] ∧ f.mSpecifiedTargets = [target] ∧ f.compiled = false) := by
  cases targets with
  | nil =>
    simp [Function.ofSourcesTargets, Function.ofTargets, Function.ofTarget,
      Function.setReferenceTarget, setInsert, Function.compiled]
  | cons t ts =>
    simp [Function.ofSourcesTargets, Function.ofTargets, Function.ofTarget,
      Function.setReferenceTarget, setInsert, Function.compiled]

/-! ## Claims about `Function`: order of the passes -/

theorem Function.evaluate_store_of_compiled (g : Graph) (fuel : Nat) (f : Function) (σ : Store)
    (hc : f.compiled = true) :
    (f.evaluate g fuel σ).store = f.evaluateCalls.foldl Computation.evaluate σ := by
  simp [Function.evaluate, Function.compileIfNecessary, hc, Function.evaluateCalls,
    List.foldl_append]

theorem Graph.acyclic_of_decreasing (g : Graph)
    (h : ∀ i < g.length, ∀ c ∈ g.children i, c < i) : g.Acyclic := by
  have hedge : ∀ a b, g.edge a b → b < a := by
    intro a b hab
    by_cases ha : a < g.length
    · exact h a ha b hab
    · have := g.children_of_length_le (not_lt.1 ha)
      simp [Graph.edge, this] at hab
  have htrans : ∀ a b, Relation.TransGen g.edge a b → b < a := by
    intro a b hab
    induction hab with
    | single h1 => exact hedge _ _ h1
    | tail _ h1 ih => exact lt_trans (hedge _ _ h1) ih
  exact fun n hn => lt_irrefl _ (htrans n n hn)

theorem Function.evaluate_eq {g : Graph} {fuel : Nat} {f f1 : Function} (σ : Store)
    (h : f.compileIfNecessary g fuel = (.ok, f1)) :
    f.evaluate g fuel σ = ⟨.ok, f1, f1.mPureTargets.foldl Computation.evaluate
      (f1.mSequence.foldl Computation.evaluate σ)⟩ := by
  simp [Function.evaluate, h]

theorem Function.pushTangent_eq {g : Graph} {fuel : Nat} {f f1 : Function} (σ : Store)
    (h : f.compileIfNecessary g fuel = (.ok, f1)) :
    f.pushTangent g fuel σ = ⟨.ok, f1, f1.mPureTargets.foldl Computation.pushTangent
      (f1.mSequence.foldl Computation.pushTangent σ)⟩ := by
  simp [Function.pushTangent, h]

theorem Function.pullGradient_eq {g : Graph} {fuel : Nat} {f f1 : Function} (σ : Store)
    (h : f.compileIfNecessary g fuel = (.ok, f1)) :
    f.pullGradient g fuel σ = ⟨.ok, f1, f1.mSequence.reverse.foldl Computation.pullGradient
      (f1.mPureTargets.foldl Computation.pullGradient
        (f1.mPureSources.foldl
          (fun s n => Function.update s n
            ((s n).setGradientZero (σ f1.mReferenceTarget).derivativeCodomainShape))
          (f1.mSequence.foldl
            (fun s n => Function.update s n
              ((s n).setGradientZero (σ f1.mReferenceTarget).derivativeCodomainShape)) σ)))⟩ := by
  simp [Function.pullGradient, h]

theorem Function.pullGradientAt_eq {g : Graph} {fuel : Nat} {f f1 : Function} (seed : Nat)
    (σ : Store) (h : f.compileIfNecessary g fuel = (.ok, f1)) (hs : seed ∈ f1.mTargets) :
    f.pullGradientAt g fuel seed σ = f1.pullGradient g fuel
      (Function.update
        (f1.mTargets.foldl
          (fun s n => Function.update s n ((s n).setGradientZero (σ seed).valueShape)) σ)
        seed
        ((f1.mTargets.foldl
          (fun s n => Function.update s n ((s n).setGradientZero (σ seed).valueShape)) σ)
            seed).setDerivativeIdentity) := by
  simp [Function.pullGradientAt, h, hs]

theorem Function.pushTangentAt_eq {g : Graph} {fuel : Nat} {f f1 : Function} (seed : Nat)
    (σ : Store) (h : f.compileIfNecessary g fuel = (.ok, f1)) (hs : seed ∈ f1.mSources) :
    f.pushTangentAt g fuel seed σ = f1.pushTangent g fuel
      (Function.update
        (f1.mSources.foldl
          (fun s n => Function.update s n ((s n).setTangentZero (σ seed).valueShape)) σ)
        seed
        ((f1.mSources.foldl
          (fun s n => Function.update s n ((s n).setTangentZero (σ seed).valueShape)) σ)
            seed).setDerivativeIdentity) := by
  simp [Function.pushTangentAt, h, hs]

theorem Function.compileIfNecessary_of_compiled (g : Graph) (fuel : Nat) (f : Function)
    (hc : f.compiled = true) : f.compileIfNecessary g fuel = (.ok, f) := by
  simp [Function.compileIfNecessary, hc]

theorem nestedTargets_compile :
    nestedTargetsFunction.compileIfNecessary nestedTargetsGraph 16
      = (.ok, ⟨[], [1, 3], 1, [0], [1, 3], [0], [1, 3], [2]⟩) := by
  decide

/-- C4 fails on the code at `t = x * x; p = t + t; r = p * p` with
`Function f(to(t, r))` and the targets iterated in the order `t`, `r`: the graph
is acyclic, `compile()` succeeds with sequence `[p]` and pure targets `[t, r]`,
and `evaluate()` calls `evaluate` on `p` before it calls it on `t`, a child of
`p` that is not a source.  After `x = 3` the pass leaves `t = 9`, `p = 8`,
`r = 64` where `p = 18`, `r = 324` are the values of the program. -/
theorem C4_nested_target_evaluated_after_parent :
    Graph.Acyclic nestedTargetsGraph ∧
    (nestedTargetsFunction.evaluate nestedTargetsGraph 16 nestedTargetsStore).status = .ok ∧
    (nestedTargetsFunction.evaluate nestedTargetsGraph 16 nestedTargetsStore).fn.evaluateCalls
      = [2, 1, 3] ∧
    1 ∈ nestedTargetsGraph.children 2 ∧
    1 ∉ (nestedTargetsFunction.evaluate nestedTargetsGraph 16 nestedTargetsStore).fn.mSources ∧
    ((nestedTargetsFunction.evaluate nestedTargetsGraph 16 nestedTargetsStore).store 1).mValue = 9 ∧
    ((nestedTargetsFunction.evaluate nestedTargetsGraph 16 nestedTargetsStore).store 2).mValue = 8 ∧
    ((nestedTargetsFunction.evaluate nestedTargetsGraph 16 nestedTargetsStore).store 3).mValue
      = 64 := by
  rw [Function.evaluate_eq nestedTargetsStore nestedTargets_compile]
  exact ⟨Graph.acyclic_of_decreasing _ (by decide), by decide, by decide, by decide, by decide,
    by decide, by decide, by decide⟩

theorem nestedTargets_compiled :
    Function.compileIfNecessary nestedTargetsGraph 16
        ⟨[], [1, 3], 1, [0], [1, 3], [0], [1, 3], [2]⟩
      = (.ok, ⟨[], [1, 3], 1, [0], [1, 3], [0], [1, 3], [2]⟩) :=
  Function.compileIfNecessary_of_compiled _ _ _ (by decide)

/-- C5 fails on the code at `t = x * x; p = t + t; r = p * p` with
`Function f(to(t, r))`, the targets iterated in the order `t`, `r`, at `x = 3`:
`pullGradientAt(r)` calls `pullGradient` on `t` before it calls it on `p`, a
visited parent of `t`, so the gradient of `t` is pulled back before `p` has
added to it, and `d(x)` ends as `0` where the derivative of `r = 4 x^4` is
`432`. -/
theorem C5_nested_target_pulled_before_parent :
    Graph.Acyclic nestedTargetsGraph ∧
    (nestedTargetsFunction.pullGradientAt nestedTargetsGraph 16 3 nestedTargetsStoreAt3).status
      = .ok ∧
    (nestedTargetsFunction.pullGradientAt nestedTargetsGraph 16 3
      nestedTargetsStoreAt3).fn.pullGradientCalls = [1, 3, 2] ∧
    1 ∈ nestedTargetsGraph.children 2 ∧
    1 ∉ (nestedTargetsFunction.pullGradientAt nestedTargetsGraph 16 3
      nestedTargetsStoreAt3).fn.mSources ∧
    d (nestedTargetsFunction.pullGradientAt nestedTargetsGraph 16 3 nestedTargetsStoreAt3).store 0
      = 0 ∧
    chainRule nestedTargetsStoreAt3 [0] 0 4 3 = 432 := by
  rw [Function.pullGradientAt_eq 3 nestedTargetsStoreAt3 nestedTargets_compile (by decide),
    Function.pullGradient_eq _ nestedTargets_compiled]
  exact ⟨Graph.acyclic_of_decreasing _ (by decide), by decide, by decide, by decide, by decide,
    by decide, by decide⟩

theorem nestedComposition_compileF :
    nestedCompositionF.compileIfNecessary nestedCompositionGraph 32
      = (.ok, ⟨[0, 1], [2, 4], 2, [0, 1], [2, 4], [0, 1], [2, 4], [3]⟩) := by
  decide

theorem nestedComposition_compileG :
    nestedCompositionG.compileIfNecessary nestedCompositionGraph 32
      = (.ok, ⟨[2, 4], [5], 5, [2, 4], [5], [2, 4], [5], []⟩) := by
  decide

/-- C7 fails on the code at `x = u + v; p = x + x; y = p * v; z = x * y` with
`f = Function(from(u, v), to(x, y))` (targets iterated in the order `x`, `y`)
and `g = Function(from(x, y), to(z))` at `(u, v) = (2, 3)`: the targets of `f`
are the sources of `g`, the values are `z = 150` after both evaluations, and
`g.pullGradientAt(z)` followed by `f.pullGradient()` leaves `d(u) = 30` and
`d(v) = 80`, where the chain rule gives `60` and `110`. -/
theorem C7_nested_targets_break_chain_rule :
    Graph.Acyclic nestedCompositionGraph ∧
    (nestedCompositionF.evaluate nestedCompositionGraph 32 nestedCompositionStore).fn.mTargets
      = (nestedCompositionG.evaluate nestedCompositionGraph 32
          (nestedCompositionF.evaluate nestedCompositionGraph 32
            nestedCompositionStore).store).fn.mSources ∧
    ((nestedCompositionG.evaluate nestedCompositionGraph 32
        (nestedCompositionF.evaluate nestedCompositionGraph 32
          nestedCompositionStore).store).store 5).mValue = 150 ∧
    d (compositionGradient nestedCompositionGraph 32 nestedCompositionF nestedCompositionG 5
        nestedCompositionStore) 0 = 30 ∧
    d (compositionGradient nestedCompositionGraph 32 nestedCompositionF nestedCompositionG 5
        nestedCompositionStore) 1 = 80 ∧
    chainRule nestedCompositionStore [0, 1] 0 6 5 = 60 ∧
    chainRule nestedCompositionStore [0, 1] 1 6 5 = 110 := by
  unfold compositionGradient
  simp only [Function.evaluate_eq _ nestedComposition_compileF,
    Function.evaluate_eq _ nestedComposition_compileG]
  rw [Function.pullGradientAt_eq 5 _
      (Function.compileIfNecessary_of_compiled _ _ _ (by decide)) (by decide),
    Function.pullGradient_eq _ (Function.compileIfNecessary_of_compiled _ _ _ (by decide)),
    Function.pullGradient_eq _ (Function.compileIfNecessary_of_compiled _ _ _ (by decide))]
  exact ⟨Graph.acyclic_of_decreasing _ (by decide), by decide, by decide, by decide, by decide,
    by decide, by decide⟩

theorem composition_compileF :
    compositionF.compileIfNecessary compositionGraph 32
      = (.ok, ⟨[0, 1], [2, 3], 2, [0, 1], [2, 3], [0, 1], [2, 3], []⟩) := by
  decide

theorem composition_compileG :
    compositionG.compileIfNecessary compositionGraph 32
      = (.ok, ⟨[2, 3], [4], 4, [2, 3], [4], [2, 3], [4], []⟩) := by
  decide

/-- The scenario "Function composition" of the tests: for `x = u + v`,
`y = u * v`, `z = x * y` at `(u, v) = (2, 3)` the passes give `z = 30`,
`d(u) = 21`, `d(v) = 16`, as the chain rule does. -/
theorem composition_example :
    ((compositionG.evaluate compositionGraph 32
        (compositionF.evaluate compositionGraph 32 compositionStore).store).store 4).mValue = 30 ∧
    d (compositionGradient compositionGraph 32 compositionF compositionG 4 compositionStore) 0
      = 21 ∧
    d (compositionGradient compositionGraph 32 compositionF compositionG 4 compositionStore) 1
      = 16 := by
  unfold compositionGradient
  simp only [Function.evaluate_eq _ composition_compileF,
    Function.evaluate_eq _ composition_compileG]
  rw [Function.pullGradientAt_eq 4 _
      (Function.compileIfNecessary_of_compiled _ _ _ (by decide)) (by decide),
    Function.pullGradient_eq _ (Function.compileIfNecessary_of_compiled _ _ _ (by decide)),
    Function.pullGradient_eq _ (Function.compileIfNecessary_of_compiled _ _ _ (by decide))]
  exact ⟨by decide, by decide, by decide⟩

/-! ## Claims about `Function`: reverse mode does not read stale derivatives -/

theorem mem_setInsert {s : List Nat} {x n : Nat} : n ∈ setInsert s x ↔ n ∈ s ∨ n = x := by
  unfold setInsert
  split
  · constructor
    · exact Or.inl
    · rintro (h | h)
      · exact h
      · subst h; assumption
  · simp

theorem Function.clear_classify (f : Function) (y : NodeInfo) : (f.classify y).clear = f.clear := by
  unfold Function.classify Function.clear
  split <;> split <;> rfl

theorem Function.clear_foldl_classify (Y : List NodeInfo) :
    ∀ f : Function, (Y.foldl Function.classify f).clear = f.clear := by
  induction Y with
  | nil => intro f; rfl
  | cons y Y ih => intro f; rw [List.foldl_cons, ih, Function.clear_classify]

theorem Function.view_clear (f : Function) : f.clear.view = f.view := rfl

theorem Function.clear_clear (f : Function) : f.clear.clear = f.clear := rfl

theorem Function.view_eq_of_clear_eq {f f1 : Function} (h : f1.clear = f.clear) :
    f1.view = f.view := by
  rw [← Function.view_clear f1, h, Function.view_clear]

theorem Function.compile_eq (g : Graph) (fuel : Nat) (f : Function) :
    f.compile g fuel =
      match (f.view.yields g fuel).status with
      | .done _ => (.ok, (f.view.yields g fuel).state.foldl Function.classify f.clear)
      | .thrown => (.raised .CyclicDependencyError, f.clear)
      | .timeout => (.timeout, (f.view.yields g fuel).state.foldl Function.classify f.clear) := by
  have hf := forEach_fold g f.view fuel Function.classify f.clear
  unfold Function.compile
  simp only [hf.1, hf.2]
  cases (f.view.yields g fuel).status <;>
    simp only [Function.clear_foldl_classify, Function.clear_clear]

theorem Function.compile_state_clear (g : Graph) (fuel : Nat) (f : Function) :
    (f.compile g fuel).2.clear = f.clear := by
  rw [Function.compile_eq]
  cases (f.view.yields g fuel).status <;>
    simp only [Function.clear_foldl_classify, Function.clear_clear]

theorem Function.compile_congr (g : Graph) (fuel : Nat) {f f1 : Function}
    (h : f1.clear = f.clear) : f1.compile g fuel = f.compile g fuel := by
  unfold Function.compile
  rw [h, Function.view_eq_of_clear_eq h]

theorem Function.compile_idem (g : Graph) (fuel : Nat) (f : Function) :
    (f.compile g fuel).2.compile g fuel = f.compile g fuel :=
  Function.compile_congr g fuel (Function.compile_state_clear g fuel f)

theorem Function.compileIfNecessary_idem {g : Graph} {fuel : Nat} {f f1 : Function}
    (h : f.compileIfNecessary g fuel = (.ok, f1)) :
    f1.compileIfNecessary g fuel = (.ok, f1) := by
  unfold Function.compileIfNecessary at h ⊢
  cases hc : f.compiled with
  | true =>
    rw [hc] at h
    simp only [Bool.not_true, Bool.false_eq_true, if_false, Prod.mk.injEq, true_and] at h
    subst h
    simp [hc]
  | false =>
    rw [hc] at h
    simp only [Bool.not_false, if_true] at h
    cases hc1 : f1.compiled with
    | true => simp
    | false =>
      simp only [Bool.not_false, if_true]
      have := Function.compile_idem g fuel f
      rw [h] at this
      exact this

theorem Function.Consistent.classify {f : Function} (h : f.Consistent) (y : NodeInfo) :
    (f.classify y).Consistent := by
  obtain ⟨h1, h2⟩ := h
  unfold Function.classify
  split
  · split
    · refine ⟨fun n hn => mem_setInsert.2 (Or.inl (h1 n hn)), fun n hn => ?_⟩
      rcases mem_setInsert.1 hn with h3 | h3
      · rcases h2 n h3 with h4 | h4
        · exact Or.inl h4
        · exact Or.inr (mem_setInsert.2 (Or.inl h4))
      · exact Or.inr (mem_setInsert.2 (Or.inr h3))
    · refine ⟨h1, fun n hn => ?_⟩
      rcases mem_setInsert.1 hn with h3 | h3
      · rcases h2 n h3 with h4 | h4
        · exact Or.inl (mem_setInsert.2 (Or.inl h4))
        · exact Or.inr h4
      · exact Or.inl (mem_setInsert.2 (Or.inr h3))
  · split
    · refine ⟨fun n hn => ?_, fun n hn => ?_⟩
      · rcases mem_setInsert.1 hn with h3 | h3
        · exact mem_setInsert.2 (Or.inl (h1 n h3))
        · exact mem_setInsert.2 (Or.inr h3)
      · rcases h2 n hn with h4 | h4
        · exact Or.inl h4
        · exact Or.inr (mem_setInsert.2 (Or.inl h4))
    · exact ⟨h1, h2⟩

theorem Function.Consistent.foldl_classify (Y : List NodeInfo) :
    ∀ f : Function, f.Consistent → (Y.foldl Function.classify f).Consistent := by
  induction Y with
  | nil => intro f h; exact h
  | cons y Y ih => intro f h; exact ih _ (h.classify y)

theorem Function.consistent_clear (f : Function) : f.clear.Consistent :=
  ⟨by simp [Function.clear], by simp [Function.clear]⟩

theorem Function.compile_consistent (g : Graph) (fuel : Nat) (f : Function) :
    (f.compile g fuel).2.Consistent := by
  have hc := Function.Consistent.foldl_classify (f.view.yields g fuel).state f.clear
    f.consistent_clear
  rw [Function.compile_eq]
  cases (f.view.yields g fuel).status
  · exact hc
  · exact Function.consistent_clear _
  · exact hc

theorem Function.compileIfNecessary_consistent (g : Graph) (fuel : Nat) {f : Function}
    (h : f.Consistent) : (f.compileIfNecessary g fuel).2.Consistent := by
  unfold Function.compileIfNecessary
  split
  · exact Function.compile_consistent g fuel f
  · exact h

theorem Computation.ObsEq.sameValue {a b : Computation} (h : a.ObsEq b) : a.SameValue b :=
  ⟨h.1, h.2.1⟩

theorem Computation.ObsEq.derivative {a b : Computation} (h : a.ObsEq b) :
    a.derivative.1 = b.derivative.1 ∧ a.derivative.2.ObsEq b.derivative.2 := by
  obtain ⟨va, da, ⟨sa, doma, coda⟩, ea⟩ := a
  obtain ⟨vb, db, ⟨sb, domb, codb⟩, eb⟩ := b
  obtain ⟨h1, h2, h3, h4⟩ := h
  simp only [MapDescription.mk.injEq] at h1 h2 h3 h4
  obtain ⟨rfl, rfl, rfl⟩ := h3
  subst h1 h2
  cases sa <;> simp_all [Computation.derivative, Computation.ObsEq, generate]

theorem Computation.SameValue.derivative_snd {a b : Computation} (h : a.SameValue b) :
    a.derivative.2.SameValue b.derivative.2 := by
  unfold Computation.derivative Computation.SameValue at *
  split <;> split <;> exact h

theorem Computation.ObsEq.addGradient {a b : Computation} (h : a.ObsEq b) (gradient : Int) :
    (a.addGradient gradient).ObsEq (b.addGradient gradient) := by
  obtain ⟨va, da, ⟨sa, doma, coda⟩, ea⟩ := a
  obtain ⟨vb, db, ⟨sb, domb, codb⟩, eb⟩ := b
  obtain ⟨h1, h2, h3, h4⟩ := h
  simp only [MapDescription.mk.injEq] at h1 h2 h3 h4
  obtain ⟨rfl, rfl, rfl⟩ := h3
  subst h1 h2
  cases sa <;> simp_all [Computation.addGradient, Computation.ObsEq]

theorem Computation.SameValue.addGradient_any {a b : Computation} (h : a.SameValue b)
    (ga gb : Int) : (a.addGradient ga).SameValue (b.addGradient gb) := by
  unfold Computation.addGradient Computation.SameValue at *
  split <;> split <;> exact h

theorem Computation.SameValue.setGradientZero {a b : Computation} (h : a.SameValue b)
    (shape : Shape) : (a.setGradientZero shape).ObsEq (b.setGradientZero shape) := by
  obtain ⟨h1, h2⟩ := h
  simp [Computation.setGradientZero, Computation.ObsEq, h1, h2]

theorem Computation.SameValue.setDerivativeIdentity {a b : Computation} (h : a.SameValue b) :
    a.setDerivativeIdentity.ObsEq b.setDerivativeIdentity := by
  obtain ⟨h1, h2⟩ := h
  simp [Computation.setDerivativeIdentity, Computation.ObsEq, h1, h2]

theorem Agree.update {Z : Nat → Prop} {σ1 σ2 : Store} (h : Agree Z σ1 σ2) (n : Nat)
    {c1 c2 : Computation} (hs : c1.SameValue c2) (ho : Z n → c1.ObsEq c2) :
    Agree Z (Function.update σ1 n c1) (Function.update σ2 n c2) := by
  refine ⟨fun m => ?_, fun m hm => ?_⟩
  · by_cases hmn : m = n
    · subst hmn; simpa using hs
    · simpa [Function.update_noteq hmn] using h.1 m
  · by_cases hmn : m = n
    · subst hmn; simpa using ho hm
    · simpa [Function.update_noteq hmn] using h.2 m hm

theorem Agree.update_insert {Z : Nat → Prop} {σ1 σ2 : Store} (h : Agree Z σ1 σ2) (n : Nat)
    {c1 c2 : Computation} (ho : c1.ObsEq c2) :
    Agree (fun m => Z m ∨ m = n) (Function.update σ1 n c1) (Function.update σ2 n c2) := by
  refine ⟨fun m => ?_, fun m hm => ?_⟩
  · by_cases hmn : m = n
    · subst hmn; simpa using ho.sameValue
    · simpa [Function.update_noteq hmn] using h.1 m
  · by_cases hmn : m = n
    · subst hmn; simpa using ho
    · rcases hm with hm | hm
      · simpa [Function.update_noteq hmn] using h.2 m hm
      · exact absurd hm hmn

theorem Agree.weaken {Z Z' : Nat → Prop} {σ1 σ2 : Store} (h : Agree Z σ1 σ2)
    (hz : ∀ n, Z' n → Z n) : Agree Z' σ1 σ2 :=
  ⟨h.1, fun n hn => h.2 n (hz n hn)⟩

theorem Expr.value_congr {σ1 σ2 : Store} (h : ∀ n, (σ1 n).mValue = (σ2 n).mValue) :
    ∀ e : Expr, e.value σ1 = e.value σ2
  | .var n => by simp [Expr.value, Computation.value, h n]
  | .sum x y => by simp [Expr.value, Expr.value_congr h x, Expr.value_congr h y]
  | .sumLitX _ y => by simp [Expr.value, Expr.value_congr h y]
  | .sumLitY x _ => by simp [Expr.value, Expr.value_congr h x]
  | .product x y => by simp [Expr.value, Expr.value_congr h x, Expr.value_congr h y]
  | .productLitX _ y => by simp [Expr.value, Expr.value_congr h y]
  | .productLitY x _ => by simp [Expr.value, Expr.value_congr h x]

theorem Expr.pullBack_agree {Z : Nat → Prop} :
    ∀ (e : Expr) (gradient : Int) {σ1 σ2 : Store}, Agree Z σ1 σ2 →
      Agree Z (e.pullBack gradient σ1) (e.pullBack gradient σ2)
  | .var n, gradient, σ1, σ2, h => by
    simp only [Expr.pullBack]
    exact h.update n ((h.1 n).addGradient_any _ _) (fun hz => (h.2 n hz).addGradient _)
  | .sum x y, gradient, σ1, σ2, h => by
    simp only [Expr.pullBack]
    exact Expr.pullBack_agree y _ (Expr.pullBack_agree x _ h)
  | .sumLitX _ y, gradient, σ1, σ2, h => by
    simp only [Expr.pullBack]
    exact Expr.pullBack_agree y _ h
  | .sumLitY x _, gradient, σ1, σ2, h => by
    simp only [Expr.pullBack]
    exact Expr.pullBack_agree x _ h
  | .product x y, gradient, σ1, σ2, h => by
    simp only [Expr.pullBack]
    have hy : y.value σ1 = y.value σ2 := Expr.value_congr (fun n => (h.1 n).1) y
    have h1 := Expr.pullBack_agree x (gradient * y.value σ1) h
    have hx : x.value (x.pullBack (gradient * y.value σ1) σ1)
        = x.value (x.pullBack (gradient * y.value σ2) σ2) := by
      rw [← hy]
      exact Expr.value_congr (fun n => (h1.1 n).1) x
    rw [← hx, ← hy]
    exact Expr.pullBack_agree y _ h1
  | .productLitX _ y, gradient, σ1, σ2, h => by
    simp only [Expr.pullBack]
    exact Expr.pullBack_agree y _ h
  | .productLitY x _, gradient, σ1, σ2, h => by
    simp only [Expr.pullBack]
    exact Expr.pullBack_agree x _ h

theorem Computation.pullGradient_agree {Z : Nat → Prop} {σ1 σ2 : Store} (h : Agree Z σ1 σ2)
    {n : Nat} (hn : Z n) :
    Agree Z (Computation.pullGradient σ1 n) (Computation.pullGradient σ2 n) := by
  unfold Computation.pullGradient
  have he := (h.1 n).2
  rw [← he]
  cases (σ1 n).mEvaluator with
  | none => exact h
  | some e =>
    simp only
    have hd := (h.2 n hn).derivative
    rw [← hd.1]
    exact Expr.pullBack_agree e _ (h.update n (h.1 n).derivative_snd (fun _ => hd.2))

theorem Agree.foldl_pullGradient {Z : Nat → Prop} :
    ∀ (l : List Nat) {σ1 σ2 : Store}, Agree Z σ1 σ2 → (∀ n ∈ l, Z n) →
      Agree Z (l.foldl Computation.pullGradient σ1) (l.foldl Computation.pullGradient σ2)
  | [], _, _, h, _ => h
  | n :: l, _, _, h, hl => by
    simp only [List.foldl_cons]
    exact Agree.foldl_pullGradient l
      (Computation.pullGradient_agree h (hl n (List.mem_cons_self _ _)))
      (fun m hm => hl m (List.mem_cons_of_mem _ hm))

theorem Agree.foldl_setGradientZero {Z : Nat → Prop} (shape : Shape) :
    ∀ (l : List Nat) {σ1 σ2 : Store}, Agree Z σ1 σ2 →
      Agree (fun m => Z m ∨ m ∈ l)
        (l.foldl (fun s n => Function.update s n ((s n).setGradientZero shape)) σ1)
        (l.foldl (fun s n => Function.update s n ((s n).setGradientZero shape)) σ2)
  | [], _, _, h => h.weaken (by simp)
  | n :: l, _, _, h => by
    simp only [List.foldl_cons]
    have h1 := h.update_insert n ((h.1 n).setGradientZero shape)
    exact (Agree.foldl_setGradientZero shape l h1).weaken (by
      intro m hm
      simp only [List.mem_cons] at hm
      tauto)

theorem Computation.valueShape_eq (c : Computation) : c.valueShape = Shape.ofList [1] := rfl

theorem Computation.derivativeCodomainShape_eq (c : Computation) :
    c.derivativeCodomainShape = Shape.ofList [1] := rfl

theorem Function.pullGradientAt_agree (g : Graph) (fuel : Nat) {f f1 : Function} (seed : Nat)
    {σ1 σ2 : Store} (hf1 : f1.Consistent) (hci : f.compileIfNecessary g fuel = (.ok, f1))
    (hs : seed ∈ f1.mTargets) (h : Agree (fun _ => False) σ1 σ2) :
    (f.pullGradientAt g fuel seed σ1).status = .ok ∧
    (f.pullGradientAt g fuel seed σ2).status = .ok ∧
    (f.pullGradientAt g fuel seed σ1).fn = f1 ∧
    (f.pullGradientAt g fuel seed σ2).fn = f1 ∧
    Agree (fun m => m ∈ f1.mSources)
      (f.pullGradientAt g fuel seed σ1).store (f.pullGradientAt g fuel seed σ2).store := by
  have hidem := Function.compileIfNecessary_idem hci
  rw [Function.pullGradientAt_eq seed σ1 hci hs, Function.pullGradientAt_eq seed σ2 hci hs,
    Function.pullGradient_eq _ hidem, Function.pullGradient_eq _ hidem]
  refine ⟨rfl, rfl, rfl, rfl, ?_⟩
  simp only [Computation.valueShape_eq, Computation.derivativeCodomainShape_eq]
  have h1 := Agree.foldl_setGradientZero (Shape.ofList [1]) f1.mTargets h
  have h2 := h1.update_insert seed ((h1.1 seed).setDerivativeIdentity)
  have h3 := Agree.foldl_setGradientZero (Shape.ofList [1]) f1.mSequence h2
  have h4 := Agree.foldl_setGradientZero (Shape.ofList [1]) f1.mPureSources h3
  have h5 := Agree.foldl_pullGradient f1.mPureTargets h4
    (fun n hn => Or.inl (Or.inl (Or.inl (Or.inr (hf1.1 n hn)))))
  have h6 := Agree.foldl_pullGradient f1.mSequence.reverse h5
    (fun n hn => Or.inl (Or.inr (List.mem_reverse.1 hn)))
  refine h6.weaken fun n hn => ?_
  rcases hf1.2 n hn with h7 | h7
  · exact Or.inr h7
  · exact Or.inl (Or.inl (Or.inl (Or.inr h7)))

/-- C8: the gradients that `pullGradientAt(seed)` leaves in the sources depend
only on the graph, the cached values and expressions, and the seed: two runs
from stores that differ only in the cached derivatives and derivative states
of any nodes end with the same status and the same compiled sets, and when they
succeed `d(s)` is the same for every source `s`. -/
theorem C8_pullGradientAt_ignores_cached_derivatives (g : Graph) (fuel : Nat) (f : Function)
    (seed : Nat) (σ1 σ2 : Store) (hf : f.Consistent)
    (hσ : ∀ n, (σ1 n).mValue = (σ2 n).mValue ∧ (σ1 n).mEvaluator = (σ2 n).mEvaluator) :
    (f.pullGradientAt g fuel seed σ1).status = (f.pullGradientAt g fuel seed σ2).status ∧
    (f.pullGradientAt g fuel seed σ1).fn = (f.pullGradientAt g fuel seed σ2).fn ∧
    ((f.pullGradientAt g fuel seed σ1).status = .ok →
      ∀ s ∈ (f.pullGradientAt g fuel seed σ1).fn.mSources,
        d (f.pullGradientAt g fuel seed σ1).store s
          = d (f.pullGradientAt g fuel seed σ2).store s) := by
  have h0 : Agree (fun _ => False) σ1 σ2 := ⟨hσ, fun _ hn => hn.elim⟩
  have hcons := Function.compileIfNecessary_consistent g fuel hf
  rcases hci : f.compileIfNecessary g fuel with ⟨st, f1⟩
  rw [hci] at hcons
  cases st with
  | ok =>
    by_cases hs : seed ∈ f1.mTargets
    · obtain ⟨k1, k2, k3, k4, k5⟩ := Function.pullGradientAt_agree g fuel seed hcons hci hs h0
      refine ⟨by rw [k1, k2], by rw [k3, k4], fun _ s hs' => ?_⟩
      rw [k3] at hs'
      exact (k5.2 s hs').derivative.1
    · simp [Function.pullGradientAt, hci, hs]
  | raised e => simp [Function.pullGradientAt, hci]
  | timeout => simp [Function.pullGradientAt, hci]

theorem multiTarget_compile :
    multiTargetFunction.compileIfNecessary multiTargetGraph 32
      = (.ok, ⟨[0, 1], [2, 3], 2, [0, 1], [2, 3], [0, 1], [2, 3], []⟩) := by
  decide

/-- The scenario "Function with multiple targets" of the tests: for `u = x + y`,
`v = x * y` at `(2, 3)`, `pullGradientAt(u)` gives `(d(x), d(y)) = (1, 1)` and
`pullGradientAt(v)` gives `(3, 2)`, from either store. -/
theorem multiTarget_example :
    d (multiTargetFunction.pullGradientAt multiTargetGraph 32 2 multiTargetStore).store 0 = 1 ∧
    d (multiTargetFunction.pullGradientAt multiTargetGraph 32 2 multiTargetStore).store 1 = 1 ∧
    d (multiTargetFunction.pullGradientAt multiTargetGraph 32 3 multiTargetStore).store 0 = 3 ∧
    d (multiTargetFunction.pullGradientAt multiTargetGraph 32 3 multiTargetStore).store 1 = 2 ∧
    d (multiTargetFunction.pullGradientAt multiTargetGraph 32 3 multiTargetStoreStale).store 0
      = 3 ∧
    d (multiTargetFunction.pullGradientAt multiTargetGraph 32 3 multiTargetStoreStale).store 1
      = 2 := by
  rw [Function.pullGradientAt_eq 2 multiTargetStore multiTarget_compile (by decide),
    Function.pullGradientAt_eq 3 multiTargetStore multiTarget_compile (by decide),
    Function.pullGradientAt_eq 3 multiTargetStoreStale multiTarget_compile (by decide),
    Function.pullGradient_eq _ (Function.compileIfNecessary_of_compiled _ _ _ (by decide)),
    Function.pullGradient_eq _ (Function.compileIfNecessary_of_compiled _ _ _ (by decide)),
    Function.pullGradient_eq _ (Function.compileIfNecessary_of_compiled _ _ _ (by decide))]
  exact ⟨by decide, by decide, by decide, by decide, by decide, by decide⟩

/-- Witness for C8: `u = x + y`, `v = x * y` at `(2, 3)`, seeded at `v`, from the
store of the tests and from a store with other cached derivatives. -/
theorem C8_pullGradientAt_ignores_cached_derivatives_witness :
    (multiTargetFunction.pullGradientAt multiTargetGraph 32 3 multiTargetStore).status
      = (multiTargetFunction.pullGradientAt multiTargetGraph 32 3 multiTargetStoreStale).status ∧
    (multiTargetFunction.pullGradientAt multiTargetGraph 32 3 multiTargetStore).fn
      = (multiTargetFunction.pullGradientAt multiTargetGraph 32 3 multiTargetStoreStale).fn ∧
    ((multiTargetFunction.pullGradientAt multiTargetGraph 32 3 multiTargetStore).status = .ok →
      ∀ s ∈ (multiTargetFunction.pullGradientAt multiTargetGraph 32 3 multiTargetStore).fn.mSources,
        d (multiTargetFunction.pullGradientAt multiTargetGraph 32 3 multiTargetStore).store s
          = d (multiTargetFunction.pullGradientAt multiTargetGraph 32 3
              multiTargetStoreStale).store s) :=
  C8_pullGradientAt_ignores_cached_derivatives multiTargetGraph 32 multiTargetFunction 3
    multiTargetStore multiTargetStoreStale
    ⟨by simp [multiTargetFunction], by simp [multiTargetFunction]⟩
    (fun _ => ⟨rfl, rfl⟩)

/-! ## The derived sets of a compiled function -/

theorem Function.classify_mem (f : Function) (y : NodeInfo) (n : Nat) :
    (n ∈ (f.classify y).mSources → n ∈ f.mSources ∨ n = y.node) ∧
    (n ∈ (f.classify y).mTargets → n ∈ f.mTargets ∨ n = y.node) ∧
    (n ∈ (f.classify y).mPureSources → n ∈ f.mPureSources ∨ n = y.node) ∧
    (n ∈ (f.classify y).mPureTargets → n ∈ f.mPureTargets ∨ n = y.node) := by
  unfold Function.classify
  split <;> split <;> simp only [mem_setInsert] <;>
    exact ⟨fun h => by tauto, fun h => by tauto, fun h => by tauto, fun h => by tauto⟩

theorem Function.classify_eq_of_fresh (f : Function) (y : NodeInfo)
    (h : y.node ∉ f.mSources ∧ y.node ∉ f.mTargets ∧ y.node ∉ f.mPureSources ∧
      y.node ∉ f.mPureTargets) :
    f.classify y =
      { f with
        mSources := f.mSources ++ sourcesOf [y]
        mTargets := f.mTargets ++ targetsOf [y]
        mPureSources := f.mPureSources ++ pureSourcesOf [y]
        mPureTargets := f.mPureTargets ++ pureTargetsOf [y]
        mSequence := f.mSequence ++ sequenceOf [y] } := by
  obtain ⟨n, l, r⟩ := y
  obtain ⟨h1, h2, h3, h4⟩ := h
  simp only at h1 h2 h3 h4
  cases l <;> cases r <;>
    simp [Function.classify, setInsert, h1, h2, h3, h4, sourcesOf, targetsOf, pureSourcesOf,
      pureTargetsOf, sequenceOf]

theorem sourcesOf_cons (y : NodeInfo) (Y : List NodeInfo) :
    sourcesOf (y :: Y) = sourcesOf [y] ++ sourcesOf Y := by
  cases h : y.isLeaf <;> simp [sourcesOf, List.filter_cons, h]

theorem targetsOf_cons (y : NodeInfo) (Y : List NodeInfo) :
    targetsOf (y :: Y) = targetsOf [y] ++ targetsOf Y := by
  cases h : y.isRoot <;> simp [targetsOf, List.filter_cons, h]

theorem pureSourcesOf_cons (y : NodeInfo) (Y : List NodeInfo) :
    pureSourcesOf (y :: Y) = pureSourcesOf [y] ++ pureSourcesOf Y := by
  cases h : (y.isLeaf && !y.isRoot) <;> simp [pureSourcesOf, List.filter_cons, h]

theorem pureTargetsOf_cons (y : NodeInfo) (Y : List NodeInfo) :
    pureTargetsOf (y :: Y) = pureTargetsOf [y] ++ pureTargetsOf Y := by
  cases h : (!y.isLeaf && y.isRoot) <;> simp [pureTargetsOf, List.filter_cons, h]

theorem sequenceOf_cons (y : NodeInfo) (Y : List NodeInfo) :
    sequenceOf (y :: Y) = sequenceOf [y] ++ sequenceOf Y := by
  cases h : (!y.isLeaf && !y.isRoot) <;> simp [sequenceOf, List.filter_cons, h]

theorem foldl_classify_eq (Y : List NodeInfo) :
    ∀ f : Function, (nodes Y).Nodup →
      (∀ y ∈ Y, y.node ∉ f.mSources ∧ y.node ∉ f.mTargets ∧ y.node ∉ f.mPureSources ∧
        y.node ∉ f.mPureTargets) →
      Y.foldl Function.classify f =
        { f with
          mSources := f.mSources ++ sourcesOf Y
          mTargets := f.mTargets ++ targetsOf Y
          mPureSources := f.mPureSources ++ pureSourcesOf Y
          mPureTargets := f.mPureTargets ++ pureTargetsOf Y
          mSequence := f.mSequence ++ sequenceOf Y } := by
  induction Y with
  | nil =>
    intro f _ _
    simp [sourcesOf, targetsOf, pureSourcesOf, pureTargetsOf, sequenceOf]
  | cons y Y ih =>
    intro f hnd hfresh
    have hnd' : (nodes Y).Nodup ∧ y.node ∉ nodes Y := by
      simp only [nodes, List.map_cons, List.nodup_cons] at hnd
      exact ⟨hnd.2, hnd.1⟩
    have hy := hfresh y (List.mem_cons_self _ _)
    rw [List.foldl_cons, ih (f.classify y) hnd'.1]
    · rw [Function.classify_eq_of_fresh f y hy]
      simp only [sourcesOf_cons y Y, targetsOf_cons y Y, pureSourcesOf_cons y Y,
        pureTargetsOf_cons y Y, sequenceOf_cons y Y, List.append_assoc]
    · intro y' hy'
      have hne : y'.node ≠ y.node := by
        intro h
        exact hnd'.2 (h ▸ mem_nodes_of_mem hy')
      have hf := hfresh y' (List.mem_cons_of_mem _ hy')
      have hm := Function.classify_mem f y y'.node
      refine ⟨fun h => ?_, fun h => ?_, fun h => ?_, fun h => ?_⟩
      · rcases hm.1 h with h1 | h1
        · exact hf.1 h1
        · exact hne h1
      · rcases hm.2.1 h with h1 | h1
        · exact hf.2.1 h1
        · exact hne h1
      · rcases hm.2.2.1 h with h1 | h1
        · exact hf.2.2.1 h1
        · exact hne h1
      · rcases hm.2.2.2 h with h1 | h1
        · exact hf.2.2.2 h1
        · exact hne h1

/-- After a successful `compile()` the derived sets are the projections of the
yielded records. -/
theorem Function.compile_ok_eq (g : Graph) (fuel : Nat) (f : Function)
    (h : (f.view.yields g fuel).status = .done ()) :
    f.compile g fuel = (.ok,
      { f with
        mSources := sourcesOf (f.view.yields g fuel).state
        mTargets := targetsOf (f.view.yields g fuel).state
        mPureSources := pureSourcesOf (f.view.yields g fuel).state
        mPureTargets := pureTargetsOf (f.view.yields g fuel).state
        mSequence := sequenceOf (f.view.yields g fuel).state }) := by
  rw [Function.compile_of_done g fuel f h,
    foldl_classify_eq _ f.clear (yields_spec g f.view fuel).1.nodup (by simp [Function.clear])]
  simp [Function.clear]

theorem TopoView.transGen_mono {g : Graph} {v : TopoView} {a b : Nat}
    (h : Relation.TransGen (v.edge g) a b) : Relation.TransGen g.edge a b :=
  h.mono fun _ _ h => h.2

/-- With a single root on an acyclic graph the root is yielded last, it is the
only record flagged `isRoot`. -/
theorem single_root_structure (g : Graph) (S : List Nat) (z : Nat) (fuel : Nat)
    (hacyc : g.Acyclic)
    (hdone : ((⟨[z], S⟩ : TopoView).yields g fuel).status = .done ()) :
    ∃ Y' zrec, ((⟨[z], S⟩ : TopoView).yields g fuel).state = Y' ++ [zrec] ∧ zrec.node = z ∧
      zrec.isRoot = true ∧ ∀ y ∈ Y', y.isRoot = false := by
  obtain ⟨hok, _, hroots, _⟩ := yields_spec g ⟨[z], S⟩ fuel
  have hz : z ∈ nodes ((⟨[z], S⟩ : TopoView).yields g fuel).state :=
    hroots hdone z (by simp)
  generalize ((⟨[z], S⟩ : TopoView).yields g fuel).state = Y at hok hz
  rcases List.eq_nil_or_concat Y with h | ⟨Y', y, h⟩
  · subst h; simp [nodes] at hz
  rw [List.concat_eq_append] at h
  subst h
  have hnd := hok.nodup
  rw [nodes_append] at hnd hz
  have hyn : y.node ∉ nodes Y' := by
    intro hmem
    have := List.nodup_append.1 hnd
    exact this.2.2 hmem (by simp)
  have hy : y.node = z := by
    by_contra hne
    obtain ⟨r, hr, hreach⟩ := hok.reach y (by simp)
    simp only [List.mem_singleton] at hr
    subst hr
    rcases Relation.reflTransGen_iff_eq_or_transGen.1 hreach with h1 | h1
    · exact hne h1
    · have hlt := hok.index_lt_of_trans h1 (by rw [nodes_append]; exact hz)
      rw [nodes_append] at hlt
      have hzm : r ∈ nodes Y' := by
        rcases List.mem_append.1 hz with h2 | h2
        · exact h2
        · simp only [List.mem_singleton] at h2
          exact absurd h2.symm hne
      rw [List.indexOf_append_of_not_mem hyn, List.indexOf_append_of_mem hzm] at hlt
      have := List.indexOf_lt_length.2 hzm
      omega
  refine ⟨Y', y, rfl, hy, ?_, ?_⟩
  · by_contra hr
    simp only [Bool.not_eq_true] at hr
    obtain ⟨p, hedge, r, hr', hreach⟩ := hok.childFlag y (by simp) hr
    simp only [List.mem_singleton] at hr'
    subst hr'
    rw [hy] at hedge
    exact hacyc r (TopoView.transGen_mono (Relation.TransGen.tail' hreach hedge))
  · intro y' hy'
    by_contra hr
    simp only [Bool.not_eq_false] at hr
    have := hok.rootFlag y' (by simp [hy']) hr
    simp only [List.mem_singleton] at this
    exact hyn (by rw [hy, ← this]; exact mem_nodes_of_mem hy')

/-! ## Forward and reverse mode agree (single target) -/

theorem SameVE.refl (σ : Store) : SameVE σ σ := fun _ => ⟨rfl, rfl⟩

theorem SameVE.trans {σ1 σ2 σ3 : Store} (h1 : SameVE σ1 σ2) (h2 : SameVE σ2 σ3) :
    SameVE σ1 σ3 :=
  fun n => ⟨(h1 n).1.trans (h2 n).1, (h1 n).2.trans (h2 n).2⟩

theorem SameVE.symm {σ1 σ2 : Store} (h : SameVE σ1 σ2) : SameVE σ2 σ1 :=
  fun n => ⟨(h n).1.symm, (h n).2.symm⟩

theorem SameVE.update_of_eq {σ : Store} (n : Nat) {c : Computation}
    (h : c.mValue = (σ n).mValue ∧ c.mEvaluator = (σ n).mEvaluator) :
    SameVE (Function.update σ n c) σ := by
  intro m
  by_cases hm : m = n
  · subst hm; simpa using h
  · simp [Function.update_noteq hm]

theorem Computation.derivative_snd_ve (c : Computation) :
    c.derivative.2.mValue = c.mValue ∧ c.derivative.2.mEvaluator = c.mEvaluator := by
  unfold Computation.derivative
  split <;> exact ⟨rfl, rfl⟩

theorem Computation.derivative_idem (c : Computation) :
    c.derivative.2.derivative.1 = c.derivative.1 := by
  obtain ⟨v, dv, ⟨s, dom, cod⟩, e⟩ := c
  cases s <;> simp [Computation.derivative, generate]

theorem Computation.derivative_snd_state (c : Computation) :
    c.derivative.2.mDerivativeDescr.state = .evaluated := by
  obtain ⟨v, dv, ⟨s, dom, cod⟩, e⟩ := c
  cases s <;> simp [Computation.derivative]

theorem Computation.addGradient_ve (c : Computation) (gradient : Int) :
    (c.addGradient gradient).mValue = c.mValue ∧
      (c.addGradient gradient).mEvaluator = c.mEvaluator := by
  unfold Computation.addGradient
  split <;> exact ⟨rfl, rfl⟩

theorem Computation.addGradient_derivative (c : Computation) (gradient : Int)
    (h : c.mDerivativeDescr.state ≠ .identity) :
    (c.addGradient gradient).derivative.1 = c.derivative.1 + gradient := by
  obtain ⟨v, dv, ⟨s, dom, cod⟩, e⟩ := c
  cases s <;> simp_all [Computation.derivative, Computation.addGradient, generate]

theorem Computation.addGradient_state (c : Computation) (gradient : Int)
    (h : (c.addGradient gradient).mDerivativeDescr.state = .identity) :
    c.mDerivativeDescr.state = .identity := by
  obtain ⟨v, dv, ⟨s, dom, cod⟩, e⟩ := c
  cases s <;> simp_all [Computation.addGradient]

theorem d_update_same (σ : Store) (n : Nat) (c : Computation) :
    d (Function.update σ n c) n = c.derivative.1 := by
  simp [d]

theorem d_update_ne (σ : Store) {n m : Nat} (c : Computation) (h : m ≠ n) :
    d (Function.update σ n c) m = d σ m := by
  simp [d, Function.update_noteq h]

theorem d_update_derivative (σ : Store) (n m : Nat) :
    d (Function.update σ n (σ n).derivative.2) m = d σ m := by
  by_cases h : m = n
  · subst h; rw [d_update_same, Computation.derivative_idem]; rfl
  · exact d_update_ne σ _ h

theorem Expr.value_congr_ve {σ1 σ2 : Store} (h : SameVE σ1 σ2) (e : Expr) :
    e.value σ1 = e.value σ2 :=
  Expr.value_congr (fun n => (h n).1) e

theorem Expr.tangent_congr {t t' : Nat → Int} {σ σ' : Store} (hv : SameVE σ σ') :
    ∀ e : Expr, (∀ c ∈ e.operands, t c = t' c) → e.tangent t σ = e.tangent t' σ'
  | .var n, h => by simpa [Expr.tangent] using h n (by simp [Expr.operands])
  | .sum x y, h => by
    simp only [Expr.tangent]
    rw [Expr.tangent_congr hv x (fun c hc => h c (by simp [Expr.operands, hc])),
      Expr.tangent_congr hv y (fun c hc => h c (by simp [Expr.operands, hc]))]
  | .sumLitX _ y, h => by
    simp only [Expr.tangent]
    exact Expr.tangent_congr hv y (fun c hc => h c (by simpa [Expr.operands] using hc))
  | .sumLitY x _, h => by
    simp only [Expr.tangent]
    exact Expr.tangent_congr hv x (fun c hc => h c (by simpa [Expr.operands] using hc))
  | .product x y, h => by
    simp only [Expr.tangent]
    rw [Expr.tangent_congr hv x (fun c hc => h c (by simp [Expr.operands, hc])),
      Expr.tangent_congr hv y (fun c hc => h c (by simp [Expr.operands, hc])),
      Expr.value_congr_ve hv x, Expr.value_congr_ve hv y]
  | .productLitX _ y, h => by
    simp only [Expr.tangent]
    rw [Expr.tangent_congr hv y (fun c hc => h c (by simpa [Expr.operands] using hc))]
  | .productLitY x _, h => by
    simp only [Expr.tangent]
    rw [Expr.tangent_congr hv x (fun c hc => h c (by simpa [Expr.operands] using hc))]

theorem Expr.pushForward_spec :
    ∀ (e : Expr) (σ : Store),
      (e.pushForward σ).1 = e.tangent (d σ) σ ∧
      (∀ n, d (e.pushForward σ).2 n = d σ n) ∧ SameVE (e.pushForward σ).2 σ
  | .var n, σ => by
    refine ⟨rfl, fun m => d_update_derivative σ n m, ?_⟩
    exact SameVE.update_of_eq n (Computation.derivative_snd_ve _)
  | .sum x y, σ => by
    obtain ⟨x1, x2, x3⟩ := Expr.pushForward_spec x σ
    obtain ⟨y1, y2, y3⟩ := Expr.pushForward_spec y (x.pushForward σ).2
    refine ⟨?_, fun n => (y2 n).trans (x2 n), y3.trans x3⟩
    simp only [Expr.pushForward, Expr.tangent, x1, y1]
    rw [Expr.tangent_congr x3 y (fun c _ => x2 c)]
  | .sumLitX _ y, σ => by
    simpa only [Expr.pushForward, Expr.tangent] using Expr.pushForward_spec y σ
  | .sumLitY x _, σ => by
    simpa only [Expr.pushForward, Expr.tangent] using Expr.pushForward_spec x σ
  | .product x y, σ => by
    obtain ⟨x1, x2, x3⟩ := Expr.pushForward_spec x σ
    obtain ⟨y1, y2, y3⟩ := Expr.pushForward_spec y (x.pushForward σ).2
    refine ⟨?_, fun n => (y2 n).trans (x2 n), y3.trans x3⟩
    simp only [Expr.pushForward, Expr.tangent, x1, y1]
    rw [Expr.tangent_congr x3 y (fun c _ => x2 c)]
  | .productLitX _ y, σ => by
    obtain ⟨y1, y2, y3⟩ := Expr.pushForward_spec y σ
    exact ⟨by simp only [Expr.pushForward, Expr.tangent, y1], y2, y3⟩
  | .productLitY x _, σ => by
    obtain ⟨x1, x2, x3⟩ := Expr.pushForward_spec x σ
    exact ⟨by simp only [Expr.pushForward, Expr.tangent, x1], x2, x3⟩

theorem Computation.pushTangent_spec {σ : Store} {n : Nat} {e : Expr}
    (he : (σ n).mEvaluator = some e) :
    d (Computation.pushTangent σ n) n = e.tangent (d σ) σ ∧
    (∀ m, m ≠ n → d (Computation.pushTangent σ n) m = d σ m) ∧
    SameVE (Computation.pushTangent σ n) σ := by
  obtain ⟨h1, h2, h3⟩ := Expr.pushForward_spec e σ
  unfold Computation.pushTangent
  rw [he]
  simp only
  refine ⟨?_, fun m hm => ?_, ?_⟩
  · rw [d_update_same]
    simp [Computation.derivative, h1]
  · rw [d_update_ne _ _ hm, h2 m]
  · refine SameVE.trans (fun m => ?_) h3
    by_cases hm : m = n
    · subst hm; simp
    · simp [Function.update_noteq hm]

theorem fullSum_congr {t : Nat → Int} {σ σ' : Store} {L : List Nat}
    (h : ∀ m ∈ L, d σ' m = d σ m) : fullSum t σ' L = fullSum t σ L := by
  unfold fullSum
  congr 1
  exact List.map_congr_left fun m hm => by rw [h m hm]

theorem fullSum_cons (t : Nat → Int) (σ : Store) (a : Nat) (L : List Nat) :
    fullSum t σ (a :: L) = t a * d σ a + fullSum t σ L := by
  simp [fullSum]

theorem fullSum_append (t : Nat → Int) (σ : Store) (L L' : List Nat) :
    fullSum t σ (L ++ L') = fullSum t σ L + fullSum t σ L' := by
  simp [fullSum]

theorem fullSum_add_at {t : Nat → Int} {σ σ' : Store} {n : Nat} {gradient : Int} :
    ∀ {L : List Nat}, L.Nodup → n ∈ L →
      (∀ m, d σ' m = d σ m + if m = n then gradient else 0) →
      fullSum t σ' L = fullSum t σ L + t n * gradient
  | [], _, hn, _ => by simp at hn
  | a :: L, hnd, hn, hd => by
    rw [fullSum_cons, fullSum_cons]
    obtain ⟨ha, hnd'⟩ := List.nodup_cons.1 hnd
    by_cases han : a = n
    · subst han
      have : fullSum t σ' L = fullSum t σ L :=
        fullSum_congr fun m hm => by
          rw [hd m]
          have : m ≠ a := fun h => ha (h ▸ hm)
          simp [this]
      rw [this, hd a]
      simp only [if_true]
      ring
    · have hn' : n ∈ L := by
        rcases List.mem_cons.1 hn with h | h
        · exact absurd h.symm han
        · exact h
      rw [fullSum_add_at hnd' hn' hd, hd a]
      simp only [han, if_false]
      ring

theorem Expr.pullBack_spec (w : Nat → Int) {L : List Nat} (hnd : L.Nodup) :
    ∀ (e : Expr) (gradient : Int) (σ : Store), (∀ c ∈ e.operands, c ∈ L) →
      (∀ c ∈ e.operands, (σ c).mDerivativeDescr.state ≠ .identity) →
      fullSum w (e.pullBack gradient σ) L = fullSum w σ L + gradient * e.tangent w σ ∧
      SameVE (e.pullBack gradient σ) σ ∧
      (∀ m, m ∉ e.operands → (e.pullBack gradient σ) m = σ m) ∧
      (∀ m, ((e.pullBack gradient σ) m).mDerivativeDescr.state = .identity →
        (σ m).mDerivativeDescr.state = .identity)
  | .var n, gradient, σ, hL, hid => by
    have hn : n ∈ L := hL n (by simp [Expr.operands])
    have hs := hid n (by simp [Expr.operands])
    simp only [Expr.pullBack, Expr.tangent]
    refine ⟨?_, SameVE.update_of_eq n (Computation.addGradient_ve _ _), fun m hm => ?_, fun m hm => ?_⟩
    · rw [@fullSum_add_at _ _ _ _ gradient _ hnd hn, mul_comm]
      intro m
      by_cases hm : m = n
      · subst hm
        rw [d_update_same, Computation.addGradient_derivative _ _ hs]
        simp [d]
      · rw [d_update_ne _ _ hm]
        simp [hm]
    · have : m ≠ n := by simpa [Expr.operands] using hm
      simp [Function.update_noteq this]
    · by_cases hmn : m = n
      · subst hmn
        rw [Function.update_same] at hm
        exact Computation.addGradient_state _ _ hm
      · rwa [Function.update_noteq hmn] at hm
  | .sum x y, gradient, σ, hL, hid => by
    obtain ⟨x1, x2, x3, x4⟩ := Expr.pullBack_spec w hnd x gradient σ
      (fun c hc => hL c (by simp [Expr.operands, hc]))
      (fun c hc => hid c (by simp [Expr.operands, hc]))
    obtain ⟨y1, y2, y3, y4⟩ := Expr.pullBack_spec w hnd y gradient (x.pullBack gradient σ)
      (fun c hc => hL c (by simp [Expr.operands, hc]))
      (fun c hc h => hid c (by simp [Expr.operands, hc]) (x4 c h))
    simp only [Expr.pullBack, Expr.tangent]
    refine ⟨?_, y2.trans x2, fun m hm => ?_, fun m hm => x4 m (y4 m hm)⟩
    · rw [y1, x1, Expr.tangent_congr x2 y (fun _ _ => rfl)]
      ring
    · simp only [Expr.operands, List.mem_append, not_or] at hm
      rw [y3 m hm.2, x3 m hm.1]
  | .sumLitX _ y, gradient, σ, hL, hid => by
    simpa only [Expr.pullBack, Expr.tangent, Expr.operands] using
      Expr.pullBack_spec w hnd y gradient σ hL hid
  | .sumLitY x _, gradient, σ, hL, hid => by
    simpa only [Expr.pullBack, Expr.tangent, Expr.operands] using
      Expr.pullBack_spec w hnd x gradient σ hL hid
  | .product x y, gradient, σ, hL, hid => by
    obtain ⟨x1, x2, x3, x4⟩ := Expr.pullBack_spec w hnd x (gradient * y.value σ) σ
      (fun c hc => hL c (by simp [Expr.operands, hc]))
      (fun c hc => hid c (by simp [Expr.operands, hc]))
    obtain ⟨y1, y2, y3, y4⟩ := Expr.pullBack_spec w hnd y
      (gradient * x.value (x.pullBack (gradient * y.value σ) σ))
      (x.pullBack (gradient * y.value σ) σ)
      (fun c hc => hL c (by simp [Expr.operands, hc]))
      (fun c hc h => hid c (by simp [Expr.operands, hc]) (x4 c h))
    simp only [Expr.pullBack, Expr.tangent]
    refine ⟨?_, y2.trans x2, fun m hm => ?_, fun m hm => x4 m (y4 m hm)⟩
    · rw [y1, x1, Expr.tangent_congr x2 y (fun _ _ => rfl), Expr.value_congr_ve x2 x]
      ring
    · simp only [Expr.operands, List.mem_append, not_or] at hm
      rw [y3 m hm.2, x3 m hm.1]
  | .productLitX k y, gradient, σ, hL, hid => by
    obtain ⟨y1, y2, y3, y4⟩ := Expr.pullBack_spec w hnd y (gradient * k) σ hL hid
    simp only [Expr.pullBack, Expr.tangent]
    exact ⟨by rw [y1]; ring, y2, y3, y4⟩
  | .productLitY x k, gradient, σ, hL, hid => by
    obtain ⟨x1, x2, x3, x4⟩ := Expr.pullBack_spec w hnd x (gradient * k) σ hL hid
    simp only [Expr.pullBack, Expr.tangent]
    exact ⟨by rw [x1]; ring, x2, x3, x4⟩

theorem Computation.pullGradient_spec (w : Nat → Int) {L : List Nat} (hnd : L.Nodup)
    {σ : Store} {n : Nat} {e : Expr} (he : (σ n).mEvaluator = some e) (hn : n ∉ L)
    (hL : ∀ c ∈ e.operands, c ∈ L)
    (hid : ∀ c ∈ e.operands, (σ c).mDerivativeDescr.state ≠ .identity) :
    fullSum w (Computation.pullGradient σ n) L = fullSum w σ L + d σ n * e.tangent w σ ∧
    SameVE (Computation.pullGradient σ n) σ ∧
    (∀ m, m ∉ L → m ≠ n → (Computation.pullGradient σ n) m = σ m) ∧
    d (Computation.pullGradient σ n) n = d σ n ∧
    (∀ m, ((Computation.pullGradient σ n) m).mDerivativeDescr.state = .identity →
      (σ m).mDerivativeDescr.state = .identity) := by
  have hne : ∀ c ∈ e.operands, c ≠ n := fun c hc h => hn (h ▸ hL c hc)
  have hve : SameVE (Function.update σ n (σ n).derivative.2) σ :=
    SameVE.update_of_eq n (Computation.derivative_snd_ve _)
  obtain ⟨h1, h2, h3, h4⟩ := Expr.pullBack_spec w hnd e (d σ n)
    (Function.update σ n (σ n).derivative.2) hL
    (fun c hc => by rw [Function.update_noteq (hne c hc)]; exact hid c hc)
  unfold Computation.pullGradient
  rw [he]
  simp only
  have hnop : n ∉ e.operands := fun h => hne n h rfl
  refine ⟨?_, h2.trans hve, fun m hm hmn => ?_, ?_, fun m hm => ?_⟩
  · show fullSum w (e.pullBack (d σ n) (Function.update σ n (σ n).derivative.2)) L = _
    rw [h1, fullSum_congr (fun m _ => d_update_derivative σ n m),
      Expr.tangent_congr hve e (fun _ _ => rfl)]
  · show (e.pullBack (d σ n) (Function.update σ n (σ n).derivative.2)) m = σ m
    rw [h3 m (fun h => hm (hL m h)), Function.update_noteq hmn]
  · show d (e.pullBack (d σ n) (Function.update σ n (σ n).derivative.2)) n = d σ n
    have h5 := h3 n hnop
    unfold d at h5 ⊢
    rw [h5, Function.update_same, Computation.derivative_idem]
  · have := h4 m hm
    by_cases hmn : m = n
    · subst hmn
      rw [Function.update_same, Computation.derivative_snd_state] at this
      cases this
    · rwa [Function.update_noteq hmn] at this

theorem compOf_append_singleton (Y : List NodeInfo) (y : NodeInfo) :
    compOf (Y ++ [y]) = compOf Y ++ (if y.isLeaf then [] else [y.node]) := by
  cases h : y.isLeaf <;> simp [compOf, List.filter_append, h]

theorem compOf_subset {Y : List NodeInfo} {n : Nat} (h : n ∈ compOf Y) : n ∈ nodes Y := by
  simp only [compOf, List.mem_map, List.mem_filter] at h
  obtain ⟨y, ⟨hy, _⟩, rfl⟩ := h
  exact mem_nodes_of_mem hy

theorem leafSum_append_singleton (t : Nat → Int) (σ : Store) (Y : List NodeInfo)
    (y : NodeInfo) :
    leafSum t σ (Y ++ [y])
      = leafSum t σ Y + (if y.isLeaf then t y.node * d σ y.node else 0) := by
  simp [leafSum]

theorem Sched.nodup {σ : Store} {Y : List NodeInfo} (h : Sched σ Y) : (nodes Y).Nodup := by
  induction h with
  | nil => simp [nodes]
  | leaf _ _ hn ih =>
    rw [nodes_append]
    exact List.Nodup.append ih (by simp) (by simpa using hn)
  | comp _ _ hn _ _ ih =>
    rw [nodes_append]
    exact List.Nodup.append ih (by simp) (by simpa using hn)

theorem Sched.operands_mem {σ : Store} {Y : List NodeInfo} (h : Sched σ Y) :
    ∀ y ∈ Y, y.isLeaf = false → ∀ e, (σ y.node).mEvaluator = some e →
      ∀ c ∈ e.operands, c ∈ nodes Y := by
  induction h with
  | nil => simp
  | leaf _ hl _ ih =>
    intro y' hy' hl' e' he' c hc
    rw [nodes_append]
    rcases List.mem_append.1 hy' with h1 | h1
    · exact List.mem_append_left _ (ih y' h1 hl' e' he' c hc)
    · simp only [List.mem_singleton] at h1
      subst h1
      rw [hl] at hl'
      cases hl'
  | comp _ _ _ he hop ih =>
    intro y' hy' hl' e' he' c hc
    rw [nodes_append]
    rcases List.mem_append.1 hy' with h1 | h1
    · exact List.mem_append_left _ (ih y' h1 hl' e' he' c hc)
    · simp only [List.mem_singleton] at h1
      subst h1
      rw [he] at he'
      cases he'
      exact List.mem_append_left _ (hop c hc)

theorem Topo.sched {g : Graph} {v : TopoView} {σ : Store} (hwf : WellFormed g σ)
    {Y : List NodeInfo} (h : Topo g v Y) : Sched σ Y := by
  induction h with
  | nil => exact Sched.nil
  | @snoc Y y _ hn hc hl ih =>
    cases hleaf : y.isLeaf with
    | true => exact Sched.leaf ih hleaf hn
    | false =>
      rw [hleaf] at hl
      have hl' := hl.symm
      simp only [Bool.or_eq_false_iff] at hl'
      have hns : y.node ∉ v.mSpecifiedLeaves := by
        intro hmem
        have := (isSpecifiedLeaf_iff v y.node).2 hmem
        rw [hl'.1] at this
        cases this
      have hne : g.children y.node ≠ [] := by
        intro hnil
        rw [hnil] at hl'
        simp at hl'
      obtain ⟨c, hcm⟩ := List.exists_mem_of_ne_nil _ hne
      obtain ⟨e, he, _⟩ := (hwf y.node c).1 hcm
      exact Sched.comp ih hleaf hn he
        (fun c' hc' => hc hns c' ((hwf y.node c').2 ⟨e, he, hc'⟩))

theorem Sched.forward {σb : Store} {Y : List NodeInfo} (hs : Sched σb Y) (σ0 : Store)
    (hve : SameVE σ0 σb) :
    SameVE ((compOf Y).foldl Computation.pushTangent σ0) σb ∧
    (∀ n, n ∉ compOf Y → d ((compOf Y).foldl Computation.pushTangent σ0) n = d σ0 n) ∧
    (∀ y ∈ Y, y.isLeaf = false → ∀ e, (σb y.node).mEvaluator = some e →
      d ((compOf Y).foldl Computation.pushTangent σ0) y.node
        = e.tangent (d ((compOf Y).foldl Computation.pushTangent σ0)) σb) := by
  induction hs with
  | nil => exact ⟨hve, fun _ _ => rfl, by simp⟩
  | @leaf Y y _ hl hn ih =>
    obtain ⟨i1, i2, i3⟩ := ih
    rw [compOf_append_singleton, hl]
    simp only [if_true, List.append_nil]
    refine ⟨i1, i2, fun y' hy' hl' e' he' => ?_⟩
    rcases List.mem_append.1 hy' with h1 | h1
    · exact i3 y' h1 hl' e' he'
    · simp only [List.mem_singleton] at h1
      subst h1
      rw [hl] at hl'
      cases hl'
  | @comp Y y e hs' hl hn he hop ih =>
    obtain ⟨i1, i2, i3⟩ := ih
    rw [compOf_append_singleton, hl]
    simp only [Bool.false_eq_true, if_false, List.foldl_append, List.foldl_cons, List.foldl_nil]
    have he1 : (((compOf Y).foldl Computation.pushTangent σ0) y.node).mEvaluator = some e := by
      rw [(i1 y.node).2, he]
    obtain ⟨p1, p2, p3⟩ := Computation.pushTangent_spec he1
    have hagree : ∀ c ∈ nodes Y,
        d (Computation.pushTangent ((compOf Y).foldl Computation.pushTangent σ0) y.node) c
          = d ((compOf Y).foldl Computation.pushTangent σ0) c :=
      fun c hc => p2 c (fun h => hn (h ▸ hc))
    refine ⟨p3.trans i1, fun m hm => ?_, fun y' hy' hl' e' he' => ?_⟩
    · simp only [List.mem_append, List.mem_singleton, not_or] at hm
      rw [p2 m hm.2, i2 m hm.1]
    · rcases List.mem_append.1 hy' with h1 | h1
      · rw [hagree _ (mem_nodes_of_mem h1), i3 y' h1 hl' e' he']
        exact Expr.tangent_congr (SameVE.refl σb) e'
          (fun c hc => (hagree c (hs'.operands_mem y' h1 hl' e' he' c hc)).symm)
      · simp only [List.mem_singleton] at h1
        subst h1
        rw [he] at he'
        cases he'
        rw [p1]
        exact Expr.tangent_congr i1 e (fun c hc => (hagree c (hop c hc)).symm)

theorem Sched.reverse {σb : Store} {Y : List NodeInfo} (hs : Sched σb Y) (t : Nat → Int) :
    (∀ y ∈ Y, y.isLeaf = false → ∀ e, (σb y.node).mEvaluator = some e →
      t y.node = e.tangent t σb) →
    ∀ σ0, SameVE σ0 σb →
      (∀ y ∈ Y, y.isLeaf = false → ∀ e, (σb y.node).mEvaluator = some e →
        ∀ c ∈ e.operands, (σ0 c).mDerivativeDescr.state ≠ .identity) →
      SameVE ((compOf Y).reverse.foldl Computation.pullGradient σ0) σb ∧
      (∀ m, m ∉ nodes Y → ((compOf Y).reverse.foldl Computation.pullGradient σ0) m = σ0 m) ∧
      leafSum t ((compOf Y).reverse.foldl Computation.pullGradient σ0) Y
        = fullSum t σ0 (nodes Y) := by
  induction hs with
  | nil =>
    intro _ σ0 hve _
    exact ⟨hve, fun _ _ => rfl, by simp [leafSum, fullSum, nodes]⟩
  | @leaf Y y _ hl hn ih =>
    intro ht σ0 hve hid
    obtain ⟨i1, i2, i3⟩ := ih (fun y' hy' => ht y' (List.mem_append_left _ hy')) σ0 hve
      (fun y' hy' => hid y' (List.mem_append_left _ hy'))
    rw [compOf_append_singleton, hl]
    simp only [if_true, List.append_nil]
    refine ⟨i1, fun m hm => i2 m (fun h => hm (by rw [nodes_append]; exact List.mem_append_left _ h)),
      ?_⟩
    rw [leafSum_append_singleton, hl, i3, nodes_append, fullSum_append]
    simp only [if_true, fullSum, List.map_cons, List.map_nil, List.sum_cons, List.sum_nil,
      add_zero]
    unfold d
    rw [i2 y.node hn]
  | @comp Y y e hs' hl hn he hop ih =>
    intro ht σ0 hve hid
    have he0 : (σ0 y.node).mEvaluator = some e := by rw [(hve y.node).2, he]
    have hy : y ∈ Y ++ [y] := by simp
    obtain ⟨p1, p2, p3, p4, p5⟩ := Computation.pullGradient_spec t hs'.nodup he0 hn hop
      (hid y hy hl e he)
    obtain ⟨i1, i2, i3⟩ := ih (fun y' hy' => ht y' (List.mem_append_left _ hy'))
      (Computation.pullGradient σ0 y.node) (p2.trans hve)
      (fun y' hy' hl' e' he' c hc h =>
        hid y' (List.mem_append_left _ hy') hl' e' he' c hc (p5 c h))
    rw [compOf_append_singleton, hl]
    simp only [Bool.false_eq_true, if_false, List.reverse_append, List.reverse_cons,
      List.reverse_nil, List.nil_append, List.singleton_append, List.foldl_cons]
    refine ⟨i1, fun m hm => ?_, ?_⟩
    · rw [nodes_append] at hm
      simp only [List.mem_append, List.mem_singleton, not_or] at hm
      rw [i2 m hm.1, p3 m hm.1 hm.2]
    · rw [leafSum_append_singleton, hl, i3, p1, nodes_append, fullSum_append]
      simp only [Bool.false_eq_true, if_false, fullSum, List.map_cons, List.map_nil,
        List.sum_cons, List.sum_nil, add_zero]
      rw [ht y hy hl e he, Expr.tangent_congr hve e (fun _ _ => rfl)]
      ring

theorem foldl_update_apply (F : Computation → Computation) (hF : ∀ c, F (F c) = F c)
    (l : List Nat) : ∀ (σ : Store) (m : Nat),
      (l.foldl (fun s n => Function.update s n (F (s n))) σ) m
        = if m ∈ l then F (σ m) else σ m := by
  induction l with
  | nil => intro σ m; simp
  | cons a l ih =>
    intro σ m
    rw [List.foldl_cons, ih]
    by_cases hm : m = a
    · subst hm
      by_cases hl : m ∈ l <;> simp [hl, hF]
    · by_cases hl : m ∈ l <;> simp [hl, hm, Function.update_noteq hm]

theorem d_of_zero {σ : Store} {n : Nat} (h : (σ n).mDerivativeDescr.state = .zero) :
    d σ n = 0 := by
  simp [d, Computation.derivative, h, generate]

theorem d_of_identity {σ : Store} {n : Nat} (h : (σ n).mDerivativeDescr.state = .identity) :
    d σ n = 1 := by
  simp [d, Computation.derivative, h, generate]

theorem mem_sourcesOf {Y : List NodeInfo} {s : Nat} :
    s ∈ sourcesOf Y ↔ ∃ y ∈ Y, y.isLeaf = true ∧ y.node = s := by
  simp [sourcesOf, and_assoc]

theorem mem_compOf {Y : List NodeInfo} {s : Nat} :
    s ∈ compOf Y ↔ ∃ y ∈ Y, y.isLeaf = false ∧ y.node = s := by
  simp [compOf, and_assoc]

theorem sourcesOf_singleton (y : NodeInfo) :
    sourcesOf [y] = if y.isLeaf then [y.node] else [] := by
  cases h : y.isLeaf <;> simp [sourcesOf, h]

theorem leafSum_indicator (t : Nat → Int) (σ : Store) (s : Nat) (Y : List NodeInfo) :
    (nodes Y).Nodup →
    (∀ y ∈ Y, y.isLeaf = true → t y.node = if y.node = s then 1 else 0) →
    leafSum t σ Y = if s ∈ sourcesOf Y then d σ s else 0 := by
  induction Y with
  | nil => intro _ _; simp [leafSum, sourcesOf]
  | cons y Y ih =>
    intro hnd ht
    simp only [nodes, List.map_cons, List.nodup_cons] at hnd
    have ih' := ih hnd.2 (fun y' hy' => ht y' (List.mem_cons_of_mem _ hy'))
    have hcons : leafSum t σ (y :: Y)
        = (if y.isLeaf then t y.node * d σ y.node else 0) + leafSum t σ Y := by
      simp [leafSum]
    rw [hcons, ih', sourcesOf_cons, sourcesOf_singleton]
    cases hl : y.isLeaf with
    | false => simp
    | true =>
      have hy := ht y (List.mem_cons_self _ _) hl
      by_cases hs : y.node = s
      · have hns : s ∉ sourcesOf Y := by
          intro h
          obtain ⟨y', hy', _, hn⟩ := mem_sourcesOf.1 h
          exact hnd.1 (by rw [hs, ← hn]; exact mem_nodes_of_mem hy')
        rw [hy]
        simp only [if_true, hs, List.singleton_append, List.mem_cons, true_or, one_mul,
          if_neg hns, add_zero]
      · rw [hy]
        have hne : ¬ s = y.node := fun h => hs h.symm
        simp only [if_true, if_neg hs, zero_mul, zero_add, List.singleton_append,
          List.mem_cons, hne, false_or]

theorem fullSum_indicator (t : Nat → Int) (σ : Store) (z : Nat) (L : List Nat) :
    L.Nodup → (∀ m ∈ L, d σ m = if m = z then 1 else 0) →
    fullSum t σ L = if z ∈ L then t z else 0 := by
  induction L with
  | nil => intro _ _; simp [fullSum]
  | cons a L ih =>
    intro hnd hd
    rw [List.nodup_cons] at hnd
    rw [fullSum_cons, ih hnd.2 (fun m hm => hd m (List.mem_cons_of_mem _ hm)),
      hd a (List.mem_cons_self _ _)]
    by_cases ha : a = z
    · subst ha
      simp [hnd.1]
    · have : ¬ z = a := fun h => ha h.symm
      simp [ha, this]

theorem Sched.forward_reverse {σe : Store} {Y : List NodeInfo} (hs : Sched σe Y) {z s : Nat}
    (hz : z ∈ nodes Y) (hsrc : s ∈ sourcesOf Y)
    (hop : ∀ y ∈ Y, y.isLeaf = false → ∀ e, (σe y.node).mEvaluator = some e →
      z ∉ e.operands)
    (σ2 σ0 : Store) (h2 : SameVE σ2 σe) (h0 : SameVE σ0 σe)
    (hleaf : ∀ y ∈ Y, y.isLeaf = true → d σ2 y.node = if y.node = s then 1 else 0)
    (hzero : ∀ m ∈ nodes Y, m ≠ z → (σ0 m).mDerivativeDescr.state = .zero)
    (hid : (σ0 z).mDerivativeDescr.state = .identity) :
    d ((compOf Y).foldl Computation.pushTangent σ2) z
      = d ((compOf Y).reverse.foldl Computation.pullGradient σ0) s := by
  obtain ⟨_, f2, f3⟩ := hs.forward σ2 h2
  obtain ⟨_, _, r3⟩ := hs.reverse (d ((compOf Y).foldl Computation.pushTangent σ2)) f3 σ0 h0
    (fun y hy hl e he c hc h => by
      have hcz : c ≠ z := fun hcz => hop y hy hl e he (hcz ▸ hc)
      rw [hzero c (hs.operands_mem y hy hl e he c hc) hcz] at h
      cases h)
  have hfull := fullSum_indicator (d ((compOf Y).foldl Computation.pushTangent σ2)) σ0 z
    (nodes Y) hs.nodup (fun m hm => by
      by_cases hmz : m = z
      · rw [hmz, d_of_identity hid]; simp
      · rw [d_of_zero (hzero m hm hmz)]; simp [hmz])
  have hleafS := leafSum_indicator (d ((compOf Y).foldl Computation.pushTangent σ2))
    ((compOf Y).reverse.foldl Computation.pullGradient σ0) s Y hs.nodup
    (fun y hy hl => by
      rw [f2 y.node, hleaf y hy hl]
      intro hmem
      obtain ⟨y', hy', hl', hn⟩ := mem_compOf.1 hmem
      have := List.inj_on_of_nodup_map hs.nodup hy' hy hn
      rw [this, hl] at hl'
      cases hl')
  rw [hleafS, hfull] at r3
  simp only [hz, hsrc, if_true] at r3
  exact r3.symm

theorem Computation.evaluate_evaluator (σ : Store) (n m : Nat) :
    ((Computation.evaluate σ n) m).mEvaluator = (σ m).mEvaluator := by
  unfold Computation.evaluate
  cases h : (σ n).mEvaluator with
  | none => rfl
  | some e =>
    by_cases hm : m = n
    · subst hm
      simp [h]
    · simp [Function.update_noteq hm]

theorem foldl_evaluate_evaluator (l : List Nat) : ∀ (σ : Store) (m : Nat),
    ((l.foldl Computation.evaluate σ) m).mEvaluator = (σ m).mEvaluator := by
  induction l with
  | nil => intro _ _; rfl
  | cons a l ih =>
    intro σ m
    rw [List.foldl_cons, ih, Computation.evaluate_evaluator]

theorem WellFormed.congr {g : Graph} {σ σ' : Store}
    (h : ∀ m, (σ' m).mEvaluator = (σ m).mEvaluator) (hwf : WellFormed g σ) :
    WellFormed g σ' := by
  intro n c
  rw [hwf n c, h n]

theorem Expr.operands_ne_nil (e : Expr) : e.operands ≠ [] := by
  induction e with
  | var n => simp [Expr.operands]
  | sum x y ihx _ => simp [Expr.operands, ihx]
  | sumLitX x y ih => simpa [Expr.operands] using ih
  | sumLitY x y ih => simpa [Expr.operands] using ih
  | product x y ihx _ => simp [Expr.operands, ihx]
  | productLitX x y ih => simpa [Expr.operands] using ih
  | productLitY x y ih => simpa [Expr.operands] using ih

theorem sourcesOf_append (A B : List NodeInfo) :
    sourcesOf (A ++ B) = sourcesOf A ++ sourcesOf B := by
  simp [sourcesOf]

theorem targetsOf_append (A B : List NodeInfo) :
    targetsOf (A ++ B) = targetsOf A ++ targetsOf B := by
  simp [targetsOf]

theorem pureSourcesOf_append (A B : List NodeInfo) :
    pureSourcesOf (A ++ B) = pureSourcesOf A ++ pureSourcesOf B := by
  simp [pureSourcesOf]

theorem pureTargetsOf_append (A B : List NodeInfo) :
    pureTargetsOf (A ++ B) = pureTargetsOf A ++ pureTargetsOf B := by
  simp [pureTargetsOf]

theorem sequenceOf_append (A B : List NodeInfo) :
    sequenceOf (A ++ B) = sequenceOf A ++ sequenceOf B := by
  simp [sequenceOf]

theorem compOf_append (A B : List NodeInfo) : compOf (A ++ B) = compOf A ++ compOf B := by
  simp [compOf]

theorem Sched.sources_ne_nil {σ : Store} {Y : List NodeInfo} (h : Sched σ Y) :
    Y ≠ [] → sourcesOf Y ≠ [] := by
  induction h with
  | nil => intro h; exact absurd rfl h
  | @leaf Y y _ hl _ _ =>
    intro _
    rw [sourcesOf_append, sourcesOf_singleton, hl]
    simp
  | @comp Y y e _ _ _ _ hop ih =>
    intro _
    rw [sourcesOf_append]
    rcases List.eq_nil_or_concat Y with h | ⟨Y', y', h⟩
    · subst h
      obtain ⟨c, hc⟩ := List.exists_mem_of_ne_nil _ e.operands_ne_nil
      have := hop c hc
      simp [nodes] at this
    · have hne : Y ≠ [] := by rw [h]; simp
      have := ih hne
      simp [this]

theorem nonroot_forms {Y : List NodeInfo} (h : ∀ y ∈ Y, y.isRoot = false) :
    targetsOf Y = [] ∧ pureTargetsOf Y = [] ∧ sequenceOf Y = compOf Y ∧
      pureSourcesOf Y = sourcesOf Y := by
  refine ⟨?_, ?_, ?_, ?_⟩
  · simp only [targetsOf, List.map_eq_nil_iff, List.filter_eq_nil_iff]
    intro y hy
    simp [h y hy]
  · simp only [pureTargetsOf, List.map_eq_nil_iff, List.filter_eq_nil_iff]
    intro y hy
    simp [h y hy]
  · unfold sequenceOf compOf
    congr 1
    apply List.filter_congr
    intro y hy
    simp [h y hy]
  · unfold pureSourcesOf sourcesOf
    congr 1
    apply List.filter_congr
    intro y hy
    simp [h y hy]

theorem root_forms {y : NodeInfo} (h : y.isRoot = true) :
    targetsOf [y] = [y.node] ∧ pureTargetsOf [y] = compOf [y] ∧ sequenceOf [y] = [] ∧
      pureSourcesOf [y] = [] ∧ (compOf [y]).reverse = compOf [y] := by
  cases hl : y.isLeaf <;>
    simp [targetsOf, pureTargetsOf, compOf, sequenceOf, pureSourcesOf, h, hl]

theorem single_root_forms {Y' : List NodeInfo} {zrec : NodeInfo} (hroot : zrec.isRoot = true)
    (hnon : ∀ y ∈ Y', y.isRoot = false) :
    targetsOf (Y' ++ [zrec]) = [zrec.node] ∧
    sequenceOf (Y' ++ [zrec]) = compOf Y' ∧
    pureTargetsOf (Y' ++ [zrec]) = compOf [zrec] ∧
    pureSourcesOf (Y' ++ [zrec]) = sourcesOf Y' := by
  obtain ⟨a1, a2, a3, a4⟩ := nonroot_forms hnon
  obtain ⟨b1, b2, b3, b4, _⟩ := root_forms hroot
  rw [targetsOf_append, sequenceOf_append, pureTargetsOf_append, pureSourcesOf_append,
    a1, a2, a3, a4, b1, b2, b3, b4]
  simp

theorem mem_compOf_or_sourcesOf {Y : List NodeInfo} {m : Nat} (h : m ∈ nodes Y) :
    m ∈ compOf Y ∨ m ∈ sourcesOf Y := by
  simp only [nodes, List.mem_map] at h
  obtain ⟨y, hy, rfl⟩ := h
  cases hl : y.isLeaf with
  | false => exact Or.inl (mem_compOf.2 ⟨y, hy, hl, rfl⟩)
  | true => exact Or.inr (mem_sourcesOf.2 ⟨y, hy, hl, rfl⟩)

theorem sourcesOf_subset {Y : List NodeInfo} {n : Nat} (h : n ∈ sourcesOf Y) : n ∈ nodes Y := by
  obtain ⟨y, hy, _, rfl⟩ := mem_sourcesOf.1 h
  exact mem_nodes_of_mem hy

theorem Function.pushTangentAt_store {g : Graph} {fuel : Nat} {f1 : Function} (seed : Nat)
    (σ : Store) (h : f1.compileIfNecessary g fuel = (.ok, f1)) (hs : seed ∈ f1.mSources) :
    ∃ sh : Shape, f1.pushTangentAt g fuel seed σ = ⟨.ok, f1,
      (f1.mSequence ++ f1.mPureTargets).foldl Computation.pushTangent
        (Function.update
          (f1.mSources.foldl (fun s n => Function.update s n ((s n).setTangentZero sh)) σ)
          seed
          ((f1.mSources.foldl (fun s n => Function.update s n ((s n).setTangentZero sh)) σ)
              seed).setDerivativeIdentity)⟩ := by
  refine ⟨(σ seed).valueShape, ?_⟩
  rw [Function.pushTangentAt_eq seed σ h hs, Function.pushTangent_eq _ h, List.foldl_append]

theorem Function.pullGradientAt_store {g : Graph} {fuel : Nat} {f1 : Function} (z : Nat)
    (σ : Store) (h : f1.compileIfNecessary g fuel = (.ok, f1)) (hz : z ∈ f1.mTargets) :
    ∃ sh1 sh2 : Shape, f1.pullGradientAt g fuel z σ = ⟨.ok, f1,
      (f1.mPureTargets ++ f1.mSequence.reverse).foldl Computation.pullGradient
        (f1.mPureSources.foldl
          (fun s n => Function.update s n ((s n).setGradientZero sh2))
          (f1.mSequence.foldl
            (fun s n => Function.update s n ((s n).setGradientZero sh2))
            (Function.update
              (f1.mTargets.foldl
                (fun s n => Function.update s n ((s n).setGradientZero sh1)) σ)
              z
              ((f1.mTargets.foldl
                (fun s n => Function.update s n ((s n).setGradientZero sh1)) σ)
                  z).setDerivativeIdentity)))⟩ := by
  rw [Function.pullGradientAt_eq z σ h hz, Function.pullGradient_eq _ h]
  exact ⟨_, _, by rw [List.foldl_append]⟩

theorem foldl_setTangentZero_apply (sh : Shape) (l : List Nat) (σ : Store) (m : Nat) :
    (l.foldl (fun s n => Function.update s n ((s n).setTangentZero sh)) σ) m
      = if m ∈ l then (σ m).setTangentZero sh else σ m :=
  foldl_update_apply (fun c => c.setTangentZero sh) (fun _ => rfl) l σ m

theorem foldl_setGradientZero_apply (sh : Shape) (l : List Nat) (σ : Store) (m : Nat) :
    (l.foldl (fun s n => Function.update s n ((s n).setGradientZero sh)) σ) m
      = if m ∈ l then (σ m).setGradientZero sh else σ m :=
  foldl_update_apply (fun c => c.setGradientZero sh) (fun _ => rfl) l σ m

theorem SameVE.foldl_tangentZero (sh : Shape) (l : List Nat) (σ : Store) :
    SameVE (l.foldl (fun s n => Function.update s n ((s n).setTangentZero sh)) σ) σ := by
  intro m
  rw [foldl_setTangentZero_apply]
  by_cases h : m ∈ l <;> simp [h, Computation.setTangentZero]

theorem SameVE.foldl_gradientZero (sh : Shape) (l : List Nat) (σ : Store) :
    SameVE (l.foldl (fun s n => Function.update s n ((s n).setGradientZero sh)) σ) σ := by
  intro m
  rw [foldl_setGradientZero_apply]
  by_cases h : m ∈ l <;> simp [h, Computation.setGradientZero]

theorem SameVE.update_identity (σ : Store) (n : Nat) :
    SameVE (Function.update σ n (σ n).setDerivativeIdentity) σ :=
  SameVE.update_of_eq n ⟨rfl, rfl⟩

/-- The two sweeps of a schedule with a single root `zrec`, yielded last: the
tangent of the root after the forward sweep seeded at the source `s` is the
gradient of `s` after the reverse sweep seeded at the root. -/
theorem single_target_sweeps {σe : Store} {Y' : List NodeInfo} {zrec : NodeInfo}
    (hs : Sched σe (Y' ++ [zrec]))
    (hop : ∀ y ∈ Y' ++ [zrec], y.isLeaf = false → ∀ e, (σe y.node).mEvaluator = some e →
      zrec.node ∉ e.operands)
    {s : Nat} (hsrc : s ∈ sourcesOf (Y' ++ [zrec])) (σa σb : Store)
    (ha : SameVE σa σe) (hb : SameVE σb σe) (sh sh1 sh2 : Shape) :
    d ((compOf (Y' ++ [zrec])).foldl Computation.pushTangent
        (Function.update
          ((sourcesOf (Y' ++ [zrec])).foldl
            (fun s n => Function.update s n ((s n).setTangentZero sh)) σa)
          s
          (((sourcesOf (Y' ++ [zrec])).foldl
            (fun s n => Function.update s n ((s n).setTangentZero sh)) σa)
              s).setDerivativeIdentity)) zrec.node
      = d ((compOf (Y' ++ [zrec])).reverse.foldl Computation.pullGradient
        ((sourcesOf Y').foldl
          (fun s n => Function.update s n ((s n).setGradientZero sh2))
          ((compOf Y').foldl
            (fun s n => Function.update s n ((s n).setGradientZero sh2))
            (Function.update
              ([zrec.node].foldl
                (fun s n => Function.update s n ((s n).setGradientZero sh1)) σb)
              zrec.node
              (([zrec.node].foldl
                (fun s n => Function.update s n ((s n).setGradientZero sh1)) σb)
                  zrec.node).setDerivativeIdentity)))) s := by
  have hnd := hs.nodup
  rw [nodes_append] at hnd
  have hzn : zrec.node ∉ nodes Y' := fun h =>
    (List.nodup_append.1 hnd).2.2 h (by simp)
  have hz : zrec.node ∈ nodes (Y' ++ [zrec]) := mem_nodes_of_mem (by simp)
  refine Sched.forward_reverse hs hz hsrc hop _ _ ?_ ?_ ?_ ?_ ?_
  · exact (SameVE.update_identity _ _).trans
      ((SameVE.foldl_tangentZero _ _ _).trans ha)
  · exact (SameVE.foldl_gradientZero _ _ _).trans
      ((SameVE.foldl_gradientZero _ _ _).trans
        ((SameVE.update_identity _ _).trans
          ((SameVE.foldl_gradientZero _ _ _).trans hb)))
  · intro y hy hl
    have hmem : y.node ∈ sourcesOf (Y' ++ [zrec]) := mem_sourcesOf.2 ⟨y, hy, hl, rfl⟩
    by_cases hys : y.node = s
    · rw [if_pos hys, hys]
      apply d_of_identity
      rw [Function.update_same]
      rfl
    · rw [if_neg hys]
      apply d_of_zero
      rw [Function.update_noteq hys, foldl_setTangentZero_apply, if_pos hmem]
      rfl
  · intro m hm hmz
    rw [nodes_append] at hm
    have hm' : m ∈ nodes Y' := by
      rcases List.mem_append.1 hm with h | h
      · exact h
      · simp only [List.mem_singleton] at h
        exact absurd h hmz
    rw [foldl_setGradientZero_apply]
    by_cases h1 : m ∈ sourcesOf Y'
    · rw [if_pos h1]
      rfl
    · rw [if_neg h1, foldl_setGradientZero_apply]
      have h2 : m ∈ compOf Y' := (mem_compOf_or_sourcesOf hm').resolve_right h1
      rw [if_pos h2]
      rfl
  · rw [foldl_setGradientZero_apply, if_neg (fun h => hzn (sourcesOf_subset h)),
      foldl_setGradientZero_apply, if_neg (fun h => hzn (compOf_subset h)),
      Function.update_same]
    rfl

/-- C6: a Function with the single target `z`, over an acyclic graph whose
computations are integer Sum and Product expressions (`WellFormed`: the child
set of a node is the set of variables of its expression), given enough steps:
`evaluate()` succeeds and leaves a compiled function with at least one source,
and for every source `s`, from any stores that carry the evaluated values
(whatever derivatives are cached in them), `pushTangentAt(s)` and
`pullGradientAt(z)` succeed and `d(z)` after the former equals `d(s)` after the
latter. -/
theorem C6_forward_reverse_agree (g : Graph) (fuel : Nat) (sources : List Nat) (z : Nat)
    (f : Function) (σ : Store)
    (hf : Function.ofSourcesTargets sources [z] = .ok f)
    (hacyc : g.Acyclic) (hwf : WellFormed g σ) (hfuel : g.budget [z] ≤ fuel) :
    (f.evaluate g fuel σ).status = .ok ∧
    (f.evaluate g fuel σ).fn.mSources ≠ [] ∧
    ∀ s ∈ (f.evaluate g fuel σ).fn.mSources, ∀ σa σb : Store,
      SameVE σa (f.evaluate g fuel σ).store → SameVE σb (f.evaluate g fuel σ).store →
      ((f.evaluate g fuel σ).fn.pushTangentAt g fuel s σa).status = .ok ∧
      ((f.evaluate g fuel σ).fn.pullGradientAt g fuel z σb).status = .ok ∧
      d ((f.evaluate g fuel σ).fn.pushTangentAt g fuel s σa).store z
        = d ((f.evaluate g fuel σ).fn.pullGradientAt g fuel z σb).store s := by
  have hf' : f = ⟨sources, [z], z, [], [], [], [], []⟩ := by
    simp only [Function.ofSourcesTargets, Function.setReferenceTarget, Except.ok.injEq] at hf
    exact hf.symm
  subst hf'
  have hdone : ((⟨[z], sources⟩ : TopoView).yields g fuel).status = .done () := by
    rcases yields_status_of_budget g ⟨[z], sources⟩ fuel hfuel with h | h
    · exact absurd h.2 (TopoView.not_reachableCycle_of_acyclic _ hacyc)
    · exact h.1
  obtain ⟨Y', zrec, hY, hzn, hroot, hnon⟩ := single_root_structure g sources z fuel hacyc hdone
  have hok := (yields_spec g ⟨[z], sources⟩ fuel).1
  rw [hY] at hok
  obtain ⟨q1, q2, q3, q4⟩ := single_root_forms hroot hnon
  have hcomp : Function.compile g fuel ⟨sources, [z], z, [], [], [], [], []⟩
      = (.ok, ⟨sources, [z], z, sourcesOf (Y' ++ [zrec]), [zrec.node], sourcesOf Y',
          compOf [zrec], compOf Y'⟩) := by
    have h := Function.compile_ok_eq g fuel ⟨sources, [z], z, [], [], [], [], []⟩ hdone
    simp only [Function.view] at h
    rw [hY, q1, q2, q3, q4] at h
    exact h
  have hci0 : Function.compileIfNecessary g fuel ⟨sources, [z], z, [], [], [], [], []⟩
      = (.ok, ⟨sources, [z], z, sourcesOf (Y' ++ [zrec]), [zrec.node], sourcesOf Y',
          compOf [zrec], compOf Y'⟩) := by
    rw [← hcomp]
    simp [Function.compileIfNecessary, Function.compiled]
  have hci1 := Function.compileIfNecessary_idem hci0
  rw [Function.evaluate_eq σ hci0]
  simp only
  have hwfe : WellFormed g ((compOf [zrec]).foldl Computation.evaluate
      ((compOf Y').foldl Computation.evaluate σ)) :=
    hwf.congr (fun m => by rw [foldl_evaluate_evaluator, foldl_evaluate_evaluator])
  have hs := Topo.sched hwfe hok.topo
  have hop : ∀ y ∈ Y' ++ [zrec], y.isLeaf = false → ∀ e,
      (((compOf [zrec]).foldl Computation.evaluate
        ((compOf Y').foldl Computation.evaluate σ)) y.node).mEvaluator = some e →
      zrec.node ∉ e.operands := by
    intro y hy _ e he hmem
    have hedge : g.edge y.node z := by
      rw [← hzn]
      exact (hwfe y.node zrec.node).2 ⟨e, he, hmem⟩
    obtain ⟨r, hr, hreach⟩ := hok.reach y hy
    simp only [List.mem_singleton] at hr
    subst hr
    exact hacyc r (Relation.TransGen.tail' (hreach.mono fun _ _ h => h.2) hedge)
  refine ⟨trivial, hs.sources_ne_nil (by simp), fun s hsrc σa σb ha hb => ?_⟩
  obtain ⟨sh, hF⟩ := Function.pushTangentAt_store s σa hci1 hsrc
  obtain ⟨sh1, sh2, hR⟩ := Function.pullGradientAt_store z σb hci1
    (by rw [hzn]; exact List.mem_singleton_self z)
  rw [hF, hR]
  refine ⟨rfl, rfl, ?_⟩
  have hrev : compOf [zrec] ++ (compOf Y').reverse = (compOf (Y' ++ [zrec])).reverse := by
    rw [compOf_append, List.reverse_append, (root_forms hroot).2.2.2.2]
  simp only
  rw [← compOf_append, hrev, ← hzn]
  exact single_target_sweeps hs hop hsrc σa σb ha hb sh sh1 sh2

theorem productGraph_acyclic : productGraph.Acyclic :=
  Graph.acyclic_of_decreasing _ (by decide)

theorem productStore_wellFormed : WellFormed productGraph productStore := by
  intro n c
  match n with
  | 0 => simp [Graph.children, productGraph, productStore]
  | 1 => simp [Graph.children, productGraph, productStore]
  | 2 => simp [Graph.children, productGraph, productStore, Expr.operands]
  | n + 3 =>
    simp [Graph.children, productGraph, productStore]

theorem C6_forward_reverse_agree_witness :
    Function.ofSourcesTargets [0, 1] [2] = .ok productFunction ∧
    productGraph.Acyclic ∧ WellFormed productGraph productStore ∧
    productGraph.budget [2] ≤ 12 ∧
    ((productFunction.evaluate productGraph 12 productStore).status = .ok ∧
    (productFunction.evaluate productGraph 12 productStore).fn.mSources ≠ [] ∧
    ∀ s ∈ (productFunction.evaluate productGraph 12 productStore).fn.mSources,
      ∀ σa σb : Store,
      SameVE σa (productFunction.evaluate productGraph 12 productStore).store →
      SameVE σb (productFunction.evaluate productGraph 12 productStore).store →
      ((productFunction.evaluate productGraph 12 productStore).fn.pushTangentAt
        productGraph 12 s σa).status = .ok ∧
      ((productFunction.evaluate productGraph 12 productStore).fn.pullGradientAt
        productGraph 12 2 σb).status = .ok ∧
      d ((productFunction.evaluate productGraph 12 productStore).fn.pushTangentAt
          productGraph 12 s σa).store 2
        = d ((productFunction.evaluate productGraph 12 productStore).fn.pullGradientAt
          productGraph 12 2 σb).store s) :=
  ⟨rfl, productGraph_acyclic, productStore_wellFormed, by decide,
    C6_forward_reverse_agree productGraph 12 [0, 1] 2 productFunction productStore rfl
      productGraph_acyclic productStore_wellFormed (by decide)⟩

theorem product_compile :
    productFunction.compileIfNecessary productGraph 12
      = (.ok, ⟨[0, 1], [2], 2, [0, 1], [2], [0, 1], [2], []⟩) := by
  decide

/-- The scenario "Product function" of the tests: for `z = x * y` at `(2, 3)`,
after `evaluate()` the value of `z` is `6`, `pushTangentAt(x)` and
`pushTangentAt(y)` leave `d(z) = 3` and `d(z) = 2`, and `pullGradientAt(z)`
leaves `(d(x), d(y)) = (3, 2)`. -/
theorem product_example :
    ((productFunction.evaluate productGraph 12 productStore).store 2).value = 6 ∧
    d ((productFunction.evaluate productGraph 12 productStore).fn.pushTangentAt productGraph 12 0
      (productFunction.evaluate productGraph 12 productStore).store).store 2 = 3 ∧
    d ((productFunction.evaluate productGraph 12 productStore).fn.pushTangentAt productGraph 12 1
      (productFunction.evaluate productGraph 12 productStore).store).store 2 = 2 ∧
    d ((productFunction.evaluate productGraph 12 productStore).fn.pullGradientAt productGraph 12 2
      (productFunction.evaluate productGraph 12 productStore).store).store 0 = 3 ∧
    d ((productFunction.evaluate productGraph 12 productStore).fn.pullGradientAt productGraph 12 2
      (productFunction.evaluate productGraph 12 productStore).store).store 1 = 2 := by
  rw [Function.evaluate_eq productStore product_compile]
  simp only
  rw [Function.pushTangentAt_eq 0 _ (Function.compileIfNecessary_of_compiled _ _ _ (by decide))
      (by decide),
    Function.pushTangentAt_eq 1 _ (Function.compileIfNecessary_of_compiled _ _ _ (by decide))
      (by decide),
    Function.pullGradientAt_eq 2 _ (Function.compileIfNecessary_of_compiled _ _ _ (by decide))
      (by decide),
    Function.pushTangent_eq _ (Function.compileIfNecessary_of_compiled _ _ _ (by decide)),
    Function.pushTangent_eq _ (Function.compileIfNecessary_of_compiled _ _ _ (by decide)),
    Function.pullGradient_eq _ (Function.compileIfNecessary_of_compiled _ _ _ (by decide))]
  exact ⟨by decide, by decide, by decide, by decide, by decide⟩

/-! ## Claims about `compile` and the records of `TopoView` -/

theorem Topo.sourcesOf_ne_nil {g : Graph} {v : TopoView} {Y : List NodeInfo} (h : Topo g v Y) :
    Y ≠ [] → sourcesOf Y ≠ [] := by
  induction h with
  | nil => intro h; exact absurd rfl h
  | @snoc Y y _ _ hc hl ih =>
    intro _
    rw [sourcesOf_append]
    rcases List.eq_nil_or_concat Y with h | ⟨Y', y', h⟩
    · subst h
      have hleaf : y.isLeaf = true := by
        rw [hl]
        by_cases hs : y.node ∈ v.mSpecifiedLeaves
        · simp [(isSpecifiedLeaf_iff v y.node).2 hs]
        · have hnil : g.children y.node = [] :=
            List.eq_nil_iff_forall_not_mem.2 fun c hcm => by
              simpa [nodes] using hc hs c hcm
          simp [hnil]
      simp [sourcesOf_singleton, hleaf]
    · have hne : Y ≠ [] := by rw [h]; simp
      simp [ih hne]

theorem Function.compile_ok_done {g : Graph} {fuel : Nat} {f : Function}
    (h : (f.compile g fuel).1 = .ok) : (f.view.yields g fuel).status = .done () := by
  rw [Function.compile_eq] at h
  cases hs : (f.view.yields g fuel).status with
  | done u => rfl
  | thrown => rw [hs] at h; cases h
  | timeout => rw [hs] at h; cases h

/-- C11: after every call of `compile()` that returns normally on a Function
with at least one target (every constructed Function has one), the compiled
source set is not empty, so `compiled()` is true. -/
theorem C11_compiled_after_compile (g : Graph) (fuel : Nat) (f : Function)
    (ht : f.mSpecifiedTargets ≠ []) (hok : (f.compile g fuel).1 = .ok) :
    (f.compile g fuel).2.mSources ≠ [] ∧ (f.compile g fuel).2.compiled = true := by
  have hdone := Function.compile_ok_done hok
  obtain ⟨hY, _, hroots, _⟩ := yields_spec g f.view fuel
  have hne : (f.view.yields g fuel).state ≠ [] := by
    obtain ⟨t, htm⟩ := List.exists_mem_of_ne_nil _ ht
    have := hroots hdone t htm
    intro h
    rw [h] at this
    simp [nodes] at this
  have hsrc := hY.topo.sourcesOf_ne_nil hne
  rw [Function.compile_ok_eq g fuel f hdone]
  refine ⟨hsrc, ?_⟩
  simp only [Function.compiled]
  cases h : sourcesOf (f.view.yields g fuel).state with
  | nil => exact absurd h hsrc
  | cons a l => rfl

/-- Witness for C11: `compile()` of `Function f(from(x, y), to(z))` for
`z = x * y`. -/
theorem C11_compiled_after_compile_witness :
    (productFunction.compile productGraph 12).2.mSources ≠ [] ∧
    (productFunction.compile productGraph 12).2.compiled = true :=
  C11_compiled_after_compile productGraph 12 productFunction (by decide) (by decide)

theorem Function.classify_setRef (f : Function) (r : Nat) (y : NodeInfo) :
    Function.classify { f with mReferenceTarget := r } y
      = { f.classify y with mReferenceTarget := r } := by
  unfold Function.classify
  split <;> split <;> rfl

theorem Function.foldl_classify_setRef (r : Nat) (Y : List NodeInfo) : ∀ f : Function,
    Y.foldl Function.classify { f with mReferenceTarget := r }
      = { Y.foldl Function.classify f with mReferenceTarget := r } := by
  induction Y with
  | nil => intro f; rfl
  | cons y Y ih =>
    intro f
    rw [List.foldl_cons, List.foldl_cons, Function.classify_setRef, ih]

theorem Function.compile_setRef (g : Graph) (fuel : Nat) (f : Function) (r : Nat) :
    Function.compile g fuel { f with mReferenceTarget := r }
      = ((f.compile g fuel).1, { (f.compile g fuel).2 with mReferenceTarget := r }) := by
  rw [Function.compile_eq, Function.compile_eq]
  have hv : Function.view { f with mReferenceTarget := r } = f.view := rfl
  have hc : Function.clear { f with mReferenceTarget := r }
      = { f.clear with mReferenceTarget := r } := rfl
  rw [hv, hc, Function.foldl_classify_setRef]
  cases (f.view.yields g fuel).status <;> rfl

theorem mem_sourcesOf_yields {g : Graph} {v : TopoView} {fuel : Nat}
    (hdone : (v.yields g fuel).status = .done ()) (n : Nat) :
    n ∈ sourcesOf (v.yields g fuel).state ↔
      v.Reaches g n ∧ (n ∈ v.mSpecifiedLeaves ∨ g.children n = []) := by
  obtain ⟨hY, _, hroots, _⟩ := yields_spec g v fuel
  rw [mem_sourcesOf]
  constructor
  · rintro ⟨y, hy, hl, rfl⟩
    refine ⟨hY.reach y hy, ?_⟩
    have := hY.leafFlag y hy
    rw [hl] at this
    have h2 := this.symm
    simp only [Bool.or_eq_true, List.isEmpty_iff] at h2
    exact h2.imp (isSpecifiedLeaf_iff v y.node).1 id
  · rintro ⟨⟨r, hr, hreach⟩, hleaf⟩
    have hn := hY.mem_of_reach hreach (hroots hdone r hr)
    obtain ⟨y, hy, rfl⟩ := List.mem_map.1 hn
    refine ⟨y, hy, ?_, rfl⟩
    rw [hY.leafFlag y hy]
    simp only [Bool.or_eq_true, List.isEmpty_iff]
    exact hleaf.imp (isSpecifiedLeaf_iff v y.node).2 id

/-- C12: `compile()` depends only on the specified sets and the current graph:
from a Function `f` in any state of its derived sets it ends the same way and
leaves the same source, target, pure-source and pure-target sets and the same
sequence as from a Function `f0` with the same specified sets (a freshly
constructed one for instance); and when it succeeds the sources are the nodes
reached from a target of the current graph, along paths that do not continue
through a specified source, that are specified sources or have no children. -/
theorem C12_compile_depends_on_specified_sets (g : Graph) (fuel : Nat) (f f0 : Function)
    (hs : f.mSpecifiedSources = f0.mSpecifiedSources)
    (ht : f.mSpecifiedTargets = f0.mSpecifiedTargets) :
    (f.compile g fuel).1 = (f0.compile g fuel).1 ∧
    (f.compile g fuel).2.mSources = (f0.compile g fuel).2.mSources ∧
    (f.compile g fuel).2.mTargets = (f0.compile g fuel).2.mTargets ∧
    (f.compile g fuel).2.mPureSources = (f0.compile g fuel).2.mPureSources ∧
    (f.compile g fuel).2.mPureTargets = (f0.compile g fuel).2.mPureTargets ∧
    (f.compile g fuel).2.mSequence = (f0.compile g fuel).2.mSequence ∧
    ((f.compile g fuel).1 = .ok → ∀ n, n ∈ (f.compile g fuel).2.mSources ↔
      (∃ t ∈ f.mSpecifiedTargets, Relation.ReflTransGen (f.view.edge g) t n) ∧
        (n ∈ f.mSpecifiedSources ∨ g.children n = [])) := by
  have hclear : f.clear = Function.clear { f0 with mReferenceTarget := f.mReferenceTarget } := by
    simp [Function.clear, hs, ht]
  have hcomp : f.compile g fuel
      = ((f0.compile g fuel).1,
        { (f0.compile g fuel).2 with mReferenceTarget := f.mReferenceTarget }) := by
    rw [Function.compile_congr g fuel hclear, Function.compile_setRef]
  refine ⟨by rw [hcomp], by rw [hcomp], by rw [hcomp], by rw [hcomp], by rw [hcomp],
    by rw [hcomp], fun hok n => ?_⟩
  have hdone := Function.compile_ok_done hok
  rw [Function.compile_ok_eq g fuel f hdone]
  exact mem_sourcesOf_yields hdone n

/-- Witness for C12: the scenario "Recompiling after variable assignment" of the
tests; `f` was compiled for `z = x * y` and is compiled again after `z = u * v`. -/
theorem C12_compile_depends_on_specified_sets_witness :
    (productFunctionCompiled.compile reassignedGraph 12).1
      = (productFunction.compile reassignedGraph 12).1 ∧
    (productFunctionCompiled.compile reassignedGraph 12).2.mSources
      = (productFunction.compile reassignedGraph 12).2.mSources ∧
    (productFunctionCompiled.compile reassignedGraph 12).2.mTargets
      = (productFunction.compile reassignedGraph 12).2.mTargets ∧
    (productFunctionCompiled.compile reassignedGraph 12).2.mPureSources
      = (productFunction.compile reassignedGraph 12).2.mPureSources ∧
    (productFunctionCompiled.compile reassignedGraph 12).2.mPureTargets
      = (productFunction.compile reassignedGraph 12).2.mPureTargets ∧
    (productFunctionCompiled.compile reassignedGraph 12).2.mSequence
      = (productFunction.compile reassignedGraph 12).2.mSequence ∧
    ((productFunctionCompiled.compile reassignedGraph 12).1 = .ok →
      ∀ n, n ∈ (productFunctionCompiled.compile reassignedGraph 12).2.mSources ↔
        (∃ t ∈ productFunctionCompiled.mSpecifiedTargets,
          Relation.ReflTransGen (productFunctionCompiled.view.edge reassignedGraph) t n) ∧
        (n ∈ productFunctionCompiled.mSpecifiedSources ∨ reassignedGraph.children n = [])) :=
  C12_compile_depends_on_specified_sets reassignedGraph 12 productFunctionCompiled
    productFunction rfl rfl

/-- The scenario "Recompiling after variable assignment" of the tests:
`compile()` for `z = x * y` gives the sources `x`, `y`; after `z = u * v` the
same Function is compiled again and the sources are `u`, `v`. -/
theorem recompile_example :
    productFunction.compile productGraph 12 = (.ok, productFunctionCompiled) ∧
    productFunctionCompiled.compile reassignedGraph 12
      = (.ok, ⟨[0, 1], [2], 2, [3, 4], [2], [3, 4], [2], []⟩) := by
  decide

/-- C13: on an acyclic graph, with a sufficient step budget, the iteration runs
to the end, no node is yielded twice, and a node is yielded exactly when it is
reached from a root along a path on which no node other than the last is a
specified leaf. -/
theorem C13_yields_exactly_reachable (g : Graph) (v : TopoView) (fuel : Nat)
    (hacyc : g.Acyclic) (hfuel : g.budget v.mRoots ≤ fuel) :
    (v.yields g fuel).status = .done () ∧
    (nodes (v.yields g fuel).state).Nodup ∧
    ∀ n, n ∈ nodes (v.yields g fuel).state ↔
      ∃ r ∈ v.mRoots, Relation.ReflTransGen (v.edge g) r n := by
  have hdone : (v.yields g fuel).status = .done () := by
    rcases yields_status_of_budget g v fuel hfuel with h | h
    · exact absurd h.2 (v.not_reachableCycle_of_acyclic hacyc)
    · exact h.1
  obtain ⟨hY, _, hroots, _⟩ := yields_spec g v fuel
  refine ⟨hdone, hY.nodup, fun n => ⟨fun hn => ?_, fun ⟨r, hr, hreach⟩ => ?_⟩⟩
  · obtain ⟨y, hy, rfl⟩ := List.mem_map.1 hn
    exact hY.reach y hy
  · exact hY.mem_of_reach hreach (hroots hdone r hr)

/-- Witness for C13: the scenario "View of subgraph": the diamond below the
root `0` with the specified leaf `1`; the node `3` is still reached through `2`. -/
theorem C13_yields_exactly_reachable_witness :
    (TopoView.yields diamondGraph ⟨[0], [1]⟩ 16).status = .done () ∧
    (nodes (TopoView.yields diamondGraph ⟨[0], [1]⟩ 16).state).Nodup ∧
    ∀ n, n ∈ nodes (TopoView.yields diamondGraph ⟨[0], [1]⟩ 16).state ↔
      ∃ r ∈ (⟨[0], [1]⟩ : TopoView).mRoots,
        Relation.ReflTransGen (TopoView.edge diamondGraph ⟨[0], [1]⟩) r n :=
  C13_yields_exactly_reachable diamondGraph ⟨[0], [1]⟩ 16
    (Graph.acyclic_of_increasing _ (by decide)) (by decide)

/-- The chain `0 → 1 → 2` with the specified leaf `1`: the node `2`, reached only
through the specified leaf, is not yielded; and two roots over one child yield
the child once. -/
theorem yields_examples :
    nodes (TopoView.yields [[1], [2], []] ⟨[0], [1]⟩ 16).state = [1, 0] ∧
    nodes (TopoView.yields [[2], [2], []] ⟨[0, 1], []⟩ 16).state = [2, 0, 1] := by
  decide

/-- C14 fails on the code at the graph `r → t` (`r = 1`, `t = 0`) with both
nodes in the root set and the root set iterated in the order `r`, `t`: the
graph is acyclic, the iteration runs to the end, `t` is yielded once, as a
child of `r` with a path of size two, so its record has `isRoot = false`, and
no record of the root `t` has `isRoot = true`.  In `Function f(to(r, t))`
compiled on this graph `t` is then not a target. -/
theorem C14_nested_root_not_flagged :
    nestedRootsGraph.Acyclic ∧
    (TopoView.yields nestedRootsGraph ⟨[1, 0], []⟩ 16).status = .done () ∧
    (TopoView.yields nestedRootsGraph ⟨[1, 0], []⟩ 16).state
      = [⟨0, true, false⟩, ⟨1, false, true⟩] ∧
    0 ∈ (⟨[1, 0], []⟩ : TopoView).mRoots ∧
    (∀ y ∈ (TopoView.yields nestedRootsGraph ⟨[1, 0], []⟩ 16).state,
      y.node = 0 → y.isRoot = false) ∧
    (Function.compile nestedRootsGraph 16 ⟨[], [1, 0], 1, [], [], [], [], []⟩).1 = .ok ∧
    (Function.compile nestedRootsGraph 16 ⟨[], [1, 0], 1, [], [], [], [], []⟩).2.mTargets
      = [1] :=
  ⟨Graph.acyclic_of_decreasing _ (by decide), by decide, by decide, by decide, by decide,
    by decide, by decide⟩

/-- C15: every record yielded with `isRoot = true` holds a node of the root
set, so a node outside the root set is never reported as root. -/
theorem C15_isRoot_implies_root (g : Graph) (v : TopoView) (fuel : Nat) (y : NodeInfo)
    (hy : y ∈ (v.yields g fuel).state) (hr : y.isRoot = true) : y.node ∈ v.mRoots :=
  (yields_spec g v fuel).1.rootFlag y hy hr

/-- Witness for C15: the root of the diamond. -/
theorem C15_isRoot_implies_root_witness :
    (⟨0, false, true⟩ : NodeInfo).node ∈ (⟨[0], []⟩ : TopoView).mRoots :=
  C15_isRoot_implies_root diamondGraph ⟨[0], []⟩ 16 ⟨0, false, true⟩ (by decide) rfl

/-- The scenarios "Diamond graph" and "Multi-root graph" of the tests (`root = 0`,
`root2 = 1`, `x = 2`, `u = 3`, `y = 4` in the second): only the roots carry
`isRoot`. -/
theorem isRoot_examples :
    (TopoView.yields diamondGraph ⟨[0], []⟩ 16).state
      = [⟨3, true, false⟩, ⟨1, false, false⟩, ⟨2, false, false⟩, ⟨0, false, true⟩] ∧
    (TopoView.yields [[2], [2, 3], [4], [4], []] ⟨[0, 1], []⟩ 32).state
      = [⟨4, true, false⟩, ⟨2, false, false⟩, ⟨0, false, true⟩, ⟨3, false, false⟩,
          ⟨1, false, true⟩] := by
  decide

/-- C16: a yielded record has `isLeaf = true` if and only if its node is a
specified leaf or has no children. -/
theorem C16_isLeaf_iff (g : Graph) (v : TopoView) (fuel : Nat) (y : NodeInfo)
    (hy : y ∈ (v.yields g fuel).state) :
    y.isLeaf = true ↔ (y.node ∈ v.mSpecifiedLeaves ∨ g.children y.node = []) := by
  rw [(yields_spec g v fuel).1.leafFlag y hy]
  simp only [Bool.or_eq_true, List.isEmpty_iff]
  exact or_congr (isSpecifiedLeaf_iff v y.node) Iff.rfl

/-- Witness for C16: in the diamond with the specified leaf `1`, the node `2`
has the child `3`, which was yielded earlier, and is not reported as leaf. -/
theorem C16_isLeaf_iff_witness :
    (⟨2, false, false⟩ : NodeInfo).isLeaf = true ↔
      ((⟨2, false, false⟩ : NodeInfo).node ∈ (⟨[0], [1]⟩ : TopoView).mSpecifiedLeaves ∨
        diamondGraph.children (⟨2, false, false⟩ : NodeInfo).node = []) :=
  C16_isLeaf_iff diamondGraph ⟨[0], [1]⟩ 16 ⟨2, false, false⟩ (by decide)

/-! ## Specified leaves that the iteration never meets -/

theorem Path.tryAdd_within {R : Nat → Prop} {g : Graph} (hR : ∀ n c, R n → c ∈ g.children n → R c)
    {p p' : Path} {node : Nat} (hn : R node) (hp : p.Within R)
    (h : p.tryAdd g node = some p') : p'.Within R := by
  unfold Path.tryAdd at h
  split at h
  · cases h
  · simp only [Option.some.injEq] at h
    subst h
    intro e he c hc
    simp only [List.mem_cons] at he
    rcases he with rfl | he
    · exact hR node c hn hc
    · exact hp e he c hc

theorem Path.next_within {R : Nat → Prop} {p : Path} (hp : p.Within R) :
    p.next.2.Within R ∧ ∀ c, p.next.1 = some c → R c := by
  obtain ⟨st, s⟩ := p
  cases st with
  | nil => exact ⟨hp, fun c h => by cases h⟩
  | cons e rest =>
    obtain ⟨n, ci⟩ := e
    cases ci with
    | nil => exact ⟨hp, fun c h => by cases h⟩
    | cons c cs =>
      refine ⟨fun e' he' c' hc' => ?_, fun c' h => ?_⟩
      · simp only [Path.next, List.mem_cons] at he'
        rcases he' with rfl | he'
        · exact hp ⟨n, c :: cs⟩ (List.mem_cons_self _ _) c' (List.mem_cons_of_mem _ hc')
        · exact hp e' (List.mem_cons_of_mem _ he') c' hc'
      · simp only [Path.next, Option.some.injEq] at h
        subst h
        exact hp ⟨n, c :: cs⟩ (List.mem_cons_self _ _) c (List.mem_cons_self _ _)

theorem Path.removeHead_within {R : Nat → Prop} {p : Path} (hp : p.Within R) :
    p.removeHead.Within R :=
  fun e he c hc => hp e (List.mem_of_mem_tail he) c hc

theorem addRoot_congr {R : Nat → Prop} {g : Graph} {v v' : TopoView}
    (hR : ∀ n c, R n → c ∈ g.children n → R c)
    (hL : ∀ n, R n → v'.isSpecifiedLeaf n = v.isSpecifiedLeaf n) :
    ∀ (rs : List Nat) (it : Iterator), (∀ r ∈ rs, R r) → it.mPath.Within R →
      Iterator.addRoot g v' rs it = Iterator.addRoot g v rs it ∧
      ∀ it1 b, Iterator.addRoot g v rs it = .done (it1, b) → it1.Within R := by
  intro rs
  induction rs with
  | nil =>
    intro it _ hp
    refine ⟨rfl, fun it1 b h => ?_⟩
    simp only [Iterator.addRoot, Outcome.done.injEq, Prod.mk.injEq] at h
    obtain ⟨rfl, _⟩ := h
    exact ⟨by simp, hp⟩
  | cons root rest ih =>
    intro it hrs hp
    have hroot : R root := hrs root (List.mem_cons_self _ _)
    have hrest : ∀ r ∈ rest, R r := fun r hr => hrs r (List.mem_cons_of_mem _ hr)
    simp only [Iterator.addRoot]
    by_cases he : it.mPath.isEmpty = true
    · simp only [he, if_true]
      by_cases hv : it.notYetVisited root = true
      · simp only [hv, if_true]
        cases ht : it.mPath.tryAdd g root with
        | none => exact ⟨rfl, fun it1 b h => by cases h⟩
        | some p =>
          have hp' := Path.tryAdd_within hR hroot hp ht
          simp only [hL root hroot]
          by_cases hs : v.isSpecifiedLeaf root = true
          · simp only [hs, if_true]
            refine ⟨trivial, fun it1 b h => ?_⟩
            simp only [Outcome.done.injEq, Prod.mk.injEq] at h
            obtain ⟨rfl, _⟩ := h
            exact ⟨hrest, hp'⟩
          · simp only [hs, Bool.false_eq_true, if_false]
            exact ih { it with mPath := p } hrest hp'
      · simp only [hv, Bool.false_eq_true, if_false]
        exact ih it hrest hp
    · simp only [he, Bool.false_eq_true, if_false]
      refine ⟨trivial, fun it1 b h => ?_⟩
      simp only [Outcome.done.injEq, Prod.mk.injEq] at h
      obtain ⟨rfl, _⟩ := h
      exact ⟨hrs, hp⟩

theorem extend_congr {R : Nat → Prop} {g : Graph} {v v' : TopoView}
    (hR : ∀ n c, R n → c ∈ g.children n → R c)
    (hL : ∀ n, R n → v'.isSpecifiedLeaf n = v.isSpecifiedLeaf n) :
    ∀ (fuel : Nat) (it : Iterator), it.Within R →
      Iterator.extend g v' fuel it = Iterator.extend g v fuel it ∧
      ∀ it1, Iterator.extend g v fuel it = .done it1 → it1.Within R := by
  intro fuel
  induction fuel with
  | zero =>
    intro it _
    exact ⟨rfl, fun it1 h => by cases h⟩
  | succ fuel ih =>
    intro it hit
    obtain ⟨hn1, hn2⟩ := Path.next_within hit.2
    simp only [Iterator.extend]
    rcases hnext : it.mPath.next with ⟨o, p⟩
    rw [hnext] at hn1 hn2
    cases o with
    | none =>
      refine ⟨rfl, fun it1 h => ?_⟩
      simp only [Outcome.done.injEq] at h
      subst h
      exact hit
    | some candidate =>
      have hc : R candidate := hn2 candidate rfl
      simp only
      by_cases hv : it.notYetVisited candidate = true
      · simp only [hv, if_true]
        cases ht : p.tryAdd g candidate with
        | none => exact ⟨rfl, fun it1 h => by cases h⟩
        | some p' =>
          have hp' := Path.tryAdd_within hR hc hn1 ht
          simp only [hL candidate hc]
          by_cases hs : v.isSpecifiedLeaf candidate = true
          · simp only [hs, if_true]
            refine ⟨trivial, fun it1 h => ?_⟩
            simp only [Outcome.done.injEq] at h
            subst h
            exact ⟨hit.1, hp'⟩
          · simp only [hs, Bool.false_eq_true, if_false]
            exact ih { it with mPath := p' } ⟨hit.1, hp'⟩
      · simp only [hv, Bool.false_eq_true, if_false]
        exact ih { it with mPath := p } ⟨hit.1, hn1⟩

theorem findNextValue_congr {R : Nat → Prop} {g : Graph} {v v' : TopoView}
    (hR : ∀ n c, R n → c ∈ g.children n → R c)
    (hL : ∀ n, R n → v'.isSpecifiedLeaf n = v.isSpecifiedLeaf n)
    (fuel : Nat) (it : Iterator) (hit : it.Within R) :
    Iterator.findNextValue g v' fuel it = Iterator.findNextValue g v fuel it ∧
    ∀ it1, Iterator.findNextValue g v fuel it = .done it1 → it1.Within R := by
  obtain ⟨h1, h2⟩ := addRoot_congr hR hL it.mRootsIterator it hit.1 hit.2
  unfold Iterator.findNextValue
  rw [h1]
  cases ha : Iterator.addRoot g v it.mRootsIterator it with
  | thrown => exact ⟨rfl, fun it1 h => by cases h⟩
  | timeout => exact ⟨rfl, fun it1 h => by cases h⟩
  | done r =>
    obtain ⟨it0, b⟩ := r
    have hw := h2 it0 b ha
    cases b with
    | true =>
      refine ⟨rfl, fun it1 h => ?_⟩
      simp only [Outcome.done.injEq] at h
      subst h
      exact hw
    | false =>
      simp only
      by_cases he : it0.mPath.isEmpty = true
      · simp only [he, if_true]
        refine ⟨trivial, fun it1 h => ?_⟩
        simp only [Outcome.done.injEq] at h
        subst h
        exact hw
      · simp only [he, Bool.false_eq_true, if_false]
        exact extend_congr hR hL fuel it0 hw

theorem increment_congr {R : Nat → Prop} {g : Graph} {v v' : TopoView}
    (hR : ∀ n c, R n → c ∈ g.children n → R c)
    (hL : ∀ n, R n → v'.isSpecifiedLeaf n = v.isSpecifiedLeaf n)
    (fuel : Nat) (it : Iterator) (hit : it.Within R) :
    it.increment g v' fuel = it.increment g v fuel ∧
    ∀ it1, it.increment g v fuel = .done it1 → it1.Within R :=
  findNextValue_congr hR hL fuel _ ⟨hit.1, Path.removeHead_within hit.2⟩

theorem forEachLoop_congr {σ : Type} {R : Nat → Prop} {g : Graph} {v v' : TopoView}
    (hR : ∀ n c, R n → c ∈ g.children n → R c)
    (hL : ∀ n, R n → v'.isSpecifiedLeaf n = v.isSpecifiedLeaf n)
    (f : σ → NodeInfo → σ) (fuel : Nat) :
    ∀ (k : Nat) (it : Iterator) (acc : σ), it.Within R →
      forEachLoop g v' f fuel k it acc = forEachLoop g v f fuel k it acc := by
  intro k
  induction k with
  | zero => intro it acc _; rfl
  | succ k ih =>
    intro it acc hit
    obtain ⟨h1, h2⟩ := increment_congr hR hL fuel it hit
    simp only [forEachLoop]
    rw [h1]
    split
    · cases it.mCurrentValue with
      | none => rfl
      | some cur =>
        simp only
        cases hi : it.increment g v fuel with
        | done it1 => exact ih it1 _ (h2 it1 hi)
        | thrown => rfl
        | timeout => rfl
    · rfl

/-- Two views with the same roots whose leaf sets agree on the nodes reached
from the roots yield the same records and end in the same way. -/
theorem yields_congr (g : Graph) (R L L' : List Nat) (fuel : Nat)
    (h : ∀ n, g.ReachableFrom R n → (n ∈ L' ↔ n ∈ L)) :
    (⟨R, L'⟩ : TopoView).yields g fuel = (⟨R, L⟩ : TopoView).yields g fuel := by
  have hR : ∀ n c, g.ReachableFrom R n → c ∈ g.children n → g.ReachableFrom R c :=
    fun n c ⟨r, hr, hreach⟩ hc => ⟨r, hr, hreach.tail hc⟩
  have hL : ∀ n, g.ReachableFrom R n →
      (⟨R, L'⟩ : TopoView).isSpecifiedLeaf n = (⟨R, L⟩ : TopoView).isSpecifiedLeaf n := by
    intro n hn
    rw [Bool.eq_iff_iff, isSpecifiedLeaf_iff, isSpecifiedLeaf_iff]
    exact h n hn
  have hinit : Iterator.Within (g.ReachableFrom R) ⟨R, Path.empty, [], none⟩ :=
    ⟨fun r hr => ⟨r, hr, Relation.ReflTransGen.refl⟩, fun e he => by simp [Path.empty] at he⟩
  obtain ⟨h1, h2⟩ := findNextValue_congr hR hL fuel _ hinit
  unfold TopoView.yields TopoView.forEach TopoView.begin
  simp only
  rw [h1]
  cases hb : Iterator.findNextValue g ⟨R, L⟩ fuel ⟨R, Path.empty, [], none⟩ with
  | done it => exact forEachLoop_congr hR hL _ fuel fuel it [] (h2 it hb)
  | thrown => rfl
  | timeout => rfl

/-- C17: adding to the leaf set a node `x` that is not reachable from any root
leaves the records yielded by the view, and the way the iteration ends,
unchanged, on every graph and for every step budget; and `x` is not yielded. -/
theorem C17_unreachable_leaf_ignored (g : Graph) (R L L' : List Nat) (x : Nat) (fuel : Nat)
    (hx : ¬ ∃ r ∈ R, Relation.ReflTransGen g.edge r x)
    (hL' : ∀ n, n ∈ L' ↔ n = x ∨ n ∈ L) :
    (⟨R, L'⟩ : TopoView).yields g fuel = (⟨R, L⟩ : TopoView).yields g fuel ∧
    x ∉ nodes ((⟨R, L⟩ : TopoView).yields g fuel).state := by
  refine ⟨yields_congr g R L L' fuel fun n hn => ?_, fun hmem => ?_⟩
  · rw [hL']
    refine ⟨fun h => h.resolve_left fun hnx => hx (hnx ▸ hn), Or.inr⟩
  · obtain ⟨y, hy, hyx⟩ := List.mem_map.1 hmem
    obtain ⟨r, hr, hreach⟩ := (yields_spec g ⟨R, L⟩ fuel).1.reach y hy
    exact hx ⟨r, hr, hyx ▸ hreach.mono fun _ _ h => h.2⟩

/-- Witness for C17: the diamond with the root set `{x}` (`x = 1`); the node
`y = 2` of the graph is not reachable from `x` and is added to the leaves. -/
theorem C17_unreachable_leaf_ignored_witness :
    (⟨[1], [2, 3]⟩ : TopoView).yields diamondGraph 16
      = (⟨[1], [3]⟩ : TopoView).yields diamondGraph 16 ∧
    2 ∉ nodes ((⟨[1], [3]⟩ : TopoView).yields diamondGraph 16).state :=
  C17_unreachable_leaf_ignored diamondGraph [1] [3] [2, 3] 2 16
    (by
      rintro ⟨r, hr, hreach⟩
      simp only [List.mem_singleton] at hr
      subst hr
      have hne : ∀ n, Relation.ReflTransGen diamondGraph.edge 1 n → n = 1 ∨ n = 3 := by
        intro n hn
        induction hn with
        | refl => exact Or.inl rfl
        | @tail b c _ hbc ih =>
          rcases ih with rfl | rfl <;>
            simp [Graph.edge, Graph.children, diamondGraph] at hbc
          exact Or.inr hbc
      rcases hne 2 hreach with h | h <;> cases h)
    (by simp)

/-! ## `Node`: child sets and parent owners -/

theorem Graph.getD_append_replicate (g : Graph) (k m : Nat) :
    (g ++ List.replicate k ([] : List Nat))[m]?.getD [] = g[m]?.getD [] := by
  by_cases hlt : m < g.length
  · rw [List.getElem?_append_left hlt]
  · rw [List.getElem?_append_right (by omega), (List.getElem?_eq_none (by omega) : g[m]? = none),
      List.getElem?_replicate]
    split <;> rfl

theorem Graph.children_setChildren (g : Graph) (n m : Nat) (cs : List Nat) :
    (g.setChildren n cs).children m = if m = n then cs else g.children m := by
  unfold Graph.setChildren Graph.children
  simp only [List.getD_eq_getElem?_getD, List.getElem?_set]
  by_cases hm : m = n
  · subst hm
    have hlen : m < (g ++ List.replicate (m + 1 - g.length) ([] : List Nat)).length := by
      simp only [List.length_append, List.length_replicate]
      omega
    simp only [if_true, hlen, Option.getD_some]
  · have hne : ¬ n = m := fun h => hm h.symm
    simp only [hne, if_false, hm]
    exact Graph.getD_append_replicate g _ m

theorem Nodes.children_addParentOwner (h : Nodes) (n : Nat) (owner : Owner) (m : Nat) :
    (h.addParentOwner n owner).children m = h.children m := rfl

theorem Nodes.mem_owners_addParentOwner (h : Nodes) (n : Nat) (owner t : Owner) (m : Nat) :
    t ∈ (h.addParentOwner n owner).mParentOwners m ↔
      t ∈ h.mParentOwners m ∨ (m = n ∧ t = owner) := by
  unfold Nodes.addParentOwner
  by_cases hm : m = n
  · subst hm
    simp only [Function.update_same, true_and]
    by_cases ho : owner ∈ h.mParentOwners m
    · simp only [ho, if_true]
      exact ⟨Or.inl, fun h' => h'.elim id fun h2 => h2 ▸ ho⟩
    · simp [ho]
  · simp [Function.update_noteq hm, hm]

theorem Nodes.mem_owners_removeParentOwner (h : Nodes) (n : Nat) (owner t : Owner) (m : Nat) :
    t ∈ (h.removeParentOwner n owner).mParentOwners m ↔
      t ∈ h.mParentOwners m ∧ ¬ (m = n ∧ t = owner) := by
  unfold Nodes.removeParentOwner
  by_cases hm : m = n
  · subst hm
    simp [Function.update_same]
  · simp [Function.update_noteq hm, hm]

/-- C20: `p.addChild(c)` makes `c` a child of `p`.  When `c` was not a child,
it is added to the child set of `p` and the owner token of `p` is added to the
parent owners of `c`, and nothing else changes; when `c` was a child already the
call changes nothing, so a second `addChild` of the same child has no effect;
the token of `p` is among the parent owners of `c` afterwards, provided it was
when `c` was a child already. -/
theorem C20_addChild (h : Nodes) (p c : Nat) :
    c ∈ (h.addChild p c).children p ∧
    (c ∉ h.children p →
      (h.addChild p c).children p = h.children p ++ [c] ∧
      (∀ t, t ∈ (h.addChild p c).mParentOwners c ↔
        t ∈ h.mParentOwners c ∨ t = .ofNode p)) ∧
    (c ∈ h.children p → h.addChild p c = h) ∧
    (h.addChild p c).addChild p c = h.addChild p c ∧
    (∀ n, n ≠ p → (h.addChild p c).children n = h.children n) ∧
    (∀ n, n ≠ c → (h.addChild p c).mParentOwners n = h.mParentOwners n) ∧
    ((c ∈ h.children p → .ofNode p ∈ h.mParentOwners c) →
      .ofNode p ∈ (h.addChild p c).mParentOwners c) := by
  have hnew : c ∉ h.children p →
      (h.addChild p c).children p = h.children p ++ [c] := by
    intro hc
    simp only [Nodes.addChild, hc, if_false, Nodes.children_addParentOwner]
    simp [Nodes.children, Graph.children_setChildren]
  have hmem : c ∈ (h.addChild p c).children p := by
    by_cases hc : c ∈ h.children p
    · simp [Nodes.addChild, hc]
    · rw [hnew hc]
      simp
  have hown : c ∉ h.children p → ∀ t, t ∈ (h.addChild p c).mParentOwners c ↔
      t ∈ h.mParentOwners c ∨ t = .ofNode p := by
    intro hc t
    simp only [Nodes.addChild, hc, if_false, Nodes.mem_owners_addParentOwner, true_and]
  have hsame : ∀ h' : Nodes, c ∈ h'.children p → h'.addChild p c = h' :=
    fun h' hc => by simp [Nodes.addChild, hc]
  refine ⟨hmem, fun hc => ⟨hnew hc, hown hc⟩, hsame h, hsame _ hmem,
    fun n hn => ?_, fun n hn => ?_, fun hinv => ?_⟩
  · by_cases hc : c ∈ h.children p
    · simp [Nodes.addChild, hc]
    · simp only [Nodes.addChild, hc, if_false, Nodes.children_addParentOwner]
      simp [Nodes.children, Graph.children_setChildren, hn]
  · by_cases hc : c ∈ h.children p
    · simp [Nodes.addChild, hc]
    · simp only [Nodes.addChild, hc, if_false, Nodes.addParentOwner]
      exact Function.update_noteq hn _ _
  · by_cases hc : c ∈ h.children p
    · simpa [Nodes.addChild, hc] using hinv hc
    · exact (hown hc _).2 (Or.inr rfl)

/-- The scenario "Multiple-edge graph" of the tests (`root = 0`, `x = 2`): after
`addChild(x)` twice on `root`, `root` has the single child `x`, and `x` has the
single parent owner `root`. -/
theorem addChild_example :
    ((Nodes.testGraph.addChild 0 2).addChild 0 2).children 0 = [2] ∧
    ((Nodes.testGraph.addChild 0 2).addChild 0 2).mParentOwners 2 = [.ofNode 0] := by
  decide

/-! ## The breadth-first search of `deleteIteratively` -/

theorem Nodes.foldl_removeParentOwner (n : Nat) (l : List Nat) : ∀ h : Nodes,
    (l.foldl (fun s child => s.removeParentOwner child (.ofNode n)) h).mChildren = h.mChildren ∧
    (l.foldl (fun s child => s.removeParentOwner child (.ofNode n)) h).held = h.held ∧
    (l.foldl (fun s child => s.removeParentOwner child (.ofNode n)) h).mDtorSeq = h.mDtorSeq ∧
    (l.foldl (fun s child => s.removeParentOwner child (.ofNode n)) h).teardowns
      = h.teardowns ∧
    ∀ c t, t ∈ (l.foldl (fun s child => s.removeParentOwner child (.ofNode n)) h).mParentOwners c
      ↔ t ∈ h.mParentOwners c ∧ ¬ (c ∈ l ∧ t = .ofNode n) := by
  induction l with
  | nil => intro h; simp
  | cons a l ih =>
    intro h
    obtain ⟨h1, h2, h3, h4, h5⟩ := ih (h.removeParentOwner a (.ofNode n))
    rw [List.foldl_cons]
    refine ⟨h1, h2, h3, h4, fun c t => ?_⟩
    rw [h5, Nodes.mem_owners_removeParentOwner]
    simp only [List.mem_cons]
    tauto

theorem Nodes.removeOwnership_spec (h : Nodes) (n : Nat) :
    (h.removeOwnership n).mChildren = h.mChildren ∧
    (h.removeOwnership n).held = h.held ∧
    (h.removeOwnership n).mDtorSeq = h.mDtorSeq ∧
    (h.removeOwnership n).teardowns = h.teardowns ∧
    ∀ c t, t ∈ (h.removeOwnership n).mParentOwners c
      ↔ t ∈ h.mParentOwners c ∧ ¬ (c ∈ h.children n ∧ t = .ofNode n) :=
  Nodes.foldl_removeParentOwner n (h.children n) h

theorem Nodes.children_eq {h h0 : Nodes} (hc : h.mChildren = h0.mChildren) (n : Nat) :
    h.children n = h0.children n := by
  unfold Nodes.children
  rw [hc]

theorem Nodes.canBeDeleted_iff (h : Nodes) (n : Nat) :
    h.canBeDeleted n = true ↔ h.mParentOwners n = [] := by
  simp [Nodes.canBeDeleted]

theorem Nodes.ScanInv.start (h0 : Nodes) (root : Nat) (h : Nodes)
    (hc : h.mChildren = h0.mChildren) (hh : h.held = h0.held)
    (ho : h.mParentOwners = h0.mParentOwners) : Nodes.ScanInv h0 root h [root] [] where
  children := hc
  held := hh
  owners := fun c t => by simp [ho]
  nodup := by simp
  root_mem := by simp
  desc := fun c hc => by
    simp only [List.nil_append, List.mem_singleton] at hc
    subst hc
    exact Relation.ReflTransGen.refl
  parents := fun c hc hne => by
    simp only [List.nil_append, List.mem_singleton] at hc
    exact absurd hc hne
  tokens := fun c hc hne => by
    simp only [List.nil_append, List.mem_singleton] at hc
    exact absurd hc hne
  complete := fun p hp => by simp at hp
  least := fun S hS c hc => by
    simp only [List.nil_append, List.mem_singleton] at hc
    subst hc
    exact hS.1

theorem Nodes.ScanInv.step {h0 h : Nodes} {root node : Nat} {rest D : List Nat}
    (hacyc : h0.mChildren.Acyclic) (hnd : ∀ n, (h0.children n).Nodup)
    (hB : ∀ p c, Relation.ReflTransGen h0.mChildren.edge root p → c ∈ h0.children p →
      Owner.ofNode p ∈ h0.mParentOwners c)
    (inv : Nodes.ScanInv h0 root h (node :: rest) D) :
    Nodes.ScanInv h0 root (h.removeOwnership node)
      (rest ++ ((h.removeOwnership node).children node).filter
        (fun child => (h.removeOwnership node).canBeDeleted child))
      (D ++ [node]) := by
  obtain ⟨r1, r2, _, _, r5⟩ := Nodes.removeOwnership_spec h node
  have hch : ∀ n, (h.removeOwnership node).children n = h0.children n :=
    fun n => Nodes.children_eq (r1.trans inv.children) n
  have hchn : h.children node = h0.children node := Nodes.children_eq inv.children node
  have hown : ∀ c t, t ∈ (h.removeOwnership node).mParentOwners c ↔
      t ∈ h0.mParentOwners c ∧
        ¬ ∃ p ∈ D ++ [node], c ∈ h0.children p ∧ t = Owner.ofNode p := by
    intro c t
    rw [r5, inv.owners, hchn]
    simp only [List.mem_append, List.mem_singleton]
    constructor
    · rintro ⟨⟨h1, h2⟩, h3⟩
      refine ⟨h1, ?_⟩
      rintro ⟨p, hp | rfl, hc, ht⟩
      · exact h2 ⟨p, hp, hc, ht⟩
      · exact h3 ⟨hc, ht⟩
    · rintro ⟨h1, h2⟩
      exact ⟨⟨h1, fun ⟨p, hp, hc, ht⟩ => h2 ⟨p, Or.inl hp, hc, ht⟩⟩,
        fun ⟨hc, ht⟩ => h2 ⟨node, Or.inr rfl, hc, ht⟩⟩
  have hnodeL : node ∈ D ++ node :: rest := by simp
  have hnodeD : node ∉ D := by
    have := inv.nodup
    rw [List.nodup_append] at this
    exact fun hmem => this.2.2 hmem (List.mem_cons_self _ _)
  have hnew : ∀ c, c ∈ ((h.removeOwnership node).children node).filter
      (fun child => (h.removeOwnership node).canBeDeleted child) ↔
      c ∈ h0.children node ∧ (h.removeOwnership node).mParentOwners c = [] := by
    intro c
    rw [List.mem_filter, hch, Nodes.canBeDeleted_iff]
  have hF3 : ∀ c, (h.removeOwnership node).mParentOwners c = [] → ∀ t ∈ h0.mParentOwners c,
      ∃ p ∈ D ++ [node], c ∈ h0.children p ∧ t = Owner.ofNode p := by
    intro c hc t ht
    by_contra hcon
    have := (hown c t).2 ⟨ht, hcon⟩
    rw [hc] at this
    cases this
  have hF4 : ∀ c, c ∈ h0.children node → (h.removeOwnership node).mParentOwners c = [] →
      c ∉ D ++ node :: rest := by
    intro c hc _ hmem
    by_cases hroot : c = root
    · subst hroot
      exact hacyc c (Relation.TransGen.tail' (inv.desc node hnodeL) hc)
    · exact hnodeD (inv.parents c hmem hroot node (hB node c (inv.desc node hnodeL) hc)).1
  have hL : ∀ new : List Nat, (D ++ [node]) ++ (rest ++ new) = (D ++ node :: rest) ++ new := by
    intro new
    simp
  have hsub : ∀ p, p ∈ D ++ [node] → p ∈ D ++ node :: rest := by
    intro p hp
    simp only [List.mem_append, List.mem_singleton, List.mem_cons] at hp ⊢
    tauto
  refine ⟨r1.trans inv.children, r2.trans inv.held, hown, ?_, ?_, ?_, ?_, ?_, ?_, ?_⟩
  · rw [hL, List.nodup_append]
    refine ⟨inv.nodup, ?_, ?_⟩
    · rw [hch]
      exact (hnd node).filter _
    · intro a ha hb
      exact hF4 a ((hnew a).1 hb).1 ((hnew a).1 hb).2 ha
  · rw [hL]
    exact List.mem_append_left _ inv.root_mem
  · intro c hc
    rw [hL] at hc
    rcases List.mem_append.1 hc with h1 | h1
    · exact inv.desc c h1
    · exact (inv.desc node hnodeL).tail ((hnew c).1 h1).1
  · intro c hc hne p hp
    rw [hL] at hc ⊢
    rcases List.mem_append.1 hc with h1 | h1
    · obtain ⟨hpD, hidx⟩ := inv.parents c h1 hne p hp
      refine ⟨List.mem_append_left _ hpD, ?_⟩
      rw [List.indexOf_append_of_mem (List.mem_append_left _ hpD),
        List.indexOf_append_of_mem h1]
      exact hidx
    · obtain ⟨hcn, hemp⟩ := (hnew c).1 h1
      have hcL := hF4 c hcn hemp
      obtain ⟨p', hp', _, ht⟩ := hF3 c hemp _ hp
      have hpp : p = p' := Owner.ofNode.inj ht
      subst hpp
      have hpL := hsub p hp'
      refine ⟨hp', ?_⟩
      rw [List.indexOf_append_of_mem hpL, List.indexOf_append_of_not_mem hcL]
      have := List.indexOf_lt_length.2 hpL
      omega
  · intro c hc hne
    rw [hL] at hc
    rcases List.mem_append.1 hc with h1 | h1
    · obtain ⟨⟨p, hp, hcp⟩, htok⟩ := inv.tokens c h1 hne
      refine ⟨⟨p, List.mem_append_left _ hp, hcp⟩, fun t ht => ?_⟩
      obtain ⟨p', hp', h2⟩ := htok t ht
      exact ⟨p', List.mem_append_left _ hp', h2⟩
    · obtain ⟨hcn, hemp⟩ := (hnew c).1 h1
      exact ⟨⟨node, by simp, hcn⟩, hF3 c hemp⟩
  · intro p hp c hc hemp
    rw [hL]
    by_cases hcn : c ∈ h0.children node
    · exact List.mem_append_right _ ((hnew c).2 ⟨hcn, hemp⟩)
    · have hω : h.mParentOwners c = [] :=
        List.eq_nil_iff_forall_not_mem.2 fun t ht => by
          have := (r5 c t).2 ⟨ht, fun ⟨h1, _⟩ => hcn (hchn ▸ h1)⟩
          rw [hemp] at this
          cases this
      have hpD : p ∈ D := by
        rcases List.mem_append.1 hp with h1 | h1
        · exact h1
        · simp only [List.mem_singleton] at h1
          subst h1
          exact absurd hc hcn
      exact List.mem_append_left _ (inv.complete p hpD c hc hω)
  · intro S hS c hc
    rw [hL] at hc
    rcases List.mem_append.1 hc with h1 | h1
    · exact inv.least S hS c h1
    · obtain ⟨hcn, hemp⟩ := (hnew c).1 h1
      refine hS.2 node c (inv.least S hS node hnodeL) hcn fun t ht => ?_
      obtain ⟨p, hp, _, hpt⟩ := hF3 c hemp t ht
      exact ⟨p, inv.least S hS p (hsub p hp), hpt⟩

theorem Graph.mem_flatten_of_mem_children {g : Graph} {p c : Nat} (h : c ∈ g.children p) :
    c ∈ g.flatten := by
  unfold Graph.children at h
  rw [List.mem_flatten]
  by_cases hp : p < g.length
  · refine ⟨g[p], List.getElem_mem _, ?_⟩
    simpa [List.getD_eq_getElem?_getD, List.getElem?_eq_getElem hp] using h
  · simp [List.getD_eq_getElem?_getD, List.getElem?_eq_none (not_lt.1 hp)] at h

theorem Graph.lt_length_of_mem_children {g : Graph} {p c : Nat} (h : c ∈ g.children p) :
    p < g.length := by
  by_contra hp
  simp [Graph.children, List.getD_eq_getElem?_getD, List.getElem?_eq_none (not_lt.1 hp)] at h

theorem Graph.length_flatten (g : Graph) : g.flatten.length = g.edgeCount := by
  unfold Graph.edgeCount
  rw [List.length_flatten]

theorem Nodes.ScanInv.length_le {h0 h : Nodes} {root : Nat} {Q D : List Nat}
    (inv : Nodes.ScanInv h0 root h Q D) : (D ++ Q).length ≤ h0.mChildren.edgeCount + 1 := by
  have hsub : D ++ Q ⊆ root :: h0.mChildren.flatten := by
    intro c hc
    by_cases hroot : c = root
    · subst hroot
      exact List.mem_cons_self _ _
    · obtain ⟨⟨p, _, hcp⟩, _⟩ := inv.tokens c hc hroot
      exact List.mem_cons_of_mem _ (Graph.mem_flatten_of_mem_children hcp)
  have := (List.subperm_of_subset inv.nodup hsub).length_le
  rw [List.length_cons, Graph.length_flatten] at this
  exact this

/-- With a sufficient step budget the breadth-first search ends, and the
invariant holds of its result. -/
theorem Nodes.scan_spec {h0 : Nodes} {root : Nat}
    (hacyc : h0.mChildren.Acyclic) (hnd : ∀ n, (h0.children n).Nodup)
    (hB : ∀ p c, Relation.ReflTransGen h0.mChildren.edge root p → c ∈ h0.children p →
      Owner.ofNode p ∈ h0.mParentOwners c) :
    ∀ (fuel : Nat) (h : Nodes) (Q D : List Nat), Nodes.ScanInv h0 root h Q D →
      h0.mChildren.edgeCount + 1 ≤ fuel + D.length →
      ∃ h1 D1, Nodes.scan fuel h Q D = some (h1, D1) ∧ Nodes.ScanInv h0 root h1 [] D1 := by
  intro fuel
  induction fuel with
  | zero =>
    intro h Q D inv hfuel
    cases Q with
    | nil => exact ⟨h, D, rfl, inv⟩
    | cons node rest =>
      have := inv.length_le
      simp only [List.length_append, List.length_cons] at this
      omega
  | succ fuel ih =>
    intro h Q D inv hfuel
    cases Q with
    | nil => exact ⟨h, D, rfl, inv⟩
    | cons node rest =>
      have hstep := inv.step hacyc hnd hB
      obtain ⟨h1, D1, hs, hinv⟩ := ih _ _ _ hstep (by
        simp only [List.length_append, List.length_singleton]
        omega)
      exact ⟨h1, D1, hs, hinv⟩

/-! ## The last loop of `deleteIteratively` -/

theorem Nodes.useCount_pos_of_mem_children {s : Nodes} {q c : Nat} (h : c ∈ s.children q) :
    0 < s.useCount c := by
  unfold Nodes.useCount
  have hq := Graph.lt_length_of_mem_children h
  have : 0 < s.mChildren.countP (fun cs => cs.contains c) := by
    rw [List.countP_pos_iff]
    refine ⟨s.mChildren[q], List.getElem_mem _, ?_⟩
    simpa [Nodes.children, Graph.children, List.getD_eq_getElem?_getD,
      List.getElem?_eq_getElem hq] using h
  omega

theorem Nodes.destroy_of_children_nil (fuel : Nat) (s : Nodes) (c : Nat)
    (h : s.children c = []) :
    s.destroy (fuel + 1) c = some { s with mDtorSeq := s.mDtorSeq ++ [c] } := by
  have h' : Nodes.children { s with mDtorSeq := s.mDtorSeq ++ [c] } c = [] := h
  simp [Nodes.destroy, h']

theorem Nodes.removeChildren_spec {h0 h1 : Nodes} {root : Nat} {D X : List Nat} {m : Nat}
    (fuel : Nat) (wf : h0.WellFormedFrom root) (hold : h0.OwnersHold)
    (hacyc : h0.mChildren.Acyclic)
    (inv : Nodes.ScanInv h0 root h1 [] D) (hm : m ∈ D)
    (hX : ∀ c ∈ D, D.indexOf m < D.indexOf c → c ∈ X) (hXD : ∀ c ∈ X, c ∈ D) (T : List Nat) :
    ∀ (cs : List Nat) (s : Nodes), (∀ c ∈ cs, c ∈ h0.children m) →
      s.mParentOwners = h1.mParentOwners → s.held = h0.held → s.teardowns = T →
      (∀ n, n ≠ m → s.children n = if n ∈ X then [] else h0.children n) →
      s.children m = cs →
      ∃ s', Nodes.removeChildrenWith (Nodes.destroy (fuel + 1)) m cs s = some s' ∧
        s'.mParentOwners = h1.mParentOwners ∧ s'.held = h0.held ∧ s'.teardowns = T ∧
        (∀ n, n ≠ m → s'.children n = if n ∈ X then [] else h0.children n) ∧
        s'.children m = [] := by
  intro cs
  induction cs with
  | nil =>
    intro s _ ho hh ht hc hcm
    exact ⟨s, rfl, ho, hh, ht, hc, hcm⟩
  | cons child rest ih =>
    intro s hcs ho hh ht hc _
    have hchild : child ∈ h0.children m := hcs child (List.mem_cons_self _ _)
    have hne : child ≠ m := by
      intro h
      rw [h] at hchild
      exact hacyc m (Relation.TransGen.single hchild)
    have hch' : ∀ n, Nodes.children { s with mChildren := s.mChildren.setChildren m rest } n
        = if n = m then rest else s.children n :=
      fun n => Graph.children_setChildren s.mChildren m n rest
    simp only [Nodes.removeChildrenWith]
    by_cases huc : Nodes.useCount { s with mChildren := s.mChildren.setChildren m rest } child = 0
    · have hω : h1.mParentOwners child = [] := by
        refine List.eq_nil_iff_forall_not_mem.2 fun t htm => ?_
        obtain ⟨ht0, hnot⟩ := (inv.owners child t).1 htm
        cases t with
        | ofNode q =>
          have hcq : child ∈ h0.children q := wf.registered q child ht0
          have hqD : q ∉ D := fun hq => hnot ⟨q, hq, hcq, rfl⟩
          have hqm : q ≠ m := fun h => hqD (h ▸ hm)
          have hqX : q ∉ X := fun h => hqD (hXD q h)
          have : child ∈ Nodes.children
              { s with mChildren := s.mChildren.setChildren m rest } q := by
            rw [hch' q, if_neg hqm, hc q hqm, if_neg hqX]
            exact hcq
          have := Nodes.useCount_pos_of_mem_children this
          omega
        | outside k =>
          have hpos := hold child k ht0
          have : Nodes.useCount { s with mChildren := s.mChildren.setChildren m rest } child
              ≥ h0.held child := by
            unfold Nodes.useCount
            simp only [hh]
            omega
          omega
      have hcD : child ∈ D := by
        simpa using inv.complete m hm child hchild hω
      have hroot : child ≠ root := by
        intro h
        rw [h] at hchild
        exact hacyc root (Relation.TransGen.tail' (inv.desc m (by simpa using hm)) hchild)
      have hidx := (inv.parents child (by simpa using hcD) hroot m
        (wf.token m child (inv.desc m (by simpa using hm)) hchild)).2
      simp only [List.append_nil] at hidx
      have hcX : child ∈ X := hX child hcD hidx
      have hnil : Nodes.children { s with mChildren := s.mChildren.setChildren m rest } child
          = [] := by
        rw [hch' child, if_neg hne, hc child hne, if_pos hcX]
      simp only [huc, if_true, Nodes.destroy_of_children_nil fuel _ child hnil, Option.some_bind]
      exact ih _ (fun c hcr => hcs c (List.mem_cons_of_mem _ hcr)) ho hh ht
        (fun n hn => by
          have := hch' n
          rw [if_neg hn, hc n hn] at this
          exact this)
        (by
          have := hch' m
          rw [if_pos rfl] at this
          exact this)
    · simp only [huc, if_false, Option.some_bind]
      exact ih _ (fun c hcr => hcs c (List.mem_cons_of_mem _ hcr)) ho hh ht
        (fun n hn => by
          have := hch' n
          rw [if_neg hn, hc n hn] at this
          exact this)
        (by
          have := hch' m
          rw [if_pos rfl] at this
          exact this)

theorem Nodes.clear_spec {h0 h1 : Nodes} {root : Nat} {D : List Nat}
    (fuel : Nat) (wf : h0.WellFormedFrom root) (hold : h0.OwnersHold)
    (hacyc : h0.mChildren.Acyclic)
    (inv : Nodes.ScanInv h0 root h1 [] D) (T : List Nat) :
    ∀ (todo X : List Nat) (s : Nodes), D = todo.reverse ++ X →
      s.mParentOwners = h1.mParentOwners → s.held = h0.held → s.teardowns = T →
      (∀ n, s.children n = if n ∈ X then [] else h0.children n) →
      ∃ s', todo.foldlM
          (fun s node =>
            Nodes.removeChildrenWith (Nodes.destroy (fuel + 1)) node (s.children node) s) s
          = some s' ∧
        s'.mParentOwners = h1.mParentOwners ∧ s'.held = h0.held ∧ s'.teardowns = T ∧
        ∀ n, s'.children n = if n ∈ D then [] else h0.children n := by
  have hndD : D.Nodup := by simpa using inv.nodup
  intro todo
  induction todo with
  | nil =>
    intro X s hD ho hh ht hc
    simp only [List.reverse_nil, List.nil_append] at hD
    subst hD
    exact ⟨s, rfl, ho, hh, ht, hc⟩
  | cons m todo ih =>
    intro X s hD ho hh ht hc
    have hD' : D = todo.reverse ++ (m :: X) := by
      rw [hD, List.reverse_cons, List.append_assoc]
      rfl
    have hnd := hndD
    rw [hD', List.nodup_append] at hnd
    obtain ⟨_, hnd2, hdisj⟩ := hnd
    have hmX : m ∉ X := (List.nodup_cons.1 hnd2).1
    have hmA : m ∉ todo.reverse := fun h => hdisj h (List.mem_cons_self _ _)
    have hmD : m ∈ D := by rw [hD']; simp
    have hXD : ∀ c ∈ X, c ∈ D := fun c hcX => by rw [hD']; simp [hcX]
    have hX : ∀ c ∈ D, D.indexOf m < D.indexOf c → c ∈ X := by
      intro c hcD hlt
      rw [hD'] at hcD hlt
      rw [List.indexOf_append_of_not_mem hmA, List.indexOf_cons_self] at hlt
      rcases List.mem_append.1 hcD with h1 | h1
      · rw [List.indexOf_append_of_mem h1] at hlt
        have := List.indexOf_lt_length.2 h1
        omega
      · rcases List.mem_cons.1 h1 with h2 | h2
        · subst h2
          rw [List.indexOf_append_of_not_mem hmA, List.indexOf_cons_self] at hlt
          omega
        · exact h2
    have hcm : s.children m = h0.children m := by rw [hc m, if_neg hmX]
    obtain ⟨s1, hs1, ho1, hh1, ht1, hc1, hcm1⟩ :=
      Nodes.removeChildren_spec fuel wf hold hacyc inv hmD hX hXD T (s.children m) s
        (fun c hcc => hcm ▸ hcc) ho hh ht (fun n _ => hc n) rfl
    obtain ⟨s2, hs2, h2⟩ := ih (m :: X) s1 hD' ho1 hh1 ht1 (fun n => by
      by_cases hn : n = m
      · subst hn
        simp [hcm1]
      · rw [hc1 n hn]
        simp [hn])
    refine ⟨s2, ?_, h2⟩
    rw [List.foldlM_cons, hs1]
    exact hs2

theorem Nodes.scan_logs : ∀ (fuel : Nat) (h : Nodes) (Q D : List Nat) (h1 : Nodes)
    (D1 : List Nat), Nodes.scan fuel h Q D = some (h1, D1) →
      h1.mDtorSeq = h.mDtorSeq ∧ h1.teardowns = h.teardowns := by
  intro fuel
  induction fuel with
  | zero =>
    intro h Q D h1 D1 hs
    cases Q with
    | nil =>
      simp only [Nodes.scan, Option.some.injEq, Prod.mk.injEq] at hs
      obtain ⟨rfl, _⟩ := hs
      exact ⟨rfl, rfl⟩
    | cons node rest => simp [Nodes.scan] at hs
  | succ fuel ih =>
    intro h Q D h1 D1 hs
    cases Q with
    | nil =>
      simp only [Nodes.scan, Option.some.injEq, Prod.mk.injEq] at hs
      obtain ⟨rfl, _⟩ := hs
      exact ⟨rfl, rfl⟩
    | cons node rest =>
      simp only [Nodes.scan] at hs
      obtain ⟨k1, k2⟩ := ih _ _ _ _ _ hs
      obtain ⟨_, _, r3, r4, _⟩ := Nodes.removeOwnership_spec h node
      exact ⟨k1.trans r3, k2.trans r4⟩

theorem Nodes.WellFormed.wellFormedFrom {h : Nodes} (wf : h.WellFormed) (root : Nat) :
    h.WellFormedFrom root :=
  ⟨wf.nodup, fun p c ht => (wf.token p c).2 ht, fun p c _ hc => (wf.token p c).1 hc⟩

/-- The breadth-first search that the destructor of `root` starts, on
well-formed nodes over an acyclic graph and with a sufficient step budget, ends
with a list for which the invariant holds. -/
theorem Nodes.scan_entered_spec (h : Nodes) (root fuel : Nat) (wf : h.WellFormedFrom root)
    (hacyc : h.mChildren.Acyclic) (hfuel : h.budget ≤ fuel + 2) :
    ∃ D h1,
      Nodes.scan (fuel + 1)
        { h with mDtorSeq := h.mDtorSeq ++ [root], teardowns := h.teardowns ++ [root] }
        [root] [] = some (h1, D) ∧
      Nodes.ScanInv h root h1 [] D := by
  obtain ⟨h1, D, hscan, inv⟩ := @Nodes.scan_spec h root hacyc wf.nodup wf.token (fuel + 1)
    { h with mDtorSeq := h.mDtorSeq ++ [root], teardowns := h.teardowns ++ [root] } [root] []
    (Nodes.ScanInv.start h root _ rfl rfl rfl) (by
      simp only [List.length_nil, Nodes.budget] at hfuel ⊢
      omega)
  exact ⟨D, h1, hscan, inv⟩

/-- The destruction of a node `root` with children, when the search has ended
with the list `D` and every owner registered from outside holds a pointer:
`deleteIteratively` is called on `root` and on no other node, the child sets of
the nodes of `D` are cleared and all other child sets, the parent-owner sets as
the search left them and the outside pointers are as before. -/
theorem Nodes.destroy_spec (h : Nodes) (root fuel : Nat) (wf : h.WellFormedFrom root)
    (hold : h.OwnersHold) (hacyc : h.mChildren.Acyclic) (hroot : h.children root ≠ [])
    {h1 : Nodes} {D : List Nat}
    (hscan : Nodes.scan (fuel + 1)
      { h with mDtorSeq := h.mDtorSeq ++ [root], teardowns := h.teardowns ++ [root] }
      [root] [] = some (h1, D))
    (inv : Nodes.ScanInv h root h1 [] D) :
    ∃ h2, h.destroy (fuel + 2) root = some h2 ∧
      h2.teardowns = h.teardowns ++ [root] ∧
      h2.mParentOwners = h1.mParentOwners ∧ h2.held = h.held ∧
      ∀ n, h2.children n = if n ∈ D then [] else h.children n := by
  obtain ⟨h2, hclear, ho, hh, ht, hc⟩ := Nodes.clear_spec fuel wf hold hacyc inv
    (h.teardowns ++ [root]) D.reverse [] h1 (by simp) rfl inv.held
    (Nodes.scan_logs _ _ _ _ _ _ hscan).2
    (fun n => by
      rw [Nodes.children_eq inv.children]
      simp)
  refine ⟨h2, ?_, ht, ho, hh, hc⟩
  have hne : (Nodes.children { h with mDtorSeq := h.mDtorSeq ++ [root] } root).isEmpty
      = false := by
    have : Nodes.children { h with mDtorSeq := h.mDtorSeq ++ [root] } root = h.children root :=
      rfl
    rw [this]
    cases hcr : h.children root with
    | nil => exact absurd hcr hroot
    | cons a l => rfl
  simp only [Nodes.destroy, hne, Bool.false_eq_true, if_false, Nodes.deleteIterativelyWith,
    hscan]
  exact hclear

/-! ## Claims about the teardown -/

theorem List.indexOf_reverse_of_nodup {l : List Nat} (hnd : l.Nodup) {x : Nat} (hx : x ∈ l) :
    l.reverse.indexOf x = l.length - 1 - l.indexOf x := by
  induction l with
  | nil => cases hx
  | cons a t ih =>
    obtain ⟨hat, hndt⟩ := List.nodup_cons.1 hnd
    rw [List.reverse_cons]
    rcases List.mem_cons.1 hx with h | h
    · subst h
      rw [List.indexOf_append_of_not_mem (by simpa using hat), List.indexOf_cons_self,
        List.indexOf_cons_self]
      simp
    · have hne : a ≠ x := fun hax => hat (hax ▸ h)
      have hlt := List.indexOf_lt_length.2 h
      rw [List.indexOf_append_of_mem (by simpa using h), ih hndt h,
        List.indexOf_cons_ne _ hne, List.length_cons]
      omega

theorem Nodes.ScanInv.closed {h h1 : Nodes} {root : Nat} {D : List Nat} (wf : h.WellFormed)
    (inv : Nodes.ScanInv h root h1 [] D) : h.Closed root (fun n => n ∈ D) := by
  refine ⟨by simpa using inv.root_mem, fun p c hp hc htok => ?_⟩
  have hω : h1.mParentOwners c = [] := by
    refine List.eq_nil_iff_forall_not_mem.2 fun t ht => ?_
    obtain ⟨ht0, hnot⟩ := (inv.owners c t).1 ht
    obtain ⟨m, hm, rfl⟩ := htok t ht0
    exact hnot ⟨m, hm, (wf.token m c).2 ht0, rfl⟩
  simpa using inv.complete p hp c hc hω

/-- C18: when a node `root` with children is destroyed on well-formed nodes over
an acyclic graph (the token of a node is registered on each of its children),
with a sufficient step budget, the search of the teardown ends; the list `D`
of the nodes whose child sets it clears is the least set that contains `root`
and contains a child `c` of a member whenever every parent owner of `c` is the
token of a member; a node other than `root` on which an owner that is not the
token of a member is registered is not in `D`, and every member is reached from
`root` through members only.  When every owner registered from outside holds a
pointer, the destruction ends with the child sets of the nodes of `D` empty
and every other child set as it was. -/
theorem C18_cleared_set_is_least_closed (h : Nodes) (root fuel : Nat) (wf : h.WellFormed)
    (hacyc : h.mChildren.Acyclic) (hroot : h.children root ≠ [])
    (hfuel : h.budget ≤ fuel + 2) :
    ∃ D, h.nodesToDelete (fuel + 1) root = some D ∧
      h.Closed root (fun n => n ∈ D) ∧
      (∀ S : Nat → Prop, h.Closed root S → ∀ n ∈ D, S n) ∧
      (∀ c t, t ∈ h.mParentOwners c → (∀ m ∈ D, t ≠ Owner.ofNode m) → c ≠ root → c ∉ D) ∧
      (∀ n ∈ D, Relation.ReflTransGen (fun a b => a ∈ D ∧ b ∈ h.children a) root n) ∧
      (h.OwnersHold → ∃ h2, h.destroy (fuel + 2) root = some h2 ∧
        ∀ n, h2.children n = if n ∈ D then [] else h.children n) := by
  obtain ⟨D, h1, hscan, inv⟩ :=
    Nodes.scan_entered_spec h root fuel (wf.wellFormedFrom root) hacyc hfuel
  have hclosed := inv.closed wf
  refine ⟨D, by simp [Nodes.nodesToDelete, hscan], hclosed,
    fun S hS n hn => inv.least S hS n (by simpa using hn), fun c t ht hnot hne hcD => ?_,
    fun n hn => ?_, fun hold => ?_⟩
  · obtain ⟨m, hm, _, rfl⟩ := (inv.tokens c (by simpa using hcD) hne).2 t ht
    exact hnot m hm rfl
  · have hS : h.Closed root (fun n => n ∈ D ∧
        Relation.ReflTransGen (fun a b => a ∈ D ∧ b ∈ h.children a) root n) := by
      refine ⟨⟨hclosed.1, Relation.ReflTransGen.refl⟩, fun p c hp hcp htok => ?_⟩
      exact ⟨hclosed.2 p c hp.1 hcp fun t ht =>
        let ⟨m, hm, hmt⟩ := htok t ht
        ⟨m, hm.1, hmt⟩, hp.2.tail ⟨hp.1, hcp⟩⟩
    exact (inv.least _ hS n (by simpa using hn)).2
  · obtain ⟨h2, hdes, _, _, _, hc⟩ :=
      Nodes.destroy_spec h root fuel (wf.wellFormedFrom root) hold hacyc hroot hscan inv
    exact ⟨h2, hdes, hc⟩

theorem ownershipNodes_owners_nil (c : Nat) (hc : 7 ≤ c) :
    ownershipNodes.mParentOwners c = [] := by
  simp only [ownershipNodes]
  split <;> first | rfl | (exfalso; omega)

theorem ownershipNodes_wellFormed : ownershipNodes.WellFormed where
  nodup := fun n => by
    by_cases hn : n < 4
    · interval_cases n <;> decide
    · rw [show ownershipNodes.children n = [] from
        Graph.children_of_length_le _ (not_lt.1 hn)]
      exact List.nodup_nil
  token := fun p c => by
    by_cases hc : c < 7
    · by_cases hp : p < 4
      · interval_cases p <;> interval_cases c <;> decide
      · rw [show ownershipNodes.children p = [] from
          Graph.children_of_length_le _ (not_lt.1 hp)]
        interval_cases c <;> simp [ownershipNodes] <;> omega
    · rw [ownershipNodes_owners_nil c (not_lt.1 hc)]
      by_cases hp : p < 4
      · interval_cases p <;> simp [ownershipNodes, Nodes.children, Graph.children] <;> omega
      · rw [show ownershipNodes.children p = [] from
          Graph.children_of_length_le _ (not_lt.1 hp)]
        simp

/-- Witness for C18: the scenario "Ownership prevents destruction" with an
owner registered on `y`. -/
theorem C18_cleared_set_is_least_closed_witness :
    ∃ D, ownershipNodes.nodesToDelete (5 + 1) 0 = some D ∧
      ownershipNodes.Closed 0 (fun n => n ∈ D) ∧
      (∀ S : Nat → Prop, ownershipNodes.Closed 0 S → ∀ n ∈ D, S n) ∧
      (∀ c t, t ∈ ownershipNodes.mParentOwners c → (∀ m ∈ D, t ≠ Owner.ofNode m) →
        c ≠ 0 → c ∉ D) ∧
      (∀ n ∈ D, Relation.ReflTransGen (fun a b => a ∈ D ∧ b ∈ ownershipNodes.children a) 0 n) ∧
      (ownershipNodes.OwnersHold → ∃ h2, ownershipNodes.destroy (5 + 2) 0 = some h2 ∧
        ∀ n, h2.children n = if n ∈ D then [] else ownershipNodes.children n) :=
  C18_cleared_set_is_least_closed ownershipNodes 0 5 ownershipNodes_wellFormed
    (Graph.acyclic_of_increasing _ (by decide)) (by decide) (by decide)

/-- The scenario "Ownership prevents destruction" of the tests: with an owner
registered on `y`, destroying `root` collects `root`, `x`, `u`, destructs `root`,
`u`, `x` in this order, and `y` keeps its child `v`. -/
theorem ownership_example :
    ownershipNodes.nodesToDelete 6 0 = some [0, 2, 5] ∧
    (ownershipNodes.destroy 7 0).map (fun h => (h.mDtorSeq, h.mChildren, h.teardowns))
      = some ([0, 5, 2], [[], [], [], [6]], [0]) := by
  decide

theorem Nodes.ScanInv.head {h h1 : Nodes} {root : Nat} {D : List Nat}
    (wf : h.WellFormedFrom root) (inv : Nodes.ScanInv h root h1 [] D) :
    D.head? = some root := by
  have hr : root ∈ D := by simpa using inv.root_mem
  cases hD : D with
  | nil => rw [hD] at hr; cases hr
  | cons x t =>
    by_cases hx : x = root
    · rw [hx]; rfl
    · have hxD : x ∈ D ++ [] := by rw [hD]; simp
      obtain ⟨⟨p, hpD, hp⟩, _⟩ := inv.tokens x hxD hx
      have := (inv.parents x hxD hx p
        (wf.token p x (inv.desc p (List.mem_append_left _ hpD)) hp)).2
      rw [List.append_nil, hD, List.indexOf_cons_self] at this
      omega

/-- C19: when a node `root` with children is destroyed on well-formed nodes over
an acyclic graph, with a sufficient step budget, the collected list `D` begins
with `root` and has no node twice, and every collected node other than `root`
comes after each of its parents in `D`, hence before each of them in the
reversed list, in the order of which the child sets are cleared.  When every
owner registered from outside holds a pointer, the destruction ends,
`deleteIteratively` has been called on `root` only, so every node destructed on
the way had an empty child set, and every collected node ends with an empty
child set. -/
theorem C19_collected_after_parents (h : Nodes) (root fuel : Nat) (wf : h.WellFormed)
    (hacyc : h.mChildren.Acyclic) (hroot : h.children root ≠ [])
    (hfuel : h.budget ≤ fuel + 2) :
    ∃ D, h.nodesToDelete (fuel + 1) root = some D ∧
      D.Nodup ∧ D.head? = some root ∧
      (∀ c ∈ D, c ≠ root → ∀ p, c ∈ h.children p →
        p ∈ D ∧ D.indexOf p < D.indexOf c ∧ D.reverse.indexOf c < D.reverse.indexOf p) ∧
      (h.OwnersHold → ∃ h2, h.destroy (fuel + 2) root = some h2 ∧
        h2.teardowns = h.teardowns ++ [root] ∧ ∀ n ∈ D, h2.children n = []) := by
  obtain ⟨D, h1, hscan, inv⟩ :=
    Nodes.scan_entered_spec h root fuel (wf.wellFormedFrom root) hacyc hfuel
  have hnd : D.Nodup := by simpa using inv.nodup
  refine ⟨D, by simp [Nodes.nodesToDelete, hscan], hnd, inv.head (wf.wellFormedFrom root),
    fun c hcD hne p hp => ?_, fun hold => ?_⟩
  · obtain ⟨hpD, hidx⟩ := inv.parents c (by simpa using hcD) hne p ((wf.token p c).1 hp)
    rw [List.append_nil] at hidx
    refine ⟨hpD, hidx, ?_⟩
    rw [List.indexOf_reverse_of_nodup hnd hcD, List.indexOf_reverse_of_nodup hnd hpD]
    have := List.indexOf_lt_length.2 hcD
    omega
  · obtain ⟨h2, hdes, ht, _, _, hc⟩ :=
      Nodes.destroy_spec h root fuel (wf.wellFormedFrom root) hold hacyc hroot hscan inv
    exact ⟨h2, hdes, ht, fun n hn => by rw [hc n, if_pos hn]⟩

theorem linearNodes_owners_nil (c : Nat) (hc : 5 ≤ c) : linearNodes.mParentOwners c = [] := by
  simp only [linearNodes]
  split <;> first | rfl | (exfalso; omega)

theorem linearNodes_wellFormed : linearNodes.WellFormed where
  nodup := fun n => by
    by_cases hn : n < 4
    · interval_cases n <;> decide
    · rw [show linearNodes.children n = [] from
        Graph.children_of_length_le _ (not_lt.1 hn)]
      exact List.nodup_nil
  token := fun p c => by
    by_cases hc : c < 5
    · by_cases hp : p < 4
      · interval_cases p <;> interval_cases c <;> decide
      · rw [show linearNodes.children p = [] from
          Graph.children_of_length_le _ (not_lt.1 hp)]
        interval_cases c <;> simp [linearNodes] <;> omega
    · rw [linearNodes_owners_nil c (not_lt.1 hc)]
      by_cases hp : p < 4
      · interval_cases p <;> simp [linearNodes, Nodes.children, Graph.children] <;> omega
      · rw [show linearNodes.children p = [] from
          Graph.children_of_length_le _ (not_lt.1 hp)]
        simp

/-- Witness for C19: the scenario "Linear graph" of the tests. -/
theorem C19_collected_after_parents_witness :
    ∃ D, linearNodes.nodesToDelete (4 + 1) 0 = some D ∧
      D.Nodup ∧ D.head? = some 0 ∧
      (∀ c ∈ D, c ≠ 0 → ∀ p, c ∈ linearNodes.children p →
        p ∈ D ∧ D.indexOf p < D.indexOf c ∧ D.reverse.indexOf c < D.reverse.indexOf p) ∧
      (linearNodes.OwnersHold → ∃ h2, linearNodes.destroy (4 + 2) 0 = some h2 ∧
        h2.teardowns = linearNodes.teardowns ++ [0] ∧ ∀ n ∈ D, h2.children n = []) :=
  C19_collected_after_parents linearNodes 0 4 linearNodes_wellFormed
    (Graph.acyclic_of_increasing _ (by decide)) (by decide) (by decide)

/-- The scenario "Linear graph" of the tests: for the chain `root → x → y → z`
held only through `root`, the collected list is `root, x, y, z` and the
destructors run in the order `root, z, y, x`, with a single call of
`deleteIteratively`. -/
theorem linear_example :
    linearNodes.nodesToDelete 5 0 = some [0, 2, 3, 4] ∧
    (linearNodes.destroy 6 0).map (fun h => (h.mDtorSeq, h.mChildren, h.teardowns))
      = some ([0, 4, 3, 2], [[], [], [], []], [0]) := by
  decide

/-- An owner registered from outside that holds no pointer: `y` is not
collected by the teardown of `root`, loses its last pointer when the child set
of `root` is cleared, and is destructed with its child `v`, by a second, nested
call of `deleteIteratively`. -/
theorem danglingOwner_example :
    danglingOwnerNodes.nodesToDelete 6 0 = some [0, 2, 5] ∧
    (danglingOwnerNodes.destroy 7 0).map (fun h => (h.mDtorSeq, h.mChildren, h.teardowns))
      = some ([0, 5, 2, 3, 6], [[], [], [], []], [0, 3]) := by
  decide

/-- The scenario "Linear graph" of the tests from the start: the links are made
with `addChild`, the pointers to `z`, `y`, `x` are reset, which destructs no
node, and the reset of the pointer to `root` destructs `root, z, y, x`. -/
theorem linear_scenario_example :
    (((((((Nodes.testGraph.addChild 0 2).addChild 2 3).addChild 3 4).reset 8 4).bind
      fun h => h.reset 8 3).bind fun h => h.reset 8 2).map fun h => h.mDtorSeq) = some [] ∧
    ((((((((Nodes.testGraph.addChild 0 2).addChild 2 3).addChild 3 4).reset 8 4).bind
      fun h => h.reset 8 3).bind fun h => h.reset 8 2).bind fun h => h.reset 8 0).map
        fun h => h.mDtorSeq) = some [0, 4, 3, 2] := by
  decide

/-! ## Claims about the derivative of a computation -/

theorem Computation.derivative_of_evaluated (c : Computation)
    (h : c.mDerivativeDescr.state = .evaluated) : c.derivative = (c.mDerivative, c) := by
  simp [Computation.derivative, h]

theorem Computation.derivative_snd_fixed (c : Computation) :
    c.derivative.2.derivative = (c.derivative.1, c.derivative.2) := by
  obtain ⟨v, dv, ⟨s, dom, cod⟩, e⟩ := c
  cases s <;> simp [Computation.derivative, generate]

theorem Computation.derivative_iterate (c : Computation) (k : Nat) :
    ((fun x : Computation => x.derivative.2)^[k] c.derivative.2).derivative
      = (c.derivative.1, c.derivative.2) := by
  induction k with
  | zero => exact Computation.derivative_snd_fixed c
  | succ k ih =>
    rw [Function.iterate_succ_apply']
    have h2 : ((fun x : Computation => x.derivative.2)^[k] c.derivative.2).derivative.2
        = c.derivative.2 := by rw [ih]
    rw [h2]
    exact Computation.derivative_snd_fixed c

/-- C22: after `setDerivativeIdentity()`, `setTangentZero(s)` or
`setGradientZero(s)` the first call of `derivative()` returns the derivative
generated from the recorded state (the identity `1`, the zero `0`; for the
mock Jacobian the matrix generated from the recorded shapes), stores it and
sets the state to `evaluated`; each of any number of later calls returns that
same derivative and leaves the computation as the first call left it, so
nothing is generated again. -/
theorem C22_derivative_generated_once (c : Computation) (p : PointComputation) (s : Shape)
    (k : Nat) :
    (c.setDerivativeIdentity.derivative.1 = 1 ∧ (c.setTangentZero s).derivative.1 = 0 ∧
      (c.setGradientZero s).derivative.1 = 0) ∧
    (∀ c1 ∈ [c.setDerivativeIdentity, c.setTangentZero s, c.setGradientZero s],
      c1.derivative.1 = generate c1.mDerivative c1.mDerivativeDescr ∧
      c1.derivative.2.mDerivative = c1.derivative.1 ∧
      c1.derivative.2.mDerivativeDescr.state = .evaluated ∧
      c1.derivative.2.mDerivativeDescr.domainShape = c1.mDerivativeDescr.domainShape ∧
      c1.derivative.2.mDerivativeDescr.codomainShape = c1.mDerivativeDescr.codomainShape ∧
      c1.derivative.2.mValue = c1.mValue ∧
      ((fun x : Computation => x.derivative.2)^[k] c1.derivative.2).derivative
        = (c1.derivative.1, c1.derivative.2)) ∧
    ∀ p1 ∈ [p.setDerivativeIdentity, p.setTangentZero s, p.setGradientZero s],
      p1.derivative.1 = p1.mDerivative.generate p1.mDerivativeDescr ∧
      p1.derivative.2.mDerivative = p1.derivative.1 ∧
      p1.derivative.2.mDerivativeDescr.state = .evaluated ∧
      p1.derivative.2.derivative = (p1.derivative.1, p1.derivative.2) := by
  refine ⟨⟨rfl, rfl, rfl⟩, fun c1 hc1 => ?_, fun p1 hp1 => ?_⟩
  · have hlast := Computation.derivative_iterate c1 k
    simp only [List.mem_cons, List.mem_singleton, List.not_mem_nil, or_false] at hc1
    rcases hc1 with rfl | rfl | rfl <;> exact ⟨rfl, rfl, rfl, rfl, rfl, rfl, hlast⟩
  · simp only [List.mem_cons, List.mem_singleton, List.not_mem_nil, or_false] at hp1
    rcases hp1 with rfl | rfl | rfl <;> exact ⟨rfl, rfl, rfl, rfl⟩

theorem Shape.get_ofList_zero (k : Nat) : ((Shape.ofList [k]).get 0).getD 0 = k := rfl

/-- C23: `setTangentZero(s)` records the state `zero` with domain shape `s` and
the shape of the value as codomain shape, `setGradientZero(s)` the state `zero`
with the shape of the value as domain shape and codomain shape `s`, and
`setDerivativeIdentity()` the state `identity` with the shape of the value for
both; the cached value, the stored derivative and the expression stay as they
are.  For a mock point of dimension `n` the zero tangent read back has `n` rows
and `s` columns, the zero gradient `s` rows and `n` columns, and the identity
is `n` by `n`. -/
theorem C23_seeding_records_shapes (c : Computation) (s : Shape) (p : PointComputation)
    (k : Nat) :
    ((c.setTangentZero s).mDerivativeDescr = ⟨.zero, s, c.valueShape⟩ ∧
      (c.setGradientZero s).mDerivativeDescr = ⟨.zero, c.valueShape, s⟩ ∧
      c.setDerivativeIdentity.mDerivativeDescr = ⟨.identity, c.valueShape, c.valueShape⟩) ∧
    (∀ c1 ∈ [c.setTangentZero s, c.setGradientZero s, c.setDerivativeIdentity],
      c1.value = c.value ∧ c1.mDerivative = c.mDerivative ∧ c1.mEvaluator = c.mEvaluator) ∧
    ((p.setTangentZero s).mDerivativeDescr = ⟨.zero, s, p.mValue.getShape⟩ ∧
      (p.setGradientZero s).mDerivativeDescr = ⟨.zero, p.mValue.getShape, s⟩ ∧
      p.setDerivativeIdentity.mDerivativeDescr
        = ⟨.identity, p.mValue.getShape, p.mValue.getShape⟩) ∧
    (∀ p1 ∈ [p.setTangentZero s, p.setGradientZero s, p.setDerivativeIdentity],
      p1.mValue = p.mValue) ∧
    (p.setTangentZero (Shape.ofList [k])).derivative.1 = ⟨p.mValue.dim, k, 0⟩ ∧
    (p.setGradientZero (Shape.ofList [k])).derivative.1 = ⟨k, p.mValue.dim, 0⟩ ∧
    p.setDerivativeIdentity.derivative.1 = ⟨p.mValue.dim, p.mValue.dim, 1⟩ := by
  refine ⟨⟨rfl, rfl, rfl⟩, ?_, ⟨rfl, rfl, rfl⟩, ?_, rfl, rfl, rfl⟩
  · intro c1 hc1
    simp only [List.mem_cons, List.mem_singleton, List.not_mem_nil, or_false] at hc1
    rcases hc1 with rfl | rfl | rfl <;> exact ⟨rfl, rfl, rfl⟩
  · intro p1 hp1
    simp only [List.mem_cons, List.mem_singleton, List.not_mem_nil, or_false] at hp1
    rcases hp1 with rfl | rfl | rfl <;> rfl

theorem Computation.foldl_addGradient_evaluated (gs : List Int) : ∀ c : Computation,
    c.mDerivativeDescr.state = .evaluated →
      (gs.foldl Computation.addGradient c).mDerivativeDescr.state = .evaluated ∧
      (gs.foldl Computation.addGradient c).mDerivative = c.mDerivative + gs.sum ∧
      (gs.foldl Computation.addGradient c).mValue = c.mValue := by
  induction gs with
  | nil => intro c h; simp [h]
  | cons g gs ih =>
    intro c h
    have h1 : (c.addGradient g).mDerivativeDescr.state = .evaluated := by
      simp [Computation.addGradient, h]
    have h2 : (c.addGradient g).mDerivative = c.mDerivative + g := by
      simp [Computation.addGradient, h]
    obtain ⟨k1, k2, k3⟩ := ih (c.addGradient g) h1
    rw [List.foldl_cons, List.sum_cons]
    refine ⟨k1, ?_, k3.trans (Computation.addGradient_ve c g).1⟩
    rw [k2, h2]
    ring

/-- C24: after `setGradientZero(s)` followed by `addGradient(g1)`, ...,
`addGradient(gn)` with `n ≥ 1`, `derivative()` returns `g1 + ... + gn` whatever
derivative was stored and whatever the state was before: the first
contribution overwrites the stored derivative and sets the state to
`evaluated`, the later ones are added to it. -/
theorem C24_gradients_accumulate_from_zero (c : Computation) (s : Shape) (g1 : Int)
    (gs : List Int) :
    ((c.setGradientZero s).addGradient g1).mDerivative = g1 ∧
    ((c.setGradientZero s).addGradient g1).mDerivativeDescr.state = .evaluated ∧
    (gs.foldl Computation.addGradient ((c.setGradientZero s).addGradient g1)).derivative.1
      = (g1 :: gs).sum ∧
    (gs.foldl Computation.addGradient ((c.setGradientZero s).addGradient g1)).mDerivative
      = g1 + gs.sum := by
  obtain ⟨k1, k2, _⟩ := Computation.foldl_addGradient_evaluated gs
    ((c.setGradientZero s).addGradient g1) rfl
  refine ⟨rfl, rfl, ?_, k2⟩
  rw [Computation.derivative_of_evaluated _ k1, k2, List.sum_cons]
  rfl

/-- C25: in the state `identity`, `addGradient(g)` adds `g` to the stored
derivative, which the state says is not the current derivative, and leaves the
state `identity`: the next `derivative()` generates the identity again, so it
returns what it would have returned before the call and not that plus `g`. -/
theorem C25_addGradient_lost_on_identity (c : Computation) (g : Int)
    (h : c.mDerivativeDescr.state = .identity) :
    c.derivative.1 = 1 ∧
    (c.addGradient g).mDerivative = c.mDerivative + g ∧
    (c.addGradient g).mDerivativeDescr.state = .identity ∧
    (c.addGradient g).derivative.1 = 1 ∧
    (g ≠ 0 → (c.addGradient g).derivative.1 ≠ c.derivative.1 + g) := by
  obtain ⟨v, dv, ⟨s, dom, cod⟩, e⟩ := c
  simp only at h
  subst h
  refine ⟨rfl, rfl, rfl, rfl, fun hg => ?_⟩
  simp only [Computation.addGradient, Computation.derivative, generate]
  simpa using hg

/-- Witness for C25: a computation with the stored derivative `7` after
`setDerivativeIdentity()`: `derivative()` would return `1`, and after
`addGradient(5)` it returns `1` and not `6`. -/
theorem C25_addGradient_lost_on_identity_witness :
    (Computation.mk 0 7 default none).setDerivativeIdentity.derivative.1 = 1 ∧
    ((Computation.mk 0 7 default none).setDerivativeIdentity.addGradient 5).derivative.1 = 1 ∧
    ((Computation.mk 0 7 default none).setDerivativeIdentity.addGradient 5).derivative.1
      ≠ (Computation.mk 0 7 default none).setDerivativeIdentity.derivative.1 + 5 :=
  ⟨(C25_addGradient_lost_on_identity (Computation.mk 0 7 default none).setDerivativeIdentity 5
      rfl).1,
   (C25_addGradient_lost_on_identity (Computation.mk 0 7 default none).setDerivativeIdentity 5
      rfl).2.2.2.1,
   (C25_addGradient_lost_on_identity (Computation.mk 0 7 default none).setDerivativeIdentity 5
      rfl).2.2.2.2 (by decide)⟩

/-- In the state `evaluated`, `addGradient(g)` adds to the current derivative. -/
theorem Computation.addGradient_of_evaluated (c : Computation) (g : Int)
    (h : c.mDerivativeDescr.state = .evaluated) :
    (c.addGradient g).derivative.1 = c.derivative.1 + g :=
  Computation.addGradient_derivative c g (by rw [h]; decide)

/-- C26: after `setDerivative(d)`, `derivative()` returns `d`, the state is
`evaluated` whatever it was before, reading the derivative generates nothing
and changes nothing, and the cached value is unchanged. -/
theorem C26_setDerivative (c : Computation) (derivative : Int) :
    (c.setDerivative derivative).derivative
      = (derivative, c.setDerivative derivative) ∧
    (c.setDerivative derivative).mDerivativeDescr.state = .evaluated ∧
    (c.setDerivative derivative).value = c.value ∧
    (c.setDerivative derivative).mEvaluator = c.mEvaluator := by
  refine ⟨Computation.derivative_of_evaluated _ rfl, rfl, rfl, rfl⟩

/-! ## Claim about the seeding of `pushTangentAt` -/

theorem Computation.derivative_snd_shapes (c : Computation) :
    c.derivative.2.mDerivativeDescr.domainShape = c.mDerivativeDescr.domainShape ∧
    c.derivative.2.mDerivativeDescr.codomainShape = c.mDerivativeDescr.codomainShape := by
  unfold Computation.derivative
  split <;> exact ⟨rfl, rfl⟩

theorem Expr.pushForward_shapes :
    ∀ (e : Expr) (σ : Store) (m : Nat),
      ((e.pushForward σ).2 m).mDerivativeDescr.domainShape
        = (σ m).mDerivativeDescr.domainShape ∧
      ((e.pushForward σ).2 m).mDerivativeDescr.codomainShape
        = (σ m).mDerivativeDescr.codomainShape
  | .var n, σ, m => by
    simp only [Expr.pushForward]
    by_cases hm : m = n
    · subst hm
      simpa using Computation.derivative_snd_shapes (σ m)
    · simp [Function.update_noteq hm]
  | .sum x y, σ, m => by
    obtain ⟨x1, x2⟩ := Expr.pushForward_shapes x σ m
    obtain ⟨y1, y2⟩ := Expr.pushForward_shapes y (x.pushForward σ).2 m
    exact ⟨y1.trans x1, y2.trans x2⟩
  | .sumLitX _ y, σ, m => Expr.pushForward_shapes y σ m
  | .sumLitY x _, σ, m => Expr.pushForward_shapes x σ m
  | .product x y, σ, m => by
    obtain ⟨x1, x2⟩ := Expr.pushForward_shapes x σ m
    obtain ⟨y1, y2⟩ := Expr.pushForward_shapes y (x.pushForward σ).2 m
    exact ⟨y1.trans x1, y2.trans x2⟩
  | .productLitX _ y, σ, m => Expr.pushForward_shapes y σ m
  | .productLitY x _, σ, m => Expr.pushForward_shapes x σ m

/-- What `pushTangent` on node `n` leaves as it is: the derivative read from
every other node, the recorded shapes of every node, and all values and
expressions. -/
theorem Computation.pushTangent_frame (σ : Store) (n : Nat) :
    (∀ m, m ≠ n → d (Computation.pushTangent σ n) m = d σ m) ∧
    (∀ m, ((Computation.pushTangent σ n) m).mDerivativeDescr.domainShape
        = (σ m).mDerivativeDescr.domainShape ∧
      ((Computation.pushTangent σ n) m).mDerivativeDescr.codomainShape
        = (σ m).mDerivativeDescr.codomainShape) ∧
    SameVE (Computation.pushTangent σ n) σ := by
  cases he : (σ n).mEvaluator with
  | none =>
    have : Computation.pushTangent σ n = σ := by simp [Computation.pushTangent, he]
    rw [this]
    exact ⟨fun _ _ => rfl, fun _ => ⟨rfl, rfl⟩, SameVE.refl σ⟩
  | some e =>
    obtain ⟨_, h2, h3⟩ := Computation.pushTangent_spec he
    refine ⟨h2, fun m => ?_, h3⟩
    have hs := Expr.pushForward_shapes e σ
    unfold Computation.pushTangent
    rw [he]
    simp only
    by_cases hm : m = n
    · subst hm
      simpa using hs m
    · simpa [Function.update_noteq hm] using hs m

theorem foldl_pushTangent_frame (l : List Nat) : ∀ σ : Store,
    (∀ m, m ∉ l → d (l.foldl Computation.pushTangent σ) m = d σ m) ∧
    (∀ m, ((l.foldl Computation.pushTangent σ) m).mDerivativeDescr.domainShape
        = (σ m).mDerivativeDescr.domainShape ∧
      ((l.foldl Computation.pushTangent σ) m).mDerivativeDescr.codomainShape
        = (σ m).mDerivativeDescr.codomainShape) ∧
    SameVE (l.foldl Computation.pushTangent σ) σ := by
  induction l with
  | nil => intro σ; exact ⟨fun _ _ => rfl, fun _ => ⟨rfl, rfl⟩, SameVE.refl σ⟩
  | cons a l ih =>
    intro σ
    obtain ⟨h1, h2, h3⟩ := ih (Computation.pushTangent σ a)
    obtain ⟨k1, k2, k3⟩ := Computation.pushTangent_frame σ a
    rw [List.foldl_cons]
    refine ⟨fun m hm => ?_, fun m => ⟨(h2 m).1.trans (k2 m).1, (h2 m).2.trans (k2 m).2⟩,
      h3.trans k3⟩
    rw [List.mem_cons, not_or] at hm
    rw [h1 m hm.2, k1 m hm.1]

theorem mem_of_filter_map {p : NodeInfo → Bool} {Y : List NodeInfo} {s : Nat}
    (h : s ∈ (Y.filter p).map NodeInfo.node) : ∃ y ∈ Y, p y = true ∧ y.node = s := by
  obtain ⟨y, hy, rfl⟩ := List.mem_map.1 h
  exact ⟨y, (List.mem_filter.1 hy).1, (List.mem_filter.1 hy).2, rfl⟩

theorem eq_of_node_eq {Y : List NodeInfo} (hnd : (nodes Y).Nodup) {y y1 : NodeInfo}
    (hy : y ∈ Y) (hy1 : y1 ∈ Y) (h : y.node = y1.node) : y = y1 :=
  List.inj_on_of_nodup_map hnd hy hy1 h

/-- After a successful `compile()` no source is in the sequence or a pure
target. -/
theorem Function.compile_sources_disjoint {g : Graph} {fuel : Nat} {f0 f : Function}
    (hc : f0.compile g fuel = (.ok, f)) :
    ∀ s ∈ f.mSources, s ∉ f.mSequence ++ f.mPureTargets := by
  have hdone := @Function.compile_ok_done g fuel f0 (by rw [hc])
  rw [Function.compile_ok_eq g fuel f0 hdone] at hc
  have hf : f = _ := (Prod.mk.inj hc).2.symm
  have hnd := (yields_spec g f0.view fuel).1.nodup
  intro s hs hmem
  rw [hf] at hs hmem
  simp only at hs hmem
  obtain ⟨y, hy, hleaf, hys⟩ := mem_sourcesOf.1 hs
  rcases List.mem_append.1 hmem with h1 | h1
  · obtain ⟨y1, hy1, hp, hys1⟩ := mem_of_filter_map h1
    have := eq_of_node_eq hnd hy hy1 (hys.trans hys1.symm)
    subst this
    simp [hleaf] at hp
  · obtain ⟨y1, hy1, hp, hys1⟩ := mem_of_filter_map h1
    have := eq_of_node_eq hnd hy hy1 (hys.trans hys1.symm)
    subst this
    simp [hleaf] at hp

/-- C30: on a Function `f` that `compile()` has compiled, `pushTangentAt(seed)`
for a compiled source `seed` returns normally and afterwards the derivative
read from the seed is the identity `1`, recorded on the seed's value shape, and
the derivative read from every other compiled source is the zero `0`, recorded
with the seed's value shape as domain shape and the source's own value shape
as codomain shape. -/
theorem C30_pushTangentAt_seeds_sources (g : Graph) (fuel : Nat) (f0 f : Function)
    (seed : Nat) (σ : Store) (hc : f0.compile g fuel = (.ok, f)) (hs : seed ∈ f.mSources) :
    (f.pushTangentAt g fuel seed σ).status = .ok ∧
    d (f.pushTangentAt g fuel seed σ).store seed = 1 ∧
    ((f.pushTangentAt g fuel seed σ).store seed).mDerivativeDescr.domainShape
      = (σ seed).valueShape ∧
    ((f.pushTangentAt g fuel seed σ).store seed).mDerivativeDescr.codomainShape
      = (σ seed).valueShape ∧
    ∀ s ∈ f.mSources, s ≠ seed →
      d (f.pushTangentAt g fuel seed σ).store s = 0 ∧
      ((f.pushTangentAt g fuel seed σ).store s).mDerivativeDescr.domainShape
        = (σ seed).valueShape ∧
      ((f.pushTangentAt g fuel seed σ).store s).mDerivativeDescr.codomainShape
        = (σ s).valueShape ∧
      ((f.pushTangentAt g fuel seed σ).store s).valueShape = (σ s).valueShape := by
  have hcomp : f.compiled = true := by
    unfold Function.compiled
    cases hsrc : f.mSources with
    | nil => rw [hsrc] at hs; cases hs
    | cons a l => rfl
  have hcn := Function.compileIfNecessary_of_compiled g fuel f hcomp
  have hdis := Function.compile_sources_disjoint hc
  rw [Function.pushTangentAt_eq seed σ hcn hs, Function.pushTangent_eq _ hcn,
    ← List.foldl_append]
  have hσ1 := foldl_setTangentZero_apply (σ seed).valueShape f.mSources σ
  generalize f.mSources.foldl
    (fun s n => Function.update s n ((s n).setTangentZero (σ seed).valueShape)) σ = σ1 at hσ1 ⊢
  obtain ⟨h1, h2, h3⟩ := foldl_pushTangent_frame (f.mSequence ++ f.mPureTargets)
    (Function.update σ1 seed (σ1 seed).setDerivativeIdentity)
  have hseed : σ1 seed = (σ seed).setTangentZero (σ seed).valueShape := by
    rw [hσ1 seed, if_pos hs]
  refine ⟨rfl, ?_, ?_, ?_, fun s hsm hne => ?_⟩
  · rw [h1 seed (hdis seed hs)]
    exact d_of_identity (by simp [Computation.setDerivativeIdentity])
  · rw [(h2 seed).1, Function.update_same, hseed]
    rfl
  · rw [(h2 seed).2, Function.update_same, hseed]
    rfl
  · have hsrc : σ1 s = (σ s).setTangentZero (σ seed).valueShape := by
      rw [hσ1 s, if_pos hsm]
    refine ⟨?_, ?_, ?_, ?_⟩
    · rw [h1 s (hdis s hsm)]
      exact d_of_zero (by rw [Function.update_noteq hne, hsrc]; rfl)
    · rw [(h2 s).1, Function.update_noteq hne, hsrc]
      rfl
    · rw [(h2 s).2, Function.update_noteq hne, hsrc]
      rfl
    · unfold Computation.valueShape
      rw [(h3 s).1, Function.update_noteq hne, hsrc]
      rfl

theorem multiTarget_compile_direct :
    multiTargetFunction.compile multiTargetGraph 32
      = (.ok, ⟨[0, 1], [2, 3], 2, [0, 1], [2, 3], [0, 1], [2, 3], []⟩) := by
  decide

/-- Witness for C30: the scenario "Function with multiple targets" of the
tests, `u = x + y`, `v = x * y`, seeded at `x`: `d(x) = 1` and `d(y) = 0`. -/
theorem C30_pushTangentAt_seeds_sources_witness :
    d ((⟨[0, 1], [2, 3], 2, [0, 1], [2, 3], [0, 1], [2, 3], []⟩ : Function).pushTangentAt
      multiTargetGraph 32 0 multiTargetStore).store 0 = 1 ∧
    d ((⟨[0, 1], [2, 3], 2, [0, 1], [2, 3], [0, 1], [2, 3], []⟩ : Function).pushTangentAt
      multiTargetGraph 32 0 multiTargetStore).store 1 = 0 :=
  ⟨(C30_pushTangentAt_seeds_sources multiTargetGraph 32 multiTargetFunction _ 0
      multiTargetStore multiTarget_compile_direct (by decide)).2.1,
   ((C30_pushTangentAt_seeds_sources multiTargetGraph 32 multiTargetFunction _ 0
      multiTargetStore multiTarget_compile_direct (by decide)).2.2.2.2 1 (by decide)
      (by decide)).1⟩

/-! ## `releaseChildren` -/

theorem Graph.Acyclic.of_subgraph {g1 g2 : Graph} (h2 : g2.Acyclic)
    (hsub : ∀ n c, c ∈ g1.children n → c ∈ g2.children n) : g1.Acyclic :=
  fun n hn => h2 n (Relation.TransGen.mono (fun a b hab => hsub a b hab) hn)

theorem Graph.reach_of_subgraph {g1 g2 : Graph}
    (hsub : ∀ n c, c ∈ g1.children n → c ∈ g2.children n) {a b : Nat}
    (h : Relation.ReflTransGen g1.edge a b) : Relation.ReflTransGen g2.edge a b :=
  Relation.ReflTransGen.mono (fun x y hxy => hsub x y hxy) h

theorem Graph.children_cons_succ (a : List Nat) (g : Graph) (n : Nat) :
    Graph.children (a :: g) (n + 1) = g.children n := by
  simp [Graph.children]

theorem Graph.children_cons_zero (a : List Nat) (g : Graph) :
    Graph.children (a :: g) 0 = a := by
  simp [Graph.children]

theorem Graph.edgeCount_cons (a : List Nat) (g : Graph) :
    Graph.edgeCount (a :: g) = a.length + g.edgeCount := by
  simp [Graph.edgeCount]

theorem Graph.edgeCount_eq_zero : ∀ g : Graph, (∀ n, g.children n = []) → g.edgeCount = 0
  | [], _ => rfl
  | a :: g, h => by
    have h0 : a = [] := by simpa [Graph.children_cons_zero] using h 0
    have ih := Graph.edgeCount_eq_zero g (fun n => by
      simpa [Graph.children_cons_succ] using h (n + 1))
    rw [Graph.edgeCount_cons, ih, h0]
    rfl

/-- A graph whose child sets are no longer than those of another graph has no
more edges. -/
theorem Graph.edgeCount_le : ∀ g1 g2 : Graph,
    (∀ n, (g1.children n).length ≤ (g2.children n).length) → g1.edgeCount ≤ g2.edgeCount
  | [], _, _ => by simp [Graph.edgeCount]
  | a :: g1, [], h => by
    have : Graph.edgeCount (a :: g1) = 0 := Graph.edgeCount_eq_zero _ (fun n => by
      have := h n
      simp only [Graph.children, List.getD_nil, List.length_nil, Nat.le_zero,
        List.length_eq_zero] at this
      exact this)
    omega
  | a :: g1, b :: g2, h => by
    have h0 : a.length ≤ b.length := by
      simpa [Graph.children_cons_zero] using h 0
    have ih := Graph.edgeCount_le g1 g2 (fun n => by
      simpa [Graph.children_cons_succ] using h (n + 1))
    rw [Graph.edgeCount_cons, Graph.edgeCount_cons]
    omega

theorem Nodes.removeOwnership_owners_sublist (h : Nodes) (n c : Nat) :
    ((h.removeOwnership n).mParentOwners c).Sublist (h.mParentOwners c) := by
  unfold Nodes.removeOwnership
  generalize h.children n = l
  induction l generalizing h with
  | nil => exact List.Sublist.refl _
  | cons a l ih =>
    rw [List.foldl_cons]
    refine (ih (h.removeParentOwner a (.ofNode n))).trans ?_
    unfold Nodes.removeParentOwner
    by_cases hc : c = a
    · subst hc
      simp only [Function.update_same]
      exact List.filter_sublist _
    · simp only [Function.update_noteq hc]
      exact List.Sublist.refl _

theorem Nodes.scan_owners_sublist : ∀ (fuel : Nat) (h : Nodes) (Q D : List Nat) (h1 : Nodes)
    (D1 : List Nat), Nodes.scan fuel h Q D = some (h1, D1) →
      ∀ c, (h1.mParentOwners c).Sublist (h.mParentOwners c) := by
  intro fuel
  induction fuel with
  | zero =>
    intro h Q D h1 D1 hs
    cases Q with
    | nil =>
      simp only [Nodes.scan, Option.some.injEq, Prod.mk.injEq] at hs
      obtain ⟨rfl, _⟩ := hs
      exact fun c => List.Sublist.refl _
    | cons node rest => simp [Nodes.scan] at hs
  | succ fuel ih =>
    intro h Q D h1 D1 hs
    cases Q with
    | nil =>
      simp only [Nodes.scan, Option.some.injEq, Prod.mk.injEq] at hs
      obtain ⟨rfl, _⟩ := hs
      exact fun c => List.Sublist.refl _
    | cons node rest =>
      simp only [Nodes.scan] at hs
      exact fun c => (ih _ _ _ _ _ hs c).trans (Nodes.removeOwnership_owners_sublist h node c)

/-- The destruction of a node `root` on nodes that are well formed below `root`:
with a sufficient step budget it ends; the nodes of a list `D` of nodes reached
from `root` have their child sets cleared and their tokens removed from their
children, and nothing else changes in the child sets, the parent-owner sets and
the outside pointers. -/
theorem Nodes.destroy_post (h : Nodes) (root fuel : Nat) (wf : h.WellFormedFrom root)
    (hold : h.OwnersHold) (hacyc : h.mChildren.Acyclic) (hfuel : h.budget ≤ fuel + 2) :
    ∃ (h2 : Nodes) (D : List Nat), h.destroy (fuel + 2) root = some h2 ∧
      (∀ n ∈ D, Relation.ReflTransGen h.mChildren.edge root n) ∧
      (∀ n, h2.children n = if n ∈ D then [] else h.children n) ∧
      (∀ c t, t ∈ h2.mParentOwners c ↔
        t ∈ h.mParentOwners c ∧ ¬ ∃ q ∈ D, c ∈ h.children q ∧ t = Owner.ofNode q) ∧
      h2.held = h.held ∧ ∀ c, (h2.mParentOwners c).Sublist (h.mParentOwners c) := by
  by_cases hroot : h.children root = []
  · refine ⟨_, [], Nodes.destroy_of_children_nil (fuel + 1) h root hroot, ?_, ?_, ?_, rfl,
      fun c => List.Sublist.refl _⟩
    · intro n hn; cases hn
    · intro n; simp only [List.not_mem_nil, if_false]; rfl
    · intro c t; simp
  · obtain ⟨D, h1, hscan, inv⟩ := Nodes.scan_entered_spec h root fuel wf hacyc hfuel
    obtain ⟨h2, hdes, _, ho, hh, hc⟩ :=
      Nodes.destroy_spec h root fuel wf hold hacyc hroot hscan inv
    refine ⟨h2, D, hdes, fun n hn => inv.desc n (by simpa using hn), hc, fun c t => ?_, hh,
      fun c => ?_⟩
    · rw [ho]
      exact inv.owners c t
    · rw [ho]
      exact Nodes.scan_owners_sublist _ _ _ _ _ _ hscan c

theorem Nodes.ReleaseInv.subgraph {h0 s : Nodes} {p : Nat} {rest : List Nat}
    (inv : Nodes.ReleaseInv h0 p s rest) :
    ∀ n c, c ∈ s.mChildren.children n → c ∈ h0.mChildren.children n :=
  fun n _ hc => (inv.sublist n).subset hc

theorem Nodes.budget_le_of_sublist {h0 s : Nodes}
    (h : ∀ n, (s.children n).Sublist (h0.children n)) : s.budget ≤ h0.budget := by
  have := Graph.edgeCount_le s.mChildren h0.mChildren (fun n => (h n).length_le)
  unfold Nodes.budget
  omega

/-- One pass of the loop of `removeChildren` in `releaseChildren`: the head of
the child set is removed; the invariant holds of the rest. -/
theorem Nodes.ReleaseInv.released {h0 s : Nodes} {p c0 : Nat} {rest : List Nat}
    (inv : Nodes.ReleaseInv h0 p s (c0 :: rest)) :
    Nodes.ReleaseInv h0 p { s with mChildren := s.mChildren.setChildren p rest } rest := by
  have hch : ∀ n, Nodes.children { s with mChildren := s.mChildren.setChildren p rest } n
      = if n = p then rest else s.children n :=
    fun n => Graph.children_setChildren s.mChildren p n rest
  have hpne : ∀ q c, Owner.ofNode q ∈ s.mParentOwners c → q ≠ p :=
    fun q c ht hq => (inv.owners c _ ht).2 (by rw [hq])
  refine ⟨fun n => ?_, fun q c ht => ?_, fun q c hq hc => ?_, inv.hold, ?_, inv.owners,
    inv.held, fun n hn => by rw [hch n, if_neg hn]; exact inv.cleared n hn, inv.ownersSub⟩
  · rw [hch n]
    by_cases hn : n = p
    · subst hn
      rw [if_pos rfl]
      have := inv.sublist n
      rw [inv.rest] at this
      exact (List.sublist_cons_self c0 rest).trans this
    · rw [if_neg hn]
      exact inv.sublist n
  · rw [hch q, if_neg (hpne q c ht)]
    exact inv.registered q c ht
  · rw [hch q, if_neg hq] at hc
    exact inv.token q c hq hc
  · rw [hch p, if_pos rfl]

/-- The invariant of the loop of `removeChildren` holds again after the
destruction of a child that lost its last pointer. -/
theorem Nodes.ReleaseInv.destroyed {h0 s h2 : Nodes} {p c0 : Nat} {rest D : List Nat}
    (hacyc : h0.mChildren.Acyclic) (hc0 : c0 ∈ h0.children p)
    (inv : Nodes.ReleaseInv h0 p s rest)
    (hD : ∀ n ∈ D, Relation.ReflTransGen s.mChildren.edge c0 n)
    (hc : ∀ n, h2.children n = if n ∈ D then [] else s.children n)
    (ho : ∀ c t, t ∈ h2.mParentOwners c ↔
      t ∈ s.mParentOwners c ∧ ¬ ∃ q ∈ D, c ∈ s.children q ∧ t = Owner.ofNode q)
    (hh : h2.held = s.held) (hsub : ∀ c, (h2.mParentOwners c).Sublist (s.mParentOwners c)) :
    Nodes.ReleaseInv h0 p h2 rest := by
  have hpD : p ∉ D := fun hp =>
    hacyc p (Relation.TransGen.head' hc0 (Graph.reach_of_subgraph inv.subgraph (hD p hp)))
  refine ⟨fun n => ?_, fun q c ht => ?_, fun q c hq hcq => ?_, fun c k hk => ?_, ?_,
    fun c t ht => inv.owners c t ((ho c t).1 ht).1, hh.trans inv.held, fun n hn => ?_,
    fun c => (hsub c).trans (inv.ownersSub c)⟩
  · rw [hc n]
    split
    · exact List.nil_sublist _
    · exact inv.sublist n
  · obtain ⟨h1, h2'⟩ := (ho c _).1 ht
    have hcq := inv.registered q c h1
    have hqD : q ∉ D := fun hq => h2' ⟨q, hq, hcq, rfl⟩
    rw [hc q, if_neg hqD]
    exact hcq
  · have hqD : q ∉ D := by
      intro hq
      rw [hc q, if_pos hq] at hcq
      cases hcq
    rw [hc q, if_neg hqD] at hcq
    refine (ho c _).2 ⟨inv.token q c hq hcq, ?_⟩
    rintro ⟨q', hq', _, heq⟩
    exact hqD (Owner.ofNode.inj heq ▸ hq')
  · rw [hh]
    exact inv.hold c k ((ho c _).1 hk).1
  · rw [hc p, if_neg hpD]
    exact inv.rest
  · rw [hc n]
    split
    · exact Or.inr rfl
    · exact inv.cleared n hn

/-- The loop of `removeChildren` in `releaseChildren`: with a sufficient step
budget it ends, and the invariant holds with no child left. -/
theorem Nodes.releaseLoop_spec {h0 : Nodes} {p : Nat} (hnd : ∀ n, (h0.children n).Nodup)
    (hacyc : h0.mChildren.Acyclic) (fuel : Nat) (hfuel : h0.budget ≤ fuel + 2) :
    ∀ (cs : List Nat) (s : Nodes), Nodes.ReleaseInv h0 p s cs →
      ∃ s', Nodes.removeChildrenWith (Nodes.destroy (fuel + 2)) p cs s = some s' ∧
        Nodes.ReleaseInv h0 p s' [] := by
  intro cs
  induction cs with
  | nil => intro s inv; exact ⟨s, rfl, inv⟩
  | cons c0 rest ih =>
    intro s inv
    have inv1 := inv.released
    have hc0 : c0 ∈ h0.children p := by
      have := inv.sublist p
      rw [inv.rest] at this
      exact this.subset (List.mem_cons_self _ _)
    simp only [Nodes.removeChildrenWith]
    by_cases huc : Nodes.useCount { s with mChildren := s.mChildren.setChildren p rest } c0 = 0
    · have hacyc1 : Graph.Acyclic (s.mChildren.setChildren p rest) :=
        hacyc.of_subgraph inv1.subgraph
      have wf1 : Nodes.WellFormedFrom
          { s with mChildren := s.mChildren.setChildren p rest } c0 := by
        refine ⟨fun n => (inv1.sublist n).nodup (hnd n), inv1.registered,
          fun q c hq hcq => inv1.token q c ?_ hcq⟩
        intro hqp
        subst hqp
        exact hacyc q (Relation.TransGen.head' hc0 (Graph.reach_of_subgraph inv1.subgraph hq))
      obtain ⟨h2, D, hdes, hD, hc, ho, hh, hsub⟩ :=
        Nodes.destroy_post _ c0 fuel wf1 inv1.hold hacyc1
          ((Nodes.budget_le_of_sublist inv1.sublist).trans hfuel)
      simp only [huc, if_true, hdes, Option.some_bind]
      exact ih h2 (inv1.destroyed hacyc hc0 hD hc ho hh hsub)
    · simp only [huc, if_false, Option.some_bind]
      exact ih _ inv1

theorem Nodes.removeOwnership_children (h : Nodes) (n m : Nat) :
    (h.removeOwnership n).children m = h.children m :=
  Nodes.children_eq (Nodes.removeOwnership_spec h n).1 m

/-- The invariant of the loop holds when `removeOwnership` has run. -/
theorem Nodes.ReleaseInv.entered {h : Nodes} (wf : h.WellFormed) (hold : h.OwnersHold)
    (p : Nat) : Nodes.ReleaseInv h p (h.removeOwnership p) (h.children p) := by
  obtain ⟨_, r2, _, _, r5⟩ := Nodes.removeOwnership_spec h p
  refine ⟨fun n => ?_, fun q c ht => ?_, fun q c hq hc => ?_, fun c k hk => ?_,
    Nodes.removeOwnership_children h p p, fun c t ht => ?_, r2,
    fun n _ => Or.inl (Nodes.removeOwnership_children h p n),
    Nodes.removeOwnership_owners_sublist h p⟩
  · rw [Nodes.removeOwnership_children]
  · rw [Nodes.removeOwnership_children]
    exact (wf.token q c).2 ((r5 c _).1 ht).1
  · rw [Nodes.removeOwnership_children] at hc
    exact (r5 c _).2 ⟨(wf.token q c).1 hc, fun ⟨_, heq⟩ => hq (Owner.ofNode.inj heq)⟩
  · rw [r2]
    exact hold c k ((r5 c _).1 hk).1
  · obtain ⟨h1, h2⟩ := (r5 c t).1 ht
    exact ⟨h1, fun heq => h2 ⟨(wf.token p c).2 (heq ▸ h1), heq⟩⟩

/-- `releaseChildren` on well-formed nodes over an acyclic graph, every owner
registered from outside holding a pointer: with a sufficient step budget it
ends, with the invariant of its loop and no child left. -/
theorem Nodes.releaseChildren_spec (h : Nodes) (p fuel : Nat) (wf : h.WellFormed)
    (hold : h.OwnersHold) (hacyc : h.mChildren.Acyclic) (hfuel : h.budget ≤ fuel + 2) :
    ∃ h', h.releaseChildren (fuel + 2) p = some h' ∧
      (h.children p = [] → h' = h) ∧
      (h.children p ≠ [] → Nodes.ReleaseInv h p h' []) := by
  unfold Nodes.releaseChildren
  cases hcp : h.children p with
  | nil =>
    refine ⟨h, by simp, fun _ => rfl, fun hne => absurd rfl hne⟩
  | cons a l =>
    have hstart := Nodes.ReleaseInv.entered wf hold p
    obtain ⟨s', hs', inv⟩ := Nodes.releaseLoop_spec wf.nodup hacyc fuel hfuel
      ((h.removeOwnership p).children p) (h.removeOwnership p)
      (by rw [Nodes.removeOwnership_children]; exact hstart)
    refine ⟨s', ?_, fun hnil => (List.cons_ne_nil _ _ hnil).elim, fun _ => inv⟩
    simp only [List.isEmpty_cons, Bool.false_eq_true, if_false]
    exact hs'

/-! ## `releaseChildren` when no child loses its last pointer -/

theorem List.countP_le_countP_set {α : Type} (P : α → Bool) :
    ∀ (l : List α) (i : Nat) (a : α), l.countP P ≤ (l.set i a).countP P + 1
  | [], _, _ => by simp
  | x :: l, 0, a => by
    simp only [List.set_cons_zero, List.countP_cons]
    split <;> split <;> omega
  | x :: l, i + 1, a => by
    have := List.countP_le_countP_set P l i a
    simp only [List.set_cons_succ, List.countP_cons]
    split <;> omega

theorem Graph.countP_setChildren (P : List Nat → Bool) (g : Graph) (p : Nat) (cs : List Nat) :
    g.countP P ≤ (g.setChildren p cs).countP P + 1 := by
  unfold Graph.setChildren
  have h1 := List.countP_le_countP_set P (g ++ List.replicate (p + 1 - g.length) []) p cs
  have h2 : g.countP P ≤ (g ++ List.replicate (p + 1 - g.length) []).countP P := by
    rw [List.countP_append]
    omega
  omega

theorem Graph.setChildren_setChildren (g : Graph) (p : Nat) (a b : List Nat) :
    (g.setChildren p a).setChildren p b = g.setChildren p b := by
  unfold Graph.setChildren
  have h0 : p + 1 - ((g ++ List.replicate (p + 1 - g.length) []).set p a).length = 0 := by
    simp only [List.length_set, List.length_append, List.length_replicate]
    omega
  rw [h0, List.replicate_zero, List.append_nil, List.set_set]

/-- The loop of `removeChildren` on node `p` when every child is also held by
another pointer: no destructor is called, and only the child set of `p`
changes. -/
theorem Nodes.removeChildren_of_held (dtor : Nodes → Nat → Option Nodes) (g0 : Graph)
    (p : Nat) : ∀ (cs : List Nat) (s : Nodes),
      (∀ b, s.mChildren.setChildren p b = g0.setChildren p b) →
      (∀ c ∈ cs, 2 ≤ s.held c + g0.countP (fun x => x.contains c)) →
      ∃ s', Nodes.removeChildrenWith dtor p cs s = some s' ∧
        s'.mParentOwners = s.mParentOwners ∧ s'.held = s.held ∧
        s'.mDtorSeq = s.mDtorSeq ∧ s'.teardowns = s.teardowns ∧
        (cs ≠ [] → s'.mChildren = g0.setChildren p []) ∧ (cs = [] → s' = s) := by
  intro cs
  induction cs with
  | nil =>
    intro s _ _
    exact ⟨s, rfl, rfl, rfl, rfl, rfl, fun h => absurd rfl h, fun _ => rfl⟩
  | cons c rest ih =>
    intro s hs hheld
    simp only [Nodes.removeChildrenWith]
    have huc : Nodes.useCount { s with mChildren := s.mChildren.setChildren p rest } c ≠ 0 := by
      unfold Nodes.useCount
      simp only
      rw [hs rest]
      have h1 := hheld c (List.mem_cons_self _ _)
      have h2 := Graph.countP_setChildren (fun x => x.contains c) g0 p rest
      omega
    simp only [huc, if_false, Option.some_bind]
    obtain ⟨s', h1, h2, h3, h4, h5, h6, h7⟩ :=
      ih { s with mChildren := s.mChildren.setChildren p rest }
        (fun b => by
          simp only
          rw [hs rest, Graph.setChildren_setChildren])
        (fun c' hc' => hheld c' (List.mem_cons_of_mem _ hc'))
    refine ⟨s', h1, h2, h3, h4, h5, fun _ => ?_, fun h => (List.cons_ne_nil _ _ h).elim⟩
    cases rest with
    | nil =>
      rw [h7 rfl]
      exact hs []
    | cons a l => exact h6 (List.cons_ne_nil _ _)

theorem Nodes.foldl_removeParentOwner_owners (n : Nat) (l : List Nat) : ∀ (h : Nodes) (c : Nat),
    (l.foldl (fun s child => s.removeParentOwner child (.ofNode n)) h).mParentOwners c
      = if c ∈ l then (h.mParentOwners c).filter (fun t => t != Owner.ofNode n)
        else h.mParentOwners c := by
  induction l with
  | nil => intro h c; simp
  | cons a l ih =>
    intro h c
    rw [List.foldl_cons, ih]
    by_cases hca : c = a
    · subst hca
      by_cases hcl : c ∈ l <;>
        simp [hcl, Nodes.removeParentOwner, List.filter_filter]
    · by_cases hcl : c ∈ l <;>
        simp [hcl, hca, Nodes.removeParentOwner, Function.update_noteq hca]

/-- The parent-owner sets after `removeOwnership` on node `n`. -/
theorem Nodes.removeOwnership_owners (h : Nodes) (n c : Nat) :
    (h.removeOwnership n).mParentOwners c
      = if c ∈ h.children n then (h.mParentOwners c).filter (fun t => t != Owner.ofNode n)
        else h.mParentOwners c :=
  Nodes.foldl_removeParentOwner_owners n (h.children n) h c

/-- `releaseChildren` on node `p` when every child of `p` is also held by another
pointer: only the child set of `p` and the token of `p` on its children
change, and no destructor runs. -/
theorem Nodes.releaseChildren_of_held (h : Nodes) (p fuel : Nat)
    (hheld : ∀ c ∈ h.children p, 2 ≤ h.useCount c) :
    ∃ h', h.releaseChildren fuel p = some h' ∧
      h'.children p = [] ∧ (∀ n, n ≠ p → h'.children n = h.children n) ∧
      (∀ c, h'.mParentOwners c
        = if c ∈ h.children p then (h.mParentOwners c).filter (fun t => t != Owner.ofNode p)
          else h.mParentOwners c) ∧
      h'.held = h.held ∧ h'.mDtorSeq = h.mDtorSeq ∧ h'.teardowns = h.teardowns := by
  unfold Nodes.releaseChildren
  cases hcp : h.children p with
  | nil =>
    refine ⟨h, by simp, hcp, fun _ _ => rfl, fun c => by simp, rfl, rfl, rfl⟩
  | cons a l =>
    obtain ⟨r1, r2, r3, r4, _⟩ := Nodes.removeOwnership_spec h p
    obtain ⟨s', h1, h2, h3, h4, h5, h6, _⟩ :=
      Nodes.removeChildren_of_held (Nodes.destroy fuel) h.mChildren p
        ((h.removeOwnership p).children p) (h.removeOwnership p)
        (fun b => by rw [r1])
        (fun c hc => by
          rw [Nodes.removeOwnership_children] at hc
          rw [r2]
          exact hheld c hc)
    have hne : (h.removeOwnership p).children p ≠ [] := by
      rw [Nodes.removeOwnership_children, hcp]
      exact List.cons_ne_nil _ _
    have hch : ∀ n, s'.children n = if n = p then [] else h.children n := by
      intro n
      unfold Nodes.children
      rw [h6 hne]
      exact Graph.children_setChildren h.mChildren p n []
    refine ⟨s', ?_, by rw [hch p, if_pos rfl], fun n hn => by rw [hch n, if_neg hn],
      fun c => ?_, h3.trans r2, h4.trans r3, h5.trans r4⟩
    · simp only [List.isEmpty_cons, Bool.false_eq_true, if_false]
      exact h1
    · rw [h2, Nodes.removeOwnership_owners, hcp]

/-! ## Claim about `releaseChildren` -/

/-- C21: `releaseChildren()` on a node `p` of well-formed nodes over an acyclic
graph, every owner registered from outside holding a pointer, returns with a
sufficient step budget; afterwards `p` has no children and its token is on none
of its former children, the parent-owner sets have only lost tokens, every
other child set is as before or cleared, and the outside pointers are as
before.  When every child of `p` is also held by a pointer that is not `p`'s, the
parent-owner set of a child has lost exactly the token of `p`, and all other
child sets, all other parent-owner sets and the destructor log are unchanged.
On a childless node nothing changes. -/
theorem C21_releaseChildren (h : Nodes) (p fuel : Nat) (wf : h.WellFormed)
    (hold : h.OwnersHold) (hacyc : h.mChildren.Acyclic) (hfuel : h.budget ≤ fuel + 2) :
    ∃ h', h.releaseChildren (fuel + 2) p = some h' ∧
      h'.children p = [] ∧
      (∀ c ∈ h.children p, Owner.ofNode p ∉ h'.mParentOwners c) ∧
      (∀ c t, t ∈ h'.mParentOwners c → t ∈ h.mParentOwners c) ∧
      (∀ n, n ≠ p → h'.children n = h.children n ∨ h'.children n = []) ∧
      h'.held = h.held ∧
      ((∀ c ∈ h.children p, 2 ≤ h.useCount c) →
        (∀ n, n ≠ p → h'.children n = h.children n) ∧
        (∀ c, h'.mParentOwners c
          = if c ∈ h.children p then
              (h.mParentOwners c).filter (fun t => t != Owner.ofNode p)
            else h.mParentOwners c) ∧
        h'.mDtorSeq = h.mDtorSeq ∧ h'.teardowns = h.teardowns) ∧
      (h.children p = [] → h' = h) := by
  obtain ⟨h', hrel, hnil, hinv⟩ := Nodes.releaseChildren_spec h p fuel wf hold hacyc hfuel
  have hexact : (∀ c ∈ h.children p, 2 ≤ h.useCount c) →
      (∀ n, n ≠ p → h'.children n = h.children n) ∧
      (∀ c, h'.mParentOwners c
        = if c ∈ h.children p then
            (h.mParentOwners c).filter (fun t => t != Owner.ofNode p)
          else h.mParentOwners c) ∧
      h'.mDtorSeq = h.mDtorSeq ∧ h'.teardowns = h.teardowns := by
    intro hheld
    obtain ⟨h2, hrel2, _, k2, k3, _, k5, k6⟩ :=
      Nodes.releaseChildren_of_held h p (fuel + 2) hheld
    have : h2 = h' := Option.some.inj (hrel2.symm.trans hrel)
    subst this
    exact ⟨k2, k3, k5, k6⟩
  by_cases hcp : h.children p = []
  · have := hnil hcp
    subst this
    refine ⟨h', hrel, hcp, fun c hc => ?_, fun _ _ ht => ht, fun _ _ => Or.inl rfl, rfl,
      hexact, fun _ => rfl⟩
    rw [hcp] at hc
    cases hc
  · have inv := hinv hcp
    exact ⟨h', hrel, inv.rest, fun c _ ht => (inv.owners c _ ht).2 rfl,
      fun c t ht => (inv.owners c t ht).1, inv.cleared, inv.held, hexact,
      fun hnil' => absurd hnil' hcp⟩

theorem releaseNodes_owners_nil (c : Nat) (hc : 3 ≤ c) : releaseNodes.mParentOwners c = [] := by
  simp only [releaseNodes]
  split <;> first | rfl | (exfalso; omega)

theorem releaseNodes_wellFormed : releaseNodes.WellFormed where
  nodup := fun n => by
    by_cases hn : n < 2
    · interval_cases n <;> decide
    · rw [show releaseNodes.children n = [] from
        Graph.children_of_length_le _ (not_lt.1 hn)]
      exact List.nodup_nil
  token := fun p c => by
    by_cases hc : c < 3
    · by_cases hp : p < 2
      · interval_cases p <;> interval_cases c <;> decide
      · rw [show releaseNodes.children p = [] from
          Graph.children_of_length_le _ (not_lt.1 hp)]
        interval_cases c <;> simp [releaseNodes] <;> omega
    · rw [releaseNodes_owners_nil c (not_lt.1 hc)]
      by_cases hp : p < 2
      · interval_cases p <;> simp [releaseNodes, Nodes.children, Graph.children] <;> omega
      · rw [show releaseNodes.children p = [] from
          Graph.children_of_length_le _ (not_lt.1 hp)]
        simp

theorem releaseNodes_ownersHold : releaseNodes.OwnersHold := by
  intro c k hk
  by_cases hc : c < 3
  · interval_cases c <;> simp [releaseNodes] at hk ⊢
  · rw [releaseNodes_owners_nil c (not_lt.1 hc)] at hk
    cases hk

/-- Counterexample to C21 as stated: in `p → c → e` with `p` holding the only
pointer to `c`, `releaseChildren()` on `p` destructs `c`; the child set of the
child `c` is cleared and the token of `c` is removed from `e`, a node that is not
a child of `p`. -/
theorem C21_counterexample :
    releaseNodes.WellFormed ∧ releaseNodes.OwnersHold ∧ releaseNodes.mChildren.Acyclic ∧
    releaseNodes.children 0 = [1] ∧ releaseNodes.children 1 = [2] ∧
    releaseNodes.mParentOwners 2 = [.ofNode 1, .outside 0] ∧
    (releaseNodes.releaseChildren 5 0).map
        (fun h => (h.children 1, h.mParentOwners 2, h.mDtorSeq))
      = some ([], [.outside 0], [1]) :=
  ⟨releaseNodes_wellFormed, releaseNodes_ownersHold,
    Graph.acyclic_of_increasing _ (by decide), by decide, by decide, by decide, by decide⟩

/-- Witness for C21: the nodes `p → c → e` of the counterexample. -/
theorem C21_releaseChildren_witness :
    ∃ h', releaseNodes.releaseChildren (3 + 2) 0 = some h' ∧
      h'.children 0 = [] ∧
      (∀ c ∈ releaseNodes.children 0, Owner.ofNode 0 ∉ h'.mParentOwners c) ∧
      (∀ c t, t ∈ h'.mParentOwners c → t ∈ releaseNodes.mParentOwners c) ∧
      (∀ n, n ≠ 0 → h'.children n = releaseNodes.children n ∨ h'.children n = []) ∧
      h'.held = releaseNodes.held ∧
      ((∀ c ∈ releaseNodes.children 0, 2 ≤ releaseNodes.useCount c) →
        (∀ n, n ≠ 0 → h'.children n = releaseNodes.children n) ∧
        (∀ c, h'.mParentOwners c
          = if c ∈ releaseNodes.children 0 then
              (releaseNodes.mParentOwners c).filter (fun t => t != Owner.ofNode 0)
            else releaseNodes.mParentOwners c) ∧
        h'.mDtorSeq = releaseNodes.mDtorSeq ∧ h'.teardowns = releaseNodes.teardowns) ∧
      (releaseNodes.children 0 = [] → h' = releaseNodes) :=
  C21_releaseChildren releaseNodes 0 3 releaseNodes_wellFormed releaseNodes_ownersHold
    (Graph.acyclic_of_increasing _ (by decide)) (by decide)

/-! ## Claim about `setValue` -/

/-- `releaseChildren` on well-formed nodes: it returns, the node has no children
afterwards and its token is registered nowhere. -/
theorem Nodes.releaseChildren_post (h : Nodes) (p fuel : Nat) (wf : h.WellFormed)
    (hold : h.OwnersHold) (hacyc : h.mChildren.Acyclic) (hfuel : h.budget ≤ fuel + 2) :
    ∃ h', h.releaseChildren (fuel + 2) p = some h' ∧ h'.children p = [] ∧
      (∀ c, Owner.ofNode p ∉ h'.mParentOwners c) ∧
      (∀ n, (h'.children n).Sublist (h.children n)) ∧
      (∀ c, (h'.mParentOwners c).Sublist (h.mParentOwners c)) ∧ h'.held = h.held ∧
      h'.WellFormed := by
  obtain ⟨h', hrel, hnil, hinv⟩ := Nodes.releaseChildren_spec h p fuel wf hold hacyc hfuel
  by_cases hcp : h.children p = []
  · have := hnil hcp
    subst this
    refine ⟨h', hrel, hcp, fun c ht => ?_, fun _ => List.Sublist.refl _,
      fun _ => List.Sublist.refl _, rfl, wf⟩
    have := (wf.token p c).2 ht
    rw [hcp] at this
    cases this
  · have inv := hinv hcp
    refine ⟨h', hrel, inv.rest, fun c ht => (inv.owners c _ ht).2 rfl, inv.sublist,
      inv.ownersSub, inv.held, ⟨fun n => (inv.sublist n).nodup (wf.nodup n), fun q c => ?_⟩⟩
    constructor
    · intro hc
      by_cases hq : q = p
      · subst hq
        rw [inv.rest] at hc
        cases hc
      · exact inv.token q c hq hc
    · exact inv.registered q c

/-- C27: `setValue(v)` on a computation of well-formed nodes over an acyclic
graph, every owner registered from outside holding a pointer, returns with a
sufficient step budget; afterwards `value()` is `v`, the computation has no
evaluator and no children, its token is on none of its former children (and on
no other node), the stored derivative and the description of the derivative
with its state are as before, and the data of every other computation is
unchanged. -/
theorem C27_setValue (w : Objects) (n fuel : Nat) (value : Int) (wf : w.nodes.WellFormed)
    (hold : w.nodes.OwnersHold) (hacyc : w.nodes.mChildren.Acyclic)
    (hfuel : w.nodes.budget ≤ fuel + 2) :
    ∃ w', w.setValue (fuel + 2) n value = some w' ∧
      (w'.store n).value = value ∧ (w'.store n).mEvaluator = none ∧
      w'.nodes.children n = [] ∧
      (∀ c ∈ w.nodes.children n, Owner.ofNode n ∉ w'.nodes.mParentOwners c) ∧
      (∀ c, Owner.ofNode n ∉ w'.nodes.mParentOwners c) ∧
      (w'.store n).mDerivative = (w.store n).mDerivative ∧
      (w'.store n).mDerivativeDescr = (w.store n).mDerivativeDescr ∧
      (w'.store n).derivative.1 = (w.store n).derivative.1 ∧
      ∀ m, m ≠ n → w'.store m = w.store m := by
  obtain ⟨h', hrel, hch, htok, _, _, _, _⟩ :=
    Nodes.releaseChildren_post w.nodes n fuel wf hold hacyc hfuel
  have hset : w.setValue (fuel + 2) n value = some
      { w with nodes := h',
               store := Function.update w.store n
                 { w.store n with mEvaluator := none, mValue := value } } := by
    simp only [Objects.setValue, hrel, Option.map_some']
  refine ⟨_, hset, ?_, ?_, hch, fun c _ => htok c, htok, ?_, ?_, ?_, fun m hm => ?_⟩
  · simp [Computation.value]
  · simp
  · simp
  · simp
  · simp only [Function.update_same, Computation.derivative]
    split <;> rfl
  · simp [Function.update_noteq hm]

/-- Witness for C27: `p = 5` in the program `e = 1; c = e * e; p = c + c`. -/
theorem C27_setValue_witness :
    ∃ w', releaseObjects.setValue (3 + 2) 0 5 = some w' ∧
      (w'.store 0).value = 5 ∧ (w'.store 0).mEvaluator = none ∧
      w'.nodes.children 0 = [] ∧
      (∀ c ∈ releaseObjects.nodes.children 0, Owner.ofNode 0 ∉ w'.nodes.mParentOwners c) ∧
      (∀ c, Owner.ofNode 0 ∉ w'.nodes.mParentOwners c) ∧
      (w'.store 0).mDerivative = (releaseObjects.store 0).mDerivative ∧
      (w'.store 0).mDerivativeDescr = (releaseObjects.store 0).mDerivativeDescr ∧
      (w'.store 0).derivative.1 = (releaseObjects.store 0).derivative.1 ∧
      ∀ m, m ≠ 0 → w'.store m = releaseObjects.store m :=
  C27_setValue releaseObjects 0 3 5 releaseNodes_wellFormed releaseNodes_ownersHold
    (Graph.acyclic_of_increasing _ (by decide)) (by decide)

/-- The scenario "Assignment to an expression evaluator" of the tests in the
program `e = 1; c = e * e; p = c + c`: after `p = 5` the value of `p` is `5`, `p`
is a literal without children, and the token of `p` is gone from `c`. -/
theorem setValue_example :
    (releaseObjects.setValue 5 0 5).map
        (fun w => ((w.store 0).value, (w.store 0).mEvaluator, w.nodes.children 0,
          w.nodes.mParentOwners 1))
      = some (5, none, [], []) := by
  decide

/-! ## Claim about eager evaluation -/

theorem Expr.value_congr_operands {σ1 σ2 : Store} :
    ∀ e : Expr, (∀ c ∈ e.operands, (σ1 c).mValue = (σ2 c).mValue) → e.value σ1 = e.value σ2
  | .var n, h => by simpa [Expr.value, Computation.value] using h n (by simp [Expr.operands])
  | .sum x y, h => by
    simp only [Expr.value]
    rw [Expr.value_congr_operands x (fun c hc => h c (by simp [Expr.operands, hc])),
      Expr.value_congr_operands y (fun c hc => h c (by simp [Expr.operands, hc]))]
  | .sumLitX _ y, h => by
    simp only [Expr.value]
    rw [Expr.value_congr_operands y (fun c hc => h c (by simpa [Expr.operands] using hc))]
  | .sumLitY x _, h => by
    simp only [Expr.value]
    rw [Expr.value_congr_operands x (fun c hc => h c (by simpa [Expr.operands] using hc))]
  | .product x y, h => by
    simp only [Expr.value]
    rw [Expr.value_congr_operands x (fun c hc => h c (by simp [Expr.operands, hc])),
      Expr.value_congr_operands y (fun c hc => h c (by simp [Expr.operands, hc]))]
  | .productLitX _ y, h => by
    simp only [Expr.value]
    rw [Expr.value_congr_operands y (fun c hc => h c (by simpa [Expr.operands] using hc))]
  | .productLitY x _, h => by
    simp only [Expr.value]
    rw [Expr.value_congr_operands x (fun c hc => h c (by simpa [Expr.operands] using hc))]

theorem Objects.copyOperands_spec (l : List Nat) : ∀ w : Objects,
    (w.copyOperands l).1.store = w.store ∧
    (w.copyOperands l).1.nodes.mChildren = w.nodes.mChildren ∧
    (w.copyOperands l).1.nextNode = w.nextNode ∧
    ∀ r ∈ (w.copyOperands l).2, r.mComputation ≠ none := by
  induction l with
  | nil => intro w; exact ⟨rfl, rfl, rfl, fun r hr => by cases hr⟩
  | cons c rest ih =>
    intro w
    obtain ⟨h1, h2, h3, h4⟩ := ih (Reference.copyOf w c c).1
    refine ⟨h1, h2, h3, fun r hr => ?_⟩
    simp only [Objects.copyOperands, List.mem_cons] at hr
    rcases hr with rfl | hr
    · simp [Reference.copyOf]
    · exact h4 r hr

theorem Objects.transferChildrenTo_spec (node : Nat) : ∀ (refs : List Reference) (w : Objects),
    (∀ r ∈ refs, r.mComputation ≠ none) →
      ∃ w', Objects.transferChildrenTo node refs w = some w' ∧ w'.store = w.store ∧
        w'.nextNode = w.nextNode := by
  intro refs
  induction refs with
  | nil => intro w _; exact ⟨w, rfl, rfl, rfl⟩
  | cons r rest ih =>
    intro w h
    cases hc : r.mComputation with
    | none => exact absurd hc (h r (List.mem_cons_self _ _))
    | some c =>
      obtain ⟨w', h1, h2, h3⟩ := ih
        { w with nodes :=
            { (w.nodes.removeParentOwner c (.outside r.mOwner)).addChild node c with
              held := Function.update
                ((w.nodes.removeParentOwner c (.outside r.mOwner)).addChild node c).held c
                (((w.nodes.removeParentOwner c (.outside r.mOwner)).addChild node c).held c
                  - 1) } }
        (fun r' hr' => h r' (List.mem_cons_of_mem _ hr'))
      refine ⟨w', ?_, h2, h3⟩
      simp only [Objects.transferChildrenTo, Reference.transferOperationTo, hc,
        Option.some_bind]
      exact h1

/-- `Computation::setExpression` returns when `releaseChildren` does, and of the
data of the computations it changes the evaluator of the node only. -/
theorem Objects.setExpression_of_release {w : Objects} {n fuel : Nat} {nodes : Nodes}
    (e : Expr) (h : w.nodes.releaseChildren fuel n = some nodes) :
    ∃ w', w.setExpression fuel n e = some w' ∧
      w'.store = Function.update w.store n { w.store n with mEvaluator := some e } ∧
      w'.nextNode = w.nextNode := by
  obtain ⟨k1, _, k3, k4⟩ := Objects.copyOperands_spec e.operands { w with nodes := nodes }
  obtain ⟨w', h1, h2, h3⟩ := Objects.transferChildrenTo_spec n
    (Objects.copyOperands { w with nodes := nodes } e.operands).2
    { (Objects.copyOperands { w with nodes := nodes } e.operands).1 with
      store := Function.update (Objects.copyOperands { w with nodes := nodes } e.operands).1.store
        n { (Objects.copyOperands { w with nodes := nodes } e.operands).1.store n with
            mEvaluator := some e } } k4
  refine ⟨w', ?_, ?_, h3.trans k3⟩
  · simp only [Objects.setExpression, h, Option.some_bind]
    exact h1
  · rw [h2]
    simp only [k1]

/-- `Variable::setExpression` returns when `releaseChildren` does; the value of
the variable is then the value of the expression at the values cached before,
and no other computation has changed its data. -/
theorem Variable.eager_of_release {w : Objects} {v : Variable} {fuel : Nat}
    {nodes : Nodes} (e : Expr)
    (h : w.nodes.releaseChildren fuel v.mRef.mComputationPtr = some nodes) :
    ∃ w', v.setExpression fuel w e = some w' ∧ v.call w' = e.value w.store ∧
      (w'.store v.mRef.mComputationPtr).mEvaluator = some e ∧
      (∀ m, m ≠ v.mRef.mComputationPtr → w'.store m = w.store m) ∧
      w'.nextNode = w.nextNode := by
  obtain ⟨w1, h1, h2, h3⟩ := Objects.setExpression_of_release e h
  have hev : (w1.store v.mRef.mComputationPtr).mEvaluator = some e := by
    rw [h2]
    simp
  have hval : e.value w1.store = e.value w.store := by
    refine Expr.value_congr_operands e (fun c _ => ?_)
    rw [h2]
    by_cases hc : c = v.mRef.mComputationPtr
    · subst hc
      simp
    · simp [Function.update_noteq hc]
  refine ⟨{ w1 with store := Computation.evaluate w1.store v.mRef.mComputationPtr },
    by simp only [Variable.setExpression, h1, Option.map_some'], ?_, ?_, fun m hm => ?_, h3⟩
  · simp [Variable.call, Computation.evaluate, hev, Computation.value, hval]
  · simp [Computation.evaluate, hev]
  · simp only [Computation.evaluate, hev, Function.update_noteq hm]
    rw [h2, Function.update_noteq hm]

theorem Nodes.releaseChildren_of_nil (fuel : Nat) (h : Nodes) (n : Nat)
    (hn : h.children n = []) : h.releaseChildren fuel n = some h := by
  simp [Nodes.releaseChildren, hn]

theorem Reference.new_children (w : Objects) :
    (Reference.new w).1.nodes.children w.nextNode = [] := by
  have := Graph.children_setChildren w.nodes.mChildren w.nextNode w.nextNode []
  rw [if_pos rfl] at this
  exact this

/-- C29: with eager evaluation, assigning an expression `e` to a variable `z` on
well-formed nodes returns with a sufficient step budget and leaves `z()` equal to
the value of `e` at the values that were cached before the assignment, with `e`
as the expression of the computation and without a change in the data of any
other computation; constructing a variable from `e` returns with any budget and
the new variable has that value. -/
theorem C29_eager_evaluation (w : Objects) (z : Variable) (fuel : Nat) (e : Expr)
    (wf : w.nodes.WellFormed) (hold : w.nodes.OwnersHold) (hacyc : w.nodes.mChildren.Acyclic)
    (hfuel : w.nodes.budget ≤ fuel + 2) :
    (∃ w', z.assignExpression (fuel + 2) w e = some w' ∧ z.call w' = e.value w.store ∧
      (w'.store z.mRef.mComputationPtr).mEvaluator = some e ∧
      ∀ m, m ≠ z.mRef.mComputationPtr → w'.store m = w.store m) ∧
    ((∀ c ∈ e.operands, c ≠ w.nextNode) → ∀ fuel1,
      ∃ w' z', Variable.ofExpression fuel1 w e = some (w', z') ∧
        z'.call w' = e.value w.store ∧ z'.mRef.mComputationPtr = w.nextNode ∧
        (w'.store w.nextNode).mEvaluator = some e ∧
        ∀ m, m ≠ w.nextNode → w'.store m = w.store m) := by
  constructor
  · obtain ⟨nodes, hrel, _⟩ :=
      Nodes.releaseChildren_post w.nodes z.mRef.mComputationPtr fuel wf hold hacyc hfuel
    obtain ⟨w', h1, h2, h3, h4, _⟩ := Variable.eager_of_release e hrel
    exact ⟨w', h1, h2, h3, h4⟩
  · intro hops fuel1
    have hrel := Nodes.releaseChildren_of_nil fuel1 (Reference.new w).1.nodes w.nextNode
      (Reference.new_children w)
    obtain ⟨w', h1, h2, h3, h4, _⟩ :=
      @Variable.eager_of_release (Variable.new w).1 (Variable.new w).2 fuel1 _ e hrel
    have hstore : ∀ m, m ≠ w.nextNode → (Variable.new w).1.store m = w.store m :=
      fun m hm => by simp [Variable.new, Reference.new, Function.update_noteq hm]
    refine ⟨w', (Variable.new w).2, ?_, ?_, rfl, h3, fun m hm => (h4 m hm).trans (hstore m hm)⟩
    · simp only [Variable.ofExpression, h1, Option.map_some']
    · rw [h2]
      exact Expr.value_congr_operands e (fun c hc => by rw [hstore c (hops c hc)])

/-- Witness for C29: `p = e * e` assigned in the program `e = 1; c = e * e;
p = c + c`. -/
theorem C29_eager_evaluation_witness :
    ∃ w', (Variable.mk ⟨0, some 0, 0⟩).assignExpression (3 + 2) releaseObjects
        (.product (.var 2) (.var 2)) = some w' ∧
      (Variable.mk ⟨0, some 0, 0⟩).call w'
        = Expr.value releaseObjects.store (.product (.var 2) (.var 2)) ∧
      (w'.store 0).mEvaluator = some (.product (.var 2) (.var 2)) ∧
      ∀ m, m ≠ 0 → w'.store m = releaseObjects.store m :=
  (C29_eager_evaluation releaseObjects ⟨⟨0, some 0, 0⟩⟩ 3 (.product (.var 2) (.var 2))
    releaseNodes_wellFormed releaseNodes_ownersHold
    (Graph.acyclic_of_increasing _ (by decide)) (by decide)).1

/-- The scenario "Differentiation after eager evaluation" of the tests: after
`x = var(2); y = var(3); z = var(x * y)` the node of `z` has the children `x`
and `y` and `z()` is `6` without a call of `evaluate()`; then `pushTangentAt(x)`
and `pushTangentAt(y)` leave `d(z) = 3` and `d(z) = 2`, and `pullGradientAt(z)`
leaves `d(x) = 3` and `d(y) = 2`. -/
theorem eager_example :
    eagerObjects.map (fun w => (w.nodes.mChildren, (w.store 2).value, w.nextNode))
      = some (productGraph, 6, 3) ∧
    (eagerStore 2).value = 6 ∧
    d (productFunction.pushTangentAt productGraph 12 0 eagerStore).store 2 = 3 ∧
    d (productFunction.pushTangentAt productGraph 12 1 eagerStore).store 2 = 2 ∧
    d (productFunction.pullGradientAt productGraph 12 2 eagerStore).store 0 = 3 ∧
    d (productFunction.pullGradientAt productGraph 12 2 eagerStore).store 1 = 2 := by
  rw [Function.pushTangentAt_eq 0 _ product_compile (by decide),
    Function.pushTangentAt_eq 1 _ product_compile (by decide),
    Function.pullGradientAt_eq 2 _ product_compile (by decide),
    Function.pushTangent_eq _ (Function.compileIfNecessary_of_compiled _ _ _ (by decide)),
    Function.pushTangent_eq _ (Function.compileIfNecessary_of_compiled _ _ _ (by decide)),
    Function.pullGradient_eq _ (Function.compileIfNecessary_of_compiled _ _ _ (by decide))]
  exact ⟨by decide, by decide, by decide, by decide, by decide, by decide⟩

/-! ## Copies of a variable -/

theorem Nodes.Valid.ownersHold {h : Nodes} (hv : h.Valid) : h.OwnersHold := by
  intro c k hk
  have h1 : Owner.outside k ∈ (h.mParentOwners c).filter Owner.isOutside :=
    List.mem_filter.2 ⟨hk, rfl⟩
  have h2 := List.length_pos_of_mem h1
  have h3 := hv.counted c
  omega

theorem List.length_filter_filter_ne {α : Type} [DecidableEq α] (P : α → Bool) :
    ∀ {l : List α}, l.Nodup → ∀ {t : α}, t ∈ l → P t = true →
      ((l.filter (fun x => x != t)).filter P).length + 1 = (l.filter P).length
  | [], _, _, ht, _ => by cases ht
  | a :: l, hnd, t, ht, hP => by
    obtain ⟨hal, hndl⟩ := List.nodup_cons.1 hnd
    by_cases hat : a = t
    · subst hat
      have hself : l.filter (fun x => x != a) = l :=
        List.filter_eq_self.2 fun x hx => by
          simp only [bne_iff_ne, ne_eq]
          exact fun h => hal (h ▸ hx)
      simp [hself, hP]
    · have htl : t ∈ l := by
        rcases List.mem_cons.1 ht with h | h
        · exact absurd h.symm hat
        · exact h
      have ih := @List.length_filter_filter_ne α _ P l hndl t htl hP
      have hne : (a != t) = true := by simpa using hat
      simp only [List.filter_cons, hne, if_true]
      cases hPa : P a
      · simpa using ih
      · simp only [if_true, List.length_cons]
        omega

/-- `Reference::Reference(Reference const&)` keeps the nodes valid: it adds a
pointer and registers the new owner. -/
theorem Reference.copyOf_spec (w : Objects) (n ptr : Nat) (hv : w.nodes.Valid) :
    (Reference.copyOf w n ptr).1.nodes.Valid ∧
    (Reference.copyOf w n ptr).1.nodes.mChildren = w.nodes.mChildren ∧
    (Reference.copyOf w n ptr).1.store = w.store ∧
    (Reference.copyOf w n ptr).2 = ⟨w.nextOwner, some n, ptr⟩ ∧
    ∀ t m, t ∈ (Reference.copyOf w n ptr).1.nodes.mParentOwners m ↔
      t ∈ w.nodes.mParentOwners m ∨ (m = n ∧ t = Owner.outside w.nextOwner) := by
  have hown : ∀ t m, t ∈ (Reference.copyOf w n ptr).1.nodes.mParentOwners m ↔
      t ∈ w.nodes.mParentOwners m ∨ (m = n ∧ t = Owner.outside w.nextOwner) :=
    fun t m => Nodes.mem_owners_addParentOwner _ n _ t m
  refine ⟨⟨⟨hv.wf.nodup, fun p c => ?_⟩, hv.acyclic, fun c => ?_, fun c => ?_⟩, rfl, rfl, rfl,
    hown⟩
  · rw [hown]
    constructor
    · intro h
      exact Or.inl ((hv.wf.token p c).1 h)
    · rintro (h | ⟨_, h⟩)
      · exact (hv.wf.token p c).2 h
      · cases h
  · simp only [Reference.copyOf, Nodes.addParentOwner]
    by_cases hc : c = n
    · subst hc
      simp only [Function.update_same]
      split
      · exact hv.ownersNodup c
      · rename_i hmem
        exact List.Nodup.append (hv.ownersNodup c) (List.nodup_singleton _)
          (by simpa using hmem)
    · simp only [Function.update_noteq hc]
      exact hv.ownersNodup c
  · simp only [Reference.copyOf, Nodes.addParentOwner]
    have := hv.counted c
    by_cases hc : c = n
    · subst hc
      simp only [Function.update_same]
      split
      · omega
      · simp only [List.filter_append, List.length_append]
        have : ([Owner.outside w.nextOwner].filter Owner.isOutside).length = 1 := rfl
        omega
    · simp only [Function.update_noteq hc]
      exact this

/-- The destruction of a node keeps the nodes valid and leaves the owners
registered from outside where they are. -/
theorem Nodes.Valid.destroy {h : Nodes} (hv : h.Valid) (root fuel : Nat)
    (hfuel : h.budget ≤ fuel + 2) :
    ∃ h2, h.destroy (fuel + 2) root = some h2 ∧ h2.Valid ∧
      (∀ c k, Owner.outside k ∈ h2.mParentOwners c ↔ Owner.outside k ∈ h.mParentOwners c) ∧
      h2.budget ≤ h.budget := by
  obtain ⟨h2, D, hdes, _, hc, ho, hh, hsub⟩ :=
    Nodes.destroy_post h root fuel (hv.wf.wellFormedFrom root) hv.ownersHold hv.acyclic hfuel
  have hsubc : ∀ n, (h2.children n).Sublist (h.children n) := by
    intro n
    rw [hc n]
    split
    · exact List.nil_sublist _
    · exact List.Sublist.refl _
  refine ⟨h2, hdes, ⟨⟨fun n => (hsubc n).nodup (hv.wf.nodup n), fun p c => ?_⟩, ?_,
    fun c => (hsub c).nodup (hv.ownersNodup c), fun c => ?_⟩, fun c k => ?_,
    Nodes.budget_le_of_sublist hsubc⟩
  · rw [hc p, ho]
    by_cases hp : p ∈ D
    · rw [if_pos hp]
      constructor
      · intro h'; cases h'
      · rintro ⟨h1, h2'⟩
        exact absurd ⟨p, hp, (hv.wf.token p c).2 h1, rfl⟩ h2'
    · rw [if_neg hp]
      constructor
      · intro h'
        refine ⟨(hv.wf.token p c).1 h', ?_⟩
        rintro ⟨q, hq, _, heq⟩
        exact hp (Owner.ofNode.inj heq ▸ hq)
      · rintro ⟨h1, _⟩
        exact (hv.wf.token p c).2 h1
  · exact hv.acyclic.of_subgraph (fun n c hcn => (hsubc n).subset hcn)
  · rw [hh]
    exact ((hsub c).filter _).length_le.trans (hv.counted c)
  · rw [ho]
    constructor
    · exact fun h' => h'.1
    · intro h'
      refine ⟨h', ?_⟩
      rintro ⟨q, _, _, heq⟩
      cases heq

/-- `Reference::~Reference` for a reference that holds a pointer to node `n` and
has its owner registered there: with a sufficient step budget it returns and
the nodes are valid again; the data of the computations and the other owners
registered from outside are as before. -/
theorem Reference.destroy_valid (r : Reference) (w : Objects) (n fuel : Nat)
    (hv : w.nodes.Valid) (hn : r.mComputation = some n)
    (hreg : Owner.outside r.mOwner ∈ w.nodes.mParentOwners n)
    (hfuel : w.nodes.budget ≤ fuel + 2) :
    ∃ w', r.destroy (fuel + 2) w = some w' ∧ w'.nodes.Valid ∧ w'.store = w.store ∧
      w'.nextOwner = w.nextOwner ∧
      (∀ c k, k ≠ r.mOwner →
        (Owner.outside k ∈ w'.nodes.mParentOwners c ↔
          Owner.outside k ∈ w.nodes.mParentOwners c)) ∧
      w'.nodes.budget ≤ w.nodes.budget := by
  have hown : ∀ t m, t ∈ (w.nodes.removeParentOwner n (.outside r.mOwner)).mParentOwners m ↔
      t ∈ w.nodes.mParentOwners m ∧ ¬ (m = n ∧ t = Owner.outside r.mOwner) :=
    fun t m => Nodes.mem_owners_removeParentOwner _ n _ t m
  have hv1 : Nodes.Valid
      { w.nodes.removeParentOwner n (.outside r.mOwner) with
        held := Function.update (w.nodes.removeParentOwner n (.outside r.mOwner)).held n
          ((w.nodes.removeParentOwner n (.outside r.mOwner)).held n - 1) } := by
    refine ⟨⟨hv.wf.nodup, fun p c => ?_⟩, hv.acyclic, fun c => ?_, fun c => ?_⟩
    · show c ∈ w.nodes.children p ↔
        Owner.ofNode p ∈ (w.nodes.removeParentOwner n (.outside r.mOwner)).mParentOwners c
      rw [hown]
      constructor
      · intro h
        exact ⟨(hv.wf.token p c).1 h, fun ⟨_, heq⟩ => by cases heq⟩
      · exact fun h => (hv.wf.token p c).2 h.1
    · show ((w.nodes.removeParentOwner n (.outside r.mOwner)).mParentOwners c).Nodup
      simp only [Nodes.removeParentOwner]
      by_cases hc : c = n
      · subst hc
        simp only [Function.update_same]
        exact (hv.ownersNodup c).filter _
      · simp only [Function.update_noteq hc]
        exact hv.ownersNodup c
    · show (((w.nodes.removeParentOwner n (.outside r.mOwner)).mParentOwners c).filter
          Owner.isOutside).length
        ≤ Function.update (w.nodes.removeParentOwner n (.outside r.mOwner)).held n
          ((w.nodes.removeParentOwner n (.outside r.mOwner)).held n - 1) c
      have hcnt := hv.counted c
      simp only [Nodes.removeParentOwner]
      by_cases hc : c = n
      · subst hc
        simp only [Function.update_same]
        have := List.length_filter_filter_ne Owner.isOutside (hv.ownersNodup c) hreg rfl
        omega
      · simp only [Function.update_noteq hc]
        exact hcnt
  have hbud : Nodes.budget
      { w.nodes.removeParentOwner n (.outside r.mOwner) with
        held := Function.update (w.nodes.removeParentOwner n (.outside r.mOwner)).held n
          ((w.nodes.removeParentOwner n (.outside r.mOwner)).held n - 1) } = w.nodes.budget :=
    rfl
  have hout1 : ∀ c k, k ≠ r.mOwner →
      (Owner.outside k ∈ (w.nodes.removeParentOwner n (.outside r.mOwner)).mParentOwners c ↔
        Owner.outside k ∈ w.nodes.mParentOwners c) := by
    intro c k hk
    rw [hown]
    constructor
    · exact fun h => h.1
    · exact fun h => ⟨h, fun ⟨_, heq⟩ => hk (Owner.outside.inj heq)⟩
  simp only [Reference.destroy, hn, Nodes.reset]
  split
  · obtain ⟨h2, hdes, hv2, hout, hb⟩ := hv1.destroy n fuel (by rw [hbud]; exact hfuel)
    refine ⟨{ w with nodes := h2 }, by rw [hdes]; rfl, hv2, rfl, rfl, fun c k hk => ?_,
      hb.trans (le_of_eq hbud)⟩
    exact (hout c k).trans (hout1 c k hk)
  · exact ⟨_, rfl, hv1, rfl, rfl, hout1, le_of_eq hbud⟩

theorem Variable.eq_iff (a b : Variable) :
    a.eq b = true ↔ a.mRef.mComputationPtr = b.mRef.mComputationPtr := by
  simp [Variable.eq]

/-- A literal assigned through a variable is read through every variable that
compares equal to it. -/
theorem Variable.assignValue_observed {w : Objects} (hv : w.nodes.Valid) {fuel : Nat}
    (hfuel : w.nodes.budget ≤ fuel + 2) (a : Variable) (value : Int) :
    ∃ w3, a.assignValue (fuel + 2) w value = some w3 ∧
      ∀ b : Variable, b.eq a = true → b.call w3 = value := by
  obtain ⟨h', hrel, _⟩ := Nodes.releaseChildren_post w.nodes a.mRef.mComputationPtr fuel hv.wf
    hv.ownersHold hv.acyclic hfuel
  have hset : a.assignValue (fuel + 2) w value = some
      { w with nodes := h',
               store := Function.update w.store a.mRef.mComputationPtr
                 { w.store a.mRef.mComputationPtr with mEvaluator := none, mValue := value } } := by
    simp only [Variable.assignValue, Objects.setValue, hrel, Option.map_some']
  refine ⟨_, hset, fun b hb => ?_⟩
  rw [Variable.eq_iff] at hb
  unfold Variable.call
  rw [hb]
  simp [Computation.value]

/-- An expression assigned through a variable is evaluated at once, and its
value is read through every variable that compares equal to it. -/
theorem Variable.assignExpression_observed {w : Objects} (hv : w.nodes.Valid) {fuel : Nat}
    (hfuel : w.nodes.budget ≤ fuel + 2) (a : Variable) (e : Expr) :
    ∃ w3, a.assignExpression (fuel + 2) w e = some w3 ∧
      ∀ b : Variable, b.eq a = true → b.call w3 = e.value w.store := by
  obtain ⟨h', hrel, _⟩ := Nodes.releaseChildren_post w.nodes a.mRef.mComputationPtr fuel hv.wf
    hv.ownersHold hv.acyclic hfuel
  obtain ⟨w3, h1, h2, _⟩ := Variable.eager_of_release e hrel
  refine ⟨w3, h1, fun b hb => ?_⟩
  rw [Variable.eq_iff] at hb
  rw [← h2]
  unfold Variable.call
  rw [hb]

/-- `Variable::Variable(Variable const&)` on a variable that is not bound in an
expression: the copy compares equal to the original, both are registered on
the computation, and the nodes are valid again. -/
theorem Variable.copy_spec {w : Objects} (hv : w.nodes.Valid) {f : Variable} (hf : f.Live w) :
    ∃ w1 c, Variable.copy w f = some (w1, c) ∧ c.eq f = true ∧ c.Live w1 ∧ f.Live w1 ∧
      w1.nodes.Valid ∧ w1.store = w.store ∧ w1.nodes.budget = w.nodes.budget := by
  obtain ⟨k1, k2, k3, k4, k5⟩ :=
    Reference.copyOf_spec w f.mRef.mComputationPtr f.mRef.mComputationPtr hv
  have hnext : (Reference.copyOf w f.mRef.mComputationPtr f.mRef.mComputationPtr).1.nextOwner
      = w.nextOwner + 1 := rfl
  refine ⟨(Reference.copyOf w f.mRef.mComputationPtr f.mRef.mComputationPtr).1,
    ⟨(Reference.copyOf w f.mRef.mComputationPtr f.mRef.mComputationPtr).2⟩, ?_, ?_, ?_, ?_,
    k1, k3, ?_⟩
  · simp [Variable.copy, Reference.copy, hf.1]
  · rw [Variable.eq_iff, k4]
  · rw [k4]
    exact ⟨rfl, (k5 _ _).2 (Or.inr ⟨rfl, rfl⟩), by rw [hnext]; exact Nat.lt_succ_self _⟩
  · exact ⟨hf.1, (k5 _ _).2 (Or.inl hf.2.1), by rw [hnext]; exact Nat.lt_succ_of_lt hf.2.2⟩
  · unfold Nodes.budget
    rw [k2]

/-- `Variable::operator=(Variable const&)` on variables that are not bound in an
expression: with a sufficient step budget it returns, the variable compares
equal to the one assigned and is registered on its computation, and the nodes
are valid again. -/
theorem Variable.assign_spec {w : Objects} (hv : w.nodes.Valid) {f g : Variable}
    (hf : f.Live w) (hg : g.Live w) {fuel : Nat} (hfuel : w.nodes.budget ≤ fuel + 2) :
    ∃ w2 g', g.assign (fuel + 2) w f = some (w2, g') ∧ g'.eq f = true ∧ g'.Live w2 ∧
      w2.nodes.Valid ∧ w2.store = w.store ∧ w2.nodes.budget ≤ w.nodes.budget := by
  obtain ⟨k1, k2, k3, k4, k5⟩ :=
    Reference.copyOf_spec w f.mRef.mComputationPtr f.mRef.mComputationPtr hv
  have hb1 : (Reference.copyOf w f.mRef.mComputationPtr f.mRef.mComputationPtr).1.nodes.budget
      = w.nodes.budget := by
    unfold Nodes.budget
    rw [k2]
  have hnext : (Reference.copyOf w f.mRef.mComputationPtr f.mRef.mComputationPtr).1.nextOwner
      = w.nextOwner + 1 := rfl
  have hown : w.nextOwner ≠ g.mRef.mOwner := fun h => by
    have := hg.2.2
    omega
  obtain ⟨w2, h1, h2, h3, hn, h4, h5⟩ := Reference.destroy_valid g.mRef
    (Reference.copyOf w f.mRef.mComputationPtr f.mRef.mComputationPtr).1
    g.mRef.mComputationPtr fuel k1 hg.1 ((k5 _ _).2 (Or.inl hg.2.1)) (by rw [hb1]; exact hfuel)
  refine ⟨w2, ⟨(Reference.copyOf w f.mRef.mComputationPtr f.mRef.mComputationPtr).2⟩, ?_, ?_,
    ?_, h2, h3.trans k3, h5.trans (le_of_eq hb1)⟩
  · simp only [Variable.assign, Reference.assign, Reference.copy, hf.1, Option.map_some', h1]
  · rw [Variable.eq_iff, k4]
  · rw [k4]
    refine ⟨rfl, (h4 _ _ hown).2 ((k5 _ _).2 (Or.inr ⟨rfl, rfl⟩)), ?_⟩
    rw [hn, hnext]
    exact Nat.lt_succ_self _

/-- C28: a copy of a variable that is not bound in an expression, made by copy
construction or, with a sufficient step budget, by copy assignment, compares
equal to the original with `==` and is registered on the same computation;
after a literal or an expression is assigned through either of the two
variables, `operator()` of both returns the new value: the literal, or the
value of the expression at the values that were cached before. -/
theorem C28_copies_share_computation (w : Objects) (f g : Variable) (fuel : Nat)
    (hv : w.nodes.Valid) (hf : f.Live w) (hg : g.Live w) (hfuel : w.nodes.budget ≤ fuel + 2) :
    (∃ w1 c, Variable.copy w f = some (w1, c) ∧ c.eq f = true ∧ f.eq c = true ∧
      c.mRef.mComputation = f.mRef.mComputation ∧ c.Live w1 ∧ f.Live w1 ∧
      ∀ a ∈ [c, f], ∀ (value : Int) (e : Expr),
        (∃ w3, a.assignValue (fuel + 2) w1 value = some w3 ∧
          c.call w3 = value ∧ f.call w3 = value) ∧
        (∃ w3, a.assignExpression (fuel + 2) w1 e = some w3 ∧
          c.call w3 = e.value w1.store ∧ f.call w3 = e.value w1.store)) ∧
    (∃ w2 g', g.assign (fuel + 2) w f = some (w2, g') ∧ g'.eq f = true ∧ f.eq g' = true ∧
      g'.mRef.mComputation = f.mRef.mComputation ∧ g'.Live w2 ∧
      ∀ a ∈ [g', f], ∀ (value : Int) (e : Expr),
        (∃ w3, a.assignValue (fuel + 2) w2 value = some w3 ∧
          g'.call w3 = value ∧ f.call w3 = value) ∧
        (∃ w3, a.assignExpression (fuel + 2) w2 e = some w3 ∧
          g'.call w3 = e.value w2.store ∧ f.call w3 = e.value w2.store)) := by
  have hsym : ∀ a b : Variable, a.eq b = true → b.eq a = true := by
    intro a b h
    rw [Variable.eq_iff] at h ⊢
    exact h.symm
  have hrefl : ∀ a : Variable, a.eq a = true := fun a => (Variable.eq_iff a a).2 rfl
  have key : ∀ (w1 : Objects) (c : Variable), w1.nodes.Valid → w1.nodes.budget ≤ fuel + 2 →
      c.eq f = true → ∀ a ∈ [c, f], ∀ (value : Int) (e : Expr),
        (∃ w3, a.assignValue (fuel + 2) w1 value = some w3 ∧
          c.call w3 = value ∧ f.call w3 = value) ∧
        (∃ w3, a.assignExpression (fuel + 2) w1 e = some w3 ∧
          c.call w3 = e.value w1.store ∧ f.call w3 = e.value w1.store) := by
    intro w1 c hv1 hb1 hcf a ha value e
    have hca : c.eq a = true ∧ f.eq a = true := by
      simp only [List.mem_cons, List.mem_singleton, List.not_mem_nil, or_false] at ha
      rcases ha with rfl | rfl
      · exact ⟨hrefl _, hsym _ _ hcf⟩
      · exact ⟨hcf, hrefl _⟩
    obtain ⟨w3, h1, h2⟩ := Variable.assignValue_observed hv1 hb1 a value
    obtain ⟨w4, h3, h4⟩ := Variable.assignExpression_observed hv1 hb1 a e
    exact ⟨⟨w3, h1, h2 c hca.1, h2 f hca.2⟩, ⟨w4, h3, h4 c hca.1, h4 f hca.2⟩⟩
  constructor
  · obtain ⟨w1, c, h1, h2, h3, h4, h5, _, h7⟩ := Variable.copy_spec hv hf
    refine ⟨w1, c, h1, h2, hsym _ _ h2, ?_, h3, h4, key w1 c h5 (by rw [h7]; exact hfuel) h2⟩
    rw [h3.1, hf.1]
    exact congrArg some ((Variable.eq_iff c f).1 h2)
  · obtain ⟨w2, g', h1, h2, h3, h4, _, h6⟩ := Variable.assign_spec hv hf hg hfuel
    refine ⟨w2, g', h1, h2, hsym _ _ h2, ?_, h3, key w2 g' h4 (h6.trans hfuel) h2⟩
    rw [h3.1, hf.1]
    exact congrArg some ((Variable.eq_iff g' f).1 h2)

theorem copyObjects_valid : copyObjects.nodes.Valid := by
  have hch : ∀ n, copyObjects.nodes.children n = [] := by
    intro n
    by_cases hn : n < 2
    · interval_cases n <;> rfl
    · exact Graph.children_of_length_le _ (not_lt.1 hn)
  have hown : ∀ c, copyObjects.nodes.mParentOwners c
      = if c = 0 then [.outside 0] else if c = 1 then [.outside 1] else [] := fun _ => rfl
  refine ⟨⟨fun n => by rw [hch n]; exact List.nodup_nil, fun p c => ?_⟩,
    Graph.acyclic_of_increasing _ (by decide), fun c => ?_, fun c => ?_⟩
  · rw [hch p, hown c]
    split
    · simp
    · split <;> simp
  · rw [hown c]
    split
    · simp
    · split <;> simp
  · rw [hown c]
    by_cases h0 : c = 0
    · subst h0
      decide
    · by_cases h1 : c = 1
      · subst h1
        decide
      · simp [h0, h1]

/-- Witness for C28: the scenario "Copy-constructing and -assigning a variable"
of the tests, `f = var(7)`, a copy `c(f)`, and `Variable g; g = f`. -/
theorem C28_copies_share_computation_witness :
    (∃ w1 c, Variable.copy copyObjects ⟨⟨0, some 0, 0⟩⟩ = some (w1, c) ∧
      c.eq ⟨⟨0, some 0, 0⟩⟩ = true) ∧
    (∃ w2 g', (Variable.mk ⟨1, some 1, 1⟩).assign (1 + 2) copyObjects ⟨⟨0, some 0, 0⟩⟩
        = some (w2, g') ∧ g'.eq ⟨⟨0, some 0, 0⟩⟩ = true) :=
  have h := C28_copies_share_computation copyObjects ⟨⟨0, some 0, 0⟩⟩ ⟨⟨1, some 1, 1⟩⟩ 1
    copyObjects_valid ⟨rfl, by decide, by decide⟩ ⟨rfl, by decide, by decide⟩ (by decide)
  ⟨let ⟨w1, c, h1, h2, _⟩ := h.1
   ⟨w1, c, h1, h2⟩,
   let ⟨w2, g', h1, h2, _⟩ := h.2
   ⟨w2, g', h1, h2⟩⟩

/-- The scenario "Copy-constructing and -assigning a variable" of the tests, and
the example of the documentation of `Variable`: after `f = var(7)`, a copy `c`
of `f` and `Variable g; g = f`, the variables compare equal; the computation
that `g` referred to before has been destructed; after `f = 3` all three
return `3`. -/
theorem copy_example :
    ((Variable.copy copyObjects ⟨⟨0, some 0, 0⟩⟩).bind fun (p1 : Objects × Variable) =>
      ((Variable.mk ⟨1, some 1, 1⟩).assign 3 p1.1 ⟨⟨0, some 0, 0⟩⟩).bind
        fun (p2 : Objects × Variable) =>
          ((Variable.mk ⟨0, some 0, 0⟩).assignValue 3 p2.1 3).map fun (w : Objects) =>
            ((p1.2.eq ⟨⟨0, some 0, 0⟩⟩, p2.2.eq ⟨⟨0, some 0, 0⟩⟩),
              [p1.2.call w, p2.2.call w, (Variable.mk ⟨0, some 0, 0⟩).call w],
              w.nodes.mDtorSeq, w.nodes.mParentOwners 0))
      = some ((true, true), [3, 3, 3], [1], [.outside 0, .outside 2, .outside 3]) := by
  decide

/-! ## Claims about `Path` and `Shape` -/

/-- C31: `Path::tryAdd(node)` throws if and only if `node` is in the on-path set,
which on a path built by `tryAdd` and `removeHead` holds the nodes of the
stack; when it throws, the stack and the on-path set are as before; otherwise
`node` is the new head, on the old stack, `size()` has grown by one, the
on-path set holds the nodes of the stack again, and a following `removeHead()`
gives back the path as it was. -/
theorem C31_tryAdd (g : Graph) (p : Path) (node : Nat) :
    ((p.tryAddState g node).2 = true ↔ node ∈ p.mSet) ∧
    (p.tryAdd g node = none ↔ (p.tryAddState g node).2 = true) ∧
    ((p.tryAddState g node).2 = true → (p.tryAddState g node).1 = p) ∧
    (p.mSet = p.mStack.map Element.node →
      ((p.tryAddState g node).2 = true ↔ node ∈ p.mStack.map Element.node)) ∧
    ((p.tryAddState g node).2 = false →
      p.tryAdd g node = some (p.tryAddState g node).1 ∧
      (p.tryAddState g node).1.mStack = ⟨node, g.children node⟩ :: p.mStack ∧
      (p.tryAddState g node).1.head = node ∧
      (p.tryAddState g node).1.size = p.size + 1 ∧
      (p.tryAddState g node).1.isEmpty = false ∧
      (∀ n, n ∈ (p.tryAddState g node).1.mSet ↔ n = node ∨ n ∈ p.mSet) ∧
      (p.mSet = p.mStack.map Element.node →
        (p.tryAddState g node).1.mSet = (p.tryAddState g node).1.mStack.map Element.node) ∧
      (p.tryAddState g node).1.removeHead = p) := by
  by_cases h : node ∈ p.mSet
  · have hs : p.tryAddState g node = (p, true) := by
      simp [Path.tryAddState, h]
    rw [hs]
    refine ⟨by simp [h], by simp [Path.tryAdd, h], fun _ => rfl, fun heq => ?_, fun hf => ?_⟩
    · rw [← heq]
      simp [h]
    · simp at hf
  · have hs : p.tryAddState g node
        = (⟨⟨node, g.children node⟩ :: p.mStack, node :: p.mSet⟩, false) := by
      simp [Path.tryAddState, h]
    rw [hs]
    refine ⟨by simp [h], by simp [Path.tryAdd, h], fun hf => by simp at hf, fun heq => ?_,
      fun _ => ⟨by simp [Path.tryAdd, h], rfl, rfl, by simp [Path.size], rfl, fun n => by simp,
        fun heq => by simp [heq], ?_⟩⟩
    · rw [← heq]
      simp [h]
    · simp [Path.removeHead, Path.head]

theorem Shape.storage_length (l : List Nat) : (Shape.ofList l).mStorage.length = 8 := by
  simp [Shape.ofList]

theorem Shape.get_ofList (l : List Nat) (i : Nat) :
    (Shape.ofList l).get i = if i < 8 then some (l.getD i 0) else none := by
  unfold Shape.get Shape.ofList
  by_cases hi : i < 8
  · rw [if_pos hi, List.getElem?_take_of_lt hi]
    by_cases hl : i < l.length
    · rw [List.getElem?_append_left hl, List.getD_eq_getElem?_getD]
      simp [List.getElem?_eq_getElem hl]
    · rw [List.getElem?_append_right (not_lt.1 hl), List.getD_eq_getElem?_getD,
        (List.getElem?_eq_none (not_lt.1 hl) : l[i]? = none), List.getElem?_replicate]
      have : i - l.length < 8 := by omega
      simp [this]
  · rw [if_neg hi]
    exact List.getElem?_eq_none (by simp; omega)

/-- C32: a `Shape` built from the list `l` of `k ≤ 8` dimensions has `size() = k`;
`operator[](i)` returns the `i`-th dimension for `i < k` and `0` for
`k ≤ i < 8`, and throws `std::out_of_range` for every `i ≥ 8`. -/
theorem C32_shape_access (l : List Nat) (hk : l.length ≤ 8) :
    (Shape.ofList l).size = l.length ∧
    (∀ i (hi : i < l.length), (Shape.ofList l).get i = some l[i]) ∧
    (∀ i, l.length ≤ i → i < 8 → (Shape.ofList l).get i = some 0) ∧
    (∀ i, 8 ≤ i → (Shape.ofList l).get i = none) := by
  refine ⟨rfl, fun i hi => ?_, fun i h1 h2 => ?_, fun i h8 => ?_⟩
  · rw [Shape.get_ofList, if_pos (by omega), List.getD_eq_getElem?_getD]
    simp [List.getElem?_eq_getElem hi]
  · rw [Shape.get_ofList, if_pos h2, List.getD_eq_getElem?_getD,
      (List.getElem?_eq_none h1 : l[i]? = none)]
    rfl
  · rw [Shape.get_ofList, if_neg (by omega)]

/-- Witness for C32: the scenario "passing 3 integers" of the tests. -/
theorem C32_shape_access_witness :
    (Shape.ofList [4, 5, 6]).size = 3 ∧
    (Shape.ofList [4, 5, 6]).get 1 = some 5 ∧
    (Shape.ofList [4, 5, 6]).get 3 = some 0 ∧
    (Shape.ofList [4, 5, 6]).get 8 = none :=
  ⟨(C32_shape_access [4, 5, 6] (by decide)).1,
   (C32_shape_access [4, 5, 6] (by decide)).2.1 1 (by decide),
   (C32_shape_access [4, 5, 6] (by decide)).2.2.1 3 (by decide) (by decide),
   (C32_shape_access [4, 5, 6] (by decide)).2.2.2 8 (by decide)⟩

theorem Shape.storage_eq_pad (l : List Nat) (hk : l.length ≤ 8) :
    (Shape.ofList l).mStorage = l ++ List.replicate (8 - l.length) 0 := by
  unfold Shape.ofList
  simp only
  rw [List.take_append_eq_append_take, List.take_of_length_le hk, List.take_replicate]
  congr 2
  omega

/-- C33: two shapes built from at most eight dimensions compare equal with `==`
exactly when the dimensions agree after both lists are padded with zeros to
eight entries; `!=` is the negation of `==`; a shape with a second dimension
that is not zero differs from the shape of its first dimension and from the
empty shape; a shape is equal to itself (to its copy). -/
theorem C33_shape_equality (l1 l2 : List Nat) (h1 : l1.length ≤ 8) (h2 : l2.length ≤ 8) :
    ((Shape.ofList l1).eq (Shape.ofList l2) = true ↔
      l1 ++ List.replicate (8 - l1.length) 0 = l2 ++ List.replicate (8 - l2.length) 0) ∧
    (Shape.ofList l1).ne (Shape.ofList l2) = !((Shape.ofList l1).eq (Shape.ofList l2)) ∧
    (∀ a b : Nat, b ≠ 0 →
      (Shape.ofList [a, b]).eq (Shape.ofList [a]) = false ∧
      (Shape.ofList [a, b]).eq (Shape.ofList []) = false ∧
      (Shape.ofList [a, b]).ne (Shape.ofList [a]) = true) ∧
    (Shape.ofList l1).eq (Shape.ofList l1) = true ∧
    (Shape.ofList l1).ne (Shape.ofList l1) = false := by
  refine ⟨?_, ?_, fun a b hb => ?_, ?_, ?_⟩
  · unfold Shape.eq
    rw [Shape.storage_eq_pad l1 h1, Shape.storage_eq_pad l2 h2]
    simp
  · simp [Shape.eq, Shape.ne, bne]
  · simp [Shape.eq, Shape.ne, Shape.ofList, hb]
  · simp [Shape.eq]
  · simp [Shape.ne]

/-- Witness for C33: the scenario "comparing 2d shapes" of the tests. -/
theorem C33_shape_equality_witness :
    (Shape.ofList [3, 4]).eq (Shape.ofList [3, 4]) = true ∧
    (Shape.ofList [3, 4]).ne (Shape.ofList [3, 4]) = false ∧
    (Shape.ofList [3, 4]).eq (Shape.ofList [3]) = false :=
  ⟨(C33_shape_equality [3, 4] [3, 4] (by decide) (by decide)).2.2.2.1,
   (C33_shape_equality [3, 4] [3, 4] (by decide) (by decide)).2.2.2.2,
   ((C33_shape_equality [3, 4] [3, 4] (by decide) (by decide)).2.2.1 3 4 (by decide)).1⟩

/-- The scenarios "Comparing shapes" of the tests; a trailing zero dimension is
not seen by `==`, and a copy has the size of the original. -/
theorem shape_examples :
    (Shape.ofList [3]).eq (Shape.ofList [4]) = false ∧
    (Shape.ofList [3]).ne (Shape.ofList []) = true ∧
    (Shape.ofList []).eq (Shape.ofList []) = true ∧
    (Shape.ofList [3, 0]).eq (Shape.ofList [3]) = true ∧
    (Shape.ofList [3, 0]).size ≠ (Shape.ofList [3]).size := by
  decide

/-- Witness for C31: adding node `2` to the path `1, 0` over the diamond. -/
theorem C31_tryAdd_witness :
    (Path.tryAddState diamondGraph ⟨[⟨1, []⟩, ⟨0, [2]⟩], [1, 0]⟩ 2).2 = false ∧
    (Path.tryAddState diamondGraph ⟨[⟨1, []⟩, ⟨0, [2]⟩], [1, 0]⟩ 2).1.removeHead
      = ⟨[⟨1, []⟩, ⟨0, [2]⟩], [1, 0]⟩ ∧
    (Path.tryAddState diamondGraph ⟨[⟨1, []⟩, ⟨0, [2]⟩], [1, 0]⟩ 1).1
      = ⟨[⟨1, []⟩, ⟨0, [2]⟩], [1, 0]⟩ :=
  ⟨by decide,
   ((C31_tryAdd diamondGraph ⟨[⟨1, []⟩, ⟨0, [2]⟩], [1, 0]⟩ 2).2.2.2.2 (by decide)).2.2.2.2.2.2.2,
   (C31_tryAdd diamondGraph ⟨[⟨1, []⟩, ⟨0, [2]⟩], [1, 0]⟩ 1).2.2.1 (by decide)⟩

/-! ## Claims about the order and the classes of the compiled nodes -/

theorem List.indexOf_lt_of_sublist {l1 l : List Nat} (hs : l1.Sublist l) :
    l.Nodup → ∀ {a b : Nat}, a ∈ l1 → b ∈ l1 → l.indexOf a < l.indexOf b →
      l1.indexOf a < l1.indexOf b := by
  induction hs with
  | slnil => intro _ a b ha; cases ha
  | @cons l1 l x hs ih =>
    intro hnd a b ha hb hlt
    obtain ⟨hx, hnd'⟩ := List.nodup_cons.1 hnd
    have hax : a ≠ x := fun h => hx (h ▸ hs.subset ha)
    have hbx : b ≠ x := fun h => hx (h ▸ hs.subset hb)
    rw [List.indexOf_cons_ne _ (Ne.symm hax), List.indexOf_cons_ne _ (Ne.symm hbx)] at hlt
    exact ih hnd' ha hb (by omega)
  | @cons₂ l1 l x hs ih =>
    intro hnd a b ha hb hlt
    obtain ⟨hx, hnd'⟩ := List.nodup_cons.1 hnd
    by_cases hax : a = x
    · subst hax
      have hba : b ≠ a := by
        intro h
        subst h
        exact lt_irrefl _ hlt
      rw [List.indexOf_cons_self, List.indexOf_cons_ne _ (Ne.symm hba)]
      omega
    · have hbx : b ≠ x := by
        intro h
        subst h
        rw [List.indexOf_cons_self] at hlt
        omega
      rw [List.indexOf_cons_ne _ (Ne.symm hax), List.indexOf_cons_ne _ (Ne.symm hbx)] at hlt ⊢
      have ha' : a ∈ l1 := (List.mem_cons.1 ha).resolve_left hax
      have hb' : b ∈ l1 := (List.mem_cons.1 hb).resolve_left hbx
      have := ih hnd' ha' hb' (by omega)
      omega

theorem sequenceOf_sublist (Y : List NodeInfo) : (sequenceOf Y).Sublist (nodes Y) :=
  (List.filter_sublist Y).map NodeInfo.node

theorem mem_filter_map_iff {p : NodeInfo → Bool} {Y : List NodeInfo} (hnd : (nodes Y).Nodup)
    {y : NodeInfo} (hy : y ∈ Y) : y.node ∈ (Y.filter p).map NodeInfo.node ↔ p y = true := by
  constructor
  · intro h
    obtain ⟨y1, hy1, hp, hn⟩ := mem_of_filter_map h
    have := eq_of_node_eq hnd hy1 hy hn
    subst this
    exact hp
  · intro hp
    exact List.mem_map.2 ⟨y, List.mem_filter.2 ⟨hy, hp⟩, rfl⟩

/-- C34: on a finite acyclic graph, with a sufficient step budget, the iteration
over the view of a Function runs to the end, every child of a yielded node that
is not a specified leaf is yielded, and before that node; `compile()` succeeds,
every node of its sequence has children and is not a specified source, and it
comes after each of its children that is in the sequence. -/
theorem C34_children_yielded_first (g : Graph) (f0 : Function) (fuel : Nat) (hacyc : g.Acyclic)
    (hfuel : g.budget f0.mSpecifiedTargets ≤ fuel) :
    (f0.view.yields g fuel).status = .done () ∧
    (∀ y ∈ (f0.view.yields g fuel).state, y.node ∉ f0.mSpecifiedSources →
      ∀ c ∈ g.children y.node,
        c ∈ nodes (f0.view.yields g fuel).state ∧
        (nodes (f0.view.yields g fuel).state).indexOf c
          < (nodes (f0.view.yields g fuel).state).indexOf y.node) ∧
    (f0.compile g fuel).1 = .ok ∧
    ∀ n ∈ (f0.compile g fuel).2.mSequence,
      n ∉ f0.mSpecifiedSources ∧ g.children n ≠ [] ∧
      ∀ c ∈ g.children n, c ∈ (f0.compile g fuel).2.mSequence →
        (f0.compile g fuel).2.mSequence.indexOf c < (f0.compile g fuel).2.mSequence.indexOf n := by
  have hok := (yields_spec g f0.view fuel).1
  have hdone : (f0.view.yields g fuel).status = .done () := by
    rcases yields_status_of_budget g f0.view fuel hfuel with h | h
    · exact absurd h.2 (f0.view.not_reachableCycle_of_acyclic hacyc)
    · exact h.1
  have hsorted : ∀ y ∈ (f0.view.yields g fuel).state, y.node ∉ f0.mSpecifiedSources →
      ∀ c ∈ g.children y.node,
        c ∈ nodes (f0.view.yields g fuel).state ∧
        (nodes (f0.view.yields g fuel).state).indexOf c
          < (nodes (f0.view.yields g fuel).state).indexOf y.node := by
    intro y hy hl c hc
    have hlt := hok.sorted y hy hl c hc
    exact ⟨List.indexOf_lt_length.1 (lt_of_lt_of_le hlt List.indexOf_le_length), hlt⟩
  rw [Function.compile_ok_eq g fuel f0 hdone]
  refine ⟨hdone, hsorted, rfl, fun n hn => ?_⟩
  simp only at hn ⊢
  obtain ⟨y, hy, hp, rfl⟩ := mem_of_filter_map hn
  have hleaf : y.isLeaf = false := by
    cases h : y.isLeaf
    · rfl
    · simp [h] at hp
  have hflag := hok.leafFlag y hy
  rw [hleaf] at hflag
  have hns : y.node ∉ f0.mSpecifiedSources := by
    intro hmem
    have : f0.view.isSpecifiedLeaf y.node = true := (isSpecifiedLeaf_iff f0.view y.node).2 hmem
    simp [this] at hflag
  have hch : g.children y.node ≠ [] := by
    intro hnil
    simp [hnil] at hflag
  refine ⟨hns, hch, fun c hc hcs => ?_⟩
  exact List.indexOf_lt_of_sublist (sequenceOf_sublist _) hok.nodup hcs hn
    (hsorted y hy hns c hc).2

/-- Witness for C34: the program `t = x * x; p = t + t; r = p * p` with the
target `r`. -/
theorem C34_children_yielded_first_witness :
    ((⟨[], [3], 3, [], [], [], [], []⟩ : Function).view.yields nestedTargetsGraph 16).status
      = .done () ∧
    ((⟨[], [3], 3, [], [], [], [], []⟩ : Function).compile nestedTargetsGraph 16).1 = .ok :=
  ⟨(C34_children_yielded_first nestedTargetsGraph ⟨[], [3], 3, [], [], [], [], []⟩ 16
      (Graph.acyclic_of_decreasing _ (by decide)) (by decide)).1,
   (C34_children_yielded_first nestedTargetsGraph ⟨[], [3], 3, [], [], [], [], []⟩ 16
      (Graph.acyclic_of_decreasing _ (by decide)) (by decide)).2.2.1⟩

/-- C36: after a successful `compile()` the nodes visited by the traversal are
the nodes of the derived sets; each of them is in exactly one of the four
classes pure source, pure target, source and target, sequence; the pure
sources are the sources that are not targets, the pure targets are the targets
that are not sources, no source and no target is in the sequence, and no node
is twice in the sequence. -/
theorem C36_compile_partitions (g : Graph) (fuel : Nat) (f0 f : Function)
    (hc : f0.compile g fuel = (.ok, f)) :
    (∀ n, n ∈ nodes (f0.view.yields g fuel).state ↔
      n ∈ f.mSources ∨ n ∈ f.mTargets ∨ n ∈ f.mSequence) ∧
    (∀ n ∈ nodes (f0.view.yields g fuel).state,
      (n ∈ f.mPureSources ∧ n ∉ f.mPureTargets ∧ ¬ (n ∈ f.mSources ∧ n ∈ f.mTargets) ∧
        n ∉ f.mSequence) ∨
      (n ∉ f.mPureSources ∧ n ∈ f.mPureTargets ∧ ¬ (n ∈ f.mSources ∧ n ∈ f.mTargets) ∧
        n ∉ f.mSequence) ∨
      (n ∉ f.mPureSources ∧ n ∉ f.mPureTargets ∧ (n ∈ f.mSources ∧ n ∈ f.mTargets) ∧
        n ∉ f.mSequence) ∨
      (n ∉ f.mPureSources ∧ n ∉ f.mPureTargets ∧ ¬ (n ∈ f.mSources ∧ n ∈ f.mTargets) ∧
        n ∈ f.mSequence)) ∧
    (∀ n, n ∈ f.mPureSources ↔ n ∈ f.mSources ∧ n ∉ f.mTargets) ∧
    (∀ n, n ∈ f.mPureTargets ↔ n ∈ f.mTargets ∧ n ∉ f.mSources) ∧
    (∀ n ∈ f.mSequence, n ∉ f.mSources ∧ n ∉ f.mTargets) ∧
    f.mSequence.Nodup ∧ f.mSources.Nodup ∧ f.mTargets.Nodup ∧ f.mPureSources.Nodup ∧
    f.mPureTargets.Nodup := by
  have hdone := @Function.compile_ok_done g fuel f0 (by rw [hc])
  rw [Function.compile_ok_eq g fuel f0 hdone] at hc
  have hf : f = _ := (Prod.mk.inj hc).2.symm
  have hnd := (yields_spec g f0.view fuel).1.nodup
  subst hf
  simp only
  generalize (f0.view.yields g fuel).state = Y at hnd
  have hsubl : ∀ p : NodeInfo → Bool, ((Y.filter p).map NodeInfo.node).Nodup :=
    fun p => ((List.filter_sublist Y).map NodeInfo.node).nodup hnd
  have hrec : ∀ n, n ∈ nodes Y → ∃ y ∈ Y, y.node = n := by
    intro n hn
    obtain ⟨y, hy, rfl⟩ := List.mem_map.1 hn
    exact ⟨y, hy, rfl⟩
  have hin : ∀ (p : NodeInfo → Bool) n, n ∈ (Y.filter p).map NodeInfo.node → n ∈ nodes Y := by
    intro p n hn
    exact ((List.filter_sublist Y).map NodeInfo.node).subset hn
  have hchar : ∀ (p : NodeInfo → Bool) n, n ∈ (Y.filter p).map NodeInfo.node ↔
      ∃ y ∈ Y, y.node = n ∧ p y = true := by
    intro p n
    constructor
    · intro h
      obtain ⟨y, hy, hp, hn⟩ := mem_of_filter_map h
      exact ⟨y, hy, hn, hp⟩
    · rintro ⟨y, hy, rfl, hp⟩
      exact (mem_filter_map_iff hnd hy).2 hp
  have hflags : ∀ y ∈ Y, ∀ p : NodeInfo → Bool,
      (y.node ∈ (Y.filter p).map NodeInfo.node ↔ p y = true) :=
    fun y hy p => mem_filter_map_iff hnd hy
  refine ⟨fun n => ?_, fun n hn => ?_, fun n => ?_, fun n => ?_, fun n hn => ?_,
    hsubl _, hsubl _, hsubl _, hsubl _, hsubl _⟩
  · constructor
    · intro hn
      obtain ⟨y, hy, rfl⟩ := hrec n hn
      simp only [sourcesOf, targetsOf, sequenceOf, hflags y hy]
      cases y.isLeaf <;> cases y.isRoot <;> simp
    · rintro (h | h | h)
      · exact hin _ n h
      · exact hin _ n h
      · exact hin _ n h
  · obtain ⟨y, hy, rfl⟩ := hrec n hn
    simp only [sourcesOf, targetsOf, sequenceOf, pureSourcesOf, pureTargetsOf, hflags y hy]
    cases y.isLeaf <;> cases y.isRoot <;> simp
  · constructor
    · intro hn
      obtain ⟨y, hy, rfl⟩ := hrec n (hin _ n hn)
      simp only [sourcesOf, targetsOf, pureSourcesOf, hflags y hy] at hn ⊢
      revert hn
      cases y.isLeaf <;> cases y.isRoot <;> simp
    · rintro ⟨h1, h2⟩
      obtain ⟨y, hy, rfl⟩ := hrec n (hin _ n h1)
      simp only [sourcesOf, targetsOf, pureSourcesOf, hflags y hy] at h1 h2 ⊢
      revert h1 h2
      cases y.isLeaf <;> cases y.isRoot <;> simp
  · constructor
    · intro hn
      obtain ⟨y, hy, rfl⟩ := hrec n (hin _ n hn)
      simp only [sourcesOf, targetsOf, pureTargetsOf, hflags y hy] at hn ⊢
      revert hn
      cases y.isLeaf <;> cases y.isRoot <;> simp
    · rintro ⟨h1, h2⟩
      obtain ⟨y, hy, rfl⟩ := hrec n (hin _ n h1)
      simp only [sourcesOf, targetsOf, pureTargetsOf, hflags y hy] at h1 h2 ⊢
      revert h1 h2
      cases y.isLeaf <;> cases y.isRoot <;> simp
  · obtain ⟨y, hy, rfl⟩ := hrec n (hin _ n hn)
    simp only [sourcesOf, targetsOf, sequenceOf, hflags y hy] at hn ⊢
    revert hn
    cases y.isLeaf <;> cases y.isRoot <;> simp

/-! ## Claim about the end of the breadth-first search -/

/-- C40: on finite acyclic nodes whose child sets have no element twice and on
which the parent-owner set of every child contains the owner token of each of
its parents, the breadth-first search of `deleteIteratively(root)` ends within
one step per edge plus one, no node is twice in the deletion list, and the list
starts with `root` and holds only nodes reached from `root`. -/
theorem C40_scan_collects_once (h : Nodes) (root fuel : Nat) (hacyc : h.mChildren.Acyclic)
    (hnd : ∀ n, (h.children n).Nodup)
    (htok : ∀ p c, c ∈ h.children p → Owner.ofNode p ∈ h.mParentOwners c)
    (hfuel : h.mChildren.edgeCount + 1 ≤ fuel) :
    ∃ (h1 : Nodes) (D : List Nat), Nodes.scan fuel h [root] [] = some (h1, D) ∧
      D.Nodup ∧ (∀ n, D.count n ≤ 1) ∧ root ∈ D ∧ D.length ≤ h.mChildren.edgeCount + 1 ∧
      (∀ n ∈ D, Relation.ReflTransGen h.mChildren.edge root n) ∧
      h1.mChildren = h.mChildren := by
  obtain ⟨h1, D, hs, inv⟩ := Nodes.scan_spec hacyc hnd (fun p c _ hc => htok p c hc) fuel h
    [root] [] (Nodes.ScanInv.start h root h rfl rfl rfl) (by simpa using hfuel)
  have hD : D.Nodup := by simpa using inv.nodup
  refine ⟨h1, D, hs, hD, fun n => List.nodup_iff_count_le_one.1 hD n,
    by simpa using inv.root_mem, by simpa using inv.length_le, fun n hn => ?_, inv.children⟩
  exact inv.desc n (by simpa using hn)

theorem diamondNodes_owners_nil (c : Nat) (hc : 5 ≤ c) : diamondNodes.mParentOwners c = [] := by
  unfold diamondNodes
  simp only
  split <;> first | omega | rfl

theorem diamondNodes_wellFormed : diamondNodes.WellFormed where
  nodup := fun n => by
    by_cases hn : n < 4
    · interval_cases n <;> decide
    · rw [show diamondNodes.children n = [] from
        Graph.children_of_length_le _ (not_lt.1 hn)]
      exact List.nodup_nil
  token := fun p c => by
    by_cases hc : c < 5
    · by_cases hp : p < 4
      · interval_cases p <;> interval_cases c <;> decide
      · rw [show diamondNodes.children p = [] from
          Graph.children_of_length_le _ (not_lt.1 hp)]
        interval_cases c <;> simp [diamondNodes] <;> omega
    · rw [diamondNodes_owners_nil c (not_lt.1 hc)]
      by_cases hp : p < 4
      · interval_cases p <;> simp [diamondNodes, Nodes.children, Graph.children] <;> omega
      · rw [show diamondNodes.children p = [] from
          Graph.children_of_length_le _ (not_lt.1 hp)]
        simp

/-- The scenario "Diamond graph" of the tests: the search collects `root`, `x`,
`y` and then `z`, once. -/
theorem diamond_scan_example :
    (Nodes.scan 5 diamondNodes [0] []).map Prod.snd = some [0, 2, 3, 4] := by
  decide

/-- Witness for C40: the scenario "Diamond graph" of the tests. -/
theorem C40_scan_collects_once_witness :
    ∃ (h1 : Nodes) (D : List Nat), Nodes.scan 5 diamondNodes [0] [] = some (h1, D) ∧
      D.Nodup ∧ (∀ n, D.count n ≤ 1) ∧ 0 ∈ D ∧ D.length ≤ diamondNodes.mChildren.edgeCount + 1 ∧
      (∀ n ∈ D, Relation.ReflTransGen diamondNodes.mChildren.edge 0 n) ∧
      h1.mChildren = diamondNodes.mChildren :=
  C40_scan_collects_once diamondNodes 0 5 (Graph.acyclic_of_increasing _ (by decide))
    diamondNodes_wellFormed.nodup (fun p c => (diamondNodes_wellFormed.token p c).1) (by decide)

/-! ## Claim about `derivativeCodomainShape` -/

theorem Shape.get_zero_singleton (n : Nat) : ((Shape.ofList [n]).get 0).getD 0 = n := rfl

/-- C35: `derivativeCodomainShape()` is the codomain shape of the stored
derivative `mDerivative` whatever the state.  In state evaluated this is the
codomain shape of what `derivative()` returns.  After `setGradientZero`,
`setTangentZero` or `setDerivativeIdentity` it is still the codomain shape of
the derivative stored before, while `derivative()` returns a derivative of the
recorded codomain shape; in the scenario "Adding gradient" with a value of
dimension 4 and 5 rows, `derivativeCodomainShape()` is `Shape{0}` and the
derivative has 5 rows. -/
theorem C35_codomainShape_of_stored_derivative (c : PointComputation) (shape : Shape)
    (d : Jacobian) :
    (c.mDerivativeDescr.state = .evaluated →
      c.derivativeCodomainShape = c.derivative.1.codomainShape) ∧
    (c.setDerivative d).derivativeCodomainShape = (c.setDerivative d).derivative.1.codomainShape ∧
    (c.setGradientZero shape).derivativeCodomainShape = c.derivativeCodomainShape ∧
    (c.setGradientZero shape).derivative.1.codomainShape
      = Shape.ofList [(shape.get 0).getD 0] ∧
    (c.setTangentZero shape).derivativeCodomainShape = c.derivativeCodomainShape ∧
    (c.setTangentZero shape).derivative.1.codomainShape = c.mValue.getShape ∧
    c.setDerivativeIdentity.derivativeCodomainShape = c.derivativeCodomainShape ∧
    c.setDerivativeIdentity.derivative.1.codomainShape = c.mValue.getShape ∧
    (gradientPoint.setGradientZero (Shape.ofList [5])).derivativeCodomainShape
      = Shape.ofList [0] ∧
    (gradientPoint.setGradientZero (Shape.ofList [5])).derivative.1 = ⟨5, 4, 0⟩ ∧
    (gradientPoint.setGradientZero (Shape.ofList [5])).derivative.1.codomainShape
      = Shape.ofList [5] ∧
    Shape.eq (gradientPoint.setGradientZero (Shape.ofList [5])).derivativeCodomainShape
      (gradientPoint.setGradientZero (Shape.ofList [5])).derivative.1.codomainShape = false := by
  refine ⟨fun h => ?_, ?_, rfl, ?_, rfl, ?_, rfl, ?_, by decide, by decide, by decide,
    by decide⟩
  · simp [PointComputation.derivative, PointComputation.derivativeCodomainShape, h]
  · simp [PointComputation.derivative, PointComputation.derivativeCodomainShape,
      PointComputation.setDerivative]
  · simp [PointComputation.derivative, PointComputation.setGradientZero, Jacobian.generate,
      Jacobian.codomainShape]
  · simp [PointComputation.derivative, PointComputation.setTangentZero, Jacobian.generate,
      Jacobian.codomainShape, Point.getShape, Shape.get_zero_singleton]
  · simp [PointComputation.derivative, PointComputation.setDerivativeIdentity, Jacobian.generate,
      Jacobian.codomainShape, Point.getShape, Shape.get_zero_singleton]

/-- Witness for C35: in the scenario "Adding gradient" with the gradient
`Jacobian{2, 3, 13}` set by hand, the state is evaluated and the shape is the one
of the gradient. -/
theorem C35_codomainShape_of_stored_derivative_witness :
    (gradientPoint.setDerivative ⟨2, 3, 13⟩).mDerivativeDescr.state = .evaluated ∧
    (gradientPoint.setDerivative ⟨2, 3, 13⟩).derivativeCodomainShape
      = (gradientPoint.setDerivative ⟨2, 3, 13⟩).derivative.1.codomainShape :=
  ⟨rfl, (C35_codomainShape_of_stored_derivative (gradientPoint.setDerivative ⟨2, 3, 13⟩)
    default ⟨0, 0, 0⟩).1 rfl⟩

/-! ## Claim about the assertions of the computations -/

theorem Computation.pushTangent_evaluator (σ : Store) (n m : Nat) :
    ((Computation.pushTangent σ n) m).mEvaluator = (σ m).mEvaluator := by
  cases h : (σ n).mEvaluator with
  | none => simp only [Computation.pushTangent, h]
  | some e => exact ((Computation.pushTangent_spec h).2.2 m).2

theorem Expr.pullBack_evaluator : ∀ (e : Expr) (gradient : Int) (σ : Store) (m : Nat),
    ((e.pullBack gradient σ) m).mEvaluator = (σ m).mEvaluator
  | .var n, gradient, σ, m => by
    simp only [Expr.pullBack]
    by_cases hm : m = n
    · subst hm
      simp [(Computation.addGradient_ve _ _).2]
    · simp [Function.update_noteq hm]
  | .sum x y, gradient, σ, m => by
    simp only [Expr.pullBack]
    rw [Expr.pullBack_evaluator y, Expr.pullBack_evaluator x]
  | .sumLitX _ y, gradient, σ, m => by
    simp only [Expr.pullBack]
    rw [Expr.pullBack_evaluator y]
  | .sumLitY x _, gradient, σ, m => by
    simp only [Expr.pullBack]
    rw [Expr.pullBack_evaluator x]
  | .product x y, gradient, σ, m => by
    simp only [Expr.pullBack]
    rw [Expr.pullBack_evaluator y, Expr.pullBack_evaluator x]
  | .productLitX _ y, gradient, σ, m => by
    simp only [Expr.pullBack]
    rw [Expr.pullBack_evaluator y]
  | .productLitY x _, gradient, σ, m => by
    simp only [Expr.pullBack]
    rw [Expr.pullBack_evaluator x]

theorem Computation.pullGradient_evaluator (σ : Store) (n m : Nat) :
    ((Computation.pullGradient σ n) m).mEvaluator = (σ m).mEvaluator := by
  cases h : (σ n).mEvaluator with
  | none => simp only [Computation.pullGradient, h]
  | some e =>
    simp only [Computation.pullGradient, h]
    rw [Expr.pullBack_evaluator]
    by_cases hm : m = n
    · subst hm
      simp [(Computation.derivative_snd_ve _).2]
    · simp [Function.update_noteq hm]

/-- A sequence of calls on nodes with evaluators passes every assertion, when
the calls leave the evaluators alone. -/
theorem foldlM_asserted {step : Store → Nat → Store} {stepA : Store → Nat → Option Store}
    (hA : ∀ σ n, stepA σ n = if (σ n).mEvaluator.isSome then some (step σ n) else none)
    (hpres : ∀ σ n m, ((step σ n) m).mEvaluator = (σ m).mEvaluator) :
    ∀ (l : List Nat) (σ : Store), (∀ n ∈ l, (σ n).mEvaluator ≠ none) →
      l.foldlM stepA σ = some (l.foldl step σ) := by
  intro l
  induction l with
  | nil => intro σ _; rfl
  | cons a l ih =>
    intro σ h
    have ha : (σ a).mEvaluator.isSome = true :=
      Option.isSome_iff_ne_none.2 (h a (List.mem_cons_self _ _))
    rw [List.foldlM_cons, hA, if_pos ha]
    simp only [Option.some_bind, List.foldl_cons, Option.bind_eq_bind]
    refine ih _ (fun n hn => ?_)
    rw [hpres]
    exact h n (List.mem_cons_of_mem _ hn)

theorem foldl_evaluator {step : Store → Nat → Store}
    (hpres : ∀ σ n m, ((step σ n) m).mEvaluator = (σ m).mEvaluator) :
    ∀ (l : List Nat) (σ : Store) (m : Nat), ((l.foldl step σ) m).mEvaluator = (σ m).mEvaluator := by
  intro l
  induction l with
  | nil => intro _ _; rfl
  | cons a l ih =>
    intro σ m
    rw [List.foldl_cons, ih, hpres]

/-- After a successful `compile()` on the graph `g`, every node of the sequence
and every pure target has a child in `g`. -/
theorem Function.compile_calls_children {g : Graph} {fuel : Nat} {f0 f1 : Function}
    (hc : f0.compile g fuel = (.ok, f1)) :
    ∀ n, n ∈ f1.mSequence ∨ n ∈ f1.mPureTargets → g.children n ≠ [] := by
  have hdone := @Function.compile_ok_done g fuel f0 (by rw [hc])
  rw [Function.compile_ok_eq g fuel f0 hdone] at hc
  have hf : f1 = _ := (Prod.mk.inj hc).2.symm
  have hok := (yields_spec g f0.view fuel).1
  subst hf
  intro n hn
  simp only at hn
  have : ∃ y ∈ (f0.view.yields g fuel).state, y.isLeaf = false ∧ y.node = n := by
    rcases hn with hn | hn
    · obtain ⟨y, hy, hp, hyn⟩ := mem_of_filter_map hn
      refine ⟨y, hy, ?_, hyn⟩
      cases h : y.isLeaf
      · rfl
      · simp [h] at hp
    · obtain ⟨y, hy, hp, hyn⟩ := mem_of_filter_map hn
      refine ⟨y, hy, ?_, hyn⟩
      cases h : y.isLeaf
      · rfl
      · simp [h] at hp
  obtain ⟨y, hy, hleaf, rfl⟩ := this
  have hflag := hok.leafFlag y hy
  rw [hleaf] at hflag
  intro hnil
  simp [hnil] at hflag

theorem Nodes.children_addChild_ne (h : Nodes) (p c m : Nat) (hm : m ≠ p) :
    (h.addChild p c).children m = h.children m := by
  unfold Nodes.addChild
  split
  · rfl
  · rw [Nodes.children_addParentOwner]
    show (h.mChildren.setChildren p (h.children p ++ [c])).children m = _
    rw [Graph.children_setChildren, if_neg hm]
    rfl

theorem Objects.transferChildrenTo_children (node : Nat) :
    ∀ (refs : List Reference) (w w' : Objects),
      Objects.transferChildrenTo node refs w = some w' →
      ∀ m, m ≠ node → w'.nodes.children m = w.nodes.children m := by
  intro refs
  induction refs with
  | nil =>
    intro w w' h m _
    simp only [Objects.transferChildrenTo, Option.some.injEq] at h
    rw [h]
  | cons r rest ih =>
    intro w w' h m hm
    cases hc : r.mComputation with
    | none => simp [Objects.transferChildrenTo, Reference.transferOperationTo, hc] at h
    | some c =>
      simp only [Objects.transferChildrenTo, Reference.transferOperationTo, hc,
        Option.some_bind] at h
      rw [ih _ _ h m hm]
      exact Nodes.children_addChild_ne _ node c m hm

theorem Objects.empty_evaluable : Objects.empty.Evaluable := by
  intro n hn
  exact absurd (by simp [Objects.empty, Graph.children]) hn

theorem Variable.new_evaluable {w : Objects} (h : w.Evaluable) : (Variable.new w).1.Evaluable := by
  intro m hm
  have hch : (Variable.new w).1.nodes.mChildren.children m
      = if m = w.nextNode then [] else w.nodes.mChildren.children m :=
    Graph.children_setChildren w.nodes.mChildren w.nextNode m []
  by_cases hmn : m = w.nextNode
  · rw [hch, if_pos hmn] at hm
    exact absurd rfl hm
  · rw [hch, if_neg hmn] at hm
    have hs : (Variable.new w).1.store m = w.store m := by
      show Function.update w.store w.nextNode default m = _
      rw [Function.update_noteq hmn]
    rw [hs]
    exact h m hm

/-- `Computation::setValue` returns, and leaves every node with a child with an
evaluator. -/
theorem Objects.setValue_evaluable {w : Objects} (wf : w.nodes.WellFormed)
    (hold : w.nodes.OwnersHold) (hacyc : w.nodes.mChildren.Acyclic) (h : w.Evaluable)
    {fuel : Nat} (hfuel : w.nodes.budget ≤ fuel + 2) (n : Nat) (value : Int) :
    ∃ w', w.setValue (fuel + 2) n value = some w' ∧ w'.Evaluable ∧
      (w'.store n).mEvaluator = none ∧ w'.nodes.children n = [] := by
  obtain ⟨h', hrel, hnil, _, hsub, _⟩ := Nodes.releaseChildren_post w.nodes n fuel wf hold hacyc
    hfuel
  refine ⟨{ w with nodes := h',
                   store := Function.update w.store n
                     { w.store n with mEvaluator := none, mValue := value } },
    by simp only [Objects.setValue, hrel, Option.map_some'], fun m hm => ?_, by simp, hnil⟩
  by_cases hmn : m = n
  · subst hmn
    exact absurd hnil hm
  · show (Function.update w.store n _ m).mEvaluator ≠ none
    rw [Function.update_noteq hmn]
    refine h m (fun hnil' => hm ?_)
    have := hsub m
    unfold Nodes.children at this
    rw [hnil'] at this
    exact List.sublist_nil.1 this

/-- `Computation::setExpression` returns, and leaves every node with a child
with an evaluator. -/
theorem Objects.setExpression_evaluable {w : Objects} (wf : w.nodes.WellFormed)
    (hold : w.nodes.OwnersHold) (hacyc : w.nodes.mChildren.Acyclic) (h : w.Evaluable)
    {fuel : Nat} (hfuel : w.nodes.budget ≤ fuel + 2) (n : Nat) (e : Expr) :
    ∃ w', w.setExpression (fuel + 2) n e = some w' ∧ w'.Evaluable ∧
      (w'.store n).mEvaluator = some e := by
  obtain ⟨h', hrel, _, _, hsub, _⟩ := Nodes.releaseChildren_post w.nodes n fuel wf hold hacyc
    hfuel
  obtain ⟨w', hset, hstore, _⟩ := Objects.setExpression_of_release e hrel
  refine ⟨w', hset, fun m hm => ?_, by rw [hstore]; simp⟩
  by_cases hmn : m = n
  · subst hmn
    rw [hstore]
    simp
  · rw [hstore, Function.update_noteq hmn]
    refine h m (fun hnil' => hm ?_)
    have hset' := hset
    simp only [Objects.setExpression, hrel, Option.some_bind] at hset'
    have h1 := Objects.transferChildrenTo_children n _ _ _ hset' m hmn
    have h2 := (Objects.copyOperands_spec e.operands { w with nodes := h' }).2.1
    have h3 : w'.nodes.children m = h'.children m := by
      rw [h1]
      show (Objects.copyOperands { w with nodes := h' } e.operands).1.nodes.mChildren.children m
        = _
      rw [h2]
      rfl
    have := hsub m
    unfold Nodes.children at this h3
    rw [hnil'] at this
    rw [h3]
    exact List.sublist_nil.1 this

theorem releaseObjects_evaluable : releaseObjects.Evaluable := by
  intro n hn
  by_cases h : n < 2
  · interval_cases n <;> simp [releaseObjects]
  · exact absurd (Graph.children_of_length_le _ (not_lt.1 h)) hn

/-- The program `x = var(2); y = var(3); z = var(x * y); f.compile(); z = 5`: the
function compiled before the assignment is `productFunctionCompiled`, it stays
compiled, and `z` is a literal in the end. -/
theorem stale_example :
    (eagerObjects.map fun w => productFunction.compile w.nodes.mChildren 12)
      = some (.ok, productFunctionCompiled) ∧
    productFunctionCompiled.compiled = true ∧
    (staleObjects.map fun w => (w.nodes.mChildren, (w.store 2).mEvaluator, (w.store 2).value))
      = some ([[], [], []], none, 5) := by
  decide

/-- Counterexample for C37: in the program `x = var(2); y = var(3); z = var(x * y);
Function f(from(x, y), to(z)); f.compile(); z = 5;` the function `f` is
compiled, and `f.evaluate()`, `f.pushTangent()` and `f.pullGradient()` each call
the literal `z` and fail its assertion. -/
theorem C37_counterexample :
    (eagerObjects.map fun w => productFunction.compile w.nodes.mChildren 12)
      = some (.ok, productFunctionCompiled) ∧
    productFunctionCompiled.compiled = true ∧
    (staleObjects.map fun w =>
      [(productFunctionCompiled.evaluateAsserted w.nodes.mChildren 12 w.store).isSome,
       (productFunctionCompiled.pushTangentAsserted w.nodes.mChildren 12 w.store).isSome,
       (productFunctionCompiled.pullGradientAsserted w.nodes.mChildren 12 w.store).isSome])
      = some [false, false, false] := by
  decide

/-- C37: the computations made by construction, `setValue` and `setExpression`
keep the invariant that a node with a child has an evaluator.  When the
function that a pass runs with is the result of `compile()` on the graph as it
is at the pass, every node on which `evaluate`, `pushTangent` or `pullGradient`
is called has a child and an evaluator, and no assertion fails in
`Function::evaluate`, `pushTangent` and `pullGradient`. -/
theorem C37_assertions_hold_after_compile (w : Objects) (wf : w.nodes.WellFormed)
    (hold : w.nodes.OwnersHold) (hacyc : w.nodes.mChildren.Acyclic) (hev : w.Evaluable)
    (fuel : Nat) (hfuel : w.nodes.budget ≤ fuel + 2) (n : Nat) (value : Int) (e : Expr)
    (fuelc : Nat) (f0 f f1 : Function)
    (hc : f0.compile w.nodes.mChildren fuelc = (.ok, f1))
    (hf : f.compileIfNecessary w.nodes.mChildren fuelc = (.ok, f1)) :
    Objects.empty.Evaluable ∧ (Variable.new w).1.Evaluable ∧
    (∃ w', w.setValue (fuel + 2) n value = some w' ∧ w'.Evaluable) ∧
    (∃ w', w.setExpression (fuel + 2) n e = some w' ∧ w'.Evaluable) ∧
    (∀ m ∈ f1.evaluateCalls, w.nodes.children m ≠ [] ∧ (w.store m).mEvaluator ≠ none) ∧
    (∀ m ∈ f1.pullGradientCalls, w.nodes.children m ≠ [] ∧ (w.store m).mEvaluator ≠ none) ∧
    f.evaluateAsserted w.nodes.mChildren fuelc w.store
      = some (f.evaluate w.nodes.mChildren fuelc w.store).store ∧
    f.pushTangentAsserted w.nodes.mChildren fuelc w.store
      = some (f.pushTangent w.nodes.mChildren fuelc w.store).store ∧
    f.pullGradientAsserted w.nodes.mChildren fuelc w.store
      = some (f.pullGradient w.nodes.mChildren fuelc w.store).store := by
  have hch := Function.compile_calls_children hc
  have hcalls : ∀ m, m ∈ f1.mSequence ∨ m ∈ f1.mPureTargets →
      w.nodes.children m ≠ [] ∧ (w.store m).mEvaluator ≠ none :=
    fun m hm => ⟨hch m hm, hev m (hch m hm)⟩
  obtain ⟨w1, h1, h1e, _⟩ := Objects.setValue_evaluable wf hold hacyc hev hfuel n value
  obtain ⟨w2, h2, h2e, _⟩ := Objects.setExpression_evaluable wf hold hacyc hev hfuel n e
  refine ⟨Objects.empty_evaluable, Variable.new_evaluable hev, ⟨w1, h1, h1e⟩, ⟨w2, h2, h2e⟩,
    fun m hm => hcalls m (List.mem_append.1 hm), fun m hm => ?_, ?_, ?_, ?_⟩
  · rcases List.mem_append.1 hm with h | h
    · exact hcalls m (Or.inr h)
    · exact hcalls m (Or.inl (List.mem_reverse.1 h))
  · have hseq := @foldlM_asserted Computation.evaluate Computation.evaluateAsserted
      (fun _ _ => rfl) Computation.evaluate_evaluator f1.mSequence
      w.store (fun m hm => (hcalls m (Or.inl hm)).2)
    have hpt := @foldlM_asserted Computation.evaluate Computation.evaluateAsserted
      (fun _ _ => rfl) Computation.evaluate_evaluator f1.mPureTargets
      (f1.mSequence.foldl Computation.evaluate w.store) (fun m hm => by
        rw [foldl_evaluator Computation.evaluate_evaluator]
        exact (hcalls m (Or.inr hm)).2)
    simp only [Function.evaluateAsserted, Function.evaluate, hf]
    rw [hseq, Option.some_bind]
    exact hpt
  · have hseq := @foldlM_asserted Computation.pushTangent Computation.pushTangentAsserted
      (fun _ _ => rfl) Computation.pushTangent_evaluator f1.mSequence
      w.store (fun m hm => (hcalls m (Or.inl hm)).2)
    have hpt := @foldlM_asserted Computation.pushTangent Computation.pushTangentAsserted
      (fun _ _ => rfl) Computation.pushTangent_evaluator
      f1.mPureTargets (f1.mSequence.foldl Computation.pushTangent w.store) (fun m hm => by
        rw [foldl_evaluator Computation.pushTangent_evaluator]
        exact (hcalls m (Or.inr hm)).2)
    simp only [Function.pushTangentAsserted, Function.pushTangent, hf]
    rw [hseq, Option.some_bind]
    exact hpt
  · have hz : ∀ (sh : Shape) (l : List Nat) (σ : Store) (m : Nat),
        ((l.foldl (fun s n => Function.update s n ((s n).setGradientZero sh)) σ) m).mEvaluator
          = (σ m).mEvaluator := fun sh l σ m => ((SameVE.foldl_gradientZero sh l σ) m).2
    simp only [Function.pullGradientAsserted, Function.pullGradient, hf]
    have hpt := @foldlM_asserted Computation.pullGradient Computation.pullGradientAsserted
      (fun _ _ => rfl) Computation.pullGradient_evaluator
      f1.mPureTargets
      (f1.mPureSources.foldl
        (fun s n => Function.update s n
          ((s n).setGradientZero (w.store f1.mReferenceTarget).derivativeCodomainShape))
        (f1.mSequence.foldl
          (fun s n => Function.update s n
            ((s n).setGradientZero (w.store f1.mReferenceTarget).derivativeCodomainShape))
          w.store))
      (fun m hm => by
        rw [hz, hz]
        exact (hcalls m (Or.inr hm)).2)
    rw [hpt, Option.some_bind]
    refine @foldlM_asserted Computation.pullGradient Computation.pullGradientAsserted
      (fun _ _ => rfl) Computation.pullGradient_evaluator _ _
      (fun m hm => ?_)
    rw [foldl_evaluator Computation.pullGradient_evaluator, hz, hz]
    exact (hcalls m (Or.inl (List.mem_reverse.1 hm))).2

/-- Witness for C37: the program `e = 1; c = e * e; p = c + c` with the function
of the target `p`, which compiles to the sequence `c` and the pure target `p`. -/
theorem C37_assertions_hold_after_compile_witness :
    (Function.mk [] [0] 0 [] [] [] [] []).evaluateAsserted releaseObjects.nodes.mChildren 8
        releaseObjects.store
      = some ((Function.mk [] [0] 0 [] [] [] [] []).evaluate releaseObjects.nodes.mChildren 8
          releaseObjects.store).store :=
  (C37_assertions_hold_after_compile releaseObjects releaseNodes_wellFormed
    releaseNodes_ownersHold (Graph.acyclic_of_increasing _ (by decide)) releaseObjects_evaluable
    3 (by decide) 0 7 (.var 2) 8 ⟨[], [0], 0, [], [], [], [], []⟩ ⟨[], [0], 0, [], [], [], [], []⟩
    ⟨[], [0], 0, [2], [0], [2], [0], [1]⟩ (by decide) (by decide)).2.2.2.2.2.2.1

/-! ## Claim about the number of steps of the iteration -/

theorem unitFreeWeight_congr (g : Graph) {b b' : List Nat} (h : ∀ n, n ∈ b ↔ n ∈ b') :
    unitFreeWeight g b = unitFreeWeight g b' := by
  unfold unitFreeWeight
  refine Finset.sum_congr rfl fun n _ => ?_
  simp [h n]

theorem unitFreeWeight_cons (g : Graph) {b : List Nat} {c : Nat} (hc : c ∉ b)
    (hlt : c < g.length) :
    unitFreeWeight g (c :: b) + (1 + (g.children c).length) = unitFreeWeight g b := by
  unfold unitFreeWeight
  have hmem : c ∈ Finset.range g.length := Finset.mem_range.2 hlt
  rw [← Finset.add_sum_erase _ _ hmem,
    ← Finset.add_sum_erase _ (fun n => if n ∈ b then 0 else 1 + (g.children n).length) hmem]
  have : ∑ x ∈ (Finset.range g.length).erase c,
        (if x ∈ c :: b then 0 else 1 + (g.children x).length)
      = ∑ x ∈ (Finset.range g.length).erase c,
        (if x ∈ b then 0 else 1 + (g.children x).length) := by
    refine Finset.sum_congr rfl fun n hn => ?_
    have : n ≠ c := (Finset.mem_erase.1 hn).1
    simp [this]
  rw [this]
  simp [hc]
  omega

theorem unitFreeWeight_nil : ∀ (g : Graph), unitFreeWeight g [] = g.length + g.edgeCount
  | [] => by simp [unitFreeWeight, Graph.edgeCount]
  | a :: g => by
    have ih := unitFreeWeight_nil g
    simp only [unitFreeWeight, List.not_mem_nil, if_false, Graph.edgeCount,
      List.length_cons, List.map_cons, List.sum_cons] at ih ⊢
    rw [Finset.sum_range_succ']
    have : ∀ n, Graph.children (a :: g) (n + 1) = Graph.children g n := by
      intro n; simp [Graph.children]
    simp only [this]
    have h0 : Graph.children (a :: g) 0 = a := by simp [Graph.children]
    rw [h0, ih]
    omega

theorem unitPotential_init (g : Graph) : unitPotential g Path.empty [] = g.length + g.edgeCount := by
  simp [unitPotential, Path.empty, unitStackWeight, unitFreeWeight_nil]

theorem unitPotential_skip (g : Graph) {p : Path} {vis : List Nat} {e : Element}
    {rest : List Element} {c : Nat} {cs : List Nat} (hst : p.mStack = e :: rest)
    (hit : e.childIter = c :: cs) :
    unitPotential g ⟨⟨e.node, cs⟩ :: rest, p.mSet⟩ vis + 1 = unitPotential g p vis := by
  simp [unitPotential, unitStackWeight, hst, hit]
  omega

theorem unitPotential_push (g : Graph) {p : Path} {vis : List Nat} {e : Element}
    {rest : List Element} {c : Nat} {cs : List Nat} (hst : p.mStack = e :: rest)
    (hit : e.childIter = c :: cs) (hv : c ∉ vis) (hs : c ∉ p.mSet) (hlt : c < g.length) :
    unitPotential g ⟨⟨c, g.children c⟩ :: ⟨e.node, cs⟩ :: rest, c :: p.mSet⟩ vis + 1
      = unitPotential g p vis := by
  have hfw : unitFreeWeight g (vis ++ c :: p.mSet) = unitFreeWeight g (c :: (vis ++ p.mSet)) :=
    unitFreeWeight_congr g (by intro n; simp; tauto)
  have hc : c ∉ vis ++ p.mSet := by simp [hv, hs]
  have := unitFreeWeight_cons g hc hlt
  simp only [unitPotential, unitStackWeight, hst, hit, hfw, List.map_cons, List.sum_cons,
    List.length_cons] at this ⊢
  omega

theorem unitPotential_pushRoot (g : Graph) {p : Path} {vis : List Nat} {root : Nat}
    (hst : p.mStack = []) (hset : p.mSet = []) (hv : root ∉ vis) (hlt : root < g.length) :
    unitPotential g ⟨⟨root, g.children root⟩ :: p.mStack, root :: p.mSet⟩ vis
      = unitPotential g p vis := by
  have hfw : unitFreeWeight g (vis ++ root :: p.mSet) = unitFreeWeight g (root :: (vis ++ p.mSet)) :=
    unitFreeWeight_congr g (by intro n; simp; tauto)
  have hc : root ∉ vis ++ p.mSet := by simp [hv, hset]
  have := unitFreeWeight_cons g hc hlt
  simp only [unitPotential, unitStackWeight, hst, hfw, List.map_cons, List.sum_cons,
    List.map_nil, List.sum_nil] at this ⊢
  omega

theorem unitPotential_pop {g : Graph} {v : TopoView} {ri : List Nat} {p : Path}
    {vis : List Nat} {Y : List NodeInfo} {e : Element} {rest : List Element}
    (h : Inv g v ri p vis Y) (hst : p.mStack = e :: rest) :
    unitPotential g p.removeHead (vis.insert p.head) + (1 + e.childIter.length)
      = unitPotential g p vis := by
  have hhead : p.head = e.node := by simp [Path.head, hst]
  have hset := h.set_eq
  rw [hst] at hset
  simp only [List.map_cons] at hset
  have hrem : p.removeHead = ⟨rest, rest.map Element.node⟩ := by
    simp [Path.removeHead, hst, hhead, hset]
  rw [hrem, hhead]
  have hfw : unitFreeWeight g (vis.insert e.node ++ rest.map Element.node)
      = unitFreeWeight g (vis ++ p.mSet) :=
    unitFreeWeight_congr g (by
      intro n
      rw [hset]
      simp only [List.mem_append, List.mem_insert_iff, List.mem_cons]
      tauto)
  simp only [unitPotential, unitStackWeight, hst, hfw, List.map_cons, List.sum_cons]
  omega

theorem Inv.child_lt {g : Graph} {v : TopoView} {ri : List Nat} {p : Path} {vis : List Nat}
    {Y : List NodeInfo} {e : Element} {rest : List Element} {c : Nat} {cs : List Nat}
    (h : Inv g v ri p vis Y) (hst : p.mStack = e :: rest) (hit : e.childIter = c :: cs)
    (hch : ∀ n, ∀ c ∈ g.children n, c < g.length) : c < g.length := by
  have hs := h.stack
  rw [hst] at hs
  obtain ⟨⟨pre, hp, _⟩, _⟩ := hs
  exact hch e.node c (by simp [hp, hit])

/-- The iterations of the second loop of `findNextValue` are paid for by the
unit potential: the potential left after the node found has been removed from
the path bounds what is left to do. -/
theorem extendSteps_spec (g : Graph) (v : TopoView)
    (hch : ∀ n, ∀ c ∈ g.children n, c < g.length) :
    ∀ (fuel : Nat) (it : Iterator) (Y : List NodeInfo),
      Inv g v it.mRootsIterator it.mPath it.mVisited Y → Exploring v it.mPath →
      (Iterator.extend g v fuel it).Spec
        (fun it1 => Iterator.extendSteps g v fuel it +
            unitPotential g it1.mPath.removeHead (it1.mVisited.insert it1.mPath.head)
          ≤ unitPotential g it.mPath it.mVisited)
        (Iterator.extendSteps g v fuel it ≤ unitPotential g it.mPath it.mVisited)
        (Iterator.extendSteps g v fuel it ≤ unitPotential g it.mPath it.mVisited)
  | 0, it, Y, _, _ => by simp [Iterator.extend, Iterator.extendSteps, Outcome.Spec]
  | fuel + 1, it, Y, hinv, hexp => by
    obtain ⟨e, rest, hst, hleaf⟩ := hexp
    unfold Iterator.extend Iterator.extendSteps
    cases hit : e.childIter with
    | nil =>
      have hnext : it.mPath.next = (none, it.mPath) := by
        simp [Path.next, hst, hit]
      rw [hnext]
      simp only [Outcome.Spec]
      have := unitPotential_pop hinv hst
      rw [hit] at this
      simp only [List.length_nil] at this
      omega
    | cons c cs =>
      have hnext : it.mPath.next = (some c, ⟨⟨e.node, cs⟩ :: rest, it.mPath.mSet⟩) := by
        simp [Path.next, hst, hit]
      rw [hnext]
      simp only
      by_cases hv : c ∈ it.mVisited
      · have hnv : it.notYetVisited c = false := by
          simpa [Iterator.notYetVisited] using hv
        rw [hnv]
        simp only [Bool.false_eq_true, if_false]
        obtain ⟨hinv1, _⟩ := hinv.skip hst hit hv
        have hpot1 : unitPotential g ⟨⟨e.node, cs⟩ :: rest, it.mPath.mSet⟩ it.mVisited + 1
            = unitPotential g it.mPath it.mVisited := unitPotential_skip g hst hit
        have ih := extendSteps_spec g v hch fuel
          { it with mPath := ⟨⟨e.node, cs⟩ :: rest, it.mPath.mSet⟩ } Y hinv1 ⟨_, _, rfl, hleaf⟩
        revert ih
        cases Iterator.extend g v fuel { it with mPath := ⟨⟨e.node, cs⟩ :: rest, it.mPath.mSet⟩ } with
        | done it1 =>
          simp only [Outcome.Spec]
          intro h; omega
        | thrown => simp only [Outcome.Spec]; intro h; omega
        | timeout => simp only [Outcome.Spec]; intro h; omega
      · have hnv : it.notYetVisited c = true := by
          simpa [Iterator.notYetVisited] using hv
        rw [hnv]
        simp only [if_true]
        by_cases hs : c ∈ it.mPath.mSet
        · have : Path.tryAdd g ⟨⟨e.node, cs⟩ :: rest, it.mPath.mSet⟩ c = none := by
            simp [Path.tryAdd, hs]
          rw [this]
          simp only [Outcome.Spec]
          have hpot1 : unitPotential g ⟨⟨e.node, cs⟩ :: rest, it.mPath.mSet⟩ it.mVisited + 1
              = unitPotential g it.mPath it.mVisited := unitPotential_skip g hst hit
          omega
        · have : Path.tryAdd g ⟨⟨e.node, cs⟩ :: rest, it.mPath.mSet⟩ c
              = some ⟨⟨c, g.children c⟩ :: ⟨e.node, cs⟩ :: rest, c :: it.mPath.mSet⟩ := by
            simp [Path.tryAdd, hs]
          rw [this]
          simp only
          obtain ⟨hinv1, _⟩ := hinv.push hst hleaf hit hv hs
          have hpot1 := unitPotential_push g hst hit hv hs (hinv.child_lt hst hit hch)
          by_cases hcl : c ∈ v.mSpecifiedLeaves
          · have hl : v.isSpecifiedLeaf c = true := by
              simpa [TopoView.isSpecifiedLeaf] using hcl
            rw [hl]
            simp only [if_true, Outcome.Spec]
            have := unitPotential_pop hinv1 rfl
            omega
          · have hl : v.isSpecifiedLeaf c = false := by
              simpa [TopoView.isSpecifiedLeaf] using hcl
            rw [hl]
            simp only [Bool.false_eq_true, if_false]
            have ih := extendSteps_spec g v hch fuel
              { it with mPath := ⟨⟨c, g.children c⟩ :: ⟨e.node, cs⟩ :: rest, c :: it.mPath.mSet⟩ } Y
              hinv1 ⟨_, _, rfl, hcl⟩
            revert ih
            cases Iterator.extend g v fuel
              { it with mPath := ⟨⟨c, g.children c⟩ :: ⟨e.node, cs⟩ :: rest, c :: it.mPath.mSet⟩ } with
            | done it1 =>
              simp only [Outcome.Spec]
              intro h; omega
            | thrown => simp only [Outcome.Spec]; intro h; omega
            | timeout => simp only [Outcome.Spec]; intro h; omega

theorem addRoot_unit (g : Graph) (v : TopoView) :
    ∀ (roots : List Nat) (it : Iterator) (Y : List NodeInfo),
      Inv g v roots it.mPath it.mVisited Y → (∀ r ∈ roots, r < g.length) →
      (Iterator.addRoot g v roots it).Spec
        (fun r => unitPotential g r.1.mPath r.1.mVisited = unitPotential g it.mPath it.mVisited)
        True True
  | [], it, Y, _, _ => by simp [Iterator.addRoot, Outcome.Spec]
  | root :: rest, it, Y, hinv, hlt => by
    unfold Iterator.addRoot
    have hrest : ∀ r ∈ rest, r < g.length := fun r hr => hlt r (List.mem_cons_of_mem _ hr)
    by_cases hemp : it.mPath.mStack = []
    · have he : it.mPath.isEmpty = true := by simp [Path.isEmpty, hemp]
      rw [he]
      simp only [if_true]
      by_cases hv : root ∈ it.mVisited
      · have hnv : it.notYetVisited root = false := by
          simpa [Iterator.notYetVisited] using hv
        rw [hnv]
        simp only [Bool.false_eq_true, if_false]
        obtain ⟨hinv1, _⟩ := hinv.skipRoot hv
        exact addRoot_unit g v rest it Y hinv1 hrest
      · have hnv : it.notYetVisited root = true := by
          simpa [Iterator.notYetVisited] using hv
        rw [hnv]
        simp only [if_true]
        have hset : it.mPath.mSet = [] := by
          have := hinv.set_eq
          rw [hemp] at this
          simpa using this
        have hadd : it.mPath.tryAdd g root
            = some ⟨⟨root, g.children root⟩ :: it.mPath.mStack, root :: it.mPath.mSet⟩ := by
          simp [Path.tryAdd, hset]
        rw [hadd]
        simp only
        obtain ⟨hinv1, _⟩ := hinv.pushRoot hemp hv
        have hpot := unitPotential_pushRoot g hemp hset hv (hlt root (List.mem_cons_self _ _))
        by_cases hcl : root ∈ v.mSpecifiedLeaves
        · have hl : v.isSpecifiedLeaf root = true := by
            simpa [TopoView.isSpecifiedLeaf] using hcl
          rw [hl]
          simp only [if_true, Outcome.Spec]
          exact hpot
        · have hl : v.isSpecifiedLeaf root = false := by
            simpa [TopoView.isSpecifiedLeaf] using hcl
          rw [hl]
          simp only [Bool.false_eq_true, if_false]
          have ih := addRoot_unit g v rest
            { it with mPath := ⟨⟨root, g.children root⟩ :: it.mPath.mStack, root :: it.mPath.mSet⟩ }
            Y hinv1 hrest
          revert ih
          cases Iterator.addRoot g v rest
            { it with mPath := ⟨⟨root, g.children root⟩ :: it.mPath.mStack, root :: it.mPath.mSet⟩ } with
          | done r =>
            simp only [Outcome.Spec]
            intro h
            rw [h]
            exact hpot
          | thrown => simp only [Outcome.Spec]; exact id
          | timeout => simp only [Outcome.Spec]; exact id
    · have he : it.mPath.isEmpty = false := by
        cases hs : it.mPath.mStack with
        | nil => exact absurd hs hemp
        | cons a b => simp [Path.isEmpty, hs]
      rw [he]
      simp only [Bool.false_eq_true, if_false, Outcome.Spec]

theorem Inv.roots_lt {g : Graph} {v : TopoView} {ri : List Nat} {p : Path} {vis : List Nat}
    {Y : List NodeInfo} (h : Inv g v ri p vis Y) (hroots : ∀ r ∈ v.mRoots, r < g.length) :
    ∀ r ∈ ri, r < g.length := by
  obtain ⟨taken, ht, _⟩ := h.roots
  intro r hr
  exact hroots r (by rw [ht]; exact List.mem_append_right _ hr)

theorem findNextValueSteps_spec (g : Graph) (v : TopoView)
    (hroots : ∀ r ∈ v.mRoots, r < g.length) (hch : ∀ n, ∀ c ∈ g.children n, c < g.length)
    (fuel : Nat) (it : Iterator) (Y : List NodeInfo)
    (hinv : Inv g v it.mRootsIterator it.mPath it.mVisited Y)
    (hex : it.mPath.mStack = [] ∨ Exploring v it.mPath) :
    (Iterator.findNextValue g v fuel it).Spec
      (fun it1 =>
        Iterator.findNextValueSteps g v fuel it ≤ unitPotential g it.mPath it.mVisited ∧
        (it1.mPath.mStack ≠ [] → Iterator.findNextValueSteps g v fuel it +
            unitPotential g it1.mPath.removeHead (it1.mVisited.insert it1.mPath.head)
          ≤ unitPotential g it.mPath it.mVisited))
      (Iterator.findNextValueSteps g v fuel it ≤ unitPotential g it.mPath it.mVisited)
      (Iterator.findNextValueSteps g v fuel it ≤ unitPotential g it.mPath it.mVisited) := by
  unfold Iterator.findNextValue Iterator.findNextValueSteps
  have h1 := addRoot_spec g v it.mRootsIterator it Y hinv hex
  have h2 := addRoot_unit g v it.mRootsIterator it Y hinv (hinv.roots_lt hroots)
  revert h1 h2
  cases Iterator.addRoot g v it.mRootsIterator it with
  | thrown => simp [Outcome.Spec]
  | timeout => simp [Outcome.Spec]
  | done r =>
    obtain ⟨it1, b⟩ := r
    cases b with
    | true =>
      simp only [Outcome.Spec, if_true]
      rintro ⟨h1, _, h3⟩ h2
      refine ⟨Nat.zero_le _, fun _ => ?_⟩
      obtain ⟨e, rest, hst, _⟩ := h3
      have := unitPotential_pop h1 hst
      omega
    | false =>
      simp only [Outcome.Spec, Bool.false_eq_true, if_false]
      rintro ⟨h1, _, h3⟩ h2
      by_cases hemp : it1.mPath.mStack = []
      · have he : it1.mPath.isEmpty = true := by simp [Path.isEmpty, hemp]
        rw [he]
        simp only [if_true]
        exact ⟨Nat.zero_le _, fun hne => absurd hemp hne⟩
      · have he : it1.mPath.isEmpty = false := by
          cases hs : it1.mPath.mStack with
          | nil => exact absurd hs hemp
          | cons a b => simp [Path.isEmpty, hs]
        rw [he]
        simp only [Bool.false_eq_true, if_false]
        rcases h3 with h3 | h3
        · exact absurd h3.1 hemp
        · have h4 := extendSteps_spec g v hch fuel it1 Y h1 h3
          revert h4
          cases Iterator.extend g v fuel it1 with
          | done it2 =>
            simp only [Outcome.Spec]
            intro h
            exact ⟨by omega, fun _ => by omega⟩
          | thrown => simp only [Outcome.Spec]; intro h; omega
          | timeout => simp only [Outcome.Spec]; intro h; omega

theorem forEachLoopSteps_of_empty (g : Graph) (v : TopoView) (fuel k : Nat) (it : Iterator)
    (h : it.mPath.mStack = []) : forEachLoopSteps g v fuel k it = 0 := by
  cases k <;> simp [forEachLoopSteps, Path.size, h]

theorem forEachLoopSteps_le (g : Graph) (v : TopoView)
    (hroots : ∀ r ∈ v.mRoots, r < g.length) (hch : ∀ n, ∀ c ∈ g.children n, c < g.length)
    (fuel : Nat) :
    ∀ (k : Nat) (it : Iterator) (Y : List NodeInfo),
      Inv g v it.mRootsIterator it.mPath it.mVisited Y →
      (AtYield g v it ∨ (it.mPath.mStack = [] ∧ it.mRootsIterator = [])) →
      forEachLoopSteps g v fuel k it
        ≤ unitPotential g it.mPath.removeHead (it.mVisited.insert it.mPath.head)
  | 0, it, Y, _, _ => by simp [forEachLoopSteps]
  | k + 1, it, Y, hinv, hy => by
    rcases hy with hy | ⟨hemp, _⟩
    · obtain ⟨cur, hcur, hne, hinv1, hex, _⟩ := hinv.pop hy
      have hsz : (it.mPath.size != 0) = true := by
        cases hs : it.mPath.mStack with
        | nil => exact absurd hs hne
        | cons a b => simp [Path.size, hs]
      unfold forEachLoopSteps
      rw [hsz, hcur]
      simp only [if_true]
      have hf := findNextValue_spec g v fuel
        { it with mVisited := it.mVisited.insert it.mPath.head, mPath := it.mPath.removeHead }
        (Y ++ [cur]) hinv1 hex
      have hs := findNextValueSteps_spec g v hroots hch fuel
        { it with mVisited := it.mVisited.insert it.mPath.head, mPath := it.mPath.removeHead }
        (Y ++ [cur]) hinv1 hex
      unfold Iterator.increment Iterator.incrementSteps
      revert hf hs
      cases Iterator.findNextValue g v fuel
        { it with mVisited := it.mVisited.insert it.mPath.head, mPath := it.mPath.removeHead } with
      | done it1 =>
        simp only [Outcome.Spec]
        rintro ⟨h1, _, h3⟩ ⟨s1, s2⟩
        have ih := forEachLoopSteps_le g v hroots hch fuel k it1 (Y ++ [cur]) h1 h3
        by_cases hemp : it1.mPath.mStack = []
        · rw [forEachLoopSteps_of_empty g v fuel k it1 hemp]
          exact s1
        · have := s2 hemp
          omega
      | thrown =>
        simp only [Outcome.Spec]
        intro _ hs
        exact hs
      | timeout =>
        simp only [Outcome.Spec]
        intro _ hs
        exact hs
    · rw [forEachLoopSteps_of_empty g v fuel _ it hemp]
      exact Nat.zero_le _

/-- The iterations of the second loop of `findNextValue` in an iteration over a
view are at most one for each node and one for each edge of the graph. -/
theorem TopoView.steps_le (g : Graph) (v : TopoView) (fuel : Nat)
    (hroots : ∀ r ∈ v.mRoots, r < g.length) (hch : ∀ n, ∀ c ∈ g.children n, c < g.length) :
    v.steps g fuel ≤ g.length + g.edgeCount := by
  unfold TopoView.steps TopoView.begin
  have hf := findNextValue_spec g v fuel ⟨v.mRoots, Path.empty, [], none⟩ []
    (Inv.init g v) (Or.inl rfl)
  have hs := findNextValueSteps_spec g v hroots hch fuel ⟨v.mRoots, Path.empty, [], none⟩ []
    (Inv.init g v) (Or.inl rfl)
  have hp := unitPotential_init g
  revert hf hs
  cases Iterator.findNextValue g v fuel ⟨v.mRoots, Path.empty, [], none⟩ with
  | done it =>
    simp only [Outcome.Spec]
    rintro ⟨h1, _, h3⟩ ⟨s1, s2⟩
    have ih := forEachLoopSteps_le g v hroots hch fuel fuel it [] h1 h3
    by_cases hemp : it.mPath.mStack = []
    · rw [forEachLoopSteps_of_empty g v fuel fuel it hemp]
      omega
    · have := s2 hemp
      omega
  | thrown =>
    simp only [Outcome.Spec]
    intro _ hs
    omega
  | timeout =>
    simp only [Outcome.Spec]
    intro _ hs
    omega

theorem YieldsOk.count_le {g : Graph} {v : TopoView} {Y : List NodeInfo} (h : YieldsOk g v Y)
    (hroots : ∀ r ∈ v.mRoots, r < g.length) (hch : ∀ n, ∀ c ∈ g.children n, c < g.length) :
    Y.length ≤ g.length := by
  have hsub : nodes Y ⊆ List.range g.length := by
    intro n hn
    obtain ⟨y, hy, rfl⟩ := List.mem_map.1 hn
    obtain ⟨r, hr, hreach⟩ := h.reach y hy
    refine List.mem_range.2 ?_
    rcases Relation.ReflTransGen.cases_tail hreach with heq | ⟨p, _, hedge⟩
    · rw [heq]
      exact hroots r hr
    · exact hch p _ hedge.2
  have := (List.subperm_of_subset h.nodup hsub).length_le
  simpa [nodes] using this

theorem Graph.children_lt_of_forall (g : Graph) (h : ∀ cs ∈ g, ∀ c ∈ cs, c < g.length) :
    ∀ n, ∀ c ∈ g.children n, c < g.length := by
  intro n c hc
  by_cases hn : n < g.length
  · have hmem : g.children n ∈ g := by
      unfold Graph.children
      rw [List.getD_eq_getElem?_getD, List.getElem?_eq_getElem hn, Option.getD_some]
      exact List.getElem_mem hn
    exact h _ hmem c hc
  · rw [Graph.children_of_length_le g (not_lt.1 hn)] at hc
    cases hc

/-- C39: the iteration over a view of a finite graph, cyclic or not, whose roots
and children are nodes of the graph ends, with a step budget of the size of the
graph, at the end or with `CyclicGraphError`; the second loop of
`findNextValue` makes in all at most one iteration (one call of `Path::next`)
for each node and one for each edge, and `operator++` is called at most once
for each node. -/
theorem C39_iteration_terminates (g : Graph) (v : TopoView) (fuel : Nat)
    (hroots : ∀ r ∈ v.mRoots, r < g.length) (hch : ∀ n, ∀ c ∈ g.children n, c < g.length)
    (hfuel : g.budget v.mRoots ≤ fuel) :
    ((v.yields g fuel).status = .done () ∨ (v.yields g fuel).status = .thrown) ∧
    ((v.yields g fuel).status = .thrown ↔ v.ReachableCycle g) ∧
    v.steps g fuel ≤ g.length + g.edgeCount ∧
    (v.yields g fuel).state.length ≤ g.length := by
  refine ⟨?_, ?_, v.steps_le g fuel hroots hch,
    (yields_spec g v fuel).1.count_le hroots hch⟩
  · rcases yields_status_of_budget g v fuel hfuel with h | h
    · exact Or.inr h.1
    · exact Or.inl h.1
  · rcases yields_status_of_budget g v fuel hfuel with h | h
    · exact ⟨fun _ => h.2, fun _ => h.1⟩
    · refine ⟨fun ht => ?_, fun hc => absurd hc h.2⟩
      rw [h.1] at ht
      cases ht

/-- The iteration from the root `0` over the diamond makes eight steps, one for
each of the four nodes and the four edges; over the cycle `0 → 1 → 2 → 0` it
throws after three steps. -/
theorem steps_example :
    (TopoView.mk [0] []).steps diamondGraph 20 = 8 ∧
    ((TopoView.mk [0] []).yields diamondGraph 20).status = .done () ∧
    (TopoView.mk [0] []).steps cycleGraph 20 = 3 ∧
    ((TopoView.mk [0] []).yields cycleGraph 20).status = .thrown := by
  decide

/-- Witness for C39: the cycle `0 → 1 → 2 → 0` entered at `0`. -/
theorem C39_iteration_terminates_witness :
    (((TopoView.mk [0] []).yields cycleGraph 12).status = .done () ∨
      ((TopoView.mk [0] []).yields cycleGraph 12).status = .thrown) ∧
    (((TopoView.mk [0] []).yields cycleGraph 12).status = .thrown ↔
      (TopoView.mk [0] []).ReachableCycle cycleGraph) ∧
    (TopoView.mk [0] []).steps cycleGraph 12 ≤ cycleGraph.length + cycleGraph.edgeCount ∧
    ((TopoView.mk [0] []).yields cycleGraph 12).state.length ≤ cycleGraph.length :=
  C39_iteration_terminates cycleGraph ⟨[0], []⟩ 12 (by decide)
    (Graph.children_lt_of_forall _ (by decide)) (by decide)

/-- Witness for C36: the function of the program `z = x * y` with the sources
`x`, `y` and the target `z`. -/
theorem C36_compile_partitions_witness :
    productFunctionCompiled.mSequence.Nodup ∧
    (∀ n, n ∈ productFunctionCompiled.mPureSources ↔
      n ∈ productFunctionCompiled.mSources ∧ n ∉ productFunctionCompiled.mTargets) :=
  ⟨(C36_compile_partitions productGraph 12 productFunction productFunctionCompiled
      (by decide)).2.2.2.2.2.1,
   (C36_compile_partitions productGraph 12 productFunction productFunctionCompiled
      (by decide)).2.2.1⟩

/-! ## Claim about the owners registered after an assignment -/

theorem Nodes.SameOutside.same (h : Nodes) : h.SameOutside h := fun _ _ => Iff.rfl

theorem Nodes.SameOutside.seq {h1 h2 h3 : Nodes} (a : h1.SameOutside h2)
    (b : h2.SameOutside h3) : h1.SameOutside h3 := fun c k => (b c k).trans (a c k)

theorem Nodes.SameOutside.of_owners_eq {h h1 : Nodes} (e : h1.mParentOwners = h.mParentOwners) :
    h.SameOutside h1 := fun c k => by rw [e]

theorem Nodes.removeOwnership_sameOutside (h : Nodes) (n : Nat) :
    h.SameOutside (h.removeOwnership n) := by
  intro c k
  rw [(Nodes.removeOwnership_spec h n).2.2.2.2 c]
  constructor
  · exact fun h' => h'.1
  · exact fun h' => ⟨h', fun h2 => by cases h2.2⟩

theorem Nodes.scan_sameOutside : ∀ (fuel : Nat) (h : Nodes) (Q D : List Nat) (h1 : Nodes)
    (D1 : List Nat), Nodes.scan fuel h Q D = some (h1, D1) → h.SameOutside h1 := by
  intro fuel
  induction fuel with
  | zero =>
    intro h Q D h1 D1 hs
    cases Q with
    | nil =>
      simp only [Nodes.scan, Option.some.injEq, Prod.mk.injEq] at hs
      obtain ⟨rfl, _⟩ := hs
      exact Nodes.SameOutside.same _
    | cons node rest => simp [Nodes.scan] at hs
  | succ fuel ih =>
    intro h Q D h1 D1 hs
    cases Q with
    | nil =>
      simp only [Nodes.scan, Option.some.injEq, Prod.mk.injEq] at hs
      obtain ⟨rfl, _⟩ := hs
      exact Nodes.SameOutside.same _
    | cons node rest =>
      simp only [Nodes.scan] at hs
      exact (Nodes.removeOwnership_sameOutside h node).seq (ih _ _ _ _ _ hs)

theorem Nodes.removeChildrenWith_sameOutside (dtor : Nodes → Nat → Option Nodes)
    (hd : ∀ s c s', dtor s c = some s' → s.SameOutside s') (n : Nat) :
    ∀ (cs : List Nat) (h h1 : Nodes), Nodes.removeChildrenWith dtor n cs h = some h1 →
      h.SameOutside h1 := by
  intro cs
  induction cs with
  | nil =>
    intro h h1 hr
    simp only [Nodes.removeChildrenWith, Option.some.injEq] at hr
    rw [hr]
    exact Nodes.SameOutside.same _
  | cons child rest ih =>
    intro h h1 hr
    simp only [Nodes.removeChildrenWith] at hr
    have e0 : h.SameOutside { h with mChildren := h.mChildren.setChildren n rest } :=
      Nodes.SameOutside.of_owners_eq rfl
    by_cases hu : Nodes.useCount { h with mChildren := h.mChildren.setChildren n rest } child = 0
    · rw [if_pos hu] at hr
      cases hdt : dtor { h with mChildren := h.mChildren.setChildren n rest } child with
      | none => rw [hdt] at hr; simp at hr
      | some s =>
        rw [hdt, Option.some_bind] at hr
        exact (e0.seq (hd _ _ _ hdt)).seq (ih _ _ hr)
    · rw [if_neg hu, Option.some_bind] at hr
      exact e0.seq (ih _ _ hr)

theorem Nodes.clearAll_sameOutside (dtor : Nodes → Nat → Option Nodes)
    (hd : ∀ s c s', dtor s c = some s' → s.SameOutside s') :
    ∀ (l : List Nat) (h h1 : Nodes),
      l.foldlM (fun s node => Nodes.removeChildrenWith dtor node (s.children node) s) h = some h1 →
      h.SameOutside h1 := by
  intro l
  induction l with
  | nil =>
    intro h h1 hr
    simp only [List.foldlM_nil, Option.pure_def, Option.some.injEq] at hr
    rw [hr]
    exact Nodes.SameOutside.same _
  | cons a l ih =>
    intro h h1 hr
    rw [List.foldlM_cons] at hr
    cases hs : Nodes.removeChildrenWith dtor a (h.children a) h with
    | none => rw [hs] at hr; simp at hr
    | some s =>
      rw [hs] at hr
      simp only [Option.bind_eq_bind, Option.some_bind] at hr
      exact (Nodes.removeChildrenWith_sameOutside dtor hd a _ _ _ hs).seq (ih _ _ hr)

/-- A destructor removes no owner that was registered from outside the nodes. -/
theorem Nodes.destroy_sameOutside : ∀ (fuel : Nat) (h : Nodes) (n : Nat) (h1 : Nodes),
    h.destroy fuel n = some h1 → h.SameOutside h1 := by
  intro fuel
  induction fuel with
  | zero => intro h n h1 hd; simp [Nodes.destroy] at hd
  | succ fuel ih =>
    intro h n h1 hd
    simp only [Nodes.destroy] at hd
    have e0 : h.SameOutside { h with mDtorSeq := h.mDtorSeq ++ [n] } :=
      Nodes.SameOutside.of_owners_eq rfl
    have e1 : Nodes.SameOutside { h with mDtorSeq := h.mDtorSeq ++ [n] }
        { h with mDtorSeq := h.mDtorSeq ++ [n], teardowns := h.teardowns ++ [n] } :=
      Nodes.SameOutside.of_owners_eq rfl
    split at hd
    · simp only [Option.some.injEq] at hd
      rw [← hd]
      exact e0
    · simp only [Nodes.deleteIterativelyWith] at hd
      split at hd
      · simp at hd
      · rename_i h2 D hscan
        have s1 := Nodes.scan_sameOutside _ _ _ _ _ _ hscan
        have s2 := Nodes.clearAll_sameOutside (Nodes.destroy fuel) ih _ _ _ hd
        exact ((e0.seq e1).seq s1).seq s2

theorem Nodes.releaseChildren_sameOutside (fuel : Nat) (h : Nodes) (n : Nat) (h1 : Nodes)
    (hr : h.releaseChildren fuel n = some h1) : h.SameOutside h1 := by
  unfold Nodes.releaseChildren at hr
  split at hr
  · simp only [Option.some.injEq] at hr
    rw [hr]
    exact Nodes.SameOutside.same _
  · exact (Nodes.removeOwnership_sameOutside h n).seq
      (Nodes.removeChildrenWith_sameOutside _ (Nodes.destroy_sameOutside fuel) n _ _ _ hr)

theorem Nodes.children_addChild (h : Nodes) (p c m : Nat) :
    (h.addChild p c).children m
      = if m = p ∧ c ∉ h.children p then h.children p ++ [c] else h.children m := by
  unfold Nodes.addChild
  by_cases hc : c ∈ h.children p
  · simp [hc]
  · rw [if_neg hc, Nodes.children_addParentOwner]
    show (h.mChildren.setChildren p (h.children p ++ [c])).children m = _
    rw [Graph.children_setChildren]
    by_cases hm : m = p
    · simp [hm, hc]
    · simp only [hm, false_and, if_false]
      rfl

theorem Nodes.mem_children_addChild (h : Nodes) (p c m x : Nat) :
    x ∈ (h.addChild p c).children m ↔ x ∈ h.children m ∨ (m = p ∧ x = c) := by
  rw [Nodes.children_addChild]
  by_cases hm : m = p
  · subst hm
    by_cases hc : c ∈ h.children m
    · simp only [hc, not_true_eq_false, and_false, if_false, true_and]
      exact ⟨Or.inl, fun h' => h'.elim id fun e => e ▸ hc⟩
    · simp [hc]
  · simp [hm]

theorem Nodes.mem_owners_addChild (h : Nodes) (p c m : Nat) (t : Owner) :
    t ∈ (h.addChild p c).mParentOwners m ↔
      t ∈ h.mParentOwners m ∨ (c ∉ h.children p ∧ m = c ∧ t = Owner.ofNode p) := by
  unfold Nodes.addChild
  by_cases hc : c ∈ h.children p
  · simp [hc]
  · rw [if_neg hc, Nodes.mem_owners_addParentOwner]
    simp [hc]

theorem Nodes.WellFormed.addChild {h : Nodes} (wf : h.WellFormed) (p c : Nat) :
    (h.addChild p c).WellFormed where
  nodup := fun n => by
    rw [Nodes.children_addChild]
    split
    · rename_i hn
      refine List.Nodup.append (wf.nodup p) (List.nodup_singleton c) ?_
      intro x hx hx'
      simp only [List.mem_singleton] at hx'
      subst hx'
      exact hn.2 hx
    · exact wf.nodup n
  token := fun q x => by
    rw [Nodes.mem_children_addChild, Nodes.mem_owners_addChild, wf.token q x]
    constructor
    · rintro (h1 | ⟨rfl, rfl⟩)
      · exact Or.inl h1
      · by_cases hc : x ∈ h.children q
        · exact Or.inl ((wf.token q x).1 hc)
        · exact Or.inr ⟨hc, rfl, rfl⟩
    · rintro (h1 | ⟨_, rfl, h3⟩)
      · exact Or.inl h1
      · simp only [Owner.ofNode.injEq] at h3
        exact Or.inr ⟨h3, rfl⟩

theorem Nodes.WellFormed.removeOutside {h : Nodes} (wf : h.WellFormed) (c k : Nat) :
    (h.removeParentOwner c (.outside k)).WellFormed where
  nodup := wf.nodup
  token := fun q x => by
    rw [Nodes.mem_owners_removeParentOwner]
    show x ∈ h.children q ↔ _
    rw [wf.token q x]
    exact ⟨fun h1 => ⟨h1, fun h2 => by cases h2.2⟩, fun h1 => h1.1⟩

theorem Nodes.WellFormed.of_eq {h h1 : Nodes} (wf : h.WellFormed)
    (hc : h1.mChildren = h.mChildren) (ho : h1.mParentOwners = h.mParentOwners) :
    h1.WellFormed where
  nodup := fun n => by
    rw [Nodes.children_eq hc]
    exact wf.nodup n
  token := fun q x => by
    rw [Nodes.children_eq hc, ho]
    exact wf.token q x

/-- `transferOperationTo(node)` on a reference that holds a pointer to `c`: the
child `c` is added to `node`, the owner of the reference is removed from `c`,
and no other owner from outside the nodes is touched. -/
theorem Reference.transferOperationTo_spec (r : Reference) (w : Objects) (node c : Nat)
    (hc : r.mComputation = some c) :
    ∃ w', r.transferOperationTo w node = some (w', { r with mComputation := none }) ∧
      w'.store = w.store ∧ w'.nextOwner = w.nextOwner ∧
      (∀ m x, x ∈ w'.nodes.children m ↔ x ∈ w.nodes.children m ∨ (m = node ∧ x = c)) ∧
      (∀ m k, Owner.outside k ∈ w'.nodes.mParentOwners m ↔
        Owner.outside k ∈ w.nodes.mParentOwners m ∧ ¬ (m = c ∧ k = r.mOwner)) ∧
      (w.nodes.WellFormed → w'.nodes.WellFormed) := by
  have key : ∃ nodes1 : Nodes,
      nodes1 = (w.nodes.removeParentOwner c (.outside r.mOwner)).addChild node c ∧
      r.transferOperationTo w node
        = some ({ w with nodes :=
                    { nodes1 with held := Function.update nodes1.held c (nodes1.held c - 1) } },
                { r with mComputation := none }) :=
    ⟨_, rfl, by simp only [Reference.transferOperationTo, hc]⟩
  obtain ⟨nodes1, hn1, hset⟩ := key
  refine ⟨_, hset, rfl, rfl, fun m x => ?_, fun m k => ?_, fun wf => ?_⟩
  · show x ∈ nodes1.children m ↔ _
    rw [hn1, Nodes.mem_children_addChild]
    rfl
  · show Owner.outside k ∈ nodes1.mParentOwners m ↔ _
    rw [hn1, Nodes.mem_owners_addChild, Nodes.mem_owners_removeParentOwner]
    constructor
    · rintro (⟨h1, h2⟩ | ⟨_, _, h3⟩)
      · exact ⟨h1, fun h3 => h2 ⟨h3.1, by rw [h3.2]⟩⟩
      · cases h3
    · rintro ⟨h1, h2⟩
      refine Or.inl ⟨h1, fun h3 => h2 ⟨h3.1, ?_⟩⟩
      have := h3.2
      simp only [Owner.outside.injEq] at this
      exact this
  · have wf1 : nodes1.WellFormed := by
      rw [hn1]
      exact (wf.removeOutside c r.mOwner).addChild node c
    exact wf1.of_eq rfl rfl

theorem Objects.copyOperands_owners (L : List Nat) : ∀ w : Objects,
    (w.copyOperands L).1.nextOwner = w.nextOwner + L.length ∧
    (∀ t m, t ∈ (w.copyOperands L).1.nodes.mParentOwners m ↔
      t ∈ w.nodes.mParentOwners m ∨
        ∃ r ∈ (w.copyOperands L).2, r.mComputation = some m ∧ t = Owner.outside r.mOwner) ∧
    (∀ r ∈ (w.copyOperands L).2, w.nextOwner ≤ r.mOwner ∧ ∃ c ∈ L, r.mComputation = some c) ∧
    (∀ c ∈ L, ∃ r ∈ (w.copyOperands L).2, r.mComputation = some c) := by
  induction L with
  | nil =>
    intro w
    simp [Objects.copyOperands]
  | cons c rest ih =>
    intro w
    obtain ⟨h1, h2, h3, h4⟩ := ih (Reference.copyOf w c c).1
    have hown : ∀ t m, t ∈ (Reference.copyOf w c c).1.nodes.mParentOwners m ↔
        t ∈ w.nodes.mParentOwners m ∨ (m = c ∧ t = Owner.outside w.nextOwner) :=
      fun t m => Nodes.mem_owners_addParentOwner _ c _ t m
    have hno : (Reference.copyOf w c c).1.nextOwner = w.nextOwner + 1 := rfl
    have hr0 : (Reference.copyOf w c c).2 = ⟨w.nextOwner, some c, c⟩ := rfl
    refine ⟨?_, fun t m => ?_, fun r hr => ?_, fun x hx => ?_⟩
    · simp only [Objects.copyOperands, h1, hno, List.length_cons]
      omega
    · simp only [Objects.copyOperands, List.mem_cons, exists_eq_or_imp]
      rw [h2, hown, hr0]
      constructor
      · rintro ((h5 | ⟨rfl, rfl⟩) | h5)
        · exact Or.inl h5
        · exact Or.inr (Or.inl ⟨rfl, rfl⟩)
        · exact Or.inr (Or.inr h5)
      · rintro (h5 | ⟨h5, h6⟩ | h5)
        · exact Or.inl (Or.inl h5)
        · simp only [Option.some.injEq] at h5
          exact Or.inl (Or.inr ⟨h5.symm, h6⟩)
        · exact Or.inr h5
    · simp only [Objects.copyOperands, List.mem_cons] at hr
      rcases hr with rfl | hr
      · rw [hr0]
        exact ⟨le_refl _, c, List.mem_cons_self _ _, rfl⟩
      · obtain ⟨k1, x, hx, k2⟩ := h3 r hr
        rw [hno] at k1
        exact ⟨by omega, x, List.mem_cons_of_mem _ hx, k2⟩
    · simp only [Objects.copyOperands, List.mem_cons, exists_eq_or_imp]
      rcases List.mem_cons.1 hx with rfl | hx
      · exact Or.inl (by rw [hr0])
      · exact Or.inr (h4 x hx)

theorem Objects.copyOperands_valid (L : List Nat) : ∀ w : Objects, w.nodes.Valid →
    (w.copyOperands L).1.nodes.Valid := by
  induction L with
  | nil => intro w hv; exact hv
  | cons c rest ih =>
    intro w hv
    exact ih _ (Reference.copyOf_spec w c c hv).1

/-- `transferChildrenTo(node)` on references that hold their pointers: the
nodes they point to become children of `node`, their owners are removed, and no
other owner from outside the nodes is touched. -/
theorem Objects.transferChildrenTo_owners (node : Nat) :
    ∀ (refs : List Reference) (w : Objects), (∀ r ∈ refs, r.mComputation ≠ none) →
      ∃ w', Objects.transferChildrenTo node refs w = some w' ∧ w'.store = w.store ∧
        w'.nextOwner = w.nextOwner ∧
        (∀ m x, x ∈ w'.nodes.children m ↔
          x ∈ w.nodes.children m ∨ (m = node ∧ ∃ r ∈ refs, r.mComputation = some x)) ∧
        (∀ m k, Owner.outside k ∈ w'.nodes.mParentOwners m ↔
          Owner.outside k ∈ w.nodes.mParentOwners m ∧
            ¬ ∃ r ∈ refs, r.mComputation = some m ∧ r.mOwner = k) ∧
        (w.nodes.WellFormed → w'.nodes.WellFormed) := by
  intro refs
  induction refs with
  | nil =>
    intro w _
    exact ⟨w, rfl, rfl, rfl, by simp, by simp, id⟩
  | cons r rest ih =>
    intro w h
    cases hc : r.mComputation with
    | none => exact absurd hc (h r (List.mem_cons_self _ _))
    | some c =>
      obtain ⟨w1, t1, t2, t3, t4, t5, t6⟩ := Reference.transferOperationTo_spec r w node c hc
      obtain ⟨w2, u1, u2, u3, u4, u5, u6⟩ := ih w1 (fun r' hr' => h r' (List.mem_cons_of_mem _ hr'))
      refine ⟨w2, ?_, u2.trans t2, u3.trans t3, fun m x => ?_, fun m k => ?_,
        fun wf => u6 (t6 wf)⟩
      · simp only [Objects.transferChildrenTo, t1, Option.some_bind]
        exact u1
      · rw [u4, t4]
        simp only [List.mem_cons, exists_eq_or_imp, hc, Option.some.injEq]
        constructor
        · rintro ((h1 | ⟨h1, h2⟩) | ⟨h1, h2⟩)
          · exact Or.inl h1
          · exact Or.inr ⟨h1, Or.inl h2.symm⟩
          · exact Or.inr ⟨h1, Or.inr h2⟩
        · rintro (h1 | ⟨h1, h2 | h2⟩)
          · exact Or.inl (Or.inl h1)
          · exact Or.inl (Or.inr ⟨h1, h2.symm⟩)
          · exact Or.inr ⟨h1, h2⟩
      · rw [u5, t5]
        simp only [List.mem_cons, exists_eq_or_imp, hc, Option.some.injEq]
        constructor
        · rintro ⟨⟨h1, h2⟩, h3⟩
          refine ⟨h1, ?_⟩
          rintro (⟨h4, h5⟩ | h4)
          · exact h2 ⟨h4.symm, h5.symm⟩
          · exact h3 h4
        · rintro ⟨h1, h2⟩
          exact ⟨⟨h1, fun h3 => h2 (Or.inl ⟨h3.1.symm, h3.2.symm⟩)⟩, fun h3 => h2 (Or.inr h3)⟩

/-- The destructor of a reference to a node that is a child of a node removes
the owner of the reference, and no destructor of a node runs. -/
theorem Reference.destroy_of_child (r : Reference) (w : Objects) (c q fuel : Nat)
    (hc : r.mComputation = some c) (hq : c ∈ w.nodes.children q) :
    ∃ w', r.destroy fuel w = some w' ∧ w'.store = w.store ∧ w'.nextOwner = w.nextOwner ∧
      w'.nodes.mChildren = w.nodes.mChildren ∧
      ∀ t m, t ∈ w'.nodes.mParentOwners m ↔
        t ∈ w.nodes.mParentOwners m ∧ ¬ (m = c ∧ t = Owner.outside r.mOwner) := by
  have key : ∃ nodes1 : Nodes, nodes1 = w.nodes.removeParentOwner c (.outside r.mOwner) ∧
      r.destroy fuel w = some { w with nodes :=
        { nodes1 with held := Function.update nodes1.held c (nodes1.held c - 1) } } := by
    refine ⟨_, rfl, ?_⟩
    have hpos : 0 < Nodes.useCount
        { w.nodes.removeParentOwner c (.outside r.mOwner) with
          held := Function.update (w.nodes.removeParentOwner c (.outside r.mOwner)).held c
            ((w.nodes.removeParentOwner c (.outside r.mOwner)).held c - 1) } c :=
      @Nodes.useCount_pos_of_mem_children _ q c hq
    simp only [Reference.destroy, hc, Nodes.reset]
    split
    · rename_i h0
      exact absurd h0 (Nat.pos_iff_ne_zero.1 hpos)
    · rfl
  obtain ⟨nodes1, hn1, hset⟩ := key
  refine ⟨_, hset, rfl, rfl, ?_, fun t m => ?_⟩
  · show nodes1.mChildren = _
    rw [hn1]
    rfl
  · show t ∈ nodes1.mParentOwners m ↔ _
    rw [hn1]
    exact Nodes.mem_owners_removeParentOwner _ c _ t m

theorem Objects.destroyAll_of_children (fuel : Nat) :
    ∀ (refs : List Reference) (w : Objects),
      (∀ r ∈ refs, ∃ c q, r.mComputation = some c ∧ c ∈ w.nodes.children q) →
      ∃ w', Objects.destroyAll fuel refs w = some w' ∧ w'.store = w.store ∧
        w'.nextOwner = w.nextOwner ∧ w'.nodes.mChildren = w.nodes.mChildren ∧
        ∀ t m, t ∈ w'.nodes.mParentOwners m ↔
          t ∈ w.nodes.mParentOwners m ∧
            ¬ ∃ r ∈ refs, r.mComputation = some m ∧ t = Owner.outside r.mOwner := by
  intro refs
  induction refs with
  | nil =>
    intro w _
    exact ⟨w, rfl, rfl, rfl, rfl, by simp⟩
  | cons r rest ih =>
    intro w h
    obtain ⟨c, q, hc, hq⟩ := h r (List.mem_cons_self _ _)
    obtain ⟨w1, t1, t2, t3, t4, t5⟩ := Reference.destroy_of_child r w c q fuel hc hq
    obtain ⟨w2, u1, u2, u3, u4, u5⟩ := ih w1 (fun r' hr' => by
      obtain ⟨c', q', hc', hq'⟩ := h r' (List.mem_cons_of_mem _ hr')
      refine ⟨c', q', hc', ?_⟩
      rw [Nodes.children_eq t4]
      exact hq')
    refine ⟨w2, ?_, u2.trans t2, u3.trans t3, u4.trans t4, fun t m => ?_⟩
    · simp only [Objects.destroyAll, t1, Option.some_bind]
      exact u1
    · rw [u5, t5]
      simp only [List.mem_cons, exists_eq_or_imp, hc, Option.some.injEq]
      constructor
      · rintro ⟨⟨h1, h2⟩, h3⟩
        refine ⟨h1, ?_⟩
        rintro (⟨h4, h5⟩ | h4)
        · exact h2 ⟨h4.symm, h5⟩
        · exact h3 h4
      · rintro ⟨h1, h2⟩
        exact ⟨⟨h1, fun h3 => h2 (Or.inl ⟨h3.1.symm, h3.2⟩)⟩, fun h3 => h2 (Or.inr h3)⟩

theorem Expr.copies_subset : ∀ (e : Expr) (c : Nat), c ∈ e.copies → c ∈ e.operands
  | .var _, c, h => by simp [Expr.copies] at h
  | .sum x y, c, h => by
    simp only [Expr.copies, Expr.operands, List.mem_append] at h ⊢
    rcases h with (h | h) | h
    · exact Or.inl (Expr.copies_subset x c h)
    · exact Or.inr (Expr.copies_subset y c h)
    · exact h
  | .sumLitX _ y, c, h => by
    simp only [Expr.copies, Expr.operands, List.mem_append] at h ⊢
    rcases h with h | h
    · exact Expr.copies_subset y c h
    · exact h
  | .sumLitY x _, c, h => by
    simp only [Expr.copies, Expr.operands, List.mem_append] at h ⊢
    rcases h with h | h
    · exact Expr.copies_subset x c h
    · exact h
  | .product x y, c, h => by
    simp only [Expr.copies, Expr.operands, List.mem_append] at h ⊢
    rcases h with (h | h) | h
    · exact Or.inl (Expr.copies_subset x c h)
    · exact Or.inr (Expr.copies_subset y c h)
    · exact h
  | .productLitX _ y, c, h => by
    simp only [Expr.copies, Expr.operands, List.mem_append] at h ⊢
    rcases h with h | h
    · exact Expr.copies_subset y c h
    · exact h
  | .productLitY x _, c, h => by
    simp only [Expr.copies, Expr.operands, List.mem_append] at h ⊢
    rcases h with h | h
    · exact Expr.copies_subset x c h
    · exact h

/-- C38: the statement `z = expression;` on valid nodes on which every owner
registered from outside was made before returns, and then the owners from
outside registered on a node are those registered before the statement (no
owner of a temporary of the expression or of a copy embedded in the evaluator
is left), the token of a node is registered exactly on its children, the
children of the node of `z` are the variables bound in the expression, and
the token of the node of `z` is registered on each of them. -/
theorem C38_owners_after_assignment (w : Objects) (hv : w.nodes.Valid)
    (hfresh : ∀ c k, Owner.outside k ∈ w.nodes.mParentOwners c → k < w.nextOwner)
    (z : Variable) (e : Expr) (fuel : Nat) (hfuel : w.nodes.budget ≤ fuel + 2) :
    ∃ w', z.assignStatement (fuel + 2) w e = some w' ∧
      (∀ c k, Owner.outside k ∈ w'.nodes.mParentOwners c ↔
        Owner.outside k ∈ w.nodes.mParentOwners c) ∧
      (∀ p c, Owner.ofNode p ∈ w'.nodes.mParentOwners c ↔ c ∈ w'.nodes.children p) ∧
      (∀ c, c ∈ w'.nodes.children z.mRef.mComputationPtr ↔ c ∈ e.operands) ∧
      (∀ c ∈ e.operands, Owner.ofNode z.mRef.mComputationPtr ∈ w'.nodes.mParentOwners c) ∧
      (∀ c k, w.nextOwner ≤ k → Owner.outside k ∉ w'.nodes.mParentOwners c) ∧
      (w'.store z.mRef.mComputationPtr).mEvaluator = some e := by
  -- the temporaries of the expression
  have hvA := Objects.copyOperands_valid e.copies w hv
  obtain ⟨a1, a2, a3, _⟩ := Objects.copyOperands_owners e.copies w
  have acs := (Objects.copyOperands_spec e.copies w).2.1
  have hbud : (w.copyOperands e.copies).1.nodes.budget ≤ fuel + 2 := by
    unfold Nodes.budget at hfuel ⊢
    rw [acs]
    exact hfuel
  -- the release of the children of the node
  obtain ⟨h', hrel, hnil, _, _, _, _, wf'⟩ := Nodes.releaseChildren_post
    (w.copyOperands e.copies).1.nodes z.mRef.mComputationPtr fuel hvA.wf hvA.ownersHold
    hvA.acyclic hbud
  have hso := Nodes.releaseChildren_sameOutside _ _ _ _ hrel
  -- the copy of the expression in the evaluator
  obtain ⟨b1, b2, b3, b4⟩ :=
    Objects.copyOperands_owners e.operands { (w.copyOperands e.copies).1 with nodes := h' }
  obtain ⟨_, bcs, _, bne⟩ :=
    Objects.copyOperands_spec e.operands { (w.copyOperands e.copies).1 with nodes := h' }
  have wfB : (Objects.copyOperands { (w.copyOperands e.copies).1 with nodes := h' }
      e.operands).1.nodes.WellFormed := by
    refine ⟨fun n => ?_, fun p c => ?_⟩
    · rw [Nodes.children_eq bcs]
      exact wf'.nodup n
    · rw [Nodes.children_eq bcs, b2]
      constructor
      · exact fun hc => Or.inl ((wf'.token p c).1 hc)
      · rintro (hc | ⟨r, _, _, hr⟩)
        · exact (wf'.token p c).2 hc
        · cases hr
  -- the transfer of the children
  obtain ⟨w2, u1, u2, _, u4, u5, u6⟩ := Objects.transferChildrenTo_owners z.mRef.mComputationPtr
    (Objects.copyOperands { (w.copyOperands e.copies).1 with nodes := h' } e.operands).2
    { (Objects.copyOperands { (w.copyOperands e.copies).1 with nodes := h' } e.operands).1 with
      store := Function.update
        (Objects.copyOperands { (w.copyOperands e.copies).1 with nodes := h' } e.operands).1.store
        z.mRef.mComputationPtr
        { (Objects.copyOperands { (w.copyOperands e.copies).1 with nodes := h' }
            e.operands).1.store z.mRef.mComputationPtr with mEvaluator := some e } } bne
  have wf2 : w2.nodes.WellFormed := u6 wfB
  have hset : (w.copyOperands e.copies).1.setExpression (fuel + 2) z.mRef.mComputationPtr e
      = some w2 := by
    simp only [Objects.setExpression, hrel, Option.some_bind]
    exact u1
  have hassign : z.assignExpression (fuel + 2) (w.copyOperands e.copies).1 e
      = some { w2 with store := Computation.evaluate w2.store z.mRef.mComputationPtr } := by
    simp only [Variable.assignExpression, Variable.setExpression, hset, Option.map_some']
  have hchild : ∀ c, c ∈ w2.nodes.children z.mRef.mComputationPtr ↔ c ∈ e.operands := by
    intro c
    rw [u4]
    have h0 : c ∉ (Objects.copyOperands { (w.copyOperands e.copies).1 with nodes := h' }
        e.operands).1.nodes.children z.mRef.mComputationPtr := by
      rw [Nodes.children_eq bcs]
      show c ∉ h'.children _
      rw [hnil]
      exact List.not_mem_nil c
    constructor
    · rintro (h1 | ⟨_, r, hr, hrc⟩)
      · exact absurd h1 h0
      · obtain ⟨_, x, hx, hrx⟩ := b3 r hr
        rw [hrc] at hrx
        simp only [Option.some.injEq] at hrx
        rw [hrx]
        exact hx
    · intro hc
      exact Or.inr ⟨rfl, b4 c hc⟩
  -- the destruction of the temporaries
  obtain ⟨w4, d1, d2, _, d4, d5⟩ := Objects.destroyAll_of_children (fuel + 2)
    (w.copyOperands e.copies).2.reverse
    { w2 with store := Computation.evaluate w2.store z.mRef.mComputationPtr }
    (fun r hr => by
      obtain ⟨_, c, hc, hrc⟩ := a3 r (List.mem_reverse.1 hr)
      exact ⟨c, z.mRef.mComputationPtr, hrc, (hchild c).2 (Expr.copies_subset e c hc)⟩)
  have hout : ∀ c k, Owner.outside k ∈ w4.nodes.mParentOwners c ↔
      Owner.outside k ∈ w.nodes.mParentOwners c := by
    intro c k
    rw [d5]
    show Owner.outside k ∈ w2.nodes.mParentOwners c ∧ _ ↔ _
    rw [u5]
    show (Owner.outside k ∈ (Objects.copyOperands
      { (w.copyOperands e.copies).1 with nodes := h' } e.operands).1.nodes.mParentOwners c ∧ _)
      ∧ _ ↔ _
    rw [b2]
    show ((Owner.outside k ∈ h'.mParentOwners c ∨ _) ∧ _) ∧ _ ↔ _
    rw [hso c k, a2]
    constructor
    · rintro ⟨⟨(h1 | h1) | ⟨r, hr, hrc, hrk⟩, h2⟩, h3⟩
      · exact h1
      · obtain ⟨r, hr, hrc, hrk⟩ := h1
        exact absurd ⟨r, List.mem_reverse.2 hr, hrc, hrk⟩ h3
      · simp only [Owner.outside.injEq] at hrk
        exact absurd ⟨r, hr, hrc, hrk.symm⟩ h2
    · intro h1
      have hk := hfresh c k h1
      refine ⟨⟨Or.inl (Or.inl h1), ?_⟩, ?_⟩
      · rintro ⟨r, hr, _, hrk⟩
        have := (b3 r hr).1
        have hno : ({ (w.copyOperands e.copies).1 with nodes := h' } : Objects).nextOwner
            = w.nextOwner + e.copies.length := a1
        omega
      · rintro ⟨r, hr, _, hrk⟩
        have := (a3 r (List.mem_reverse.1 hr)).1
        simp only [Owner.outside.injEq] at hrk
        omega
  have htok : ∀ p c, Owner.ofNode p ∈ w4.nodes.mParentOwners c ↔ c ∈ w4.nodes.children p := by
    intro p c
    rw [d5, Nodes.children_eq d4]
    show Owner.ofNode p ∈ w2.nodes.mParentOwners c ∧ _ ↔ c ∈ w2.nodes.children p
    rw [← wf2.token p c]
    constructor
    · exact fun h1 => h1.1
    · exact fun h1 => ⟨h1, fun ⟨r, _, _, hr⟩ => by cases hr⟩
  have hchild4 : ∀ c, c ∈ w4.nodes.children z.mRef.mComputationPtr ↔ c ∈ e.operands := by
    intro c
    rw [Nodes.children_eq d4]
    exact hchild c
  refine ⟨w4, ?_, hout, htok, hchild4, fun c hc => (htok _ c).2 ((hchild4 c).2 hc),
    fun c k hk hmem => ?_, ?_⟩
  · simp only [Variable.assignStatement, hassign, Option.some_bind]
    exact d1
  · have := hfresh c k ((hout c k).1 hmem)
    omega
  · rw [d2]
    show ((Computation.evaluate w2.store z.mRef.mComputationPtr) _).mEvaluator = _
    rw [Computation.evaluate_evaluator, u2]
    simp

theorem copyObjects_fresh :
    ∀ c k, Owner.outside k ∈ copyObjects.nodes.mParentOwners c → k < copyObjects.nextOwner := by
  intro c k h
  have hn : copyObjects.nextOwner = 2 := rfl
  rw [hn]
  by_cases h0 : c = 0
  · subst h0
    simp [copyObjects] at h
    omega
  · by_cases h1 : c = 1
    · subst h1
      simp [copyObjects] at h
      omega
    · simp [copyObjects, h0, h1] at h

/-- The statement `z = x * y + x;` after `x = var(2); y = var(3); z = var(x * y)`:
the children of `z` are `x` and `y`, and on `x` and `y` the owner of the handle
and the token of `z` are registered, as before the statement. -/
theorem assignStatement_example :
    (eagerObjects.bind fun w =>
      (Variable.mk ⟨2, some 2, 2⟩).assignStatement 5 w
        (.sum (.product (.var 0) (.var 1)) (.var 0))).map
      (fun w => (w.nodes.mChildren, (List.range 3).map w.nodes.mParentOwners))
      = some ([[], [], [0, 1]],
          [[.outside 0, .ofNode 2], [.outside 1, .ofNode 2], [.outside 2]]) := by
  decide

/-- Witness for C38: the statement `g = f * f;` in the scenario
"Copy-constructing and -assigning a variable" of the tests. -/
theorem C38_owners_after_assignment_witness :
    ∃ w', (Variable.mk ⟨1, some 1, 1⟩).assignStatement (1 + 2) copyObjects
        (.product (.var 0) (.var 0)) = some w' ∧
      (∀ c k, Owner.outside k ∈ w'.nodes.mParentOwners c ↔
        Owner.outside k ∈ copyObjects.nodes.mParentOwners c) ∧
      (∀ p c, Owner.ofNode p ∈ w'.nodes.mParentOwners c ↔ c ∈ w'.nodes.children p) ∧
      (∀ c, c ∈ w'.nodes.children 1 ↔ c ∈ Expr.operands (.product (.var 0) (.var 0))) ∧
      (∀ c ∈ Expr.operands (.product (.var 0) (.var 0)),
        Owner.ofNode 1 ∈ w'.nodes.mParentOwners c) ∧
      (∀ c k, copyObjects.nextOwner ≤ k → Owner.outside k ∉ w'.nodes.mParentOwners c) ∧
      (w'.store 1).mEvaluator = some (.product (.var 0) (.var 0)) :=
  C38_owners_after_assignment copyObjects copyObjects_valid copyObjects_fresh
    ⟨⟨1, some 1, 1⟩⟩ (.product (.var 0) (.var 0)) 1 (by decide)
end AutoDiff
